import Mathlib

/-!
# One-billion-row aggregation (`main.go`): embedding and verification

The Go program maps a file of `name;value\n` records, cuts it into one byte range
per processor, lets every worker fill a private open-addressing table, folds the
worker tables into one table and prints the sorted summary.

Conventions of the embedding.

* A byte is a natural number below 256; a byte slice is a `List Nat`.
* `float64` is embedded as `ℚ` with exact arithmetic; `math.MaxFloat64` is the
  rational `(2^53 - 1) * 2^971`. The text written by the reporter depends on the
  rounding of `float64`; it is verified on a second, bit-exact embedding (`F64`, section
  "The reporter on `float64`").
* The `hash` type (a 64-bit `int`) is embedded by its two's-complement bit pattern,
  a natural number below `2^64`; multiplication wraps modulo `2^64`.
* `count` (a Go `int`) is embedded as an unbounded `Int`.
* A Go function that may panic or loop forever returns `Except Fault _`.
* Slices handed to a function are passed by value; `set` returns the updated table.
-/

namespace OneBRC

/-! ## Data model -/

/-- The two ways in which a run of the Go code fails to return a value. -/
inductive Fault where
  | outOfBounds
  | noTermination
  deriving DecidableEq, Repr

deriving instance DecidableEq for Except

/-- Go: `type name struct { value []byte; hash hash }`. -/
structure name where
  value : List Nat
  hash : Nat
  deriving DecidableEq, Repr

/-- Go: `type result struct { name; min, max, total float64; count int }`. -/
structure result where
  name : name
  min : ℚ
  max : ℚ
  total : ℚ
  count : Int
  deriving DecidableEq

/-- Go: `type hashMap struct { mask int; occupied []bool; data []result }`. -/
structure hashMap where
  mask : Nat
  occupied : List Bool
  data : List result
  deriving DecidableEq

/-- Go: the zero value `result{}`. -/
def result.zero : result := ⟨⟨[], 0⟩, 0, 0, 0, 0⟩

/-- Go: `math.MaxFloat64`. -/
def maxFloat64 : ℚ := (2 ^ 53 - 1) * 2 ^ 971

/-! ## Fingerprint hasher -/

/-- Go: `const fnvPrime = 1099511628211`. -/
def fnvPrime : Nat := 1099511628211

/-- Go: `func (h *hash) hashByte(b byte) { *h = (*h ^ hash(b)) * fnvPrime }`,
on 64-bit patterns. -/
def hashByte (h : Nat) (b : Nat) : Nat := ((h ^^^ b) * fnvPrime) % 2 ^ 64

/-- Go: `unsafeIdx(ptr, off)` where `ptr` points at the first byte of `b`.
A read past the end of the window is a fault. -/
def unsafeIdx (b : List Nat) (off : Nat) : Except Fault Nat :=
  match b[off]? with
  | some c => .ok c
  | none => .error .outOfBounds

/-! ## Scanner -/

/-- Go: the loop `for unsafeIdx(ptr, read) != ';' { nameHash.hashByte(..); read += 1 }`
of `parseName`; returns the final `read` and `nameHash`. -/
def parseNameLoop (b : List Nat) : Nat → Nat → Nat → Except Fault (Nat × Nat)
  | 0, _, _ => .error .noTermination
  | fuel + 1, read, nameHash =>
    match unsafeIdx b read with
    | .error e => .error e
    | .ok c =>
      if c ≠ 59 then parseNameLoop b fuel (read + 1) (hashByte nameHash c)
      else .ok (read, nameHash)

/-- Go: `func parseName(b []byte) (int, name)`. Taking `&b[0]` of an empty slice
panics. Every iteration of the loop reads one more byte, so `len(b) + 1` iterations
are never exceeded. -/
def parseName (b : List Nat) : Except Fault (Nat × name) :=
  if b = [] then .error .outOfBounds
  else
    match parseNameLoop b (b.length + 1) 0 0 with
    | .error e => .error e
    | .ok (read, nameHash) => .ok (read, ⟨b.take read, nameHash⟩)

/-- Go: `float64(char - '0')` for a byte `char` (byte subtraction wraps). -/
def digitVal (char : Nat) : ℚ := (((char + 256 - 48) % 256 : Nat) : ℚ)

/-- Go: the first loop of `parseValue` (integer digits up to `'.'`). -/
def parseValueInt (b : List Nat) : Nat → Nat → ℚ → Except Fault (Nat × ℚ)
  | 0, _, _ => .error .noTermination
  | fuel + 1, read, value =>
    match unsafeIdx b read with
    | .error e => .error e
    | .ok char =>
      if char = 46 then .ok (read, value)
      else parseValueInt b fuel (read + 1) ((value * 10) + digitVal char)

/-- Go: the second loop of `parseValue` (fraction digits up to `'\n'`). -/
def parseValueFrac (b : List Nat) : Nat → Nat → ℚ → ℚ → Except Fault (Nat × ℚ)
  | 0, _, _, _ => .error .noTermination
  | fuel + 1, read, m, value =>
    match unsafeIdx b read with
    | .error e => .error e
    | .ok char =>
      if char = 10 then .ok (read, value)
      else parseValueFrac b fuel (read + 1) (m * (1 / 10)) (value + (m * (1 / 10)) * digitVal char)

/-- Go: `func parseValue(b []byte) (int, float64)`. -/
def parseValue (b : List Nat) : Except Fault (Nat × ℚ) :=
  if b = [] then .error .outOfBounds
  else
    match unsafeIdx b 0 with
    | .error e => .error e
    | .ok c0 =>
      let sign : ℚ := if c0 = 45 then -1 else 1
      let read : Nat := if c0 = 45 then 1 else 0
      match parseValueInt b (b.length + 1) read 0 with
      | .error e => .error e
      | .ok (read1, value1) =>
        match parseValueFrac b (b.length + 1) (read1 + 1) 1 value1 with
        | .error e => .error e
        | .ok (read2, value2) => .ok (read2, value2 * sign)

/-! ## Aggregates -/

/-- Go: `func newResult(name name) result`. -/
def newResult (nm : name) : result :=
  { name := nm, min := maxFloat64, max := -maxFloat64, total := 0, count := 0 }

/-- Go: `func (r result) update(value float64) result`. -/
def result.update (r : result) (value : ℚ) : result :=
  { name := r.name
    min := Min.min r.min value
    max := Max.max r.max value
    total := r.total + value
    count := r.count + 1 }

/-- Go: `func (r result) aggregate(r2 result) result`. -/
def result.aggregate (r r2 : result) : result :=
  { name := r.name
    min := Min.min r.min r2.min
    max := Max.max r.max r2.max
    total := r.total + r2.total
    count := r.count + r2.count }

/-! ## Aggregate table -/

/-- Go: `bytes.Compare` (byte-lexicographic three-way comparison). -/
def bytesCompare : List Nat → List Nat → Int
  | [], [] => 0
  | [], _ :: _ => -1
  | _ :: _, [] => 1
  | a :: as, b :: bs => if a < b then -1 else if b < a then 1 else bytesCompare as bs

/-- Go: `func (n name) equal(n2 name) bool`. -/
def name.equal (n n2 : name) : Bool := bytesCompare n.value n2.value == 0

/-- Go: `func newHashMap(size int) hashMap` (for `size ≤ 62`, where `1 << size`
does not overflow). -/
def newHashMap (size : Nat) : hashMap :=
  { occupied := List.replicate (2 ^ size) false
    data := List.replicate (2 ^ size) result.zero
    mask := 2 ^ size - 1 }

/-- Go: the probing loop of `get`, started at slot `idx`. -/
def getLoop (hm : hashMap) (nm : name) : Nat → Nat → Except Fault (result × Bool)
  | 0, _ => .error .noTermination
  | fuel + 1, idx =>
    match hm.occupied[idx]? with
    | none => .error .outOfBounds
    | some false => .ok (result.zero, false)
    | some true =>
      match hm.data[idx]? with
      | none => .error .outOfBounds
      | some r =>
        if r.name.equal nm then .ok (r, true)
        else getLoop hm nm fuel ((idx + 1) &&& hm.mask)

/-- Go: `func (hm hashMap) get(name name) (result, bool)`. The probe visits the slots
`idx, idx+1, ...` modulo the capacity; when `mask + 1` iterations have passed without
leaving the loop every slot has been seen occupied by another name and the Go loop
never exits. -/
def hashMap.get (hm : hashMap) (nm : name) : Except Fault (result × Bool) :=
  getLoop hm nm (hm.mask + 1) (nm.hash &&& hm.mask)

/-- Go: the probing loop of `set`; returns the slot at which the loop stops. -/
def setLoop (hm : hashMap) (r : result) : Nat → Nat → Except Fault Nat
  | 0, _ => .error .noTermination
  | fuel + 1, idx =>
    match hm.occupied[idx]? with
    | none => .error .outOfBounds
    | some false => .ok idx
    | some true =>
      match hm.data[idx]? with
      | none => .error .outOfBounds
      | some r0 =>
        if r0.name.equal r.name then .ok idx
        else setLoop hm r fuel ((idx + 1) &&& hm.mask)

/-- Go: `func (hm hashMap) set(r result)`; the slices are shared, so the caller sees
the returned table. -/
def hashMap.set (hm : hashMap) (r : result) : Except Fault hashMap :=
  match setLoop hm r (hm.mask + 1) (r.name.hash &&& hm.mask) with
  | .error e => .error e
  | .ok idx =>
    if idx < hm.occupied.length ∧ idx < hm.data.length then
      .ok { hm with occupied := hm.occupied.set idx true, data := hm.data.set idx r }
    else .error .outOfBounds

/-! ## Worker -/

/-- Go: the slice expression `b[i:]`. -/
def sliceFrom (b : List Nat) (i : Nat) : Except Fault (List Nat) :=
  if i ≤ b.length then .ok (b.drop i) else .error .outOfBounds

/-- Go: one iteration of the body of the loop of `processRange`, from cursor `idx`;
returns the advanced cursor and the updated table. -/
def processRecord (fmap : List Nat) (idx : Nat) (hm : hashMap) : Except Fault (Nat × hashMap) :=
  match sliceFrom fmap idx with
  | .error e => .error e
  | .ok w1 =>
    match parseName w1 with
    | .error e => .error e
    | .ok (n1, nm) =>
      match sliceFrom fmap (idx + (n1 + 1)) with
      | .error e => .error e
      | .ok w2 =>
        match parseValue w2 with
        | .error e => .error e
        | .ok (n2, value) =>
          match hm.get nm with
          | .error e => .error e
          | .ok (r, ok) =>
            match hm.set ((if ok then r else newResult nm).update value) with
            | .error e => .error e
            | .ok hm1 => .ok (idx + (n1 + 1) + (n2 + 1), hm1)

/-- Go: the loop `for idx != len(fmap) { ... }` of `processRange`. -/
def processLoop (fmap : List Nat) : Nat → Nat → hashMap → Except Fault (Nat × hashMap)
  | 0, _, _ => .error .noTermination
  | fuel + 1, idx, hm =>
    if idx ≠ fmap.length then
      match processRecord fmap idx hm with
      | .error e => .error e
      | .ok (idx1, hm1) => processLoop fmap fuel idx1 hm1
    else .ok (idx, hm)

/-- Go: `func processRange(fmap []byte) hashMap`. The cursor grows in every
iteration, so `len(fmap) + 1` iterations are never exceeded without a panic. -/
def processRange (fmap : List Nat) : Except Fault hashMap :=
  match processLoop fmap (fmap.length + 1) 0 (newHashMap 16) with
  | .error e => .error e
  | .ok (_, hm) => .ok hm

/-! ## Partitioner, merger (`main`) -/

/-- Turns a list of outcomes into the list of their values, or the first fault. -/
def allOk {α : Type} : List (Except Fault α) → Except Fault (List α)
  | [] => .ok []
  | .error e :: _ => .error e
  | .ok a :: rest =>
    match allOk rest with
    | .error e => .error e
    | .ok as => .ok (a :: as)

/-- Go: `for fmap[start-1] != '\n' { start += 1 }` in `main`. -/
def findSplit (fmap : List Nat) : Nat → Nat → Except Fault Nat
  | 0, _ => .error .noTermination
  | fuel + 1, start =>
    if start = 0 then .error .outOfBounds
    else
      match fmap[start - 1]? with
      | none => .error .outOfBounds
      | some c => if c ≠ 10 then findSplit fmap fuel (start + 1) else .ok start

/-- Go: the value stored in `splits[i]` by the first loop of `main`
(`fileSize = len(fmap)`). -/
def mainSplit (numCpu : Nat) (fmap : List Nat) (i : Nat) : Except Fault Nat :=
  if i = 0 then .ok 0
  else findSplit fmap (fmap.length + 1) (i * (fmap.length / numCpu))

/-- Go: the slice `splits` after the first loop of `main`. -/
def mainSplits (numCpu : Nat) (fmap : List Nat) : Except Fault (List Nat) :=
  allOk ((List.range numCpu).map (mainSplit numCpu fmap))

/-- Go: `fmap[start:end]` for worker `i` in `main`. -/
def mainRange (fmap : List Nat) (splits : List Nat) (i : Nat) : Except Fault (List Nat) :=
  match splits[i]? with
  | none => .error .outOfBounds
  | some start =>
    match (if i ≠ splits.length - 1 then splits[i + 1]? else some fmap.length) with
    | none => .error .outOfBounds
    | some stop =>
      if start ≤ stop ∧ stop ≤ fmap.length then .ok ((fmap.take stop).drop start)
      else .error .outOfBounds

/-- Go: the byte ranges handed to the workers, in index order. -/
def mainRanges (numCpu : Nat) (fmap : List Nat) : Except Fault (List (List Nat)) :=
  match mainSplits numCpu fmap with
  | .error e => .error e
  | .ok splits => allOk ((List.range splits.length).map (mainRange fmap splits))

/-- Go: the tables sent on `done`, listed in worker-index order. -/
def mainTables (numCpu : Nat) (fmap : List Nat) : Except Fault (List hashMap) :=
  match mainRanges numCpu fmap with
  | .error e => .error e
  | .ok ranges => allOk (ranges.map processRange)

/-- Go: the body of the inner merge loop of `main` for one occupied slot. -/
def mergeItem (results : hashMap) (item : result) : Except Fault hashMap :=
  match results.get item.name with
  | .error e => .error e
  | .ok (r, ok) => results.set ((if ok then r else newResult item.name).aggregate item)

/-- Go: `for i, occupied := range hm.occupied { ... }` in the merge loop of `main`,
from slot `i` on. -/
def mergeSlots (hm : hashMap) : List Bool → Nat → hashMap → Except Fault hashMap
  | [], _, results => .ok results
  | occupied :: rest, i, results =>
    if !occupied then mergeSlots hm rest (i + 1) results
    else
      match hm.data[i]? with
      | none => .error .outOfBounds
      | some item =>
        match mergeItem results item with
        | .error e => .error e
        | .ok results1 => mergeSlots hm rest (i + 1) results1

/-- Go: the outer merge loop of `main` over the tables in their order of arrival. -/
def mergeTables : List hashMap → hashMap → Except Fault hashMap
  | [], results => .ok results
  | hm :: rest, results =>
    match mergeSlots hm hm.occupied 0 results with
    | .error e => .error e
    | .ok results1 => mergeTables rest results1

/-- Go: `results` after the merge loop of `main`, for tables arriving in the given
order. -/
def mainMerge (tables : List hashMap) : Except Fault hashMap :=
  mergeTables tables (newHashMap 16)

end OneBRC

namespace OneBRC

/-! ## Specification vocabulary -/

/-- The fingerprint of a byte string: the fold of `hashByte` from seed 0. -/
def fingerprint (v : List Nat) : Nat := v.foldl hashByte 0

/-- A name as `parseName` builds it: its hash is the fingerprint of its bytes. -/
def name.wf (n : name) : Prop := n.hash = fingerprint n.value

instance (n : name) : Decidable n.wf := by unfold name.wf; infer_instance

/-- The content of slot `i` of a table: the stored aggregate when the slot is occupied. -/
def hashMap.slot (hm : hashMap) (i : Nat) : Option result :=
  match hm.occupied[i]?, hm.data[i]? with
  | some true, some r => some r
  | _, _ => none

/-- The representation invariant of a table built by `set` from `newHashMap`:
power-of-two capacity, stored names carry their fingerprint, no two occupied slots
hold byte-equal names, and probing for a stored name stops at its slot. -/
structure hashMap.Inv (hm : hashMap) : Prop where
  pow : ∃ k, hm.mask + 1 = 2 ^ k
  occLen : hm.occupied.length = hm.mask + 1
  dataLen : hm.data.length = hm.mask + 1
  wf : ∀ i r, hm.slot i = some r → r.name.wf
  inj : ∀ i j r r', hm.slot i = some r → hm.slot j = some r' →
    r.name.value = r'.name.value → i = j
  find : ∀ j r, hm.slot j = some r →
    setLoop hm r (hm.mask + 1) (r.name.hash &&& hm.mask) = .ok j

/-- The table `hm` represents the finite map `f` from name bytes to aggregates. -/
structure hashMap.Holds (hm : hashMap) (f : List Nat → Option result) : Prop where
  inv : hm.Inv
  sound : ∀ j r, hm.slot j = some r → f r.name.value = some r
  complete : ∀ m r, f m = some r → r.name.value = m ∧ ∃ j, hm.slot j = some r

end OneBRC

namespace OneBRC

/-- What `get` reads from the slot at which its probe stops. -/
def readSlot (hm : hashMap) (j : Nat) : result × Bool :=
  match hm.slot j with
  | some r => (r, true)
  | none => (result.zero, false)

end OneBRC

namespace OneBRC

/-- A sequence of `set` calls, in order. -/
def setAll : hashMap → List result → Except Fault hashMap
  | hm, [] => .ok hm
  | hm, r :: rs =>
    match hm.set r with
    | .error e => .error e
    | .ok hm1 => setAll hm1 rs

end OneBRC

namespace OneBRC

/-! ## Input grammar and reference result -/

/-- One record `name;-?digits.digits\n` of the input grammar, by its parts (the digit
lists hold the digit bytes). -/
structure Record where
  name : List Nat
  neg : Bool
  intDigits : List Nat
  fracDigits : List Nat
  deriving DecidableEq

/-- The record obeys the grammar: the name is a byte string without `';'` and `'\n'`,
and both digit strings are non-empty strings of ASCII digits. -/
def Record.wf (r : Record) : Prop :=
  (∀ c ∈ r.name, c < 256 ∧ c ≠ 59 ∧ c ≠ 10) ∧ r.intDigits ≠ [] ∧ r.fracDigits ≠ [] ∧
    (∀ c ∈ r.intDigits, 48 ≤ c ∧ c ≤ 57) ∧ (∀ c ∈ r.fracDigits, 48 ≤ c ∧ c ≤ 57)

instance (r : Record) : Decidable r.wf := by unfold Record.wf; infer_instance

/-- The bytes of a record. -/
def Record.encode (r : Record) : List Nat :=
  r.name ++ 59 :: ((if r.neg then [45] else []) ++ r.intDigits ++ 46 :: (r.fracDigits ++ [10]))

/-- The exact decimal value a record denotes. -/
def Record.value (r : Record) : ℚ :=
  (if r.neg then -1 else 1) *
    (((Nat.ofDigits 10 (r.intDigits.reverse.map (fun c => c - 48)) : Nat) : ℚ)
      + ∑ k in Finset.range r.fracDigits.length,
          ((r.fracDigits.getD k 48 - 48 : Nat) : ℚ) / (10 : ℚ) ^ (k + 1))

/-- The bytes of a sequence of records. -/
def encodeAll (recs : List Record) : List Nat := (recs.map Record.encode).flatten

/-- The values recorded for the name `m`, in input order. -/
def valuesOf (recs : List Record) (m : List Nat) : List ℚ :=
  (recs.filter (fun r => r.name = m)).map Record.value

/-- The four statistics kept per name. -/
structure Stats where
  min : ℚ
  max : ℚ
  sum : ℚ
  count : Int
  deriving DecidableEq

/-- The statistics carried by an aggregate. -/
def result.stats (r : result) : Stats := ⟨r.min, r.max, r.total, r.count⟩

/-- The single-threaded reference: for a name, the minimum, maximum, sum and number
of all values recorded for it; no entry for a name that does not occur. -/
def reference (recs : List Record) (m : List Nat) : Option Stats :=
  match valuesOf recs m with
  | [] => none
  | v :: vs => some ⟨vs.foldl Min.min v, vs.foldl Max.max v, (v :: vs).sum, ((v :: vs).length : Nat)⟩

/-- The answer of a table for the name with bytes `m`: its statistics on a hit. -/
def hashMap.lookup (hm : hashMap) (m : List Nat) : Except Fault (Option Stats) :=
  match hm.get ⟨m, fingerprint m⟩ with
  | .error e => .error e
  | .ok (r, ok) => .ok (if ok then some r.stats else none)

/-- The aggregate `processRange` accumulates from the values `vs` of name `m`. -/
def accum (m : List Nat) (vs : List ℚ) : result :=
  vs.foldl result.update (newResult ⟨m, fingerprint m⟩)

/-- The finite map a worker table represents after the records `recs`. -/
def tableOf (recs : List Record) (m : List Nat) : Option result :=
  if valuesOf recs m = [] then none else some (accum m (valuesOf recs m))

end OneBRC

namespace OneBRC

/-- The record `X;2000…0.0\n` whose integer part is a 2 followed by 308 zeros
(the value `2 * 10^308`, above `math.MaxFloat64`). -/
def hugeRecord : Record := ⟨[88], false, 50 :: List.replicate 308 48, [48]⟩

end OneBRC

namespace OneBRC

/-! ## Vocabulary for the merger and the reporter -/

/-- The aggregates stored in the occupied slots of a table, in slot order. -/
def entries (hm : hashMap) : List result :=
  (List.range hm.occupied.length).filterMap hm.slot

/-- The merge step of `main` applied to a list of items in the given order. -/
def mergeItems : List result → hashMap → Except Fault hashMap
  | [], results => .ok results
  | item :: rest, results =>
    match mergeItem results item with
    | .error e => .error e
    | .ok results1 => mergeItems rest results1

/-- The effect of one merge step on the finite map a table represents. -/
def mergeMap (g : List Nat → Option result) (item : result) : List Nat → Option result :=
  Function.update g item.name.value
    (some (((g item.name.value).getD (newResult item.name)).aggregate item))

/-- The combine of a list of aggregates, taken from left to right. -/
def combineAll : List result → Option result
  | [] => none
  | r :: rs => some (rs.foldl result.aggregate r)

/-- The statistics the merged table should hold for the name `m`: the combine of the
entries for `m` of all worker tables. -/
def combined (tables : List hashMap) (m : List Nat) : Option Stats :=
  (combineAll ((tables.flatMap entries).filter (fun r => r.name.value = m))).map result.stats

/-- The entries of a worker table never exceed the start values of `newResult`. -/
def Bounded (f : List Nat → Option result) : Prop :=
  ∀ m r, f m = some r → r.min ≤ maxFloat64 ∧ -maxFloat64 ≤ r.max

/-- Go: the loop of `main` that appends the occupied entries of `results` to `sorted`,
from slot `i` on. -/
def collectSlots (hm : hashMap) : List Bool → Nat → Except Fault (List result)
  | [], _ => .ok []
  | occupied :: rest, i =>
    if !occupied then collectSlots hm rest (i + 1)
    else
      match hm.data[i]? with
      | none => .error .outOfBounds
      | some r =>
        match collectSlots hm rest (i + 1) with
        | .error e => .error e
        | .ok rs => .ok (r :: rs)

/-- Go: `slices.SortFunc(sorted, func(r1, r2) int { return bytes.Compare(...) })`.
The library sort is embedded as insertion sort by the comparison function; on entries
with pairwise different names every correct sort returns the same list. -/
def sortFunc (l : List result) : List result :=
  l.insertionSort (fun r1 r2 => bytesCompare r1.name.value r2.name.value ≤ 0)

/-- Go: the slice `sorted` of `main` after `slices.SortFunc`. -/
def mainSorted (results : hashMap) : Except Fault (List result) :=
  match collectSlots results results.occupied 0 with
  | .error e => .error e
  | .ok l => .ok (sortFunc l)

end OneBRC

namespace OneBRC

/-- A five-letter name (letters `A`–`P`) that spells the number `i` in base 16. -/
def nameOf (i : Nat) : List Nat :=
  [65 + i / 65536 % 16, 65 + i / 4096 % 16, 65 + i / 256 % 16, 65 + i / 16 % 16, 65 + i % 16]

/-- The record `<nameOf i>;0.0\n`. -/
def recordOf (i : Nat) : Record := ⟨nameOf i, false, [48], [48]⟩

/-- The records `recordOf lo, ..., recordOf (lo + n - 1)`. -/
def manyRecords (lo n : Nat) : List Record := (List.range n).map (fun k => recordOf (lo + k))

end OneBRC

namespace OneBRC

/-! ## Vocabulary for the probing claims -/

/-- The shape of a table made by `newHashMap`: the capacity `mask + 1` is a power of
two and both slices have that length. -/
structure hashMap.Shaped (hm : hashMap) : Prop where
  pow : ∃ k, hm.mask + 1 = 2 ^ k
  occLen : hm.occupied.length = hm.mask + 1
  dataLen : hm.data.length = hm.mask + 1

/-- The probe-chain invariant: no two occupied slots hold byte-equal names, and every
slot on the cyclic path from the home slot `hash & mask` of a stored name up to its slot
is occupied. -/
structure hashMap.ChainInv (hm : hashMap) : Prop where
  shaped : hm.Shaped
  inj : ∀ i j r r', hm.slot i = some r → hm.slot j = some r' →
    r.name.value = r'.name.value → i = j
  chain : ∀ j r, hm.slot j = some r → ∀ k,
    k < (j + (hm.mask + 1) - (r.name.hash &&& hm.mask)) % (hm.mask + 1) →
    ∃ r', hm.slot (((r.name.hash &&& hm.mask) + k) % (hm.mask + 1)) = some r'

/-- The 64-bit pattern of a signed fingerprint (two's complement). -/
def hashPattern (h : Int) : Nat := (h % 2 ^ 64).toNat

end OneBRC

namespace OneBRC

/-! ## The reporter on `float64`

The claims about the aggregates are stated in exact arithmetic and are verified on the
exact embedding above. The text `main` prints depends on the rounding of `float64`
(the sums, the mean, the sign of zero), so the path from the bytes to the text is
embedded a second time on a bit-exact model of `float64` (IEEE 754 binary64, rounding to
nearest with ties to even, every operation rounded on its own as on amd64). The
functions of this embedding carry the name of the Go function followed by `F`. -/

/-- A `float64` value. `fin neg m e` is the finite number `(-1)^neg * m * 2^(e - 1074)`
with `m < 2^53` and `e ≤ 2045`, where `2^52 ≤ m` unless `e = 0` (the subnormal numbers
and the two zeros); `inf neg` is an infinity and `nan` a NaN. -/
inductive F64 where
  | fin (neg : Bool) (m : Nat) (e : Nat)
  | inf (neg : Bool)
  | nan
  deriving DecidableEq, Repr

/-- The quotient `num / den` rounded to the nearest natural number, ties to even. -/
def roundDiv (num den : Nat) : Nat :=
  if 2 * (num % den) < den then num / den
  else if den < 2 * (num % den) then num / den + 1
  else if (num / den) % 2 = 0 then num / den else num / den + 1

/-- The exponents `2^j, ..., 4, 2, 1` (in front of `acc`) up to the first `s = 2^j` with
`n < 2^s`; `fuel` bounds the number of doublings. -/
def bitSteps (n : Nat) : Nat → Nat → List Nat → List Nat
  | 0, _, acc => acc
  | fuel + 1, s, acc =>
    if n < 2 ^ s then s :: acc else bitSteps n fuel (2 * s) (s :: acc)

/-- Binary search for the leading bit: for every step `s` with `2^s ≤ n` the number is
shifted right by `s` and `s` is added to the position. -/
def bitDescend : List Nat → Nat → Nat → Nat
  | [], _, acc => acc
  | s :: steps, n, acc =>
    if 2 ^ s ≤ n then bitDescend steps (n / 2 ^ s) (acc + s) else bitDescend steps n acc

/-- The position of the leading bit of `n`: the greatest `k` with `2^k ≤ n` (0 for
`n = 0`). -/
def leadingBit (n : Nat) : Nat := bitDescend (bitSteps n n 1 []) n 0

/-- The `float64` nearest to `(-1)^neg * num / den` (ties to even); a result of
magnitude `2^1024` or more is an infinity, a result that rounds to zero keeps the sign. -/
def F64.round (neg : Bool) (num den : Nat) : F64 :=
  if num = 0 then .fin neg 0 0
  else
    let k := leadingBit (num * 2 ^ 1074) - leadingBit den
    let e := (if den * 2 ^ k ≤ num * 2 ^ 1074 then k else k - 1) - 52
    let m := roundDiv (num * 2 ^ 1074) (den * 2 ^ e)
    if m = 2 ^ 53 then (if 2045 < e + 1 then .inf neg else .fin neg (2 ^ 52) (e + 1))
    else if 2045 < e then .inf neg else .fin neg m e

/-- Go: the conversion `float64(n)` of a non-negative integer. -/
def F64.ofNat (n : Nat) : F64 := F64.round false n 1

/-- Go: the conversion `float64(i)` of an `int`. -/
def F64.ofInt (i : Int) : F64 := F64.round (decide (i < 0)) i.natAbs 1

/-- Go: `x * y` on `float64`. -/
def F64.mul : F64 → F64 → F64
  | .nan, _ => .nan
  | _, .nan => .nan
  | .inf s, .inf t => .inf (xor s t)
  | .inf s, .fin t n _ => if n = 0 then .nan else .inf (xor s t)
  | .fin s m _, .inf t => if m = 0 then .nan else .inf (xor s t)
  | .fin s m e, .fin t n f => F64.round (xor s t) (m * n * 2 ^ (e + f)) (2 ^ 2148)

/-- Go: `x + y` on `float64`. An exact sum of zero is `+0`, except for `-0 + -0`. -/
def F64.add : F64 → F64 → F64
  | .nan, _ => .nan
  | _, .nan => .nan
  | .inf s, .inf t => if s = t then .inf s else .nan
  | .inf s, .fin _ _ _ => .inf s
  | .fin _ _ _, .inf t => .inf t
  | .fin s m e, .fin t n f =>
    if s = t then
      F64.round s ((m * 2 ^ (e - min e f) + n * 2 ^ (f - min e f)) * 2 ^ min e f) (2 ^ 1074)
    else if m * 2 ^ (e - min e f) = n * 2 ^ (f - min e f) then .fin false 0 0
    else if n * 2 ^ (f - min e f) < m * 2 ^ (e - min e f) then
      F64.round s ((m * 2 ^ (e - min e f) - n * 2 ^ (f - min e f)) * 2 ^ min e f) (2 ^ 1074)
    else
      F64.round t ((n * 2 ^ (f - min e f) - m * 2 ^ (e - min e f)) * 2 ^ min e f) (2 ^ 1074)

/-- Go: `x / y` on `float64`. -/
def F64.div : F64 → F64 → F64
  | .nan, _ => .nan
  | _, .nan => .nan
  | .inf _, .inf _ => .nan
  | .inf s, .fin t _ _ => .inf (xor s t)
  | .fin s _ _, .inf t => .fin (xor s t) 0 0
  | .fin s m e, .fin t n f =>
    if n = 0 then (if m = 0 then .nan else .inf (xor s t))
    else F64.round (xor s t) (m * 2 ^ e) (n * 2 ^ f)

/-- The order Go's `min` and `max` use on values that are not NaN: the numeric order,
with `-0` below `+0`. -/
def F64.lt : F64 → F64 → Bool
  | .nan, _ => false
  | _, .nan => false
  | .inf s, .inf t => s && !t
  | .inf s, .fin _ _ _ => s
  | .fin _ _ _, .inf t => !t
  | .fin s m e, .fin t n f =>
    if s = t then
      (if s then decide (n * 2 ^ f < m * 2 ^ e) else decide (m * 2 ^ e < n * 2 ^ f))
    else s

/-- Go: the builtin `min(x, y)` on `float64` (NaN if an argument is NaN). -/
def F64.min : F64 → F64 → F64
  | .nan, _ => .nan
  | _, .nan => .nan
  | x, y => if y.lt x then y else x

/-- Go: the builtin `max(x, y)` on `float64` (NaN if an argument is NaN). -/
def F64.max : F64 → F64 → F64
  | .nan, _ => .nan
  | _, .nan => .nan
  | x, y => if x.lt y then y else x

/-- Go: `math.MaxFloat64` as a `float64`. -/
def F64.maxFloat64 : F64 := .fin false (2 ^ 53 - 1) 2045

/-- Go: `-math.MaxFloat64` as a `float64`. -/
def F64.negMaxFloat64 : F64 := .fin true (2 ^ 53 - 1) 2045

/-- Go: the constant `0.` as a `float64`. -/
def F64.zero : F64 := .fin false 0 0

/-- Go: the constant `0.1` as a `float64`: the `float64` nearest to 1/10. -/
def F64.tenth : F64 := F64.round false 1 10

/-! ### Scanner and aggregates on `float64` -/

/-- Go: `float64(char - '0')` for a byte `char` (byte subtraction wraps). -/
def digitValF (char : Nat) : F64 := F64.ofNat ((char + 256 - 48) % 256)

/-- Go: the first loop of `parseValue` (integer digits up to `'.'`). -/
def parseValueIntF (b : List Nat) : Nat → Nat → F64 → Except Fault (Nat × F64)
  | 0, _, _ => .error .noTermination
  | fuel + 1, read, value =>
    match unsafeIdx b read with
    | .error e => .error e
    | .ok char =>
      if char = 46 then .ok (read, value)
      else parseValueIntF b fuel (read + 1) ((value.mul (F64.ofNat 10)).add (digitValF char))

/-- Go: the second loop of `parseValue` (fraction digits up to `'\n'`). -/
def parseValueFracF (b : List Nat) : Nat → Nat → F64 → F64 → Except Fault (Nat × F64)
  | 0, _, _, _ => .error .noTermination
  | fuel + 1, read, m, value =>
    match unsafeIdx b read with
    | .error e => .error e
    | .ok char =>
      if char = 10 then .ok (read, value)
      else parseValueFracF b fuel (read + 1) (m.mul F64.tenth)
        (value.add ((m.mul F64.tenth).mul (digitValF char)))

/-- Go: `func parseValue(b []byte) (int, float64)`. -/
def parseValueF (b : List Nat) : Except Fault (Nat × F64) :=
  if b = [] then .error .outOfBounds
  else
    match unsafeIdx b 0 with
    | .error e => .error e
    | .ok c0 =>
      let sign : F64 := if c0 = 45 then F64.round true 1 1 else F64.ofNat 1
      let read : Nat := if c0 = 45 then 1 else 0
      match parseValueIntF b (b.length + 1) read F64.zero with
      | .error e => .error e
      | .ok (read1, value1) =>
        match parseValueFracF b (b.length + 1) (read1 + 1) (F64.ofNat 1) value1 with
        | .error e => .error e
        | .ok (read2, value2) => .ok (read2, value2.mul sign)

/-- Go: `type result struct { name; min, max, total float64; count int }`. -/
structure resultF where
  name : name
  min : F64
  max : F64
  total : F64
  count : Int
  deriving DecidableEq

/-- Go: `type hashMap struct { mask int; occupied []bool; data []result }`. -/
structure hashMapF where
  mask : Nat
  occupied : List Bool
  data : List resultF
  deriving DecidableEq

/-- Go: the zero value `result{}`. -/
def resultF.zero : resultF := ⟨⟨[], 0⟩, F64.zero, F64.zero, F64.zero, 0⟩

/-- Go: `func newResult(name name) result`. -/
def newResultF (nm : name) : resultF :=
  { name := nm, min := F64.maxFloat64, max := F64.negMaxFloat64, total := F64.zero, count := 0 }

/-- Go: `func (r result) update(value float64) result`. -/
def resultF.update (r : resultF) (value : F64) : resultF :=
  { name := r.name
    min := F64.min r.min value
    max := F64.max r.max value
    total := r.total.add value
    count := r.count + 1 }

/-- Go: `func (r result) aggregate(r2 result) result`. -/
def resultF.aggregate (r r2 : resultF) : resultF :=
  { name := r.name
    min := F64.min r.min r2.min
    max := F64.max r.max r2.max
    total := r.total.add r2.total
    count := r.count + r2.count }

/-! ### Aggregate table on `float64` -/

/-- Go: `func newHashMap(size int) hashMap` (for `size ≤ 62`). -/
def newHashMapF (size : Nat) : hashMapF :=
  { occupied := List.replicate (2 ^ size) false
    data := List.replicate (2 ^ size) resultF.zero
    mask := 2 ^ size - 1 }

/-- Go: the probing loop of `get`, started at slot `idx`. -/
def getLoopF (hm : hashMapF) (nm : name) : Nat → Nat → Except Fault (resultF × Bool)
  | 0, _ => .error .noTermination
  | fuel + 1, idx =>
    match hm.occupied[idx]? with
    | none => .error .outOfBounds
    | some false => .ok (resultF.zero, false)
    | some true =>
      match hm.data[idx]? with
      | none => .error .outOfBounds
      | some r =>
        if r.name.equal nm then .ok (r, true)
        else getLoopF hm nm fuel ((idx + 1) &&& hm.mask)

/-- Go: `func (hm hashMap) get(name name) (result, bool)`. -/
def hashMapF.get (hm : hashMapF) (nm : name) : Except Fault (resultF × Bool) :=
  getLoopF hm nm (hm.mask + 1) (nm.hash &&& hm.mask)

/-- Go: the probing loop of `set`; returns the slot at which the loop stops. -/
def setLoopF (hm : hashMapF) (r : resultF) : Nat → Nat → Except Fault Nat
  | 0, _ => .error .noTermination
  | fuel + 1, idx =>
    match hm.occupied[idx]? with
    | none => .error .outOfBounds
    | some false => .ok idx
    | some true =>
      match hm.data[idx]? with
      | none => .error .outOfBounds
      | some r0 =>
        if r0.name.equal r.name then .ok idx
        else setLoopF hm r fuel ((idx + 1) &&& hm.mask)

/-- Go: `func (hm hashMap) set(r result)`; the caller sees the returned table. -/
def hashMapF.set (hm : hashMapF) (r : resultF) : Except Fault hashMapF :=
  match setLoopF hm r (hm.mask + 1) (r.name.hash &&& hm.mask) with
  | .error e => .error e
  | .ok idx =>
    if idx < hm.occupied.length ∧ idx < hm.data.length then
      .ok { hm with occupied := hm.occupied.set idx true, data := hm.data.set idx r }
    else .error .outOfBounds

/-! ### Worker, merger and reporter on `float64` -/

/-- Go: one iteration of the body of the loop of `processRange`, from cursor `idx`. -/
def processRecordF (fmap : List Nat) (idx : Nat) (hm : hashMapF) :
    Except Fault (Nat × hashMapF) :=
  match sliceFrom fmap idx with
  | .error e => .error e
  | .ok w1 =>
    match parseName w1 with
    | .error e => .error e
    | .ok (n1, nm) =>
      match sliceFrom fmap (idx + (n1 + 1)) with
      | .error e => .error e
      | .ok w2 =>
        match parseValueF w2 with
        | .error e => .error e
        | .ok (n2, value) =>
          match hm.get nm with
          | .error e => .error e
          | .ok (r, ok) =>
            match hm.set ((if ok then r else newResultF nm).update value) with
            | .error e => .error e
            | .ok hm1 => .ok (idx + (n1 + 1) + (n2 + 1), hm1)

/-- Go: the loop `for idx != len(fmap) { ... }` of `processRange`. -/
def processLoopF (fmap : List Nat) : Nat → Nat → hashMapF → Except Fault (Nat × hashMapF)
  | 0, _, _ => .error .noTermination
  | fuel + 1, idx, hm =>
    if idx ≠ fmap.length then
      match processRecordF fmap idx hm with
      | .error e => .error e
      | .ok (idx1, hm1) => processLoopF fmap fuel idx1 hm1
    else .ok (idx, hm)

/-- Go: `func processRange(fmap []byte) hashMap`. -/
def processRangeF (fmap : List Nat) : Except Fault hashMapF :=
  match processLoopF fmap (fmap.length + 1) 0 (newHashMapF 16) with
  | .error e => .error e
  | .ok (_, hm) => .ok hm

/-- Go: the tables sent on `done`, listed in worker-index order. -/
def mainTablesF (numCpu : Nat) (fmap : List Nat) : Except Fault (List hashMapF) :=
  match mainRanges numCpu fmap with
  | .error e => .error e
  | .ok ranges => allOk (ranges.map processRangeF)

/-- Go: the body of the inner merge loop of `main` for one occupied slot. -/
def mergeItemF (results : hashMapF) (item : resultF) : Except Fault hashMapF :=
  match results.get item.name with
  | .error e => .error e
  | .ok (r, ok) => results.set ((if ok then r else newResultF item.name).aggregate item)

/-- Go: `for i, occupied := range hm.occupied { ... }` in the merge loop of `main`,
from slot `i` on. -/
def mergeSlotsF (hm : hashMapF) : List Bool → Nat → hashMapF → Except Fault hashMapF
  | [], _, results => .ok results
  | occupied :: rest, i, results =>
    if !occupied then mergeSlotsF hm rest (i + 1) results
    else
      match hm.data[i]? with
      | none => .error .outOfBounds
      | some item =>
        match mergeItemF results item with
        | .error e => .error e
        | .ok results1 => mergeSlotsF hm rest (i + 1) results1

/-- Go: the outer merge loop of `main` over the tables in their order of arrival. -/
def mergeTablesF : List hashMapF → hashMapF → Except Fault hashMapF
  | [], results => .ok results
  | hm :: rest, results =>
    match mergeSlotsF hm hm.occupied 0 results with
    | .error e => .error e
    | .ok results1 => mergeTablesF rest results1

/-- Go: `results` after the merge loop of `main`, for tables arriving in the given
order. -/
def mainMergeF (tables : List hashMapF) : Except Fault hashMapF :=
  mergeTablesF tables (newHashMapF 16)

/-- Go: the loop of `main` that appends the occupied entries of `results` to `sorted`,
from slot `i` on. -/
def collectSlotsF (hm : hashMapF) : List Bool → Nat → Except Fault (List resultF)
  | [], _ => .ok []
  | occupied :: rest, i =>
    if !occupied then collectSlotsF hm rest (i + 1)
    else
      match hm.data[i]? with
      | none => .error .outOfBounds
      | some r =>
        match collectSlotsF hm rest (i + 1) with
        | .error e => .error e
        | .ok rs => .ok (r :: rs)

/-- Go: `slices.SortFunc(sorted, func(r1, r2) int { return bytes.Compare(...) })`,
embedded as insertion sort by the comparison function (on entries with pairwise
different names every correct sort returns the same list). -/
def sortFuncF (l : List resultF) : List resultF :=
  l.insertionSort (fun r1 r2 => bytesCompare r1.name.value r2.name.value ≤ 0)

/-- Go: the slice `sorted` of `main` after `slices.SortFunc`. -/
def mainSortedF (results : hashMapF) : Except Fault (List resultF) :=
  match collectSlotsF results results.occupied 0 with
  | .error e => .error e
  | .ok l => .ok (sortFuncF l)

/-- The decimal digits of `n` (as bytes, most significant first) put in front of `acc`;
`fuel` bounds the number of digits. -/
def decimalLoop : Nat → Nat → List Nat → List Nat
  | 0, _, acc => acc
  | fuel + 1, n, acc =>
    if n < 10 then (48 + n) :: acc
    else decimalLoop fuel (n / 10) ((48 + n % 10) :: acc)

/-- The decimal numeral of a natural number, as bytes. -/
def decimal (n : Nat) : List Nat := decimalLoop (n + 1) n []

/-- Go: the verb `%.1f` of `fmt.Printf` on a `float64`: `NaN`, `+Inf` or `-Inf`, or for a
finite value the sign (also of `-0`), the integer digits, a point and one fraction digit
of the exact binary value rounded to the nearest tenth (ties to even). -/
def formatF1 : F64 → List Nat
  | .nan => [78, 97, 78]
  | .inf false => [43, 73, 110, 102]
  | .inf true => [45, 73, 110, 102]
  | .fin neg m e =>
    (if neg then [45] else []) ++ decimal (roundDiv (m * 10 * 2 ^ e) (2 ^ 1074) / 10)
      ++ [46, 48 + roundDiv (m * 10 * 2 ^ e) (2 ^ 1074) % 10]

/-- Go: `fmt.Printf("%s=%.1f/%.1f/%.1f", result.name.value, result.min,
result.total/float64(result.count), result.max)`. -/
def printEntry (r : resultF) : List Nat :=
  r.name.value ++ [61] ++ formatF1 r.min ++ [47]
    ++ formatF1 (r.total.div (F64.ofInt r.count)) ++ [47] ++ formatF1 r.max

/-- Go: the loop `for i, result := range sorted { if i != 0 { fmt.Print(", ") }; ... }`
of `main`, from index `i` on. -/
def printLoop : List resultF → Nat → List Nat
  | [], _ => []
  | r :: rest, i => (if i ≠ 0 then [44, 32] else []) ++ printEntry r ++ printLoop rest (i + 1)

/-- Go: the bytes written to standard output by `main` for the slice `sorted`:
`fmt.Print("{")`, the loop, `fmt.Print("}")`. -/
def mainPrint (sorted : List resultF) : List Nat := [123] ++ printLoop sorted 0 ++ [125]

/-- Go: `main` from the merge loop on, for worker tables arriving in the given order:
merge, collect and sort, print. -/
def mainReport (arrival : List hashMapF) : Except Fault (List Nat) :=
  match mainMergeF arrival with
  | .error e => .error e
  | .ok results =>
    match mainSortedF results with
    | .error e => .error e
    | .ok sorted => .ok (mainPrint sorted)

/-! ### Vocabulary for the reporter -/

/-- The bytes of a text. -/
def bytesOf (s : String) : List Nat := s.toList.map Char.toNat

/-- The aggregates of the records `recs` in exact arithmetic, one per distinct name. -/
def aggregatesOf (recs : List Record) : List result :=
  (recs.map Record.name).dedup.map (fun m => accum m (valuesOf recs m))

/-- What the control flow of the program sees of an aggregate: its name and its count
(the `float64` fields are never tested). -/
def result.key (r : result) : OneBRC.name × Int := (r.name, r.count)

/-- What the control flow of the program sees of a `float64` aggregate. -/
def resultF.key (r : resultF) : OneBRC.name × Int := (r.name, r.count)

/-- What the control flow sees of a table: mask, occupancy, names and counts. -/
def hashMap.shape (hm : hashMap) : Nat × List Bool × List (name × Int) :=
  (hm.mask, hm.occupied, hm.data.map result.key)

/-- What the control flow sees of a `float64` table. -/
def hashMapF.shape (hm : hashMapF) : Nat × List Bool × List (name × Int) :=
  (hm.mask, hm.occupied, hm.data.map resultF.key)

/-- The content of slot `i` of a `float64` table. -/
def hashMapF.slot (hm : hashMapF) (i : Nat) : Option resultF :=
  match hm.occupied[i]?, hm.data[i]? with
  | some true, some r => some r
  | _, _ => none

/-- The aggregates stored in the occupied slots of a `float64` table, in slot order. -/
def entriesF (hm : hashMapF) : List resultF :=
  (List.range hm.occupied.length).filterMap hm.slot

/-- What `get` reads from the slot at which its probe stops. -/
def readSlotF (hm : hashMapF) (j : Nat) : resultF × Bool :=
  match hm.slot j with
  | some r => (r, true)
  | none => (resultF.zero, false)

/-- The `float64` table `hm` represents the finite map `g` from name bytes to
aggregates, and its control-flow view is that of a table of the exact embedding that
satisfies the representation invariant. -/
structure hashMapF.Holds (hm : hashMapF) (g : List Nat → Option resultF) : Prop where
  shaped : ∃ hq : hashMap, hm.shape = hq.shape ∧ hq.Inv
  sound : ∀ j r, hm.slot j = some r → g r.name.value = some r
  complete : ∀ m r, g m = some r → r.name.value = m ∧ ∃ j, hm.slot j = some r

/-- The `float64` the scanner reads from a record: the two loops of `parseValue` over
the digits of the record, and the multiplication by the sign. -/
def Record.valueF (r : Record) : F64 :=
  ((r.fracDigits.foldl
      (fun (p : F64 × F64) c =>
        (p.1.mul F64.tenth, p.2.add ((p.1.mul F64.tenth).mul (digitValF c))))
      (F64.ofNat 1,
        r.intDigits.foldl (fun v c => (v.mul (F64.ofNat 10)).add (digitValF c)) F64.zero)).2).mul
    (if r.neg then F64.round true 1 1 else F64.ofNat 1)

/-- The `float64` values recorded for the name `m`, in input order. -/
def valuesOfF (recs : List Record) (m : List Nat) : List F64 :=
  (recs.filter (fun r => r.name = m)).map Record.valueF

/-- The `float64` aggregate `processRange` accumulates from the values `vs` of name `m`. -/
def accumF (m : List Nat) (vs : List F64) : resultF :=
  vs.foldl resultF.update (newResultF ⟨m, fingerprint m⟩)

/-- The finite map a `float64` worker table represents after the records `recs`. -/
def tableOfF (recs : List Record) (m : List Nat) : Option resultF :=
  if valuesOfF recs m = [] then none else some (accumF m (valuesOfF recs m))

/-- The effect of one merge step on the finite map a `float64` table represents. -/
def mergeMapF (g : List Nat → Option resultF) (item : resultF) : List Nat → Option resultF :=
  Function.update g item.name.value
    (some (((g item.name.value).getD (newResultF item.name)).aggregate item))

/-- The merge step of `main` applied to a list of `float64` items in the given order. -/
def mergeItemsF : List resultF → hashMapF → Except Fault hashMapF
  | [], results => .ok results
  | item :: rest, results =>
    match mergeItemF results item with
    | .error e => .error e
    | .ok results1 => mergeItemsF rest results1

/-- The `float64` map the merged table represents when the worker tables arrive in the
given order: per name, the fold of `aggregate` from `newResult(name)` over the worker
entries of that name, in their order. -/
def mergedMapF (arrival : List hashMapF) : List Nat → Option resultF :=
  (arrival.flatMap entriesF).foldl mergeMapF (fun _ => none)

/-- The entries `main` prints when a single worker has processed the records `recs`:
per distinct name, `newResult(name)` aggregated with the worker aggregate. -/
def aggregatesOfF (recs : List Record) : List resultF :=
  (recs.map Record.name).dedup.map
    (fun m => (newResultF ⟨m, fingerprint m⟩).aggregate (accumF m (valuesOfF recs m)))

end OneBRC

namespace OneBRC

/-- C10. For every aggregate `r` and value `v`, `r.update v` equals
`r.aggregate` of the singleton aggregate `{name: r.name, min: v, max: v, total: v, count: 1}`,
field by field (hence as records). -/
theorem update_eq_aggregate_singleton (r : result) (v : ℚ) :
    r.update v = r.aggregate { name := r.name, min := v, max := v, total := v, count := 1 } ∧
    (r.update v).name = (r.aggregate ⟨r.name, v, v, v, 1⟩).name ∧
    (r.update v).min = (r.aggregate ⟨r.name, v, v, v, 1⟩).min ∧
    (r.update v).max = (r.aggregate ⟨r.name, v, v, v, 1⟩).max ∧
    (r.update v).total = (r.aggregate ⟨r.name, v, v, v, 1⟩).total ∧
    (r.update v).count = (r.aggregate ⟨r.name, v, v, v, 1⟩).count :=
  ⟨rfl, rfl, rfl, rfl, rfl, rfl⟩

/-- C9. `result.aggregate` is commutative on aggregates of the same name and
associative, and its fields are the min of the mins, the max of the maxes, the sum of
the totals and the sum of the counts. -/
theorem aggregate_comm_assoc (a b c : result) (hab : a.name = b.name) :
    a.aggregate b = b.aggregate a ∧
    (a.aggregate b).aggregate c = a.aggregate (b.aggregate c) ∧
    (a.aggregate b).min = Min.min a.min b.min ∧
    (a.aggregate b).max = Max.max a.max b.max ∧
    (a.aggregate b).total = a.total + b.total ∧
    (a.aggregate b).count = a.count + b.count := by
  refine ⟨?_, ?_, rfl, rfl, rfl, rfl⟩
  · simp only [result.aggregate, hab, min_comm a.min, max_comm a.max, add_comm a.total,
      add_comm a.count]
  · simp only [result.aggregate, min_assoc, max_assoc, add_assoc]

theorem aggregate_comm_assoc_witness :
    (⟨⟨[88], 5⟩, 1, 2, 3, 2⟩ : result).name = (⟨⟨[88], 5⟩, -1, 7, 4, 3⟩ : result).name ∧
    (⟨⟨[88], 5⟩, 1, 2, 3, 2⟩ : result).aggregate ⟨⟨[88], 5⟩, -1, 7, 4, 3⟩
      = (⟨⟨[88], 5⟩, -1, 7, 4, 3⟩ : result).aggregate ⟨⟨[88], 5⟩, 1, 2, 3, 2⟩ ∧
    ((⟨⟨[88], 5⟩, 1, 2, 3, 2⟩ : result).aggregate ⟨⟨[88], 5⟩, -1, 7, 4, 3⟩).aggregate
        ⟨⟨[88], 5⟩, 0, 9, 1, 1⟩
      = (⟨⟨[88], 5⟩, 1, 2, 3, 2⟩ : result).aggregate
        ((⟨⟨[88], 5⟩, -1, 7, 4, 3⟩ : result).aggregate ⟨⟨[88], 5⟩, 0, 9, 1, 1⟩) :=
  ⟨rfl,
    (aggregate_comm_assoc ⟨⟨[88], 5⟩, 1, 2, 3, 2⟩ ⟨⟨[88], 5⟩, -1, 7, 4, 3⟩
      ⟨⟨[88], 5⟩, 0, 9, 1, 1⟩ rfl).1,
    (aggregate_comm_assoc ⟨⟨[88], 5⟩, 1, 2, 3, 2⟩ ⟨⟨[88], 5⟩, -1, 7, 4, 3⟩
      ⟨⟨[88], 5⟩, 0, 9, 1, 1⟩ rfl).2.1⟩

end OneBRC

namespace OneBRC

/-! ## Scanner lemmas -/

theorem unsafeIdx_append_cons (pre rest : List Nat) (c : Nat) :
    unsafeIdx (pre ++ c :: rest) pre.length = .ok c := by
  have : (pre ++ c :: rest)[pre.length]? = some c := by
    rw [List.getElem?_append_right (le_refl _)]; simp
  simp [unsafeIdx, this]

theorem parseNameLoop_spec (mid : List Nat) :
    ∀ (pre rest : List Nat) (fuel h : Nat), 59 ∉ mid → mid.length < fuel →
      parseNameLoop (pre ++ mid ++ 59 :: rest) fuel pre.length h
        = .ok ((pre ++ mid).length, mid.foldl hashByte h) := by
  induction mid with
  | nil =>
    intro pre rest fuel h _ hf
    obtain ⟨f, rfl⟩ : ∃ f, fuel = f + 1 := ⟨fuel - 1, by simp at hf; omega⟩
    simp [parseNameLoop, unsafeIdx_append_cons]
  | cons c mid ih =>
    intro pre rest fuel h hm hf
    obtain ⟨f, rfl⟩ : ∃ f, fuel = f + 1 := ⟨fuel - 1, by simp at hf; omega⟩
    have hc : c ≠ 59 := fun e => hm (by simp [e])
    have hm2 : 59 ∉ mid := fun e => hm (by simp [e])
    have e1 : pre ++ c :: mid ++ 59 :: rest = pre ++ c :: (mid ++ 59 :: rest) := by simp
    have e2 : pre ++ c :: mid ++ 59 :: rest = (pre ++ [c]) ++ mid ++ 59 :: rest := by simp
    have := ih (pre ++ [c]) rest f (hashByte h c) hm2 (by simp at hf; omega)
    rw [parseNameLoop, e1, unsafeIdx_append_cons, ← e1, e2]
    simp only [hc, ne_eq, not_false_eq_true, if_true]
    simpa using this

theorem parseName_spec (nm rest : List Nat) (h : 59 ∉ nm) :
    parseName (nm ++ 59 :: rest) = .ok (nm.length, ⟨nm, nm.foldl hashByte 0⟩) := by
  have := parseNameLoop_spec nm [] rest ((nm ++ 59 :: rest).length + 1) 0 h (by simp; omega)
  simp only [List.nil_append, List.length_nil] at this
  unfold parseName
  rw [if_neg (by simp), this]
  simp

theorem digitVal_digit (c : Nat) (h : 48 ≤ c ∧ c ≤ 57) : digitVal c = ((c - 48 : Nat) : ℚ) := by
  unfold digitVal
  congr 1
  omega

theorem parseValueInt_spec (mid : List Nat) :
    ∀ (pre rest : List Nat) (fuel : Nat) (v : ℚ), 46 ∉ mid → mid.length < fuel →
      parseValueInt (pre ++ mid ++ 46 :: rest) fuel pre.length v
        = .ok ((pre ++ mid).length, mid.foldl (fun a c => a * 10 + digitVal c) v) := by
  induction mid with
  | nil =>
    intro pre rest fuel v _ hf
    obtain ⟨f, rfl⟩ : ∃ f, fuel = f + 1 := ⟨fuel - 1, by simp at hf; omega⟩
    simp [parseValueInt, unsafeIdx_append_cons]
  | cons c mid ih =>
    intro pre rest fuel v hm hf
    obtain ⟨f, rfl⟩ : ∃ f, fuel = f + 1 := ⟨fuel - 1, by simp at hf; omega⟩
    have hc : c ≠ 46 := fun e => hm (by simp [e])
    have hm2 : 46 ∉ mid := fun e => hm (by simp [e])
    have e1 : pre ++ c :: mid ++ 46 :: rest = pre ++ c :: (mid ++ 46 :: rest) := by simp
    have e2 : pre ++ c :: mid ++ 46 :: rest = (pre ++ [c]) ++ mid ++ 46 :: rest := by simp
    have := ih (pre ++ [c]) rest f (v * 10 + digitVal c) hm2 (by simp at hf; omega)
    rw [parseValueInt, e1, unsafeIdx_append_cons, ← e1, e2]
    simp only [hc, if_false]
    simpa using this

theorem parseValueFrac_spec (mid : List Nat) :
    ∀ (pre rest : List Nat) (fuel : Nat) (m v : ℚ), 10 ∉ mid → mid.length < fuel →
      parseValueFrac (pre ++ mid ++ 10 :: rest) fuel pre.length m v
        = .ok ((pre ++ mid).length,
            (mid.foldl (fun (s : ℚ × ℚ) c => (s.1 * (1 / 10), s.2 + s.1 * (1 / 10) * digitVal c))
              (m, v)).2) := by
  induction mid with
  | nil =>
    intro pre rest fuel m v _ hf
    obtain ⟨f, rfl⟩ : ∃ f, fuel = f + 1 := ⟨fuel - 1, by simp at hf; omega⟩
    simp [parseValueFrac, unsafeIdx_append_cons]
  | cons c mid ih =>
    intro pre rest fuel m v hm hf
    obtain ⟨f, rfl⟩ : ∃ f, fuel = f + 1 := ⟨fuel - 1, by simp at hf; omega⟩
    have hc : c ≠ 10 := fun e => hm (by simp [e])
    have hm2 : 10 ∉ mid := fun e => hm (by simp [e])
    have e1 : pre ++ c :: mid ++ 10 :: rest = pre ++ c :: (mid ++ 10 :: rest) := by simp
    have e2 : pre ++ c :: mid ++ 10 :: rest = (pre ++ [c]) ++ mid ++ 10 :: rest := by simp
    have := ih (pre ++ [c]) rest f (m * (1 / 10)) (v + m * (1 / 10) * digitVal c) hm2
      (by simp at hf; omega)
    rw [parseValueFrac, e1, unsafeIdx_append_cons, ← e1, e2]
    simp only [hc, if_false]
    simpa using this

/-- The integer loop computes the decimal value of the digit string. -/
theorem intFold_eq (ip : List Nat) (hd : ∀ c ∈ ip, 48 ≤ c ∧ c ≤ 57) (a : Nat) :
    ip.foldl (fun (x : ℚ) c => x * 10 + digitVal c) (a : ℚ)
      = ((a * 10 ^ ip.length + Nat.ofDigits 10 (ip.reverse.map (fun c => c - 48)) : Nat) : ℚ) := by
  induction ip generalizing a with
  | nil => simp
  | cons c ip ih =>
    have hc := hd c (by simp)
    have ht : ∀ c ∈ ip, 48 ≤ c ∧ c ≤ 57 := fun x hx => hd x (by simp [hx])
    have e : (a : ℚ) * 10 + digitVal c = ((a * 10 + (c - 48) : Nat) : ℚ) := by
      rw [digitVal_digit c hc]; push_cast; ring
    simp only [List.foldl_cons, e, ih ht]
    simp only [List.reverse_cons, List.map_append, List.map_cons, List.map_nil,
      Nat.ofDigits_append, Nat.ofDigits_singleton, List.length_map, List.length_reverse,
      List.length_cons]
    push_cast
    ring

/-- The fraction loop adds `digit_k * 10^(-k)` for the positions `k = 1, 2, ...`. -/
theorem fracFold_eq (fp : List Nat) (hd : ∀ c ∈ fp, 48 ≤ c ∧ c ≤ 57) (j : Nat) (v : ℚ) :
    (fp.foldl (fun (s : ℚ × ℚ) c => (s.1 * (1 / 10), s.2 + s.1 * (1 / 10) * digitVal c))
        ((1 / 10 : ℚ) ^ j, v)).2
      = v + ∑ k in Finset.range fp.length,
          ((fp.getD k 48 - 48 : Nat) : ℚ) / (10 : ℚ) ^ (j + k + 1) := by
  induction fp generalizing j v with
  | nil => simp
  | cons c fp ih =>
    have hc := hd c (by simp)
    have ht : ∀ c ∈ fp, 48 ≤ c ∧ c ≤ 57 := fun x hx => hd x (by simp [hx])
    have e : (1 / 10 : ℚ) ^ j * (1 / 10) = (1 / 10 : ℚ) ^ (j + 1) := by ring
    simp only [List.foldl_cons, e, ih ht, List.length_cons, Finset.sum_range_succ',
      List.getD_cons_succ, List.getD_cons_zero, digitVal_digit c hc]
    have e2 : ∀ k, j + 1 + k + 1 = j + (k + 1) + 1 := fun k => by ring
    simp only [e2, add_zero]
    rw [add_assoc, add_comm (∑ k in Finset.range fp.length, _) _]
    congr 2
    field_simp

theorem parseValue_spec (neg : Bool) (ip fp rest : List Nat)
    (hip : ip ≠ []) (hipd : ∀ c ∈ ip, 48 ≤ c ∧ c ≤ 57) (hfpd : ∀ c ∈ fp, 48 ≤ c ∧ c ≤ 57) :
    parseValue ((if neg then [45] else []) ++ ip ++ 46 :: (fp ++ 10 :: rest))
      = .ok ((if neg then 1 else 0) + ip.length + 1 + fp.length,
          (if neg then -1 else 1) *
            (((Nat.ofDigits 10 (ip.reverse.map (fun c => c - 48)) : Nat) : ℚ)
              + ∑ k in Finset.range fp.length,
                  ((fp.getD k 48 - 48 : Nat) : ℚ) / (10 : ℚ) ^ (k + 1))) := by
  have h46 : 46 ∉ ip := fun h => by have := hipd 46 h; omega
  have h10 : 10 ∉ fp := fun h => by have := hfpd 10 h; omega
  obtain ⟨c, ip', rfl⟩ := List.exists_cons_of_ne_nil hip
  have hc := hipd c (by simp)
  set sg : List Nat := if neg then [45] else [] with hsg
  have hne : sg ++ c :: ip' ++ 46 :: (fp ++ 10 :: rest) ≠ [] := by simp
  have h0 : unsafeIdx (sg ++ c :: ip' ++ 46 :: (fp ++ 10 :: rest)) 0
      = .ok (if neg then 45 else c) := by
    cases neg <;> simp [hsg, unsafeIdx]
  have hrd : (if (if neg then 45 else c) = 45 then 1 else 0) = sg.length := by
    cases neg
    · have : c ≠ 45 := by omega
      simp [hsg, this]
    · simp [hsg]
  have hsign : (if (if neg then 45 else c) = 45 then (-1 : ℚ) else 1) = if neg then -1 else 1 := by
    cases neg
    · have : c ≠ 45 := by omega
      simp [this]
    · simp
  have hI := fun fuel hf => parseValueInt_spec (c :: ip') sg (fp ++ 10 :: rest) fuel 0 h46 hf
  have e3 : sg ++ c :: ip' ++ 46 :: (fp ++ 10 :: rest)
      = (sg ++ c :: ip' ++ [46]) ++ fp ++ 10 :: rest := by simp
  have hF := fun fuel v hf => parseValueFrac_spec fp (sg ++ c :: ip' ++ [46]) rest fuel 1 v h10 hf
  have hlen1 : (sg ++ c :: ip').length + 1 = (sg ++ c :: ip' ++ [46]).length := by
    simp only [List.length_append, List.length_cons, List.length_nil]
  have hI' := intFold_eq (c :: ip') hipd 0
  have hFr := fun v => fracFold_eq fp hfpd 0 v
  simp only [pow_zero, zero_add] at hFr
  simp only [Nat.cast_zero] at hI'
  unfold parseValue
  rw [if_neg hne, h0]
  simp only [hrd, hsign]
  rw [hI _ (by simp only [List.length_append, List.length_cons]; omega)]
  simp only [hlen1]
  rw [e3, hF _ _ (by simp only [List.length_append, List.length_cons]; omega), hFr, hI']
  have hl : (sg ++ c :: ip' ++ [46] ++ fp).length
      = (if neg then 1 else 0) + (c :: ip').length + 1 + fp.length := by
    cases neg <;> simp [hsg] <;> omega
  rw [hl]
  simp [mul_comm]

end OneBRC

namespace OneBRC

theorem exists_first_occurrence (c : Nat) (w : List Nat) (h : c ∈ w) :
    ∃ pre rest, w = pre ++ c :: rest ∧ c ∉ pre := by
  induction w with
  | nil => cases h
  | cons x xs ih =>
    by_cases hx : x = c
    · exact ⟨[], xs, by simp [hx], by simp⟩
    · have : c ∈ xs := by
        rcases List.mem_cons.1 h with e | e
        · exact absurd e.symm hx
        · exact e
      obtain ⟨pre, rest, e, hn⟩ := ih this
      refine ⟨x :: pre, rest, by simp [e], ?_⟩
      intro hm
      rcases List.mem_cons.1 hm with e' | e'
      · exact hx e'.symm
      · exact hn e'

/-- C8. For every window that contains a `';'`, `parseName` returns the offset `n` of the
first `';'`, the first `n` bytes as `name.value`, and as `name.hash` the left fold from
seed 0 of `h ↦ ((h XOR byte) * 1099511628211) mod 2^64` over those bytes. -/
theorem parseName_first_semicolon (w : List Nat) (h : 59 ∈ w) :
    parseName w = .ok (w.indexOf 59,
      ⟨w.take (w.indexOf 59),
        (w.take (w.indexOf 59)).foldl (fun h b => ((h ^^^ b) * 1099511628211) % 2 ^ 64) 0⟩) ∧
    w[w.indexOf 59]? = some 59 ∧ ∀ i : Nat, i < w.indexOf 59 → w[i]? ≠ some 59 := by
  obtain ⟨pre, rest, rfl, hn⟩ := exists_first_occurrence 59 w h
  have hi : (pre ++ 59 :: rest).indexOf 59 = pre.length := by
    rw [List.indexOf_append_of_not_mem hn, List.indexOf_cons_self, Nat.add_zero]
  rw [hi]
  refine ⟨?_, ?_, ?_⟩
  · rw [parseName_spec pre rest hn]
    simp only [List.take_left']
    rfl
  · rw [List.getElem?_append_right (le_refl _)]; simp
  · intro i hlt he
    rw [List.getElem?_append_left hlt] at he
    exact hn (List.getElem?_mem he)

theorem parseName_first_semicolon_witness :
    59 ∈ [72, 105, 59, 49, 46, 48, 10] ∧
    parseName [72, 105, 59, 49, 46, 48, 10] = .ok (2, ⟨[72, 105], 68830527424012611⟩) := by
  refine ⟨by decide, ?_⟩
  have := (parseName_first_semicolon [72, 105, 59, 49, 46, 48, 10] (by decide)).1
  rw [this]
  decide

/-- C7. For every window that starts with a decimal `-?[0-9]+\.[0-9]+` followed by `'\n'`,
`parseValue` returns `(n, v)` where `n` is the offset of that `'\n'` and
`v = sign * (integer part + Σ_k digit_k * 10^(-k))` over the fraction positions
`k = 1, 2, ...`, with `sign = -1` exactly when the window starts with `'-'`; the window
`"-3.4\n"` gives `(4, -3.4)`. -/
theorem parseValue_decimal (neg : Bool) (ip fp rest : List Nat)
    (hip : ip ≠ []) (_hfp : fp ≠ [])
    (hipd : ∀ c ∈ ip, 48 ≤ c ∧ c ≤ 57) (hfpd : ∀ c ∈ fp, 48 ≤ c ∧ c ≤ 57) :
    parseValue ((if neg then [45] else []) ++ ip ++ 46 :: (fp ++ 10 :: rest))
      = .ok ((if neg then 1 else 0) + ip.length + 1 + fp.length,
          (if neg then -1 else 1) *
            (((Nat.ofDigits 10 (ip.reverse.map (fun c => c - 48)) : Nat) : ℚ)
              + ∑ k in Finset.range fp.length,
                  ((fp.getD k 48 - 48 : Nat) : ℚ) / (10 : ℚ) ^ (k + 1))) ∧
    ((if neg then [45] else []) ++ ip ++ 46 :: (fp ++ 10 :: rest))[
        (if neg then 1 else 0) + ip.length + 1 + fp.length]? = some 10 ∧
    parseValue [45, 51, 46, 52, 10] = .ok (4, -(17 / 5)) := by
  refine ⟨parseValue_spec neg ip fp rest hip hipd hfpd, ?_, ?_⟩
  · have e : (if neg then [45] else []) ++ ip ++ 46 :: (fp ++ 10 :: rest)
        = ((if neg then [45] else []) ++ ip ++ 46 :: fp) ++ 10 :: rest := by simp
    rw [e, List.getElem?_append_right (by cases neg <;> simp <;> omega)]
    have : (if neg then 1 else 0) + ip.length + 1 + fp.length
        - ((if neg then [45] else []) ++ ip ++ 46 :: fp).length = 0 := by
      cases neg <;> simp <;> omega
    rw [this]; simp
  · simp [parseValue, parseValueInt, parseValueFrac, unsafeIdx, digitVal]; norm_num

theorem parseValue_decimal_witness :
    ([49, 50] ≠ ([] : List Nat) ∧ [53, 48] ≠ ([] : List Nat) ∧
      (∀ c ∈ [49, 50], 48 ≤ c ∧ c ≤ 57) ∧ (∀ c ∈ [53, 48], 48 ≤ c ∧ c ≤ 57)) ∧
    parseValue [45, 49, 50, 46, 53, 48, 10, 88] = .ok (6, -(25 / 2)) := by
  refine ⟨⟨by decide, by decide, by decide, by decide⟩, ?_⟩
  have := (parseValue_decimal true [49, 50] [53, 48] [88] (by decide) (by decide)
    (by decide) (by decide)).1
  simp only [if_true, List.cons_append, List.nil_append, List.singleton_append] at this
  rw [this]
  simp [Finset.sum_range_succ, Nat.ofDigits]
  norm_num

end OneBRC

namespace OneBRC

/-! ## Table lemmas -/

theorem bytesCompare_eq_zero (a : List Nat) : ∀ b, bytesCompare a b = 0 ↔ a = b := by
  induction a with
  | nil => intro b; cases b <;> simp [bytesCompare]
  | cons x xs ih =>
    intro b
    cases b with
    | nil => simp [bytesCompare]
    | cons y ys =>
      simp only [bytesCompare, List.cons.injEq]
      by_cases h1 : x < y
      · simp [h1]; omega
      · by_cases h2 : y < x
        · simp [h1, h2]; omega
        · have : x = y := by omega
          simp [h1, h2, ih, this]

theorem name_equal_iff (n n2 : name) : n.equal n2 = true ↔ n.value = n2.value := by
  simp [name.equal, bytesCompare_eq_zero]

theorem and_mask (hm : hashMap) (hp : ∃ k, hm.mask + 1 = 2 ^ k) (x : Nat) :
    x &&& hm.mask = x % (hm.mask + 1) := by
  obtain ⟨k, hk⟩ := hp
  have : hm.mask = 2 ^ k - 1 := by omega
  have h2 : x &&& hm.mask = x &&& (2 ^ k - 1) := by rw [this]
  rw [h2, Nat.and_pow_two_sub_one_eq_mod, hk]

theorem slot_eq_some (hm : hashMap) (i : Nat) (r : result) :
    hm.slot i = some r ↔ hm.occupied[i]? = some true ∧ hm.data[i]? = some r := by
  unfold hashMap.slot
  constructor
  · intro h
    split at h
    · next h1 h2 => simp_all
    · simp at h
  · rintro ⟨h1, h2⟩
    simp [h1, h2]

theorem slot_lt (hm : hashMap) (i : Nat) (r : result) (h : hm.slot i = some r) :
    i < hm.occupied.length ∧ i < hm.data.length := by
  rw [slot_eq_some] at h
  constructor
  · by_contra hc
    have := List.getElem?_eq_none (l := hm.occupied) (n := i) (by omega)
    simp [this] at h
  · by_contra hc
    have := List.getElem?_eq_none (l := hm.data) (n := i) (by omega)
    simp [this] at h

theorem slot_eq_none (hm : hashMap) (i : Nat) (h1 : i < hm.occupied.length)
    (h2 : i < hm.data.length) : hm.slot i = none ↔ hm.occupied[i]? = some false := by
  unfold hashMap.slot
  have e1 : hm.occupied[i]? = some hm.occupied[i] := List.getElem?_eq_getElem h1
  have e2 : hm.data[i]? = some hm.data[i] := List.getElem?_eq_getElem h2
  rw [e1, e2]
  cases hm.occupied[i] <;> simp

/-- One iteration of the probing loop of `set`, in terms of the slot view. -/
theorem setLoop_succ (hm : hashMap) (r : result) (fuel i : Nat)
    (h1 : i < hm.occupied.length) (h2 : i < hm.data.length) :
    setLoop hm r (fuel + 1) i =
      match hm.slot i with
      | none => .ok i
      | some r0 =>
        if r0.name.value = r.name.value then .ok i
        else setLoop hm r fuel ((i + 1) &&& hm.mask) := by
  have e1 : hm.occupied[i]? = some hm.occupied[i] := List.getElem?_eq_getElem h1
  have e2 : hm.data[i]? = some hm.data[i] := List.getElem?_eq_getElem h2
  rw [setLoop]
  unfold hashMap.slot
  rw [e1, e2]
  cases hb : hm.occupied[i]
  · simp
  · simp only [name_equal_iff]

/-- One iteration of the probing loop of `get`, in terms of the slot view. -/
theorem getLoop_succ (hm : hashMap) (nm : name) (fuel i : Nat)
    (h1 : i < hm.occupied.length) (h2 : i < hm.data.length) :
    getLoop hm nm (fuel + 1) i =
      match hm.slot i with
      | none => .ok (result.zero, false)
      | some r0 =>
        if r0.name.value = nm.value then .ok (r0, true)
        else getLoop hm nm fuel ((i + 1) &&& hm.mask) := by
  have e1 : hm.occupied[i]? = some hm.occupied[i] := List.getElem?_eq_getElem h1
  have e2 : hm.data[i]? = some hm.data[i] := List.getElem?_eq_getElem h2
  rw [getLoop]
  unfold hashMap.slot
  rw [e1, e2]
  cases hb : hm.occupied[i]
  · simp
  · simp only [name_equal_iff]

theorem and_mask_lt (hm : hashMap) (hp : ∃ k, hm.mask + 1 = 2 ^ k) (x : Nat) :
    x &&& hm.mask < hm.mask + 1 := by
  rw [and_mask hm hp]
  exact Nat.mod_lt _ (by omega)

theorem setLoop_congr (hm : hashMap) (r r' : result) (h : r.name.value = r'.name.value) :
    ∀ fuel i, setLoop hm r fuel i = setLoop hm r' fuel i := by
  intro fuel
  induction fuel with
  | zero => intro i; rfl
  | succ f ih =>
    intro i
    rw [setLoop, setLoop]
    simp only [name.equal, h, ih]

theorem getLoop_eq_setLoop (hm : hashMap) (r : result) :
    ∀ fuel i, getLoop hm r.name fuel i = (setLoop hm r fuel i).map (readSlot hm) := by
  intro fuel
  induction fuel with
  | zero => intro i; rfl
  | succ f ih =>
    intro i
    rw [getLoop, setLoop]
    cases ho : hm.occupied[i]? with
    | none => rfl
    | some b =>
      cases b with
      | false =>
        simp only [Except.map, readSlot, hashMap.slot, ho]
      | true =>
        cases hd : hm.data[i]? with
        | none => rfl
        | some r0 =>
          simp only
          by_cases he : r0.name.equal r.name = true
          · simp only [he, if_true, Except.map, readSlot, hashMap.slot, ho, hd]
          · simp only [he, if_false, ih]
            rfl

theorem setLoop_stop (hm : hashMap) (r : result) :
    ∀ fuel i j, setLoop hm r fuel i = .ok j →
      j < hm.occupied.length ∧
      (hm.occupied[j]? = some false ∨
        ∃ r0, hm.slot j = some r0 ∧ r0.name.value = r.name.value) := by
  intro fuel
  induction fuel with
  | zero => intro i j h; simp [setLoop] at h
  | succ f ih =>
    intro i j h
    rw [setLoop] at h
    cases ho : hm.occupied[i]? with
    | none => simp [ho] at h
    | some b =>
      have hi : i < hm.occupied.length := by
        by_contra hc
        have := List.getElem?_eq_none (l := hm.occupied) (n := i) (by omega)
        simp [this] at ho
      cases b with
      | false =>
        simp only [ho] at h
        injection h with h
        subst h
        exact ⟨hi, Or.inl ho⟩
      | true =>
        cases hd : hm.data[i]? with
        | none => simp [ho, hd] at h
        | some r0 =>
          simp only [ho, hd] at h
          by_cases he : r0.name.equal r.name = true
          · simp only [he, if_true] at h
            injection h with h
            subst h
            refine ⟨hi, Or.inr ⟨r0, ?_, (name_equal_iff _ _).1 he⟩⟩
            rw [slot_eq_some]
            exact ⟨ho, hd⟩
          · simp only [he, if_false] at h
            exact ih _ _ h

theorem setLoop_progress (hm : hashMap) (hinv : hm.Inv) (r : result) :
    ∀ d fuel i, i < hm.mask + 1 → d < fuel →
      hm.slot ((i + d) % (hm.mask + 1)) = none → ∃ j, setLoop hm r fuel i = .ok j := by
  intro d
  induction d with
  | zero =>
    intro fuel i hi hf hs
    obtain ⟨f, rfl⟩ : ∃ f, fuel = f + 1 := ⟨fuel - 1, by omega⟩
    rw [Nat.add_zero, Nat.mod_eq_of_lt hi] at hs
    rw [setLoop_succ hm r f i (by rw [hinv.occLen]; exact hi) (by rw [hinv.dataLen]; exact hi), hs]
    exact ⟨i, rfl⟩
  | succ d ih =>
    intro fuel i hi hf hs
    obtain ⟨f, rfl⟩ : ∃ f, fuel = f + 1 := ⟨fuel - 1, by omega⟩
    rw [setLoop_succ hm r f i (by rw [hinv.occLen]; exact hi) (by rw [hinv.dataLen]; exact hi)]
    cases hsl : hm.slot i with
    | none => exact ⟨i, rfl⟩
    | some r0 =>
      simp only
      by_cases he : r0.name.value = r.name.value
      · simp only [he, if_true]; exact ⟨i, rfl⟩
      · simp only [he, if_false]
        apply ih f _ (and_mask_lt hm hinv.pow _) (by omega)
        rw [and_mask hm hinv.pow, Nat.mod_add_mod]
        rw [show i + 1 + d = i + (d + 1) by ring]
        exact hs

/-- Probing visits every slot: with an empty slot somewhere the loop of `set` stops
within `mask + 1` iterations. -/
theorem setLoop_terminates (hm : hashMap) (hinv : hm.Inv) (r : result) (i e : Nat)
    (hi : i < hm.mask + 1) (he : e < hm.mask + 1) (hs : hm.slot e = none) :
    ∃ j, setLoop hm r (hm.mask + 1) i = .ok j := by
  apply setLoop_progress hm hinv r ((e + (hm.mask + 1) - i) % (hm.mask + 1)) _ i hi
    (Nat.mod_lt _ (by omega))
  rw [Nat.add_mod_mod, show i + (e + (hm.mask + 1) - i) = e + (hm.mask + 1) by omega,
    Nat.add_mod_right, Nat.mod_eq_of_lt he]
  exact hs

/-- Writing slot `j` does not change where a probe stops, as long as the probe did not
stop at `j` because it was empty (unless it now finds its own name there). -/
theorem setLoop_stable (hm hm' : hashMap) (hinv : hm.Inv) (r x : result) (j : Nat)
    (hmask : hm'.mask = hm.mask) (hocc : hm'.occupied.length = hm.occupied.length)
    (hdat : hm'.data.length = hm.data.length)
    (hj : hm'.slot j = some r) (hother : ∀ s, s ≠ j → hm'.slot s = hm.slot s) :
    ∀ fuel idx i, idx < hm.mask + 1 → setLoop hm x fuel idx = .ok i →
      ((∃ r0, hm.slot j = some r0 ∧ r0.name.value = r.name.value) ∨
        (hm.slot j = none ∧ (i = j → x.name.value = r.name.value))) →
      setLoop hm' x fuel idx = .ok i := by
  intro fuel
  induction fuel with
  | zero => intro idx i _ h; simp [setLoop] at h
  | succ f ih =>
    intro idx i hidx h hc
    have ho : idx < hm.occupied.length := by rw [hinv.occLen]; exact hidx
    have hd : idx < hm.data.length := by rw [hinv.dataLen]; exact hidx
    rw [setLoop_succ hm x f idx ho hd] at h
    rw [setLoop_succ hm' x f idx (by rw [hocc]; exact ho) (by rw [hdat]; exact hd)]
    by_cases hij : idx = j
    · subst hij
      rw [hj]
      simp only
      rcases hc with ⟨r0, h0, e0⟩ | ⟨h0, hx⟩
      · rw [h0] at h
        simp only at h
        by_cases he : r0.name.value = x.name.value
        · simp only [he, if_true] at h
          have : r.name.value = x.name.value := by rw [← e0, he]
          simp only [this, if_true]
          exact h
        · simp only [he, if_false] at h
          have : ¬ r.name.value = x.name.value := by rw [← e0]; exact he
          simp only [this, if_false, hmask]
          exact ih _ _ (and_mask_lt hm hinv.pow _) h (Or.inl ⟨r0, h0, e0⟩)
      · rw [h0] at h
        simp only at h
        injection h with h
        have := hx h.symm
        simp only [this, if_true]
        rw [h]
    · rw [hother idx hij]
      cases hsl : hm.slot idx with
      | none => rw [hsl] at h; exact h
      | some r0 =>
        rw [hsl] at h
        simp only at h ⊢
        by_cases he : r0.name.value = x.name.value
        · simp only [he, if_true] at h ⊢; exact h
        · simp only [he, if_false, hmask] at h ⊢
          exact ih _ _ (and_mask_lt hm hinv.pow _) h hc

end OneBRC

namespace OneBRC

theorem newHashMap_slot (k i : Nat) : (newHashMap k).slot i = none := by
  unfold hashMap.slot newHashMap
  simp only
  by_cases h : i < 2 ^ k
  · rw [List.getElem?_eq_getElem (by simpa using h)]
    simp
  · rw [List.getElem?_eq_none (by simpa using h)]

theorem newHashMap_inv (k : Nat) : (newHashMap k).Inv where
  pow := ⟨k, by have := Nat.one_le_two_pow (n := k); simp only [newHashMap]; omega⟩
  occLen := by have := Nat.one_le_two_pow (n := k); simp only [newHashMap, List.length_replicate]; omega
  dataLen := by have := Nat.one_le_two_pow (n := k); simp only [newHashMap, List.length_replicate]; omega
  wf := fun i r h => by rw [newHashMap_slot] at h; cases h
  inj := fun i j r r' h => by rw [newHashMap_slot] at h; cases h
  find := fun j r h => by rw [newHashMap_slot] at h; cases h

/-- The slot view after writing slot `j`. -/
theorem slot_set (hm : hashMap) (r : result) (j i : Nat)
    (h1 : j < hm.occupied.length) (h2 : j < hm.data.length) :
    hashMap.slot { hm with occupied := hm.occupied.set j true, data := hm.data.set j r } i
      = if i = j then some r else hm.slot i := by
  unfold hashMap.slot
  simp only [List.getElem?_set]
  by_cases h : j = i
  · subst h; simp [h1, h2]
  · have h' : ¬ i = j := fun e => h e.symm
    simp [h, h']

/-- The probe of a stored name: `set` would stop at the slot that holds it. -/
theorem setLoop_present (hm : hashMap) (hinv : hm.Inv) (r r0 : result) (i : Nat)
    (hr : r.name.wf) (hs : hm.slot i = some r0) (he : r0.name.value = r.name.value) :
    setLoop hm r (hm.mask + 1) (r.name.hash &&& hm.mask) = .ok i := by
  have h0 := hinv.wf i r0 hs
  have hh : r.name.hash = r0.name.hash := by
    unfold name.wf at hr h0; rw [hr, h0, he]
  rw [hh, setLoop_congr hm r r0 he.symm]
  exact hinv.find i r0 hs

/-- Partial correctness of `set`. -/
theorem set_spec (hm hm' : hashMap) (hinv : hm.Inv) (r : result) (hr : r.name.wf)
    (h : hm.set r = .ok hm') :
    hm'.Inv ∧ hm'.mask = hm.mask ∧ ∃ j, j < hm.mask + 1 ∧
      ((hm.slot j = none ∧ ∀ i r0, hm.slot i = some r0 → r0.name.value ≠ r.name.value) ∨
        ∃ r0, hm.slot j = some r0 ∧ r0.name.value = r.name.value) ∧
      hm'.slot j = some r ∧ ∀ i, i ≠ j → hm'.slot i = hm.slot i := by
  unfold hashMap.set at h
  cases hl : setLoop hm r (hm.mask + 1) (r.name.hash &&& hm.mask) with
  | error e => simp [hl] at h
  | ok j =>
    simp only [hl] at h
    have hst := setLoop_stop hm r _ _ _ hl
    have hjo : j < hm.occupied.length := hst.1
    have hjd : j < hm.data.length := by rw [hinv.dataLen, ← hinv.occLen]; exact hjo
    rw [if_pos ⟨hjo, hjd⟩] at h
    injection h with h
    have hslot : ∀ i, hm'.slot i = if i = j then some r else hm.slot i := by
      intro i; rw [← h]; exact slot_set hm r j i hjo hjd
    have hmask : hm'.mask = hm.mask := by rw [← h]
    have hocc : hm'.occupied.length = hm.occupied.length := by rw [← h]; simp
    have hdat : hm'.data.length = hm.data.length := by rw [← h]; simp
    have hjj : hm'.slot j = some r := by rw [hslot]; simp
    have hoth : ∀ i, i ≠ j → hm'.slot i = hm.slot i := by
      intro i hi; rw [hslot]; simp [hi]
    have hcase : (hm.slot j = none ∧ ∀ i r0, hm.slot i = some r0 → r0.name.value ≠ r.name.value) ∨
        ∃ r0, hm.slot j = some r0 ∧ r0.name.value = r.name.value := by
      rcases hst.2 with hf | hex
      · left
        have hn : hm.slot j = none := (slot_eq_none hm j hjo hjd).2 hf
        refine ⟨hn, fun i r0 hs he => ?_⟩
        have := setLoop_present hm hinv r r0 i hr hs he
        rw [hl] at this
        injection this with this
        subst this
        rw [hn] at hs
        cases hs
      · exact Or.inr hex
    have hstab : ∀ x i, setLoop hm x (hm.mask + 1) (x.name.hash &&& hm.mask) = .ok i →
        (i = j → x.name.value = r.name.value) →
        setLoop hm' x (hm'.mask + 1) (x.name.hash &&& hm'.mask) = .ok i := by
      intro x i hx hij
      rw [hmask]
      apply setLoop_stable hm hm' hinv r x j hmask hocc hdat hjj hoth _ _ _
        (and_mask_lt hm hinv.pow _) hx
      rcases hcase with ⟨hn, -⟩ | hex
      · exact Or.inr ⟨hn, hij⟩
      · exact Or.inl hex
    refine ⟨?_, hmask, j, by rw [← hinv.occLen]; exact hjo, hcase, hjj, hoth⟩
    refine ⟨by rw [hmask]; exact hinv.pow, by rw [hocc, hmask]; exact hinv.occLen,
      by rw [hdat, hmask]; exact hinv.dataLen, ?_, ?_, ?_⟩
    · intro i r' hs
      rw [hslot] at hs
      by_cases hi : i = j
      · simp only [hi, if_true] at hs; injection hs with hs; rw [← hs]; exact hr
      · simp only [hi, if_false] at hs; exact hinv.wf i r' hs
    · intro i i' r1 r2 h1 h2 he
      rw [hslot] at h1 h2
      by_cases hi : i = j <;> by_cases hi' : i' = j
      · rw [hi, hi']
      · exfalso
        simp only [hi, if_true] at h1; simp only [hi', if_false] at h2
        injection h1 with h1
        rw [← h1] at he
        rcases hcase with ⟨-, habs⟩ | ⟨r0, h0, e0⟩
        · exact habs i' r2 h2 he.symm
        · exact hi' (hinv.inj i' j r2 r0 h2 h0 (by rw [e0, he]))
      · exfalso
        simp only [hi, if_false] at h1; simp only [hi', if_true] at h2
        injection h2 with h2
        rw [← h2] at he
        rcases hcase with ⟨-, habs⟩ | ⟨r0, h0, e0⟩
        · exact habs i r1 h1 he
        · exact hi (hinv.inj i j r1 r0 h1 h0 (by rw [e0, he]))
      · simp only [hi, if_false] at h1; simp only [hi', if_false] at h2
        exact hinv.inj i i' r1 r2 h1 h2 he
    · intro i r' hs
      rw [hslot] at hs
      by_cases hi : i = j
      · simp only [hi, if_true] at hs
        injection hs with hs
        subst hs
        rw [hi]
        exact hstab r j hl (fun _ => rfl)
      · simp only [hi, if_false] at hs
        exact hstab r' i (hinv.find i r' hs) (fun e => absurd e hi)

/-- Progress of `set`: it returns when its name is stored or some slot is empty. -/
theorem set_progress (hm : hashMap) (hinv : hm.Inv) (r : result)
    (h : (∃ i r0, hm.slot i = some r0 ∧ r0.name.value = r.name.value ∧ r.name.wf) ∨
      ∃ e, e < hm.mask + 1 ∧ hm.slot e = none) :
    ∃ hm', hm.set r = .ok hm' := by
  have hj : ∃ j, setLoop hm r (hm.mask + 1) (r.name.hash &&& hm.mask) = .ok j := by
    rcases h with ⟨i, r0, hs, he, hr⟩ | ⟨e, he, hs⟩
    · exact ⟨i, setLoop_present hm hinv r r0 i hr hs he⟩
    · exact setLoop_terminates hm hinv r _ e (and_mask_lt hm hinv.pow _) he hs
  obtain ⟨j, hl⟩ := hj
  have hst := setLoop_stop hm r _ _ _ hl
  have hjd : j < hm.data.length := by rw [hinv.dataLen, ← hinv.occLen]; exact hst.1
  unfold hashMap.set
  rw [hl]
  simp only [if_pos (And.intro hst.1 hjd)]
  exact ⟨_, rfl⟩

/-- Partial correctness of `get`. -/
theorem get_spec (hm : hashMap) (hinv : hm.Inv) (nm : name) (hn : nm.wf) (x : result × Bool)
    (h : hm.get nm = .ok x) :
    (∃ j r0, hm.slot j = some r0 ∧ r0.name.value = nm.value ∧ x = (r0, true)) ∨
      ((∀ i r0, hm.slot i = some r0 → r0.name.value ≠ nm.value) ∧ x = (result.zero, false)) := by
  unfold hashMap.get at h
  have e := getLoop_eq_setLoop hm (newResult nm) (hm.mask + 1) (nm.hash &&& hm.mask)
  change getLoop hm nm _ _ = _ at e
  rw [e] at h
  cases hl : setLoop hm (newResult nm) (hm.mask + 1) (nm.hash &&& hm.mask) with
  | error e => rw [hl] at h; cases h
  | ok j =>
    rw [hl] at h
    simp only [Except.map] at h
    injection h with h
    have hst := setLoop_stop hm (newResult nm) _ _ _ hl
    have hjd : j < hm.data.length := by rw [hinv.dataLen, ← hinv.occLen]; exact hst.1
    rcases hst.2 with hf | ⟨r0, h0, e0⟩
    · right
      have hnone : hm.slot j = none := (slot_eq_none hm j hst.1 hjd).2 hf
      refine ⟨fun i r0 hs he => ?_, ?_⟩
      · have := setLoop_present hm hinv (newResult nm) r0 i hn hs he
        change setLoop hm (newResult nm) (hm.mask + 1) (nm.hash &&& hm.mask) = _ at this
        rw [hl] at this
        injection this with this
        subst this
        rw [hnone] at hs
        cases hs
      · rw [← h]; simp only [readSlot, hnone]
    · left
      refine ⟨j, r0, h0, e0, ?_⟩
      rw [← h]; simp only [readSlot, h0]

/-- Progress of `get`. -/
theorem get_progress (hm : hashMap) (hinv : hm.Inv) (nm : name)
    (h : (∃ i r0, hm.slot i = some r0 ∧ r0.name.value = nm.value ∧ nm.wf) ∨
      ∃ e, e < hm.mask + 1 ∧ hm.slot e = none) :
    ∃ x, hm.get nm = .ok x := by
  have hj : ∃ j, setLoop hm (newResult nm) (hm.mask + 1) (nm.hash &&& hm.mask) = .ok j := by
    rcases h with ⟨i, r0, hs, he, hr⟩ | ⟨e, he, hs⟩
    · exact ⟨i, setLoop_present hm hinv (newResult nm) r0 i hr hs he⟩
    · exact setLoop_terminates hm hinv _ _ e (and_mask_lt hm hinv.pow _) he hs
  obtain ⟨j, hl⟩ := hj
  have e := getLoop_eq_setLoop hm (newResult nm) (hm.mask + 1) (nm.hash &&& hm.mask)
  change getLoop hm nm _ _ = _ at e
  unfold hashMap.get
  rw [e, hl]
  exact ⟨_, rfl⟩

end OneBRC

namespace OneBRC

/-! ## The table as a finite map -/

theorem holds_new (k : Nat) : (newHashMap k).Holds (fun _ => none) where
  inv := newHashMap_inv k
  sound := fun j r h => by rw [newHashMap_slot] at h; cases h
  complete := fun m r h => by cases h

theorem holds_get (hm : hashMap) (f : List Nat → Option result) (hh : hm.Holds f)
    (nm : name) (hn : nm.wf) (x : result × Bool) (h : hm.get nm = .ok x) :
    x = match f nm.value with
      | some r => (r, true)
      | none => (result.zero, false) := by
  rcases get_spec hm hh.inv nm hn x h with ⟨j, r0, hs, he, hx⟩ | ⟨habs, hx⟩
  · have := hh.sound j r0 hs
    rw [he] at this
    rw [this, hx]
  · cases hf : f nm.value with
    | none => exact hx
    | some r =>
      obtain ⟨hv, j, hs⟩ := hh.complete _ _ hf
      exact absurd hv (habs j r hs)

theorem holds_set (hm hm' : hashMap) (f : List Nat → Option result) (hh : hm.Holds f)
    (r : result) (hr : r.name.wf) (h : hm.set r = .ok hm') :
    hm'.Holds (Function.update f r.name.value (some r)) ∧ hm'.mask = hm.mask := by
  obtain ⟨hinv', hmask, j, hj, hcase, hjj, hoth⟩ := set_spec hm hm' hh.inv r hr h
  refine ⟨⟨hinv', ?_, ?_⟩, hmask⟩
  · intro i r' hs
    by_cases hi : i = j
    · rw [hi, hjj] at hs
      injection hs with hs
      rw [← hs]; simp
    · rw [hoth i hi] at hs
      have hne : r'.name.value ≠ r.name.value := by
        intro he
        rcases hcase with ⟨-, habs⟩ | ⟨r0, h0, e0⟩
        · exact habs i r' hs he
        · exact hi (hh.inv.inj i j r' r0 hs h0 (by rw [e0, he]))
      rw [Function.update_noteq hne]
      exact hh.sound i r' hs
  · intro m r' hf
    by_cases hm0 : m = r.name.value
    · rw [hm0, Function.update_same] at hf
      injection hf with hf
      rw [← hf]
      exact ⟨hm0.symm, j, hjj⟩
    · rw [Function.update_noteq hm0] at hf
      obtain ⟨hv, i, hs⟩ := hh.complete m r' hf
      refine ⟨hv, i, ?_⟩
      have hi : i ≠ j := by
        intro e
        rw [e] at hs
        rcases hcase with ⟨hn, -⟩ | ⟨r0, h0, e0⟩
        · rw [hn] at hs; cases hs
        · rw [h0] at hs
          injection hs with hs
          rw [hs] at e0
          exact hm0 (by rw [← hv, e0])
      rw [hoth i hi]; exact hs

/-- When every slot is occupied the table stores `mask + 1` distinct names. -/
theorem holds_full_names (hm : hashMap) (f : List Nat → Option result) (hh : hm.Holds f)
    (hc : ¬ ∃ e, e < hm.mask + 1 ∧ hm.slot e = none) :
    ∃ L : List (List Nat), L.Nodup ∧ L.length = hm.mask + 1 ∧ ∀ m ∈ L, f m ≠ none := by
  have hall : ∀ e, e < hm.mask + 1 → ∃ r, hm.slot e = some r := by
    intro e he
    cases hs : hm.slot e with
    | none => exact absurd ⟨e, he, hs⟩ hc
    | some r => exact ⟨r, rfl⟩
  let g : Nat → List Nat := fun i => ((hm.slot i).getD result.zero).name.value
  refine ⟨(List.range (hm.mask + 1)).map g, ?_, by simp, ?_⟩
  · apply List.Nodup.map_on _ (List.nodup_range _)
    intro a ha b hb hab
    obtain ⟨ra, hra⟩ := hall a (List.mem_range.1 ha)
    obtain ⟨rb, hrb⟩ := hall b (List.mem_range.1 hb)
    apply hh.inv.inj a b ra rb hra hrb
    simpa [g, hra, hrb] using hab
  · intro m hm1
    obtain ⟨i, hi, rfl⟩ := List.mem_map.1 hm1
    obtain ⟨r, hr⟩ := hall i (List.mem_range.1 hi)
    have := hh.sound i r hr
    simp [g, hr, this]

/-- Room for one more name: the stored names and the absent name `m0` all lie in `D`,
which has at most `mask + 1` distinct elements. -/
theorem holds_exists_empty (hm : hashMap) (f : List Nat → Option result) (hh : hm.Holds f)
    (D : List (List Nat)) (hD : ∀ m, f m ≠ none → m ∈ D) (hlen : D.dedup.length ≤ hm.mask + 1)
    (m0 : List Nat) (hm0 : m0 ∈ D) (hf0 : f m0 = none) :
    ∃ e, e < hm.mask + 1 ∧ hm.slot e = none := by
  by_contra hc
  obtain ⟨L, hnd, hlen2, hmem⟩ := holds_full_names hm f hh hc
  have hnd2 : (m0 :: L).Nodup := List.nodup_cons.2 ⟨fun hin => hmem m0 hin hf0, hnd⟩
  have hsub : (m0 :: L) ⊆ D.dedup := by
    intro m hm1
    rw [List.mem_dedup]
    rcases List.mem_cons.1 hm1 with rfl | h
    · exact hm0
    · exact hD m (hmem m h)
  have := (hnd2.subperm hsub).length_le
  simp at this
  omega

/-- A table that stores fewer names than it has slots has an empty slot. -/
theorem holds_exists_empty_lt (hm : hashMap) (f : List Nat → Option result) (hh : hm.Holds f)
    (D : List (List Nat)) (hD : ∀ m, f m ≠ none → m ∈ D) (hlen : D.dedup.length < hm.mask + 1) :
    ∃ e, e < hm.mask + 1 ∧ hm.slot e = none := by
  by_contra hc
  obtain ⟨L, hnd, hlen2, hmem⟩ := holds_full_names hm f hh hc
  have hsub : L ⊆ D.dedup := by
    intro m hm1
    rw [List.mem_dedup]
    exact hD m (hmem m hm1)
  have := (hnd.subperm hsub).length_le
  omega

theorem holds_get_ok (hm : hashMap) (f : List Nat → Option result) (hh : hm.Holds f)
    (nm : name) (hn : nm.wf)
    (hroom : f nm.value = none → ∃ e, e < hm.mask + 1 ∧ hm.slot e = none) :
    hm.get nm = .ok (match f nm.value with
      | some r => (r, true)
      | none => (result.zero, false)) := by
  have hp : ∃ x, hm.get nm = .ok x := by
    apply get_progress hm hh.inv nm
    cases hf : f nm.value with
    | none => exact Or.inr (hroom hf)
    | some r =>
      obtain ⟨hv, j, hs⟩ := hh.complete _ _ hf
      exact Or.inl ⟨j, r, hs, hv, hn⟩
  obtain ⟨x, hx⟩ := hp
  rw [hx, holds_get hm f hh nm hn x hx]

theorem holds_set_ok (hm : hashMap) (f : List Nat → Option result) (hh : hm.Holds f)
    (r : result) (hr : r.name.wf)
    (hroom : f r.name.value = none → ∃ e, e < hm.mask + 1 ∧ hm.slot e = none) :
    ∃ hm', hm.set r = .ok hm' ∧ hm'.Holds (Function.update f r.name.value (some r)) ∧
      hm'.mask = hm.mask := by
  have hp : ∃ hm', hm.set r = .ok hm' := by
    apply set_progress hm hh.inv r
    cases hf : f r.name.value with
    | none => exact Or.inr (hroom hf)
    | some r0 =>
      obtain ⟨hv, j, hs⟩ := hh.complete _ _ hf
      exact Or.inl ⟨j, r0, hs, hv, hr⟩
  obtain ⟨hm', hx⟩ := hp
  exact ⟨hm', hx, holds_set hm hm' f hh r hr hx⟩

end OneBRC

namespace OneBRC

theorem setAll_holds (rs : List result) :
    ∀ (hm hm' : hashMap) (f : List Nat → Option result), hm.Holds f → (∀ r ∈ rs, r.name.wf) →
      setAll hm rs = .ok hm' → ∃ f', hm'.Holds f' ∧ hm'.mask = hm.mask := by
  induction rs with
  | nil =>
    intro hm hm' f hh _ h
    simp only [setAll] at h
    injection h with h
    subst h
    exact ⟨f, hh, rfl⟩
  | cons r rs ih =>
    intro hm hm' f hh hwf h
    simp only [setAll] at h
    cases hs : hm.set r with
    | error e => simp [hs] at h
    | ok hm1 =>
      simp only [hs] at h
      obtain ⟨h1, hmask⟩ := holds_set hm hm1 f hh r (hwf r (by simp)) hs
      obtain ⟨f', hf', hm2⟩ := ih hm1 hm' _ h1 (fun x hx => hwf x (by simp [hx])) h
      exact ⟨f', hf', by rw [hm2, hmask]⟩

theorem occupied_false_slot (hm : hashMap) (hinv : hm.Inv) (e : Nat)
    (h : hm.occupied[e]? = some false) : e < hm.mask + 1 ∧ hm.slot e = none := by
  have he : e < hm.occupied.length := by
    by_contra hc
    have := List.getElem?_eq_none (l := hm.occupied) (n := e) (by omega)
    simp [this] at h
  refine ⟨by rw [← hinv.occLen]; exact he, ?_⟩
  exact (slot_eq_none hm e he (by rw [hinv.dataLen, ← hinv.occLen]; exact he)).2 h

/-- C6. In a table built from `newHashMap` by `set` calls that still has an empty slot,
`set r1` followed by `set r2` for two results of the same name both return, leave
exactly one occupied slot whose name is byte-equal to that name, and `get` of the name
returns `(r2, true)`. Names are the values `parseName` builds, the only place where the
program makes one: their `hash` is the fingerprint of their bytes. -/
theorem set_twice_same_name (size : Nat) (rs : List result) (hm : hashMap) (r1 r2 : result)
    (_hsize : size ≤ 62)
    (hbuild : setAll (newHashMap size) rs = .ok hm)
    (hwf : ∀ r ∈ rs, r.name.wf) (h1 : r1.name.wf) (hsame : r2.name = r1.name)
    (hempty : ∃ e : Nat, hm.occupied[e]? = some false) :
    ∃ hm1 hm2, hm.set r1 = .ok hm1 ∧ hm1.set r2 = .ok hm2 ∧
      (∃! j : Nat, hm2.occupied[j]? = some true ∧
        ∃ r : result, hm2.data[j]? = some r ∧ r.name.equal r1.name = true) ∧
      hm2.get r1.name = .ok (r2, true) := by
  obtain ⟨f, hf, -⟩ := setAll_holds rs _ hm _ (holds_new size) hwf hbuild
  obtain ⟨e, he⟩ := hempty
  have hroom := occupied_false_slot hm hf.inv e he
  obtain ⟨hm1, hs1, hh1, hmask1⟩ := holds_set_ok hm f hf r1 h1 (fun _ => ⟨e, hroom⟩)
  have h2 : r2.name.wf := by rw [hsame]; exact h1
  have hv : r2.name.value = r1.name.value := by rw [hsame]
  obtain ⟨hm2, hs2, hh2, -⟩ := holds_set_ok hm1 _ hh1 r2 h2
    (fun hn => by rw [hv, Function.update_same] at hn; cases hn)
  have hf2 : Function.update (Function.update f r1.name.value (some r1)) r2.name.value (some r2)
      r1.name.value = some r2 := by rw [hv, Function.update_same]
  refine ⟨hm1, hm2, hs1, hs2, ?_, ?_⟩
  · obtain ⟨-, j, hj⟩ := hh2.complete _ _ hf2
    refine ⟨j, ⟨((slot_eq_some hm2 j r2).1 hj).1, r2, ((slot_eq_some hm2 j r2).1 hj).2,
      (name_equal_iff _ _).2 hv⟩, ?_⟩
    rintro i ⟨ho, r, hd, hq⟩
    have hi : hm2.slot i = some r := (slot_eq_some hm2 i r).2 ⟨ho, hd⟩
    exact hh2.inv.inj i j r r2 hi hj (by rw [(name_equal_iff _ _).1 hq, hv])
  · have := holds_get_ok hm2 _ hh2 r1.name h1 (fun hn => by rw [hf2] at hn; cases hn)
    rw [this, hf2]

theorem set_twice_same_name_witness :
    (2 ≤ 62 ∧
      setAll (newHashMap 2) [⟨⟨[65], 71468255833715⟩, 1, 1, 1, 1⟩,
          ⟨⟨[69], 75866302346559⟩, 5, 5, 5, 1⟩]
        = .ok ⟨3, [true, false, false, true],
            [⟨⟨[69], 75866302346559⟩, 5, 5, 5, 1⟩, result.zero, result.zero,
              ⟨⟨[65], 71468255833715⟩, 1, 1, 1, 1⟩]⟩ ∧
      (∀ r ∈ ([⟨⟨[65], 71468255833715⟩, 1, 1, 1, 1⟩,
          ⟨⟨[69], 75866302346559⟩, 5, 5, 5, 1⟩] : List result), r.name.wf) ∧
      (⟨⟨[69], 75866302346559⟩, 7, 7, 12, 2⟩ : result).name.wf ∧
      (⟨⟨[69], 75866302346559⟩, 3, 7, 15, 3⟩ : result).name = ⟨[69], 75866302346559⟩ ∧
      ∃ e : Nat, (⟨3, [true, false, false, true],
            [⟨⟨[69], 75866302346559⟩, 5, 5, 5, 1⟩, result.zero, result.zero,
              ⟨⟨[65], 71468255833715⟩, 1, 1, 1, 1⟩]⟩ : hashMap).occupied[e]? = some false) ∧
    ∃ hm1 hm2, (⟨3, [true, false, false, true],
            [⟨⟨[69], 75866302346559⟩, 5, 5, 5, 1⟩, result.zero, result.zero,
              ⟨⟨[65], 71468255833715⟩, 1, 1, 1, 1⟩]⟩ : hashMap).set
          ⟨⟨[69], 75866302346559⟩, 7, 7, 12, 2⟩ = .ok hm1 ∧
      hm1.set ⟨⟨[69], 75866302346559⟩, 3, 7, 15, 3⟩ = .ok hm2 ∧
      (∃! j : Nat, hm2.occupied[j]? = some true ∧
        ∃ r : result, hm2.data[j]? = some r ∧ r.name.equal ⟨[69], 75866302346559⟩ = true) ∧
      hm2.get ⟨[69], 75866302346559⟩ = .ok (⟨⟨[69], 75866302346559⟩, 3, 7, 15, 3⟩, true) :=
  ⟨⟨by decide, by decide, by decide, by decide, rfl, ⟨1, by decide⟩⟩,
    set_twice_same_name 2 [⟨⟨[65], 71468255833715⟩, 1, 1, 1, 1⟩,
        ⟨⟨[69], 75866302346559⟩, 5, 5, 5, 1⟩]
      ⟨3, [true, false, false, true],
        [⟨⟨[69], 75866302346559⟩, 5, 5, 5, 1⟩, result.zero, result.zero,
          ⟨⟨[65], 71468255833715⟩, 1, 1, 1, 1⟩]⟩
      ⟨⟨[69], 75866302346559⟩, 7, 7, 12, 2⟩ ⟨⟨[69], 75866302346559⟩, 3, 7, 15, 3⟩
      (by decide) (by decide) (by decide) (by decide) rfl ⟨1, by decide⟩⟩

end OneBRC

namespace OneBRC

/-! ## Worker lemmas -/

theorem encodeAll_cons (r : Record) (rs : List Record) :
    encodeAll (r :: rs) = r.encode ++ encodeAll rs := by
  simp [encodeAll]

theorem encodeAll_append (as bs : List Record) :
    encodeAll (as ++ bs) = encodeAll as ++ encodeAll bs := by
  simp [encodeAll]

theorem encode_length_pos (r : Record) : 0 < r.encode.length := by
  simp [Record.encode]

theorem update_name (r : result) (v : ℚ) : (r.update v).name = r.name := rfl

theorem processRecord_spec (rec : Record) (hw : rec.wf) (pre tail : List Nat) (hm : hashMap)
    (f : List Nat → Option result) (hh : hm.Holds f)
    (hroom : f rec.name = none → ∃ e, e < hm.mask + 1 ∧ hm.slot e = none) :
    ∃ hm1, processRecord (pre ++ rec.encode ++ tail) pre.length hm
        = .ok ((pre ++ rec.encode).length, hm1) ∧
      hm1.Holds (Function.update f rec.name
        (some (((f rec.name).getD (newResult ⟨rec.name, fingerprint rec.name⟩)).update
          rec.value))) ∧
      hm1.mask = hm.mask := by
  obtain ⟨hname, hip, -, hipd, hfpd⟩ := hw
  have h59 : 59 ∉ rec.name := fun h => (hname 59 h).2.1 rfl
  set sg : List Nat := if rec.neg then [45] else [] with hsg
  set V : List Nat := sg ++ rec.intDigits ++ 46 :: (rec.fracDigits ++ 10 :: tail) with hV
  have e1 : pre ++ rec.encode ++ tail = pre ++ (rec.name ++ 59 :: V) := by
    simp [Record.encode, hV, hsg]
  have e2 : pre ++ rec.encode ++ tail = (pre ++ rec.name ++ [59]) ++ V := by
    simp [Record.encode, hV, hsg]
  have s1 : sliceFrom (pre ++ rec.encode ++ tail) pre.length = .ok (rec.name ++ 59 :: V) := by
    rw [e1]; simp [sliceFrom]
  have s2 : sliceFrom (pre ++ rec.encode ++ tail) (pre.length + (rec.name.length + 1))
      = .ok V := by
    rw [e2]
    have : pre.length + (rec.name.length + 1) = (pre ++ rec.name ++ [59]).length := by
      simp
    rw [this]
    simp only [sliceFrom, List.drop_left']
    rw [if_pos (by simp)]
  have p1 : parseName (rec.name ++ 59 :: V)
      = .ok (rec.name.length, ⟨rec.name, fingerprint rec.name⟩) := parseName_spec rec.name V h59
  have p2 : parseValue V = .ok (sg.length + rec.intDigits.length + 1 + rec.fracDigits.length,
      rec.value) := by
    have := parseValue_spec rec.neg rec.intDigits rec.fracDigits tail hip hipd hfpd
    rw [hV, hsg, this]
    have hl : (if rec.neg = true then 1 else 0) = (if rec.neg = true then [45] else []).length := by
      cases rec.neg <;> rfl
    rw [hl]
    rfl
  have hnm : (⟨rec.name, fingerprint rec.name⟩ : name).wf := rfl
  have hlen : pre.length + (rec.name.length + 1)
      + (sg.length + rec.intDigits.length + 1 + rec.fracDigits.length + 1)
      = (pre ++ rec.encode).length := by
    simp [Record.encode, hsg]; omega
  have g1 := holds_get_ok hm f hh ⟨rec.name, fingerprint rec.name⟩ hnm hroom
  cases hf : f rec.name with
  | none =>
    simp only [hf] at g1
    obtain ⟨hm1, hs, hh1, hmask⟩ := holds_set_ok hm f hh
      ((newResult ⟨rec.name, fingerprint rec.name⟩).update rec.value) hnm hroom
    refine ⟨hm1, ?_, ?_, hmask⟩
    · unfold processRecord
      simp only [s1, p1, s2, p2]
      rw [g1]
      simp only [Bool.false_eq_true, if_false, hs, hlen]
    · simpa using hh1
  | some r =>
    simp only [hf] at g1
    obtain ⟨hv, j, hj⟩ := hh.complete _ _ hf
    have hrw : (r.update rec.value).name.wf := hh.inv.wf j r hj
    have hrv : (r.update rec.value).name.value = rec.name := hv
    obtain ⟨hm1, hs, hh1, hmask⟩ := holds_set_ok hm f hh (r.update rec.value) hrw
      (fun hn => by rw [hrv, hf] at hn; cases hn)
    refine ⟨hm1, ?_, ?_, hmask⟩
    · unfold processRecord
      simp only [s1, p1, s2, p2]
      rw [g1]
      simp only [if_true, hs, hlen]
    · rw [hrv] at hh1
      simpa using hh1

theorem valuesOf_append (as bs : List Record) (m : List Nat) :
    valuesOf (as ++ bs) m = valuesOf as m ++ valuesOf bs m := by
  simp [valuesOf]

theorem valuesOf_ne_nil (recs : List Record) (m : List Nat) (h : valuesOf recs m ≠ []) :
    m ∈ recs.map Record.name := by
  unfold valuesOf at h
  obtain ⟨v, hv⟩ := List.exists_mem_of_ne_nil _ h
  obtain ⟨r, hr, -⟩ := List.mem_map.1 hv
  rw [List.mem_filter] at hr
  exact List.mem_map.2 ⟨r, hr.1, by simpa using hr.2⟩

theorem valuesOf_eq_nil (recs : List Record) (m : List Nat) (h : m ∉ recs.map Record.name) :
    valuesOf recs m = [] := by
  by_contra hc
  exact h (valuesOf_ne_nil recs m hc)

theorem valuesOf_nil_of_mem (recs : List Record) (m : List Nat) (h : m ∈ recs.map Record.name) :
    valuesOf recs m ≠ [] := by
  obtain ⟨r, hr, hn⟩ := List.mem_map.1 h
  unfold valuesOf
  intro hc
  have : r ∈ recs.filter (fun r => r.name = m) := List.mem_filter.2 ⟨hr, by simpa using hn⟩
  have h2 : recs.filter (fun r => r.name = m) = [] := by simpa using hc
  rw [h2] at this
  cases this

theorem tableOf_ne_none (recs : List Record) (m : List Nat) (h : tableOf recs m ≠ none) :
    m ∈ recs.map Record.name := by
  apply valuesOf_ne_nil
  intro hc
  exact h (by simp [tableOf, hc])

theorem tableOf_snoc (done : List Record) (rec : Record) :
    tableOf (done ++ [rec]) = Function.update (tableOf done) rec.name
      (some (((tableOf done rec.name).getD (newResult ⟨rec.name, fingerprint rec.name⟩)).update
        rec.value)) := by
  funext m
  by_cases hm : m = rec.name
  · subst hm
    rw [Function.update_same]
    have hv : valuesOf (done ++ [rec]) rec.name = valuesOf done rec.name ++ [rec.value] := by
      rw [valuesOf_append]; simp [valuesOf]
    unfold tableOf
    rw [hv, if_neg (by simp)]
    by_cases h0 : valuesOf done rec.name = []
    · simp [h0, accum]
    · simp [h0, accum, List.foldl_append]
  · rw [Function.update_noteq hm]
    have hv : valuesOf (done ++ [rec]) m = valuesOf done m := by
      rw [valuesOf_append]
      have : valuesOf [rec] m = [] := by
        simp [valuesOf, List.filter_cons, Ne.symm hm]
      rw [this, List.append_nil]
    unfold tableOf
    rw [hv]

theorem processLoop_spec (rest : List Record) :
    ∀ (pre : List Nat) (done : List Record) (hm : hashMap) (fuel : Nat),
      (∀ r ∈ rest, r.wf) → hm.Holds (tableOf done) →
      ((done ++ rest).map Record.name).dedup.length ≤ hm.mask + 1 →
      (encodeAll rest).length < fuel →
      ∃ hm', processLoop (pre ++ encodeAll rest) fuel pre.length hm
          = .ok ((pre ++ encodeAll rest).length, hm') ∧
        hm'.Holds (tableOf (done ++ rest)) ∧ hm'.mask = hm.mask := by
  induction rest with
  | nil =>
    intro pre done hm fuel _ hh _ hf
    obtain ⟨f, rfl⟩ : ∃ f, fuel = f + 1 := ⟨fuel - 1, by omega⟩
    refine ⟨hm, ?_, by simpa using hh, rfl⟩
    simp [processLoop, encodeAll]
  | cons rec rest ih =>
    intro pre done hm fuel hw hh hcap hf
    obtain ⟨f, rfl⟩ : ∃ f, fuel = f + 1 := ⟨fuel - 1, by omega⟩
    have hrw : rec.wf := hw rec (by simp)
    have hroom : tableOf done rec.name = none → ∃ e, e < hm.mask + 1 ∧ hm.slot e = none := by
      intro hn
      apply holds_exists_empty hm _ hh ((done ++ rec :: rest).map Record.name) _ hcap rec.name
        (by simp) hn
      intro m hm0
      have := tableOf_ne_none done m hm0
      simp only [List.map_append, List.mem_append]
      exact Or.inl this
    obtain ⟨hm1, hp, hh1, hmask1⟩ := processRecord_spec rec hrw pre (encodeAll rest) hm _ hh hroom
    rw [← tableOf_snoc] at hh1
    have hfl : (encodeAll rest).length < f := by
      have := encode_length_pos rec
      rw [encodeAll_cons, List.length_append] at hf
      omega
    obtain ⟨hm2, hl, hh2, hmask2⟩ := ih (pre ++ rec.encode) (done ++ [rec]) hm1 f
      (fun r hr => hw r (by simp [hr])) hh1
      (by rw [hmask1]; simpa using hcap) hfl
    have ea : pre ++ encodeAll (rec :: rest) = pre ++ rec.encode ++ encodeAll rest := by
      rw [encodeAll_cons, List.append_assoc]
    refine ⟨hm2, ?_, by simpa using hh2, by rw [hmask2, hmask1]⟩
    rw [processLoop, ea, if_pos, hp]
    · exact hl
    · have := encode_length_pos rec
      simp only [List.length_append]
      omega

/-- A worker on a well-formed range returns the table that represents `tableOf`. -/
theorem processRange_spec (recs : List Record) (hw : ∀ r ∈ recs, r.wf)
    (hcap : (recs.map Record.name).dedup.length ≤ 2 ^ 16) :
    ∃ hm, processRange (encodeAll recs) = .ok hm ∧ hm.Holds (tableOf recs) ∧
      hm.mask + 1 = 2 ^ 16 := by
  have h0 : (newHashMap 16).Holds (tableOf []) := by
    have : tableOf [] = fun _ => none := by funext m; simp [tableOf, valuesOf]
    rw [this]; exact holds_new 16
  have hm16 : (newHashMap 16).mask + 1 = 2 ^ 16 := rfl
  obtain ⟨hm, hl, hh, hmask⟩ := processLoop_spec recs [] [] (newHashMap 16)
    ((encodeAll recs).length + 1) hw h0 (by rw [hm16, List.nil_append]; exact hcap) (by omega)
  refine ⟨hm, ?_, by simpa using hh, by rw [hmask, hm16]⟩
  simp only [List.nil_append, List.length_nil] at hl
  simp [processRange, hl]

end OneBRC

namespace OneBRC

/-! ## What a worker table answers -/

theorem foldl_update_fields (vs : List ℚ) : ∀ r0 : result,
    (vs.foldl result.update r0).name = r0.name ∧
    (vs.foldl result.update r0).min = vs.foldl Min.min r0.min ∧
    (vs.foldl result.update r0).max = vs.foldl Max.max r0.max ∧
    (vs.foldl result.update r0).total = r0.total + vs.sum ∧
    (vs.foldl result.update r0).count = r0.count + (vs.length : Nat) := by
  induction vs with
  | nil => intro r0; simp
  | cons v vs ih =>
    intro r0
    obtain ⟨h1, h2, h3, h4, h5⟩ := ih (r0.update v)
    simp only [List.foldl_cons, h1, h2, h3, h4, h5]
    refine ⟨rfl, rfl, rfl, ?_, ?_⟩
    · simp only [result.update, List.sum_cons]; ring
    · simp only [result.update, List.length_cons]; push_cast; ring

theorem foldl_min_le_init (vs : List ℚ) : ∀ a : ℚ, vs.foldl Min.min a ≤ a := by
  induction vs with
  | nil => intro a; simp
  | cons v vs ih => intro a; exact le_trans (ih _) (min_le_left _ _)

theorem le_foldl_max_init (vs : List ℚ) : ∀ a : ℚ, a ≤ vs.foldl Max.max a := by
  induction vs with
  | nil => intro a; simp
  | cons v vs ih => intro a; exact le_trans (le_max_left _ _) (ih _)

/-- The statistics of the aggregate accumulated from `v :: vs`. -/
theorem accum_stats (m : List Nat) (v : ℚ) (vs : List ℚ) :
    (accum m (v :: vs)).stats = ⟨vs.foldl Min.min (Min.min maxFloat64 v),
      vs.foldl Max.max (Max.max (-maxFloat64) v), (v :: vs).sum, ((v :: vs).length : Nat)⟩ := by
  obtain ⟨-, h2, h3, h4, h5⟩ := foldl_update_fields (v :: vs) (newResult ⟨m, fingerprint m⟩)
  unfold accum result.stats
  rw [h2, h3, h4, h5]
  simp [newResult]

theorem accum_name (m : List Nat) (vs : List ℚ) : (accum m vs).name = ⟨m, fingerprint m⟩ :=
  (foldl_update_fields vs (newResult ⟨m, fingerprint m⟩)).1

/-- What `lookup` answers on a table that represents `f` and has an empty slot
whenever the name is absent. -/
theorem holds_lookup (hm : hashMap) (f : List Nat → Option result) (hh : hm.Holds f)
    (m : List Nat) (hroom : f m = none → ∃ e, e < hm.mask + 1 ∧ hm.slot e = none) :
    hm.lookup m = .ok ((f m).map result.stats) := by
  have := holds_get_ok hm f hh ⟨m, fingerprint m⟩ rfl hroom
  unfold hashMap.lookup
  rw [this]
  cases f m <;> simp

theorem reference_isSome (recs : List Record) (m : List Nat) :
    (reference recs m).isSome ↔ m ∈ recs.map Record.name := by
  unfold reference
  constructor
  · intro h
    apply valuesOf_ne_nil
    intro hc
    rw [hc] at h
    simp at h
  · intro h
    have := valuesOf_nil_of_mem recs m h
    cases hv : valuesOf recs m with
    | nil => exact absurd hv this
    | cons v vs => simp

/-- For values within the finite `float64` range the accumulated aggregate carries the
reference statistics. -/
theorem tableOf_stats (recs : List Record)
    (hfin : ∀ r ∈ recs, -maxFloat64 ≤ r.value ∧ r.value ≤ maxFloat64) (m : List Nat) :
    (tableOf recs m).map result.stats = reference recs m := by
  unfold tableOf reference
  cases hv : valuesOf recs m with
  | nil => simp
  | cons v vs =>
    have hmem : v ∈ valuesOf recs m := by rw [hv]; simp
    unfold valuesOf at hmem
    obtain ⟨r, hr, hrv⟩ := List.mem_map.1 hmem
    have hb := hfin r (List.mem_filter.1 hr).1
    rw [hrv] at hb
    simp only [if_neg (List.cons_ne_nil v vs), Option.map_some', accum_stats]
    rw [min_eq_right hb.2, max_eq_right hb.1]

/-- C3 (amended). For every byte range that is a concatenation of well-formed records
with fewer than 2^16 distinct names and with every value within
`[-MaxFloat64, MaxFloat64]`, `processRange` returns a table in which `get` hits for
exactly the names occurring in the range, and the hit carries the minimum, maximum, sum
and number of the values recorded for that name. -/
theorem processRange_correct (recs : List Record) (hw : ∀ r ∈ recs, r.wf)
    (hcap : (recs.map Record.name).dedup.length < 2 ^ 16)
    (hfin : ∀ r ∈ recs, -maxFloat64 ≤ r.value ∧ r.value ≤ maxFloat64) :
    ∃ hm, processRange (encodeAll recs) = .ok hm ∧
      ∀ m, hm.lookup m = .ok (reference recs m) ∧
        ((reference recs m).isSome ↔ m ∈ recs.map Record.name) := by
  obtain ⟨hm, hp, hh, hmask⟩ := processRange_spec recs hw (le_of_lt hcap)
  refine ⟨hm, hp, fun m => ⟨?_, reference_isSome recs m⟩⟩
  rw [holds_lookup hm _ hh m, tableOf_stats recs hfin m]
  intro _
  exact holds_exists_empty_lt hm _ hh (recs.map Record.name) (tableOf_ne_none recs)
    (by rw [hmask]; exact hcap)

end OneBRC

namespace OneBRC

theorem processRange_correct_witness :
    ((∀ r ∈ ([⟨[72], false, [49, 50], [48]⟩, ⟨[72], false, [56], [48]⟩,
        ⟨[66], true, [50, 48], [53]⟩] : List Record), r.wf) ∧
      (([⟨[72], false, [49, 50], [48]⟩, ⟨[72], false, [56], [48]⟩,
        ⟨[66], true, [50, 48], [53]⟩] : List Record).map Record.name).dedup.length < 2 ^ 16 ∧
      (∀ r ∈ ([⟨[72], false, [49, 50], [48]⟩, ⟨[72], false, [56], [48]⟩,
        ⟨[66], true, [50, 48], [53]⟩] : List Record),
        -maxFloat64 ≤ r.value ∧ r.value ≤ maxFloat64)) ∧
    ∃ hm, processRange (encodeAll [⟨[72], false, [49, 50], [48]⟩, ⟨[72], false, [56], [48]⟩,
        ⟨[66], true, [50, 48], [53]⟩]) = .ok hm ∧
      ∀ m, hm.lookup m = .ok (reference [⟨[72], false, [49, 50], [48]⟩,
          ⟨[72], false, [56], [48]⟩, ⟨[66], true, [50, 48], [53]⟩] m) ∧
        ((reference [⟨[72], false, [49, 50], [48]⟩, ⟨[72], false, [56], [48]⟩,
          ⟨[66], true, [50, 48], [53]⟩] m).isSome ↔
          m ∈ ([⟨[72], false, [49, 50], [48]⟩, ⟨[72], false, [56], [48]⟩,
            ⟨[66], true, [50, 48], [53]⟩] : List Record).map Record.name) := by
  have h1 : ∀ r ∈ ([⟨[72], false, [49, 50], [48]⟩, ⟨[72], false, [56], [48]⟩,
      ⟨[66], true, [50, 48], [53]⟩] : List Record), r.wf := by decide
  have h2 : (([⟨[72], false, [49, 50], [48]⟩, ⟨[72], false, [56], [48]⟩,
      ⟨[66], true, [50, 48], [53]⟩] : List Record).map Record.name).dedup.length < 2 ^ 16 := by
    decide
  have h3 : ∀ r ∈ ([⟨[72], false, [49, 50], [48]⟩, ⟨[72], false, [56], [48]⟩,
      ⟨[66], true, [50, 48], [53]⟩] : List Record),
      -maxFloat64 ≤ r.value ∧ r.value ≤ maxFloat64 := by
    simp [Record.value, Finset.sum_range_succ, Nat.ofDigits, maxFloat64]
    norm_num
  exact ⟨⟨h1, h2, h3⟩, processRange_correct _ h1 h2 h3⟩

theorem ofDigits_replicate_zero (n : Nat) : Nat.ofDigits 10 (List.replicate n 0) = 0 := by
  induction n with
  | zero => rfl
  | succ n ih => simp [List.replicate_succ, Nat.ofDigits_cons, ih]

theorem two_zeros_wf (n : Nat) :
    (⟨[88], false, 50 :: List.replicate n 48, [48]⟩ : Record).wf := by
  unfold Record.wf
  refine ⟨by simp, List.cons_ne_nil _ _, List.cons_ne_nil _ _, ?_, by simp⟩
  intro c hc
  simp only [List.mem_cons, List.mem_replicate] at hc
  rcases hc with rfl | ⟨-, rfl⟩ <;> omega

theorem two_zeros_value (n : Nat) :
    (⟨[88], false, 50 :: List.replicate n 48, [48]⟩ : Record).value = 2 * 10 ^ n := by
  unfold Record.value
  simp only [List.reverse_cons, List.reverse_replicate, List.map_append, List.map_replicate,
    List.map_cons, List.map_nil, Nat.ofDigits_append, List.length_replicate,
    Nat.sub_self, ofDigits_replicate_zero]
  simp [Finset.sum_range_succ, mul_comm]

theorem hugeRecord_value : hugeRecord.value = 2 * 10 ^ 308 := two_zeros_value 308

theorem maxFloat64_lt_huge : maxFloat64 < 2 * 10 ^ 308 := by
  unfold maxFloat64; norm_num

theorem hugeRecord_values : valuesOf [hugeRecord] [88] = [hugeRecord.value] := rfl

theorem hugeRecord_table_stats :
    (tableOf [hugeRecord] [88]).map result.stats
      = some ⟨maxFloat64, 2 * 10 ^ 308, 2 * 10 ^ 308, 1⟩ := by
  unfold tableOf
  rw [hugeRecord_values, if_neg (List.cons_ne_nil _ _), Option.map_some', accum_stats,
    hugeRecord_value]
  have h1 : Min.min maxFloat64 (2 * 10 ^ 308 : ℚ) = maxFloat64 :=
    min_eq_left (le_of_lt maxFloat64_lt_huge)
  have h2 : Max.max (-maxFloat64) (2 * 10 ^ 308 : ℚ) = 2 * 10 ^ 308 := by
    apply max_eq_right
    have : (0 : ℚ) ≤ maxFloat64 := by unfold maxFloat64; norm_num
    have : (0 : ℚ) ≤ 2 * 10 ^ 308 := by norm_num
    linarith
  simp [h1, h2]

theorem hugeRecord_reference :
    reference [hugeRecord] [88] = some ⟨2 * 10 ^ 308, 2 * 10 ^ 308, 2 * 10 ^ 308, 1⟩ := by
  unfold reference
  rw [hugeRecord_values, hugeRecord_value]
  simp

theorem hugeRecord_stats_ne :
    (Except.ok (some ⟨maxFloat64, 2 * 10 ^ 308, 2 * 10 ^ 308, 1⟩) : Except Fault (Option Stats))
      ≠ .ok (some ⟨2 * 10 ^ 308, 2 * 10 ^ 308, 2 * 10 ^ 308, 1⟩) := by
  intro h
  injection h with h
  injection h with h
  injection h with h1
  exact absurd h1 (ne_of_lt maxFloat64_lt_huge)

/-- C3 as stated fails for a value above `math.MaxFloat64`: on the one-record range
`X;2000…0.0\n` (value `2 * 10^308`) the worker returns the minimum `MaxFloat64`, which is
not the minimum of the recorded values. -/
theorem processRange_huge_value_counterexample :
    hugeRecord.wf ∧ ([hugeRecord].map Record.name).dedup.length < 2 ^ 16 ∧
    ∃ hm, processRange (encodeAll [hugeRecord]) = .ok hm ∧
      hm.lookup [88] = .ok (some ⟨maxFloat64, 2 * 10 ^ 308, 2 * 10 ^ 308, 1⟩) ∧
      reference [hugeRecord] [88] = some ⟨2 * 10 ^ 308, 2 * 10 ^ 308, 2 * 10 ^ 308, 1⟩ ∧
      hm.lookup [88] ≠ .ok (reference [hugeRecord] [88]) := by
  have hw : hugeRecord.wf := two_zeros_wf 308
  have hd : ([hugeRecord].map Record.name).dedup.length < 2 ^ 16 := by decide
  obtain ⟨hm, hp, hh, hmask⟩ := processRange_spec [hugeRecord]
    (fun r hr => by rw [List.mem_singleton.1 hr]; exact hw) (le_of_lt hd)
  have hl := holds_lookup hm _ hh [88] (fun _ =>
    holds_exists_empty_lt hm _ hh ([hugeRecord].map Record.name) (tableOf_ne_none _)
      (by rw [hmask]; exact hd))
  rw [hugeRecord_table_stats] at hl
  refine ⟨hw, hd, hm, hp, hl, hugeRecord_reference, ?_⟩
  rw [hl, hugeRecord_reference]
  exact hugeRecord_stats_ne

end OneBRC

namespace OneBRC

/-! ## Every table a worker returns -/

theorem fingerprint_snoc (v : List Nat) (c : Nat) :
    fingerprint (v ++ [c]) = hashByte (fingerprint v) c := by
  simp [fingerprint, List.foldl_append]

theorem parseNameLoop_fingerprint (b : List Nat) :
    ∀ fuel read h n h', parseNameLoop b fuel read h = .ok (n, h') →
      h = fingerprint (b.take read) → h' = fingerprint (b.take n) := by
  intro fuel
  induction fuel with
  | zero => intro read h n h' hp; simp [parseNameLoop] at hp
  | succ f ih =>
    intro read h n h' hp hh
    rw [parseNameLoop] at hp
    unfold unsafeIdx at hp
    cases hb : b[read]? with
    | none => simp [hb] at hp
    | some c =>
      simp only [hb] at hp
      by_cases hc : c = 59
      · simp only [hc, ne_eq, not_true_eq_false, if_false] at hp
        injection hp with hp
        injection hp with h1 h2
        rw [← h1, ← h2]; exact hh
      · simp only [hc, ne_eq, not_false_eq_true, if_true] at hp
        apply ih _ _ _ _ hp
        rw [List.take_succ, hb, hh]
        exact (fingerprint_snoc _ _).symm

theorem parseName_wf (b : List Nat) (n : Nat) (nm : name) (h : parseName b = .ok (n, nm)) :
    nm.wf := by
  unfold parseName at h
  by_cases hb : b = []
  · simp [hb] at h
  · rw [if_neg hb] at h
    cases hl : parseNameLoop b (b.length + 1) 0 0 with
    | error e => simp [hl] at h
    | ok p =>
      obtain ⟨read, nameHash⟩ := p
      simp only [hl] at h
      injection h with h
      injection h with h1 h2
      rw [← h2]
      have := parseNameLoop_fingerprint b _ _ _ _ _ hl (by simp [fingerprint])
      simpa [name.wf] using this

theorem bounded_update (f : List Nat → Option result) (hb : Bounded f) (r : result)
    (hr : r.min ≤ maxFloat64 ∧ -maxFloat64 ≤ r.max) :
    Bounded (Function.update f r.name.value (some r)) := by
  intro m r' h
  by_cases hm : m = r.name.value
  · rw [hm, Function.update_same] at h
    injection h with h
    rw [← h]; exact hr
  · rw [Function.update_noteq hm] at h
    exact hb m r' h

theorem processRecord_inv (fmap : List Nat) (idx : Nat) (hm : hashMap) (idx1 : Nat)
    (hm1 : hashMap) (h : processRecord fmap idx hm = .ok (idx1, hm1))
    (f : List Nat → Option result) (hh : hm.Holds f) (hb : Bounded f) :
    ∃ f1, hm1.Holds f1 ∧ Bounded f1 ∧ hm1.mask = hm.mask := by
  unfold processRecord at h
  cases h1 : sliceFrom fmap idx with
  | error e => simp [h1] at h
  | ok w1 =>
    simp only [h1] at h
    cases h2 : parseName w1 with
    | error e => simp [h2] at h
    | ok p =>
      obtain ⟨n1, nm⟩ := p
      simp only [h2] at h
      cases h3 : sliceFrom fmap (idx + (n1 + 1)) with
      | error e => simp [h3] at h
      | ok w2 =>
        simp only [h3] at h
        cases h4 : parseValue w2 with
        | error e => simp [h4] at h
        | ok q =>
          obtain ⟨n2, value⟩ := q
          simp only [h4] at h
          cases h5 : hm.get nm with
          | error e => simp [h5] at h
          | ok x =>
            obtain ⟨r, ok⟩ := x
            simp only [h5] at h
            cases h6 : hm.set ((if ok = true then r else newResult nm).update value) with
            | error e => simp [h6] at h
            | ok hm2 =>
              simp only [h6] at h
              injection h with h
              injection h with _ h
              rw [h] at h6
              have hnm := parseName_wf w1 n1 nm h2
              have hx := holds_get hm f hh nm hnm _ h5
              have key : ((if ok = true then r else newResult nm).update value).name.wf ∧
                  ((if ok = true then r else newResult nm).update value).min ≤ maxFloat64 ∧
                  -maxFloat64 ≤ ((if ok = true then r else newResult nm).update value).max := by
                cases hf : f nm.value with
                | none =>
                  rw [hf] at hx
                  injection hx with hx1 hx2
                  subst hx2
                  simp only [Bool.false_eq_true, if_false]
                  refine ⟨hnm, ?_, ?_⟩
                  · exact min_le_left _ _
                  · exact le_max_left _ _
                | some r0 =>
                  rw [hf] at hx
                  injection hx with hx1 hx2
                  subst hx1 hx2
                  simp only [if_true]
                  obtain ⟨-, j, hj⟩ := hh.complete _ _ hf
                  refine ⟨hh.inv.wf j r hj, ?_, ?_⟩
                  · exact le_trans (min_le_left _ _) (hb _ _ hf).1
                  · exact le_trans (hb _ _ hf).2 (le_max_left _ _)
              obtain ⟨hh2, hmask⟩ := holds_set hm hm1 f hh _ key.1 h6
              exact ⟨_, hh2, bounded_update f hb _ key.2, hmask⟩

theorem processLoop_inv (fmap : List Nat) :
    ∀ (fuel idx : Nat) (hm : hashMap) (idx' : Nat) (hm' : hashMap),
      processLoop fmap fuel idx hm = .ok (idx', hm') →
      (∃ f, hm.Holds f ∧ Bounded f) → ∃ f', hm'.Holds f' ∧ Bounded f' ∧ hm'.mask = hm.mask := by
  intro fuel
  induction fuel with
  | zero => intro idx hm idx' hm' h; simp [processLoop] at h
  | succ n ih =>
    intro idx hm idx' hm' h hf
    rw [processLoop] at h
    by_cases hi : idx ≠ fmap.length
    · rw [if_pos hi] at h
      cases hp : processRecord fmap idx hm with
      | error e => simp [hp] at h
      | ok p =>
        obtain ⟨idx1, hm1⟩ := p
        simp only [hp] at h
        obtain ⟨f, hh, hb⟩ := hf
        obtain ⟨f1, hh1, hb1, hmask1⟩ := processRecord_inv fmap idx hm idx1 hm1 hp f hh hb
        obtain ⟨f', hh', hb', hmask'⟩ := ih idx1 hm1 idx' hm' h ⟨f1, hh1, hb1⟩
        exact ⟨f', hh', hb', by rw [hmask', hmask1]⟩
    · rw [if_neg hi] at h
      injection h with h
      injection h with _ h
      subst h
      obtain ⟨f, hh, hb⟩ := hf
      exact ⟨f, hh, hb, rfl⟩

/-- Every table returned by `processRange`, on any input, is a well-formed 2^16-slot
table whose entries never exceed the start values of `newResult`. -/
theorem workerTable_holds (fmap : List Nat) (hm : hashMap) (h : processRange fmap = .ok hm) :
    ∃ f, hm.Holds f ∧ Bounded f ∧ hm.mask + 1 = 2 ^ 16 := by
  unfold processRange at h
  cases hp : processLoop fmap (fmap.length + 1) 0 (newHashMap 16) with
  | error e => simp [hp] at h
  | ok p =>
    obtain ⟨idx, hm1⟩ := p
    simp only [hp] at h
    injection h with h
    subst h
    obtain ⟨f, hh, hb, hmask⟩ := processLoop_inv fmap _ _ _ _ _ hp
      ⟨fun _ => none, holds_new 16, fun m r h => by cases h⟩
    exact ⟨f, hh, hb, by rw [hmask]; rfl⟩

end OneBRC

namespace OneBRC

/-! ## Merger lemmas -/

theorem mem_entries (hm : hashMap) (r : result) :
    r ∈ entries hm ↔ ∃ j, hm.slot j = some r := by
  unfold entries
  rw [List.mem_filterMap]
  constructor
  · rintro ⟨j, -, hj⟩; exact ⟨j, hj⟩
  · rintro ⟨j, hj⟩; exact ⟨j, List.mem_range.2 (slot_lt hm j r hj).1, hj⟩

theorem entries_names_nodup (hm : hashMap) (hinv : hm.Inv) :
    ((entries hm).map (fun r => r.name.value)).Nodup := by
  unfold entries
  rw [List.map_filterMap]
  apply List.Nodup.filterMap _ (List.nodup_range _)
  intro a a' b hb hb'
  simp only [Option.mem_def, Option.map_eq_some'] at hb hb'
  obtain ⟨r, hr, e⟩ := hb
  obtain ⟨r', hr', e'⟩ := hb'
  exact hinv.inj a a' r r' hr hr' (by rw [e, e'])

theorem mergeSlots_eq (hm : hashMap) (hlen : hm.data.length = hm.occupied.length)
    (occ : List Bool) :
    ∀ (i : Nat) (res : hashMap), hm.occupied.drop i = occ →
      mergeSlots hm occ i res = mergeItems ((List.range' i occ.length).filterMap hm.slot) res := by
  induction occ with
  | nil => intro i res _; rfl
  | cons b rest ih =>
    intro i res hd
    have hb : hm.occupied[i]? = some b := by
      have := List.getElem?_drop hm.occupied i 0
      rw [hd] at this
      simpa using this.symm
    have hrest : hm.occupied.drop (i + 1) = rest := by
      have := List.tail_drop hm.occupied i
      rw [hd] at this
      simpa using this.symm
    have hi : i < hm.occupied.length := by
      by_contra hc
      have := List.getElem?_eq_none (l := hm.occupied) (n := i) (by omega)
      rw [this] at hb; cases hb
    have hdi : hm.data[i]? = some hm.data[i] := List.getElem?_eq_getElem (by omega)
    rw [mergeSlots, List.length_cons, List.range'_succ, List.filterMap_cons]
    cases b with
    | false =>
      have hs : hm.slot i = none := by unfold hashMap.slot; rw [hb, hdi]
      rw [hs]
      simp only [Bool.not_false, if_true]
      exact ih (i + 1) res hrest
    | true =>
      have hs : hm.slot i = some hm.data[i] := by unfold hashMap.slot; rw [hb, hdi]
      rw [hs, hdi]
      simp only [Bool.not_true, Bool.false_eq_true, if_false, mergeItems]
      cases hmi : mergeItem res hm.data[i] with
      | error e => rfl
      | ok res1 => exact ih (i + 1) res1 hrest

theorem mergeSlots_entries (hm : hashMap) (hinv : hm.Inv) (res : hashMap) :
    mergeSlots hm hm.occupied 0 res = mergeItems (entries hm) res := by
  rw [mergeSlots_eq hm (by rw [hinv.dataLen, hinv.occLen]) hm.occupied 0 res (by simp)]
  rw [entries, List.range_eq_range']

theorem mergeItems_append (as bs : List result) :
    ∀ res, mergeItems (as ++ bs) res =
      match mergeItems as res with
      | .error e => .error e
      | .ok res1 => mergeItems bs res1 := by
  induction as with
  | nil => intro res; rfl
  | cons a as ih =>
    intro res
    simp only [List.cons_append, mergeItems]
    cases mergeItem res a with
    | error e => rfl
    | ok res1 => exact ih res1

theorem mergeTables_items (tables : List hashMap) (hinv : ∀ hm ∈ tables, hm.Inv) :
    ∀ res, mergeTables tables res = mergeItems (tables.flatMap entries) res := by
  induction tables with
  | nil => intro res; rfl
  | cons hm rest ih =>
    intro res
    rw [mergeTables, mergeSlots_entries hm (hinv hm (by simp)), List.flatMap_cons,
      mergeItems_append]
    cases mergeItems (entries hm) res with
    | error e => rfl
    | ok res1 => exact ih (fun x hx => hinv x (by simp [hx])) res1

theorem aggregate_name (r r2 : result) : (r.aggregate r2).name = r.name := rfl

theorem mergeItem_holds (results results' : hashMap) (g : List Nat → Option result)
    (hh : results.Holds g) (item : result) (hw : item.name.wf)
    (h : mergeItem results item = .ok results') :
    results'.Holds (mergeMap g item) ∧ results'.mask = results.mask := by
  unfold mergeItem at h
  cases hg : results.get item.name with
  | error e => simp [hg] at h
  | ok x =>
    obtain ⟨r, ok⟩ := x
    simp only [hg] at h
    have hx := holds_get results g hh item.name hw _ hg
    unfold mergeMap
    cases hf : g item.name.value with
    | none =>
      rw [hf] at hx
      injection hx with hx1 hx2
      subst hx2
      simp only [Bool.false_eq_true, if_false] at h
      have := holds_set results results' g hh ((newResult item.name).aggregate item) hw h
      simpa [aggregate_name, newResult] using this
    | some r0 =>
      rw [hf] at hx
      injection hx with hx1 hx2
      subst hx1 hx2
      simp only [if_true] at h
      obtain ⟨hv, j, hj⟩ := hh.complete _ _ hf
      have := holds_set results results' g hh (r.aggregate item) (hh.inv.wf j r hj) h
      rw [aggregate_name, hv] at this
      simpa using this

theorem mergeItem_ok (results : hashMap) (g : List Nat → Option result)
    (hh : results.Holds g) (item : result) (hw : item.name.wf)
    (hroom : g item.name.value = none → ∃ e, e < results.mask + 1 ∧ results.slot e = none) :
    ∃ results', mergeItem results item = .ok results' ∧ results'.Holds (mergeMap g item) ∧
      results'.mask = results.mask := by
  have hget := holds_get_ok results g hh item.name hw hroom
  have hset : ∃ results', results.set
      ((match g item.name.value with
        | some r => r
        | none => newResult item.name).aggregate item) = .ok results' := by
    cases hf : g item.name.value with
    | none =>
      obtain ⟨r', hr', -⟩ := holds_set_ok results g hh ((newResult item.name).aggregate item) hw
        hroom
      exact ⟨r', hr'⟩
    | some r0 =>
      obtain ⟨hv, j, hj⟩ := hh.complete _ _ hf
      obtain ⟨r', hr', -⟩ := holds_set_ok results g hh (r0.aggregate item)
        (hh.inv.wf j r0 hj) (fun hn => by rw [aggregate_name, hv, hf] at hn; cases hn)
      exact ⟨r', hr'⟩
  obtain ⟨results', hs⟩ := hset
  have hm : mergeItem results item = .ok results' := by
    unfold mergeItem
    rw [hget]
    cases hf : g item.name.value with
    | none => rw [hf] at hs; simpa using hs
    | some r0 => rw [hf] at hs; simpa using hs
  exact ⟨results', hm, mergeItem_holds results results' g hh item hw hm⟩

theorem mergeItems_holds (items : List result) :
    ∀ (results results' : hashMap) (g : List Nat → Option result), results.Holds g →
      (∀ item ∈ items, item.name.wf) → mergeItems items results = .ok results' →
      results'.Holds (items.foldl mergeMap g) ∧ results'.mask = results.mask := by
  induction items with
  | nil =>
    intro results results' g hh _ h
    simp only [mergeItems] at h
    injection h with h
    subst h
    exact ⟨hh, rfl⟩
  | cons item rest ih =>
    intro results results' g hh hw h
    simp only [mergeItems] at h
    cases hm : mergeItem results item with
    | error e => simp [hm] at h
    | ok results1 =>
      simp only [hm] at h
      obtain ⟨hh1, hmask1⟩ := mergeItem_holds results results1 g hh item (hw item (by simp)) hm
      obtain ⟨hh2, hmask2⟩ := ih results1 results' _ hh1 (fun x hx => hw x (by simp [hx])) h
      exact ⟨hh2, by rw [hmask2, hmask1]⟩

theorem mergeMap_ne_none (g : List Nat → Option result) (item : result) (m : List Nat)
    (h : mergeMap g item m ≠ none) : g m ≠ none ∨ m = item.name.value := by
  by_cases hm : m = item.name.value
  · exact Or.inr hm
  · left
    unfold mergeMap at h
    rwa [Function.update_noteq hm] at h

theorem mergeItems_ok (items : List result) :
    ∀ (results : hashMap) (g : List Nat → Option result) (D : List (List Nat)),
      results.Holds g → (∀ item ∈ items, item.name.wf) →
      (∀ m, g m ≠ none → m ∈ D) → (∀ item ∈ items, item.name.value ∈ D) →
      D.dedup.length ≤ results.mask + 1 →
      ∃ results', mergeItems items results = .ok results' ∧
        results'.Holds (items.foldl mergeMap g) ∧ results'.mask = results.mask := by
  induction items with
  | nil => intro results g D hh _ _ _ _; exact ⟨results, rfl, hh, rfl⟩
  | cons item rest ih =>
    intro results g D hh hw hD hitems hcap
    obtain ⟨results1, hm1, hh1, hmask1⟩ := mergeItem_ok results g hh item (hw item (by simp))
      (fun hn => holds_exists_empty results g hh D hD hcap _ (hitems item (by simp)) hn)
    obtain ⟨results2, hm2, hh2, hmask2⟩ := ih results1 (mergeMap g item) D hh1
      (fun x hx => hw x (by simp [hx]))
      (fun m hm => by
        rcases mergeMap_ne_none g item m hm with h | h
        · exact hD m h
        · rw [h]; exact hitems item (by simp))
      (fun x hx => hitems x (by simp [hx])) (by rw [hmask1]; exact hcap)
    refine ⟨results2, ?_, hh2, by rw [hmask2, hmask1]⟩
    simp only [mergeItems, hm1]
    exact hm2

/-- The finite map after merging the items `items` into `g`, name by name. -/
theorem foldl_mergeMap (items : List result) :
    ∀ (g : List Nat → Option result) (m : List Nat), (∀ item ∈ items, item.name.wf) →
      (items.foldl mergeMap g) m =
        if items.filter (fun r => r.name.value = m) = [] then g m
        else some ((items.filter (fun r => r.name.value = m)).foldl result.aggregate
          ((g m).getD (newResult ⟨m, fingerprint m⟩))) := by
  induction items with
  | nil => intro g m _; simp
  | cons item rest ih =>
    intro g m hw
    have hwi := hw item (by simp)
    rw [List.foldl_cons, ih (mergeMap g item) m (fun x hx => hw x (by simp [hx]))]
    by_cases hm : item.name.value = m
    · have hn : item.name = ⟨m, fingerprint m⟩ := by
        have : item.name.hash = fingerprint item.name.value := hwi
        cases hi : item.name with
        | mk v h =>
          rw [hi] at this hm
          simp only at this hm
          rw [this, hm]
      have hg' : mergeMap g item m
          = some (((g m).getD (newResult ⟨m, fingerprint m⟩)).aggregate item) := by
        unfold mergeMap
        rw [hm, Function.update_same, hn]
      have hfil : (item :: rest).filter (fun r => r.name.value = m)
          = item :: rest.filter (fun r => r.name.value = m) := by
        simp [List.filter_cons, hm]
      rw [hfil, hg']
      by_cases hr : rest.filter (fun r => r.name.value = m) = []
      · simp [hr]
      · simp [hr]
    · have hg' : mergeMap g item m = g m := by
        unfold mergeMap
        rw [Function.update_noteq (Ne.symm hm)]
      have hfil : (item :: rest).filter (fun r => r.name.value = m)
          = rest.filter (fun r => r.name.value = m) := by
        simp [List.filter_cons, hm]
      rw [hfil, hg']

end OneBRC

namespace OneBRC

/-! ## Merger correctness -/

theorem foldl_aggregate_stats (is : List result) :
    ∀ a b : result, a.stats = b.stats →
      (is.foldl result.aggregate a).stats = (is.foldl result.aggregate b).stats := by
  induction is with
  | nil => intro a b h; exact h
  | cons i is ih =>
    intro a b h
    apply ih
    simp only [result.stats, Stats.mk.injEq] at h ⊢
    obtain ⟨h1, h2, h3, h4⟩ := h
    simp only [result.aggregate, h1, h2, h3, h4, and_self]

theorem newResult_aggregate_stats (nm : name) (i : result)
    (hb : i.min ≤ maxFloat64 ∧ -maxFloat64 ≤ i.max) :
    ((newResult nm).aggregate i).stats = i.stats := by
  simp only [result.stats, result.aggregate, newResult, Stats.mk.injEq]
  exact ⟨min_eq_right hb.1, max_eq_right hb.2, by ring, by ring⟩

/-- What a list of worker tables provides to the merger. -/
theorem worker_items (tables : List hashMap)
    (hworker : ∀ hm ∈ tables, ∃ fmap, processRange fmap = .ok hm) :
    (∀ hm ∈ tables, hm.Inv) ∧
      ∀ item ∈ tables.flatMap entries,
        item.name.wf ∧ item.min ≤ maxFloat64 ∧ -maxFloat64 ≤ item.max := by
  have hall : ∀ hm ∈ tables, ∃ f, hm.Holds f ∧ Bounded f := by
    intro hm hmem
    obtain ⟨fmap, hp⟩ := hworker hm hmem
    obtain ⟨f, hh, hb, -⟩ := workerTable_holds fmap hm hp
    exact ⟨f, hh, hb⟩
  refine ⟨fun hm hmem => (hall hm hmem).choose_spec.1.inv, ?_⟩
  intro item hi
  obtain ⟨hm, hmem, hin⟩ := List.mem_flatMap.1 hi
  obtain ⟨f, hh, hb⟩ := hall hm hmem
  obtain ⟨j, hj⟩ := (mem_entries hm item).1 hin
  exact ⟨hh.inv.wf j item hj, hb _ _ (hh.sound j item hj)⟩

/-- The merged map carries, per name, the combine of the items of that name. -/
theorem merged_stats (items : List result)
    (hitems : ∀ item ∈ items, item.name.wf ∧ item.min ≤ maxFloat64 ∧ -maxFloat64 ≤ item.max)
    (m : List Nat) :
    ((items.foldl mergeMap (fun _ => none)) m).map result.stats
      = (combineAll (items.filter (fun r => r.name.value = m))).map result.stats := by
  rw [foldl_mergeMap items _ m (fun x hx => (hitems x hx).1)]
  cases hf : items.filter (fun r => r.name.value = m) with
  | nil => simp [combineAll]
  | cons i is =>
    have hi : i ∈ items := by
      have : i ∈ items.filter (fun r => r.name.value = m) := by rw [hf]; simp
      exact (List.mem_filter.1 this).1
    simp only [if_neg (List.cons_ne_nil i is), Option.getD_none, List.foldl_cons, combineAll,
      Option.map_some', Option.some.injEq]
    exact foldl_aggregate_stats is _ _ (newResult_aggregate_stats _ i (hitems i hi).2)

theorem merged_ne_none (items : List result) (hw : ∀ item ∈ items, item.name.wf)
    (m : List Nat) (h : (items.foldl mergeMap (fun _ => none)) m ≠ none) :
    m ∈ items.map (fun r => r.name.value) := by
  rw [foldl_mergeMap items _ m hw] at h
  by_cases hf : items.filter (fun r => r.name.value = m) = []
  · rw [if_pos hf] at h; exact absurd rfl h
  · obtain ⟨i, hi⟩ := List.exists_mem_of_ne_nil _ hf
    rw [List.mem_filter] at hi
    exact List.mem_map.2 ⟨i, hi.1, by simpa using hi.2⟩

theorem newHashMap16_mask : (newHashMap 16).mask + 1 = 2 ^ 16 := rfl

/-- C4 (amended). For every list of worker tables produced by `processRange` that
together hold fewer than 2^16 distinct names, the merge loop of `main` returns a table
that contains, for every name occurring in some worker table, the combine of all its
per-worker aggregates, and no entry for any other name. -/
theorem merge_correct (tables : List hashMap)
    (hworker : ∀ hm ∈ tables, ∃ fmap, processRange fmap = .ok hm)
    (hcap : ((tables.flatMap entries).map (fun r => r.name.value)).dedup.length < 2 ^ 16) :
    ∃ results, mainMerge tables = .ok results ∧
      ∀ m, results.lookup m = .ok (combined tables m) := by
  obtain ⟨hinv, hitems⟩ := worker_items tables hworker
  have hw : ∀ item ∈ tables.flatMap entries, item.name.wf := fun x hx => (hitems x hx).1
  obtain ⟨results, hm, hh, hmask⟩ := mergeItems_ok (tables.flatMap entries) (newHashMap 16)
    (fun _ => none) ((tables.flatMap entries).map (fun r => r.name.value)) (holds_new 16) hw
    (fun m h => absurd rfl h) (fun item hi => List.mem_map.2 ⟨item, hi, rfl⟩)
    (by rw [newHashMap16_mask]; exact le_of_lt hcap)
  refine ⟨results, ?_, fun m => ?_⟩
  · unfold mainMerge
    rw [mergeTables_items tables hinv]
    exact hm
  · rw [holds_lookup results _ hh m, merged_stats _ hitems m]
    · rfl
    · intro _
      exact holds_exists_empty_lt results _ hh _ (merged_ne_none _ hw)
        (by rw [hmask, newHashMap16_mask]; exact hcap)

end OneBRC

namespace OneBRC

/-! ## Faults of the table operations -/

theorem setLoop_no_oob (hm : hashMap) (hinv : hm.Inv) (r : result) :
    ∀ fuel idx, idx < hm.mask + 1 → setLoop hm r fuel idx ≠ .error .outOfBounds := by
  intro fuel
  induction fuel with
  | zero => intro idx _ h; simp [setLoop] at h
  | succ f ih =>
    intro idx hidx
    rw [setLoop_succ hm r f idx (by rw [hinv.occLen]; exact hidx)
      (by rw [hinv.dataLen]; exact hidx)]
    cases hm.slot idx with
    | none => intro h; cases h
    | some r0 =>
      simp only
      by_cases he : r0.name.value = r.name.value
      · simp only [he, if_true]; intro h; cases h
      · simp only [he, if_false]
        exact ih _ (and_mask_lt hm hinv.pow _)

theorem set_error (hm : hashMap) (hinv : hm.Inv) (r : result) (e : Fault)
    (h : hm.set r = .error e) : e = .noTermination := by
  unfold hashMap.set at h
  cases hl : setLoop hm r (hm.mask + 1) (r.name.hash &&& hm.mask) with
  | error e' =>
    simp only [hl] at h
    injection h with h
    subst h
    have := setLoop_no_oob hm hinv r (hm.mask + 1) _ (and_mask_lt hm hinv.pow r.name.hash)
    cases e' with
    | outOfBounds => exact absurd hl this
    | noTermination => rfl
  | ok j =>
    simp only [hl] at h
    have hst := setLoop_stop hm r _ _ _ hl
    have hjd : j < hm.data.length := by rw [hinv.dataLen, ← hinv.occLen]; exact hst.1
    rw [if_pos ⟨hst.1, hjd⟩] at h
    cases h

theorem get_error (hm : hashMap) (hinv : hm.Inv) (nm : name) (e : Fault)
    (h : hm.get nm = .error e) : e = .noTermination := by
  unfold hashMap.get at h
  have e1 := getLoop_eq_setLoop hm (newResult nm) (hm.mask + 1) (nm.hash &&& hm.mask)
  change getLoop hm nm _ _ = _ at e1
  rw [e1] at h
  cases hl : setLoop hm (newResult nm) (hm.mask + 1) (nm.hash &&& hm.mask) with
  | error e' =>
    rw [hl] at h
    simp only [Except.map] at h
    injection h with h
    subst h
    have := setLoop_no_oob hm hinv (newResult nm) (hm.mask + 1) _
      (and_mask_lt hm hinv.pow nm.hash)
    cases e' with
    | outOfBounds => exact absurd hl this
    | noTermination => rfl
  | ok j =>
    rw [hl] at h
    simp only [Except.map] at h
    cases h

theorem mergeItem_error (results : hashMap) (g : List Nat → Option result)
    (hh : results.Holds g) (item : result) (e : Fault)
    (h : mergeItem results item = .error e) : e = .noTermination := by
  unfold mergeItem at h
  cases hg : results.get item.name with
  | error e' =>
    simp only [hg] at h
    injection h with h
    subst h
    exact get_error results hh.inv _ _ hg
  | ok x =>
    obtain ⟨r, ok⟩ := x
    simp only [hg] at h
    exact set_error results hh.inv _ _ h

theorem mergeItems_error (items : List result) :
    ∀ (results : hashMap) (g : List Nat → Option result) (e : Fault), results.Holds g →
      (∀ item ∈ items, item.name.wf) → mergeItems items results = .error e →
      e = .noTermination := by
  induction items with
  | nil => intro results g e _ _ h; simp [mergeItems] at h
  | cons item rest ih =>
    intro results g e hh hw h
    simp only [mergeItems] at h
    cases hm : mergeItem results item with
    | error e' =>
      simp only [hm] at h
      injection h with h
      subst h
      exact mergeItem_error results g hh item _ hm
    | ok results1 =>
      simp only [hm] at h
      obtain ⟨hh1, -⟩ := mergeItem_holds results results1 g hh item (hw item (by simp)) hm
      exact ih results1 _ e hh1 (fun x hx => hw x (by simp [hx])) h

/-! ## Counting names -/

theorem holds_names_subset (hm : hashMap) (f : List Nat → Option result) (hh : hm.Holds f)
    (m : List Nat) : f m ≠ none ↔ m ∈ (entries hm).map (fun r => r.name.value) := by
  constructor
  · intro h
    cases hf : f m with
    | none => exact absurd hf h
    | some r =>
      obtain ⟨hv, j, hj⟩ := hh.complete m r hf
      exact List.mem_map.2 ⟨r, (mem_entries hm r).2 ⟨j, hj⟩, hv⟩
  · intro h
    obtain ⟨r, hr, hv⟩ := List.mem_map.1 h
    obtain ⟨j, hj⟩ := (mem_entries hm r).1 hr
    have := hh.sound j r hj
    rw [hv] at this
    rw [this]
    exact Option.some_ne_none r

theorem entries_length_le (hm : hashMap) (hinv : hm.Inv) : (entries hm).length ≤ hm.mask + 1 := by
  unfold entries
  have := List.length_filterMap_le hm.slot (List.range hm.occupied.length)
  rw [List.length_range] at this
  rw [← hinv.occLen]
  exact this

/-- A table cannot store more distinct names than it has slots. -/
theorem holds_names_le (hm : hashMap) (f : List Nat → Option result) (hh : hm.Holds f)
    (L : List (List Nat)) (hnd : L.Nodup) (hL : ∀ m ∈ L, f m ≠ none) :
    L.length ≤ hm.mask + 1 := by
  have hsub : L ⊆ (entries hm).map (fun r => r.name.value) :=
    fun m hm0 => (holds_names_subset hm f hh m).1 (hL m hm0)
  have := (hnd.subperm hsub).length_le
  rw [List.length_map] at this
  exact le_trans this (entries_length_le hm hh.inv)

theorem entries_length_le_names (hm : hashMap) (f : List Nat → Option result)
    (hh : hm.Holds f) (D : List (List Nat)) (hD : ∀ m, f m ≠ none → m ∈ D) :
    (entries hm).length ≤ D.length := by
  have hsub : (entries hm).map (fun r => r.name.value) ⊆ D :=
    fun m hm0 => hD m ((holds_names_subset hm f hh m).2 hm0)
  have := ((entries_names_nodup hm hh.inv).subperm hsub).length_le
  rwa [List.length_map] at this

theorem dedup_length_le_of_subset (L D : List (List Nat)) (h : L ⊆ D) :
    L.dedup.length ≤ D.dedup.length := by
  apply ((List.nodup_dedup L).subperm _).length_le
  intro m hm
  rw [List.mem_dedup] at hm ⊢
  exact h hm

end OneBRC

namespace OneBRC

/-! ## Concrete inputs for the merger -/

theorem nameOf_injective (i j : Nat) (hi : i < 1048576) (hj : j < 1048576)
    (h : nameOf i = nameOf j) : i = j := by
  simp only [nameOf, List.cons.injEq, and_true] at h
  omega

theorem recordOf_wf (i : Nat) : (recordOf i).wf := by
  unfold Record.wf recordOf
  refine ⟨?_, by simp, by simp, by simp, by simp⟩
  intro c hc
  simp only [nameOf, List.mem_cons, List.mem_singleton, List.not_mem_nil, or_false] at hc
  omega

theorem manyRecords_names (lo n : Nat) :
    (manyRecords lo n).map Record.name = (List.range n).map (fun k => nameOf (lo + k)) := by
  simp [manyRecords, recordOf, Function.comp_def]

theorem manyRecords_wf (lo n : Nat) : ∀ r ∈ manyRecords lo n, r.wf := by
  intro r hr
  obtain ⟨k, -, rfl⟩ := List.mem_map.1 hr
  exact recordOf_wf _

theorem manyRecords_names_length (lo n : Nat) :
    ((manyRecords lo n).map Record.name).length = n := by
  rw [manyRecords_names, List.length_map, List.length_range]

theorem manyRecords_dedup_le (lo n : Nat) :
    ((manyRecords lo n).map Record.name).dedup.length ≤ n := by
  have := (List.dedup_sublist ((manyRecords lo n).map Record.name)).length_le
  rwa [manyRecords_names_length] at this

theorem merged_of_mem (items : List result) (hw : ∀ item ∈ items, item.name.wf)
    (m : List Nat) (h : m ∈ items.map (fun r => r.name.value)) :
    (items.foldl mergeMap (fun _ => none)) m ≠ none := by
  obtain ⟨i, hi, hv⟩ := List.mem_map.1 h
  rw [foldl_mergeMap items _ m hw]
  have hne : items.filter (fun r => r.name.value = m) ≠ [] := by
    intro hc
    have : i ∈ items.filter (fun r => r.name.value = m) :=
      List.mem_filter.2 ⟨hi, by simpa using hv⟩
    rw [hc] at this
    cases this
  rw [if_neg hne]
  exact Option.some_ne_none _

/-- A worker table built from well-formed records stores every name of its range. -/
theorem worker_stores_names (recs : List Record) (hm : hashMap) (hh : hm.Holds (tableOf recs))
    (m : List Nat) (h : m ∈ recs.map Record.name) :
    m ∈ (entries hm).map (fun r => r.name.value) := by
  apply (holds_names_subset hm _ hh m).1
  have := valuesOf_nil_of_mem recs m h
  simp [tableOf, this]

/-- C4 as stated fails: two worker tables with 65535 names each (each below the
capacity 2^16) hold 131070 different names together; the merge loop of `main` fills all
2^16 slots of `results` and then probes forever. -/
theorem merge_capacity_counterexample :
    ∃ tA tB, processRange (encodeAll (manyRecords 0 65535)) = .ok tA ∧
      processRange (encodeAll (manyRecords 65535 65535)) = .ok tB ∧
      (entries tA).length < 2 ^ 16 ∧ (entries tB).length < 2 ^ 16 ∧
      mainMerge [tA, tB] = .error .noTermination := by
  obtain ⟨tA, hpA, hhA, -⟩ := processRange_spec (manyRecords 0 65535) (manyRecords_wf _ _)
    (le_trans (manyRecords_dedup_le _ _) (by norm_num))
  obtain ⟨tB, hpB, hhB, -⟩ := processRange_spec (manyRecords 65535 65535) (manyRecords_wf _ _)
    (le_trans (manyRecords_dedup_le _ _) (by norm_num))
  have hlA : (entries tA).length < 2 ^ 16 := by
    have := entries_length_le_names tA _ hhA _ (tableOf_ne_none (manyRecords 0 65535))
    rw [manyRecords_names_length] at this
    exact lt_of_le_of_lt this (by norm_num)
  have hlB : (entries tB).length < 2 ^ 16 := by
    have := entries_length_le_names tB _ hhB _ (tableOf_ne_none (manyRecords 65535 65535))
    rw [manyRecords_names_length] at this
    exact lt_of_le_of_lt this (by norm_num)
  refine ⟨tA, tB, hpA, hpB, hlA, hlB, ?_⟩
  have hinv : ∀ hm ∈ [tA, tB], hm.Inv := by
    intro hm hmem
    simp only [List.mem_cons, List.mem_singleton, List.not_mem_nil, or_false] at hmem
    rcases hmem with rfl | rfl
    · exact hhA.inv
    · exact hhB.inv
  have hitems : [tA, tB].flatMap entries = entries tA ++ entries tB := by
    simp [List.flatMap]
  have hw : ∀ item ∈ [tA, tB].flatMap entries, item.name.wf := by
    intro item hi
    rw [hitems, List.mem_append] at hi
    rcases hi with hi | hi
    · obtain ⟨j, hj⟩ := (mem_entries tA item).1 hi
      exact hhA.inv.wf j item hj
    · obtain ⟨j, hj⟩ := (mem_entries tB item).1 hi
      exact hhB.inv.wf j item hj
  unfold mainMerge
  rw [mergeTables_items _ hinv]
  cases hm : mergeItems ([tA, tB].flatMap entries) (newHashMap 16) with
  | error e =>
    rw [mergeItems_error _ _ _ e (holds_new 16) hw hm]
  | ok results =>
    exfalso
    obtain ⟨hh, hmask⟩ := mergeItems_holds _ _ _ _ (holds_new 16) hw hm
    have hnd : ((List.range 131070).map nameOf).Nodup := by
      apply List.Nodup.map_on _ (List.nodup_range _)
      intro a ha b hb hab
      rw [List.mem_range] at ha hb
      exact nameOf_injective a b (by omega) (by omega) hab
    have hL : ∀ m ∈ (List.range 131070).map nameOf,
        (([tA, tB].flatMap entries).foldl mergeMap (fun _ => none)) m ≠ none := by
      intro m hmem
      obtain ⟨i, hi, rfl⟩ := List.mem_map.1 hmem
      rw [List.mem_range] at hi
      apply merged_of_mem _ hw
      rw [hitems, List.map_append, List.mem_append]
      by_cases hlt : i < 65535
      · left
        apply worker_stores_names _ tA hhA
        rw [manyRecords_names]
        exact List.mem_map.2 ⟨i, List.mem_range.2 hlt, by simp⟩
      · right
        apply worker_stores_names _ tB hhB
        rw [manyRecords_names]
        exact List.mem_map.2 ⟨i - 65535, List.mem_range.2 (by omega),
          by
            have e : 65535 + (i - 65535) = i := by omega
            simp only [e]⟩
    have := holds_names_le results _ hh _ hnd hL
    rw [List.length_map, List.length_range, hmask, newHashMap16_mask] at this
    norm_num at this

theorem merge_correct_witness :
    ∃ t1 t2,
      processRange (encodeAll [⟨[72], false, [49, 50], [48]⟩, ⟨[72], false, [56], [48]⟩])
        = .ok t1 ∧
      processRange (encodeAll [⟨[66], false, [50, 48], [48]⟩, ⟨[72], true, [49], [53]⟩])
        = .ok t2 ∧
      ((∀ hm ∈ [t1, t2], ∃ fmap, processRange fmap = .ok hm) ∧
        (([t1, t2].flatMap entries).map (fun r => r.name.value)).dedup.length < 2 ^ 16) ∧
      ∃ results, mainMerge [t1, t2] = .ok results ∧
        ∀ m, results.lookup m = .ok (combined [t1, t2] m) := by
  obtain ⟨t1, hp1, hh1, -⟩ := processRange_spec
    [⟨[72], false, [49, 50], [48]⟩, ⟨[72], false, [56], [48]⟩] (by decide) (by decide)
  obtain ⟨t2, hp2, hh2, -⟩ := processRange_spec
    [⟨[66], false, [50, 48], [48]⟩, ⟨[72], true, [49], [53]⟩] (by decide) (by decide)
  have hworker : ∀ hm ∈ [t1, t2], ∃ fmap, processRange fmap = .ok hm := by
    intro hm hmem
    simp only [List.mem_cons, List.mem_singleton, List.not_mem_nil, or_false] at hmem
    rcases hmem with rfl | rfl
    · exact ⟨_, hp1⟩
    · exact ⟨_, hp2⟩
  have hcap : (([t1, t2].flatMap entries).map (fun r => r.name.value)).dedup.length < 2 ^ 16 := by
    have hsub : ([t1, t2].flatMap entries).map (fun r => r.name.value) ⊆ [[72], [66]] := by
      intro m hm
      have e : [t1, t2].flatMap entries = entries t1 ++ entries t2 := by simp [List.flatMap]
      rw [e, List.map_append, List.mem_append] at hm
      rcases hm with hm | hm
      · have := tableOf_ne_none _ m ((holds_names_subset t1 _ hh1 m).2 hm)
        simp at this
        simp [this]
      · have := tableOf_ne_none _ m ((holds_names_subset t2 _ hh2 m).2 hm)
        simp at this
        rcases this with h | h <;> simp [h]
    have := dedup_length_le_of_subset _ _ hsub
    exact lt_of_le_of_lt this (by decide)
  exact ⟨t1, t2, hp1, hp2, ⟨hworker, hcap⟩, merge_correct [t1, t2] hworker hcap⟩

end OneBRC

namespace OneBRC

/-! ## Byte-lexicographic order and the sorted entry list -/

theorem bytesCompare_total (a : List Nat) :
    ∀ b, bytesCompare a b ≤ 0 ∨ bytesCompare b a ≤ 0 := by
  induction a with
  | nil => intro b; cases b <;> simp [bytesCompare]
  | cons x xs ih =>
    intro b
    cases b with
    | nil => simp [bytesCompare]
    | cons y ys =>
      simp only [bytesCompare]
      by_cases h1 : x < y
      · simp [h1]
      · by_cases h2 : y < x
        · simp [h1, h2]
        · simp only [h1, h2, if_false]
          exact ih ys

theorem bytesCompare_trans (a : List Nat) :
    ∀ b c, bytesCompare a b ≤ 0 → bytesCompare b c ≤ 0 → bytesCompare a c ≤ 0 := by
  induction a with
  | nil => intro b c _ _; cases c <;> simp [bytesCompare]
  | cons x xs ih =>
    intro b c hab hbc
    cases b with
    | nil => simp [bytesCompare] at hab
    | cons y ys =>
      cases c with
      | nil => simp [bytesCompare] at hbc
      | cons z zs =>
        simp only [bytesCompare] at hab hbc ⊢
        by_cases h1 : x < y
        · by_cases h3 : y < z
          · simp [show x < z by omega]
          · by_cases h4 : z < y
            · simp [h3, h4] at hbc
            · simp [show x < z by omega]
        · by_cases h2 : y < x
          · simp [h1, h2] at hab
          · simp only [h1, h2, if_false] at hab
            have hxy : x = y := by omega
            subst hxy
            by_cases h3 : x < z
            · simp [h3]
            · by_cases h4 : z < x
              · simp [h3, h4] at hbc
              · simp only [h3, h4, if_false] at hbc ⊢
                exact ih ys zs hab hbc

theorem bytesCompare_antisymm (a : List Nat) :
    ∀ b, bytesCompare a b ≤ 0 → bytesCompare b a ≤ 0 → a = b := by
  induction a with
  | nil => intro b h1 h2; cases b with
    | nil => rfl
    | cons y ys => simp [bytesCompare] at h2
  | cons x xs ih =>
    intro b hab hba
    cases b with
    | nil => simp [bytesCompare] at hab
    | cons y ys =>
      simp only [bytesCompare] at hab hba
      by_cases h1 : x < y
      · have h2 : ¬ y < x := by omega
        simp [h1, h2] at hba
      · by_cases h2 : y < x
        · simp [h1, h2] at hab
        · simp only [h1, h2, if_false] at hab hba
          have hxy : x = y := by omega
          rw [hxy, ih ys hab hba]

theorem nameOrder_total :
    IsTotal result (fun r1 r2 => bytesCompare r1.name.value r2.name.value ≤ 0) :=
  ⟨fun a b => bytesCompare_total a.name.value b.name.value⟩

theorem nameOrder_trans :
    IsTrans result (fun r1 r2 => bytesCompare r1.name.value r2.name.value ≤ 0) :=
  ⟨fun a b c => bytesCompare_trans a.name.value b.name.value c.name.value⟩

theorem sortFunc_perm (l : List result) : (sortFunc l).Perm l :=
  List.perm_insertionSort _ l

theorem sortFunc_sorted (l : List result) :
    (sortFunc l).Sorted (fun r1 r2 => bytesCompare r1.name.value r2.name.value ≤ 0) := by
  haveI := nameOrder_total
  haveI := nameOrder_trans
  exact List.sorted_insertionSort _ l

/-- Entries with pairwise different names have one sorted arrangement only. -/
theorem sortFunc_eq_of_perm (l1 l2 : List result) (hp : l1.Perm l2)
    (hnd : (l1.map (fun r => r.name.value)).Nodup) : sortFunc l1 = sortFunc l2 := by
  have hperm : (sortFunc l1).Perm (sortFunc l2) :=
    ((sortFunc_perm l1).trans hp).trans (sortFunc_perm l2).symm
  have hnd1 : ((sortFunc l1).map (fun r => r.name.value)).Nodup :=
    ((sortFunc_perm l1).map _).nodup_iff.2 hnd
  have hnd2 : ((sortFunc l2).map (fun r => r.name.value)).Nodup :=
    ((hperm.map _).nodup_iff).1 hnd1
  have hs : ∀ l : List result, (l.map (fun r => r.name.value)).Nodup →
      l.Sorted (fun r1 r2 => bytesCompare r1.name.value r2.name.value ≤ 0) →
      l.Sorted (fun r1 r2 => bytesCompare r1.name.value r2.name.value ≤ 0 ∧
        r1.name.value ≠ r2.name.value) := by
    intro l hn hsrt
    exact List.Pairwise.and hsrt (List.pairwise_map.1 hn)
  haveI : IsAntisymm result (fun r1 r2 => bytesCompare r1.name.value r2.name.value ≤ 0 ∧
      r1.name.value ≠ r2.name.value) :=
    ⟨fun a b h1 h2 => absurd (bytesCompare_antisymm _ _ h1.1 h2.1) h1.2⟩
  exact List.eq_of_perm_of_sorted hperm (hs _ hnd1 (sortFunc_sorted l1))
    (hs _ hnd2 (sortFunc_sorted l2))

theorem collectSlots_eq (hm : hashMap) (hlen : hm.data.length = hm.occupied.length)
    (occ : List Bool) :
    ∀ i : Nat, hm.occupied.drop i = occ →
      collectSlots hm occ i = .ok ((List.range' i occ.length).filterMap hm.slot) := by
  induction occ with
  | nil => intro i _; rfl
  | cons b rest ih =>
    intro i hd
    have hb : hm.occupied[i]? = some b := by
      have := List.getElem?_drop hm.occupied i 0
      rw [hd] at this
      simpa using this.symm
    have hrest : hm.occupied.drop (i + 1) = rest := by
      have := List.tail_drop hm.occupied i
      rw [hd] at this
      simpa using this.symm
    have hi : i < hm.occupied.length := by
      by_contra hc
      have := List.getElem?_eq_none (l := hm.occupied) (n := i) (by omega)
      rw [this] at hb; cases hb
    have hdi : hm.data[i]? = some hm.data[i] := List.getElem?_eq_getElem (by omega)
    rw [collectSlots, List.length_cons, List.range'_succ, List.filterMap_cons, ih (i + 1) hrest]
    cases b with
    | false =>
      have hs : hm.slot i = none := by unfold hashMap.slot; rw [hb, hdi]
      rw [hs]
      simp
    | true =>
      have hs : hm.slot i = some hm.data[i] := by unfold hashMap.slot; rw [hb, hdi]
      rw [hs, hdi]
      simp

theorem mainSorted_eq (hm : hashMap) (hinv : hm.Inv) :
    mainSorted hm = .ok (sortFunc (entries hm)) := by
  unfold mainSorted
  rw [collectSlots_eq hm (by rw [hinv.dataLen, hinv.occLen]) hm.occupied 0 (by simp)]
  simp only [entries, List.range_eq_range']

/-! ## Order-insensitivity of the merge -/

theorem aggregate_right_comm (z x y : result) :
    (z.aggregate x).aggregate y = (z.aggregate y).aggregate x := by
  have h1 : Min.min (Min.min z.min x.min) y.min = Min.min (Min.min z.min y.min) x.min := by
    rw [min_assoc, min_comm x.min, ← min_assoc]
  have h2 : Max.max (Max.max z.max x.max) y.max = Max.max (Max.max z.max y.max) x.max := by
    rw [max_assoc, max_comm x.max, ← max_assoc]
  have h3 : z.total + x.total + y.total = z.total + y.total + x.total := add_right_comm _ _ _
  have h4 : z.count + x.count + y.count = z.count + y.count + x.count := add_right_comm _ _ _
  simp only [result.aggregate, h1, h2, h3, h4]

theorem foldl_mergeMap_perm (items items' : List result) (hp : items'.Perm items)
    (hw : ∀ item ∈ items, item.name.wf) (g : List Nat → Option result) :
    items'.foldl mergeMap g = items.foldl mergeMap g := by
  funext m
  have hw' : ∀ item ∈ items', item.name.wf := fun x hx => hw x (hp.mem_iff.1 hx)
  rw [foldl_mergeMap items g m hw, foldl_mergeMap items' g m hw']
  have hf : (items'.filter (fun r => r.name.value = m)).Perm
      (items.filter (fun r => r.name.value = m)) := hp.filter _
  by_cases h0 : items.filter (fun r => r.name.value = m) = []
  · have h0' : items'.filter (fun r => r.name.value = m) = [] := by
      rw [h0] at hf; exact hf.eq_nil
    rw [if_pos h0, if_pos h0']
  · have h0' : items'.filter (fun r => r.name.value = m) ≠ [] := by
      intro hc; rw [hc] at hf; exact h0 hf.symm.eq_nil
    rw [if_neg h0, if_neg h0']
    congr 1
    exact hf.foldl_eq' (fun x _ y _ z => aggregate_right_comm z x y) _

theorem holds_mem_entries (hm : hashMap) (f : List Nat → Option result) (hh : hm.Holds f)
    (r : result) : r ∈ entries hm ↔ f r.name.value = some r := by
  rw [mem_entries]
  constructor
  · rintro ⟨j, hj⟩; exact hh.sound j r hj
  · intro h; exact (hh.complete _ _ h).2

theorem holds_get_entry (hm : hashMap) (f : List Nat → Option result) (hh : hm.Holds f)
    (r : result) (h : r ∈ entries hm) : hm.get r.name = .ok (r, true) := by
  obtain ⟨j, hj⟩ := (mem_entries hm r).1 h
  have hf := hh.sound j r hj
  rw [holds_get_ok hm f hh r.name (hh.inv.wf j r hj) (fun hn => by rw [hf] at hn; cases hn), hf]

theorem entries_perm_of_holds (hm hm' : hashMap) (f : List Nat → Option result)
    (hh : hm.Holds f) (hh' : hm'.Holds f) : (entries hm).Perm (entries hm') := by
  apply (List.perm_ext_iff_of_nodup ((entries_names_nodup hm hh.inv).of_map _)
    ((entries_names_nodup hm' hh'.inv).of_map _)).2
  intro r
  rw [holds_mem_entries hm f hh, holds_mem_entries hm' f hh']

end OneBRC

namespace OneBRC

/-- Merging any arrangement of the items of the worker tables gives a table that
represents the same finite map. -/
theorem merge_arrangement (tables : List hashMap) (items' : List result)
    (hworker : ∀ hm ∈ tables, ∃ fmap, processRange fmap = .ok hm)
    (hitems : items'.Perm (tables.flatMap entries))
    (hfit : ((tables.flatMap entries).map (fun r => r.name.value)).dedup.length ≤ 2 ^ 16) :
    ∃ res, mergeItems items' (newHashMap 16) = .ok res ∧
      res.Holds ((tables.flatMap entries).foldl mergeMap (fun _ => none)) := by
  obtain ⟨-, hit⟩ := worker_items tables hworker
  have hw : ∀ item ∈ tables.flatMap entries, item.name.wf := fun x hx => (hit x hx).1
  have hw' : ∀ item ∈ items', item.name.wf := fun x hx => hw x (hitems.mem_iff.1 hx)
  obtain ⟨res, hm, hh, -⟩ := mergeItems_ok items' (newHashMap 16)
    (fun _ => none) ((tables.flatMap entries).map (fun r => r.name.value)) (holds_new 16) hw'
    (fun m h => absurd rfl h)
    (fun item hi => List.mem_map.2 ⟨item, hitems.mem_iff.1 hi, rfl⟩)
    (by rw [newHashMap16_mask]; exact hfit)
  rw [foldl_mergeMap_perm _ _ hitems hw] at hh
  exact ⟨res, hm, hh⟩

/-- C5. For every list of worker tables whose names together fit in the 2^16-slot result
table, folding the tables in any permutation, or their occupied entries in any order,
returns tables with the same stored aggregates (same name, min, max, total and count),
found by `get` under their names, and hence the same sorted entry list. -/
theorem merge_order_insensitive (tables tables' : List hashMap) (items' : List result)
    (hworker : ∀ hm ∈ tables, ∃ fmap, processRange fmap = .ok hm)
    (hperm : tables'.Perm tables)
    (hitems : items'.Perm (tables.flatMap entries))
    (hfit : ((tables.flatMap entries).map (fun r => r.name.value)).dedup.length ≤ 2 ^ 16) :
    ∃ res res' res'' sorted,
      mainMerge tables = .ok res ∧ mainMerge tables' = .ok res' ∧
      mergeItems items' (newHashMap 16) = .ok res'' ∧
      (∀ r, (r ∈ entries res ↔ r ∈ entries res') ∧ (r ∈ entries res ↔ r ∈ entries res'')) ∧
      (∀ r ∈ entries res, res.get r.name = .ok (r, true) ∧ res'.get r.name = .ok (r, true) ∧
        res''.get r.name = .ok (r, true)) ∧
      mainSorted res = .ok sorted ∧ mainSorted res' = .ok sorted ∧
      mainSorted res'' = .ok sorted := by
  obtain ⟨hinv, -⟩ := worker_items tables hworker
  have hinv' : ∀ hm ∈ tables', hm.Inv := fun hm h => hinv hm (hperm.mem_iff.1 h)
  obtain ⟨res, hm, hh⟩ := merge_arrangement tables _ hworker (List.Perm.refl _) hfit
  obtain ⟨res', hm', hh'⟩ := merge_arrangement tables _ hworker (hperm.flatMap_right entries) hfit
  obtain ⟨res'', hm'', hh''⟩ := merge_arrangement tables items' hworker hitems hfit
  have e1 : ∀ r, r ∈ entries res ↔ r ∈ entries res' := fun r => by
    rw [holds_mem_entries res _ hh, holds_mem_entries res' _ hh']
  have e2 : ∀ r, r ∈ entries res ↔ r ∈ entries res'' := fun r => by
    rw [holds_mem_entries res _ hh, holds_mem_entries res'' _ hh'']
  refine ⟨res, res', res'', sortFunc (entries res), ?_, ?_, hm'', fun r => ⟨e1 r, e2 r⟩, ?_,
    mainSorted_eq res hh.inv, ?_, ?_⟩
  · unfold mainMerge; rw [mergeTables_items tables hinv]; exact hm
  · unfold mainMerge; rw [mergeTables_items tables' hinv']; exact hm'
  · intro r hr
    exact ⟨holds_get_entry res _ hh r hr, holds_get_entry res' _ hh' r ((e1 r).1 hr),
      holds_get_entry res'' _ hh'' r ((e2 r).1 hr)⟩
  · rw [mainSorted_eq res' hh'.inv]
    congr 1
    exact (sortFunc_eq_of_perm _ _ (entries_perm_of_holds res res' _ hh hh')
      (entries_names_nodup res hh.inv)).symm
  · rw [mainSorted_eq res'' hh''.inv]
    congr 1
    exact (sortFunc_eq_of_perm _ _ (entries_perm_of_holds res res'' _ hh hh'')
      (entries_names_nodup res hh.inv)).symm

theorem merge_order_insensitive_witness :
    ∃ t1 t2,
      processRange (encodeAll [⟨[72], false, [49, 50], [48]⟩, ⟨[72], false, [56], [48]⟩])
        = .ok t1 ∧
      processRange (encodeAll [⟨[66], false, [50, 48], [48]⟩, ⟨[72], true, [49], [53]⟩])
        = .ok t2 ∧
      ((∀ hm ∈ [t1, t2], ∃ fmap, processRange fmap = .ok hm) ∧
        [t2, t1].Perm [t1, t2] ∧
        (([t1, t2].flatMap entries).reverse).Perm ([t1, t2].flatMap entries) ∧
        (([t1, t2].flatMap entries).map (fun r => r.name.value)).dedup.length ≤ 2 ^ 16) ∧
      ∃ res res' res'' sorted,
        mainMerge [t1, t2] = .ok res ∧ mainMerge [t2, t1] = .ok res' ∧
        mergeItems ([t1, t2].flatMap entries).reverse (newHashMap 16) = .ok res'' ∧
        (∀ r, (r ∈ entries res ↔ r ∈ entries res') ∧ (r ∈ entries res ↔ r ∈ entries res'')) ∧
        (∀ r ∈ entries res, res.get r.name = .ok (r, true) ∧ res'.get r.name = .ok (r, true) ∧
          res''.get r.name = .ok (r, true)) ∧
        mainSorted res = .ok sorted ∧ mainSorted res' = .ok sorted ∧
        mainSorted res'' = .ok sorted := by
  obtain ⟨t1, hp1, hh1, -⟩ := processRange_spec
    [⟨[72], false, [49, 50], [48]⟩, ⟨[72], false, [56], [48]⟩] (by decide) (by decide)
  obtain ⟨t2, hp2, hh2, -⟩ := processRange_spec
    [⟨[66], false, [50, 48], [48]⟩, ⟨[72], true, [49], [53]⟩] (by decide) (by decide)
  have hworker : ∀ hm ∈ [t1, t2], ∃ fmap, processRange fmap = .ok hm := by
    intro hm hmem
    simp only [List.mem_cons, List.mem_singleton, List.not_mem_nil, or_false] at hmem
    rcases hmem with rfl | rfl
    · exact ⟨_, hp1⟩
    · exact ⟨_, hp2⟩
  have hcap : (([t1, t2].flatMap entries).map (fun r => r.name.value)).dedup.length ≤ 2 ^ 16 := by
    have hsub : ([t1, t2].flatMap entries).map (fun r => r.name.value) ⊆ [[72], [66]] := by
      intro m hm
      have e : [t1, t2].flatMap entries = entries t1 ++ entries t2 := by simp [List.flatMap]
      rw [e, List.map_append, List.mem_append] at hm
      rcases hm with hm | hm
      · have := tableOf_ne_none _ m ((holds_names_subset t1 _ hh1 m).2 hm)
        simp at this
        simp [this]
      · have := tableOf_ne_none _ m ((holds_names_subset t2 _ hh2 m).2 hm)
        simp at this
        rcases this with h | h <;> simp [h]
    have := dedup_length_le_of_subset _ _ hsub
    exact le_trans this (by decide)
  exact ⟨t1, t2, hp1, hp2, ⟨hworker, List.Perm.swap _ _ _, List.reverse_perm _, hcap⟩,
    merge_order_insensitive [t1, t2] [t2, t1] _ hworker (List.Perm.swap _ _ _)
      (List.reverse_perm _) hcap⟩

end OneBRC

namespace OneBRC

/-! ## Partitioner lemmas -/

theorem allOk_map {α β : Type} (f : α → Except Fault β) (g : α → β) (l : List α)
    (h : ∀ x ∈ l, f x = .ok (g x)) : allOk (l.map f) = .ok (l.map g) := by
  induction l with
  | nil => rfl
  | cons x xs ih =>
    simp only [List.map_cons, allOk, h x (by simp), ih (fun y hy => h y (by simp [hy]))]

/-- Partial correctness of the newline scan of `main`. -/
theorem findSplit_ok (fmap : List Nat) :
    ∀ fuel start s, findSplit fmap fuel start = .ok s →
      1 ≤ start ∧ start ≤ s ∧ fmap[s - 1]? = some 10 ∧
        ∀ p, start ≤ p → p < s → fmap[p - 1]? ≠ some 10 := by
  intro fuel
  induction fuel with
  | zero => intro start s h; simp [findSplit] at h
  | succ f ih =>
    intro start s h
    rw [findSplit] at h
    by_cases h0 : start = 0
    · simp [h0] at h
    · rw [if_neg h0] at h
      cases hc : fmap[start - 1]? with
      | none => simp [hc] at h
      | some c =>
        simp only [hc] at h
        by_cases h10 : c = 10
        · simp only [h10, ne_eq, not_true_eq_false, if_false] at h
          injection h with h
          subst h
          exact ⟨by omega, le_refl _, by rw [hc, h10], fun p h1 h2 => by omega⟩
        · simp only [h10, ne_eq, not_false_eq_true, if_true] at h
          obtain ⟨-, h2, h3, h4⟩ := ih _ _ h
          refine ⟨by omega, by omega, h3, fun p hp1 hp2 => ?_⟩
          by_cases hps : p = start
          · rw [hps, hc]
            intro he
            injection he with he
            exact h10 he
          · exact h4 p (by omega) hp2

/-- Progress of the newline scan: it returns when started at a positive offset at or
before the position that follows some newline. -/
theorem findSplit_progress (fmap : List Nat) :
    ∀ fuel start p, 1 ≤ start → start ≤ p → p ≤ fmap.length → fmap[p - 1]? = some 10 →
      p - start < fuel → ∃ s, findSplit fmap fuel start = .ok s := by
  intro fuel
  induction fuel with
  | zero => intro start p _ _ _ _ hf; omega
  | succ f ih =>
    intro start p h1 h2 h3 h4 hf
    rw [findSplit, if_neg (by omega)]
    have hlt : start - 1 < fmap.length := by omega
    rw [List.getElem?_eq_getElem hlt]
    simp only
    by_cases h10 : fmap[start - 1] = 10
    · simp only [h10, ne_eq, not_true_eq_false, if_false]
      exact ⟨start, rfl⟩
    · simp only [h10, ne_eq, not_false_eq_true, if_true]
      have hne : p ≠ start := by
        intro he
        rw [he, List.getElem?_eq_getElem hlt] at h4
        injection h4 with h4
        exact h10 h4
      exact ih (start + 1) p (by omega) (by omega) h3 h4 (by omega)

/-- The candidate offsets of `main` stay strictly inside the file. -/
theorem candidate_lt (len N i : Nat) (hi : i < N) (hq : 1 ≤ len / N) : i * (len / N) < len := by
  have h1 : i * (len / N) + (len / N) ≤ N * (len / N) := by
    have : (i + 1) * (len / N) ≤ N * (len / N) := Nat.mul_le_mul_right _ hi
    linarith [this, Nat.succ_mul i (len / N)]
  have h2 : N * (len / N) ≤ len := Nat.mul_div_le len N
  omega

/-- The split computation of `main` when every candidate offset is positive. -/
theorem splits_spec (fmap : List Nat) (N : Nat)
    (hq : N = 1 ∨ 1 ≤ fmap.length / N)
    (hlast : fmap ≠ [] → fmap[fmap.length - 1]? = some 10) :
    ∃ b : Nat → Nat, mainSplits N fmap = .ok ((List.range N).map b) ∧ b 0 = 0 ∧
      (∀ i, i < N → b i ≤ fmap.length) ∧
      (∀ i, 0 < i → i < N → 1 ≤ b i ∧ fmap[b i - 1]? = some 10 ∧
        i * (fmap.length / N) ≤ b i ∧
        ∀ p, i * (fmap.length / N) ≤ p → p < b i → fmap[p - 1]? ≠ some 10) := by
  have hex : ∀ i, 0 < i → i < N → ∃ s, mainSplit N fmap i = .ok s := by
    intro i hi0 hiN
    have hq1 : 1 ≤ fmap.length / N := by
      rcases hq with h | h
      · omega
      · exact h
    have hlt := candidate_lt fmap.length N i hiN hq1
    have hne : fmap ≠ [] := by
      intro he; rw [he] at hlt; simp at hlt
    unfold mainSplit
    rw [if_neg (by omega)]
    apply findSplit_progress fmap _ _ fmap.length _ (le_of_lt hlt) (le_refl _) (hlast hne)
      (by omega)
    exact Nat.mul_pos hi0 hq1
  let b : Nat → Nat := fun i =>
    match mainSplit N fmap i with
    | .ok s => s
    | .error _ => 0
  have hb : ∀ i, i < N → mainSplit N fmap i = .ok (b i) := by
    intro i hiN
    by_cases hi0 : i = 0
    · subst hi0
      simp [b, mainSplit]
    · obtain ⟨s, hs⟩ := hex i (by omega) hiN
      simp only [b, hs]
  have hprop : ∀ i, 0 < i → i < N → 1 ≤ b i ∧ fmap[b i - 1]? = some 10 ∧
      i * (fmap.length / N) ≤ b i ∧
      ∀ p, i * (fmap.length / N) ≤ p → p < b i → fmap[p - 1]? ≠ some 10 := by
    intro i hi0 hiN
    have h := hb i hiN
    unfold mainSplit at h
    rw [if_neg (by omega)] at h
    obtain ⟨h1, h2, h3, h4⟩ := findSplit_ok fmap _ _ _ h
    exact ⟨by omega, h3, h2, h4⟩
  refine ⟨b, ?_, by simp [b, mainSplit], ?_, hprop⟩
  · unfold mainSplits
    exact allOk_map _ b _ (fun i hi => hb i (List.mem_range.1 hi))
  · intro i hiN
    by_cases hi0 : i = 0
    · subst hi0
      simp [b, mainSplit]
    · obtain ⟨-, h3, -, -⟩ := hprop i (by omega) hiN
      by_contra hc
      have := List.getElem?_eq_none (l := fmap) (n := b i - 1) (by omega)
      rw [this] at h3
      cases h3

end OneBRC

namespace OneBRC

theorem mainRange_spec (fmap : List Nat) (N : Nat) (bd : Nat → Nat) (i : Nat) (hi : i < N)
    (hN : bd N = fmap.length) (hmono : bd i ≤ bd (i + 1)) (hle : bd (i + 1) ≤ fmap.length) :
    mainRange fmap ((List.range N).map bd) i
      = .ok ((fmap.take (bd (i + 1))).drop (bd i)) := by
  have h1 : ((List.range N).map bd)[i]? = some (bd i) := by
    rw [List.getElem?_map, List.getElem?_range hi]; rfl
  have h2 : (if i ≠ ((List.range N).map bd).length - 1 then ((List.range N).map bd)[i + 1]?
      else some fmap.length) = some (bd (i + 1)) := by
    rw [List.length_map, List.length_range]
    by_cases he : i = N - 1
    · rw [if_neg (by simpa using he)]
      have : i + 1 = N := by omega
      rw [this, hN]
    · rw [if_pos he, List.getElem?_map, List.getElem?_range (by omega)]; rfl
  unfold mainRange
  rw [h1]
  simp only [h2]
  rw [if_pos ⟨hmono, hle⟩]

theorem ranges_flatten (fmap : List Nat) (bd : Nat → Nat) (h0 : bd 0 = 0) :
    ∀ k, (∀ i, i < k → bd i ≤ bd (i + 1)) →
      ((List.range k).map (fun i => (fmap.take (bd (i + 1))).drop (bd i))).flatten
        = fmap.take (bd k) := by
  intro k
  induction k with
  | zero => intro _; simp [h0]
  | succ k ih =>
    intro hm
    rw [List.range_succ, List.map_append, List.flatten_append, ih (fun i hi => hm i (by omega))]
    simp only [List.map_cons, List.map_nil, List.flatten_cons, List.flatten_nil, List.append_nil]
    have hk := hm k (by omega)
    have : fmap.take (bd k) = (fmap.take (bd (k + 1))).take (bd k) := by
      rw [List.take_take, min_eq_left hk]
    rw [this, List.take_append_drop]

/-- The partitioner of `main` on a buffer that ends in a newline, for worker counts
whose candidate offsets are positive. -/
theorem partition_spec (fmap : List Nat) (N : Nat) (hN : 1 ≤ N)
    (hq : N = 1 ∨ 1 ≤ fmap.length / N)
    (hlast : fmap ≠ [] → fmap[fmap.length - 1]? = some 10) :
    ∃ bd : Nat → Nat, bd 0 = 0 ∧ bd N = fmap.length ∧ (∀ i, i < N → bd i ≤ bd (i + 1)) ∧
      (∀ i, i ≤ N → bd i ≤ fmap.length) ∧
      (∀ i, 0 < i → i < N → 1 ≤ bd i ∧ fmap[bd i - 1]? = some 10) ∧
      mainSplits N fmap = .ok ((List.range N).map bd) ∧
      mainRanges N fmap
        = .ok ((List.range N).map (fun i => (fmap.take (bd (i + 1))).drop (bd i))) := by
  obtain ⟨b, hs, hb0, hble, hprop⟩ := splits_spec fmap N hq hlast
  let bd : Nat → Nat := fun i => if i < N then b i else fmap.length
  have hbd : ∀ i, i < N → bd i = b i := fun i hi => by simp only [bd, if_pos hi]
  have hbdN : bd N = fmap.length := by simp only [bd, lt_irrefl, if_false]
  have hle : ∀ i, i ≤ N → bd i ≤ fmap.length := by
    intro i hi
    by_cases h : i < N
    · rw [hbd i h]; exact hble i h
    · have : i = N := by omega
      rw [this, hbdN]
  have hmono : ∀ i, i < N → bd i ≤ bd (i + 1) := by
    intro i hi
    by_cases h1 : i + 1 < N
    · rw [hbd i hi, hbd (i + 1) h1]
      by_cases h0 : i = 0
      · rw [h0, hb0]; exact Nat.zero_le _
      · obtain ⟨-, -, -, hmin⟩ := hprop i (by omega) hi
        obtain ⟨-, hnl, hge, -⟩ := hprop (i + 1) (by omega) h1
        by_contra hc
        have hcand : i * (fmap.length / N) ≤ b (i + 1) :=
          le_trans (Nat.mul_le_mul_right _ (Nat.le_succ i)) hge
        exact hmin (b (i + 1)) hcand (by omega) hnl
    · have : i + 1 = N := by omega
      rw [this, hbdN]
      exact hle i (by omega)
  have hsplits : mainSplits N fmap = .ok ((List.range N).map bd) := by
    rw [hs]
    congr 1
    apply List.map_congr_left
    intro i hi
    exact (hbd i (List.mem_range.1 hi)).symm
  refine ⟨bd, by rw [hbd 0 (by omega), hb0], hbdN, hmono, hle, ?_, hsplits, ?_⟩
  · intro i h0 hi
    rw [hbd i hi]
    obtain ⟨h1, h2, -, -⟩ := hprop i h0 hi
    exact ⟨h1, h2⟩
  · unfold mainRanges
    rw [hsplits]
    simp only [List.length_map, List.length_range]
    apply allOk_map
    intro i hi
    rw [List.mem_range] at hi
    exact mainRange_spec fmap N bd i hi hbdN (hmono i hi) (hle (i + 1) (by omega))

/-- Partition correctness for worker counts that do not exceed the file size: the
ranges are `N` in number, start at 0, follow a newline at every inner boundary, and
their concatenation is the buffer. -/
theorem partition_correct (fmap : List Nat) (N : Nat) (hN : 1 ≤ N)
    (hq : N = 1 ∨ N ≤ fmap.length)
    (hlast : fmap ≠ [] → fmap[fmap.length - 1]? = some 10) :
    ∃ splits ranges, mainSplits N fmap = .ok splits ∧ mainRanges N fmap = .ok ranges ∧
      splits.length = N ∧ ranges.length = N ∧ splits[0]? = some 0 ∧
      ranges.flatten = fmap ∧
      (∀ i s, 0 < i → splits[i]? = some s → 1 ≤ s ∧ s ≤ fmap.length ∧ fmap[s - 1]? = some 10) ∧
      ∀ i, i < N → ∃ s e, splits[i]? = some s ∧
        (if i + 1 < N then splits[i + 1]? else some fmap.length) = some e ∧
        s ≤ e ∧ e ≤ fmap.length ∧ ranges[i]? = some ((fmap.take e).drop s) := by
  have hq' : N = 1 ∨ 1 ≤ fmap.length / N := by
    rcases hq with h | h
    · exact Or.inl h
    · exact Or.inr ((Nat.one_le_div_iff (by omega)).2 h)
  obtain ⟨bd, h0, hbN, hmono, hle, hnl, hs, hr⟩ := partition_spec fmap N hN hq' hlast
  have hget : ∀ i, i < N → ((List.range N).map bd)[i]? = some (bd i) := by
    intro i hi
    rw [List.getElem?_map, List.getElem?_range hi]; rfl
  refine ⟨_, _, hs, hr, by simp, by simp, ?_, ?_, ?_, ?_⟩
  · rw [hget 0 (by omega), h0]
  · rw [ranges_flatten fmap bd h0 N hmono, hbN, List.take_length]
  · intro i s hi hsi
    have hiN : i < N := by
      by_contra hc
      rw [List.getElem?_eq_none (by simp; omega)] at hsi
      cases hsi
    rw [hget i hiN] at hsi
    injection hsi with hsi
    rw [← hsi]
    exact ⟨(hnl i hi hiN).1, hle i (by omega), (hnl i hi hiN).2⟩
  · intro i hi
    refine ⟨bd i, bd (i + 1), hget i hi, ?_, hmono i hi, hle (i + 1) (by omega), ?_⟩
    · by_cases h1 : i + 1 < N
      · rw [if_pos h1, hget (i + 1) h1]
      · rw [if_neg h1]
        have : i + 1 = N := by omega
        rw [this, hbN]
    · rw [List.getElem?_map, List.getElem?_range hi]; rfl

/-- C2, the failing case: on the 6-byte file `a;1.0\n` with 8 workers every candidate
offset `i * (6 / 8)` is 0 and the split loop reads `fmap[-1]`. -/
theorem partition_small_file_panics :
    mainSplits 8 [97, 59, 49, 46, 48, 10] = .error .outOfBounds ∧
    mainRanges 8 [97, 59, 49, 46, 48, 10] = .error .outOfBounds := by
  constructor <;> decide

end OneBRC

namespace OneBRC

/-! ## Range boundaries are record boundaries -/

theorem encode_split (r : Record) (hw : r.wf) :
    ∃ body : List Nat, r.encode = body ++ [10] ∧ 10 ∉ body := by
  obtain ⟨hname, -, -, hipd, hfpd⟩ := hw
  refine ⟨r.name ++ 59 :: ((if r.neg then [45] else []) ++ r.intDigits ++ 46 :: r.fracDigits),
    by simp [Record.encode], ?_⟩
  intro h
  simp only [List.mem_append, List.mem_cons] at h
  rcases h with h | h | (h | h) | h | h
  · exact (hname 10 h).2.2 rfl
  · omega
  · cases hn : r.neg <;> simp [hn] at h
  · have := hipd 10 h; omega
  · omega
  · have := hfpd 10 h; omega

theorem encodeAll_eq_nil (recs : List Record) (h : encodeAll recs = []) : recs = [] := by
  cases recs with
  | nil => rfl
  | cons r rs =>
    rw [encodeAll_cons] at h
    have := encode_length_pos r
    have h2 := congrArg List.length h
    simp only [List.length_append, List.length_nil] at h2
    omega

theorem getElem?_length_sub_one_snoc (l : List Nat) (a : Nat) :
    (l ++ [a])[(l ++ [a]).length - 1]? = some a := by
  rw [List.getElem?_append_right (by simp)]
  simp

theorem encodeAll_last (recs : List Record) (h : encodeAll recs ≠ []) :
    (encodeAll recs)[(encodeAll recs).length - 1]? = some 10 := by
  rcases List.eq_nil_or_concat recs with h0 | ⟨L, b, hb⟩
  · rw [h0] at h; exact absurd rfl h
  · rw [hb, List.concat_eq_append, encodeAll_append]
    have e : encodeAll [b] = (b.name ++ 59 :: ((if b.neg then [45] else []) ++ b.intDigits
        ++ 46 :: b.fracDigits)) ++ [10] := by
      simp [encodeAll, Record.encode]
    rw [e, ← List.append_assoc]
    exact getElem?_length_sub_one_snoc _ 10

theorem split_at_boundary (recs : List Record) :
    ∀ p, (∀ r ∈ recs, r.wf) → p ≤ (encodeAll recs).length →
      (p = 0 ∨ (encodeAll recs)[p - 1]? = some 10) →
      ∃ r1 r2, recs = r1 ++ r2 ∧ (encodeAll r1).length = p := by
  induction recs with
  | nil =>
    intro p _ hp _
    exact ⟨[], [], rfl, by simp [encodeAll] at hp ⊢; omega⟩
  | cons rec rest ih =>
    intro p hw hp hb
    by_cases h0 : p = 0
    · exact ⟨[], rec :: rest, rfl, by simp [encodeAll, h0]⟩
    · have hb' : (encodeAll (rec :: rest))[p - 1]? = some 10 := by
        rcases hb with h | h
        · exact absurd h h0
        · exact h
      obtain ⟨body, hbody, hnot⟩ := encode_split rec (hw rec (by simp))
      have hL : rec.encode.length = body.length + 1 := by rw [hbody]; simp
      rw [encodeAll_cons] at hb' hp
      have hge : rec.encode.length ≤ p := by
        by_contra hc
        have hlt : p - 1 < body.length := by omega
        rw [hbody, List.append_assoc, List.getElem?_append_left hlt] at hb'
        exact hnot (List.getElem?_mem hb')
      rw [List.length_append] at hp
      have hb2 : p - rec.encode.length = 0 ∨
          (encodeAll rest)[p - rec.encode.length - 1]? = some 10 := by
        by_cases hz : p - rec.encode.length = 0
        · exact Or.inl hz
        · right
          rw [List.getElem?_append_right (by omega)] at hb'
          rw [← hb']
          congr 1
          omega
      obtain ⟨r1, r2, hr, hlen⟩ := ih (p - rec.encode.length)
        (fun r hr => hw r (by simp [hr])) (by omega) hb2
      refine ⟨rec :: r1, r2, by rw [hr]; rfl, ?_⟩
      rw [encodeAll_cons, List.length_append, hlen]
      omega

/-- Boundaries that follow a newline cut a well-formed buffer into well-formed chunks. -/
theorem chunks_of_boundaries (recs : List Record) (hw : ∀ r ∈ recs, r.wf) (N : Nat)
    (bd : Nat → Nat) (h0 : bd 0 = 0) (hN : bd N = (encodeAll recs).length)
    (hmono : ∀ i, i < N → bd i ≤ bd (i + 1))
    (hle : ∀ i, i ≤ N → bd i ≤ (encodeAll recs).length)
    (hnl : ∀ i, 0 < i → i < N → 1 ≤ bd i ∧ (encodeAll recs)[bd i - 1]? = some 10) :
    ∀ k, k ≤ N → ∃ (cs : List (List Record)) (S : List Record),
      (List.range k).map (fun i => ((encodeAll recs).take (bd (i + 1))).drop (bd i))
        = cs.map encodeAll ∧
      recs = cs.flatten ++ S ∧ (encodeAll recs).drop (bd k) = encodeAll S := by
  intro k
  induction k with
  | zero => intro _; exact ⟨[], recs, rfl, rfl, by rw [h0]; rfl⟩
  | succ k ih =>
    intro hk
    obtain ⟨cs, S, hmap, hrecs, hdrop⟩ := ih (by omega)
    have hwS : ∀ r ∈ S, r.wf := fun r hr => hw r (by rw [hrecs]; simp [hr])
    have hstep := hmono k (by omega)
    have hlek := hle (k + 1) hk
    have hlenS : (encodeAll S).length = (encodeAll recs).length - bd k := by
      rw [← hdrop, List.length_drop]
    have hbnd : bd (k + 1) - bd k = 0 ∨
        (encodeAll S)[bd (k + 1) - bd k - 1]? = some 10 := by
      by_cases hz : bd (k + 1) - bd k = 0
      · exact Or.inl hz
      · right
        rw [← hdrop, List.getElem?_drop]
        have e : bd k + (bd (k + 1) - bd k - 1) = bd (k + 1) - 1 := by omega
        rw [e]
        by_cases hkN : k + 1 < N
        · exact (hnl (k + 1) (by omega) hkN).2
        · have hkk : k + 1 = N := by omega
          rw [hkk, hN]
          apply encodeAll_last
          intro hnil
          rw [hnil] at hlek
          simp at hlek
          omega
    obtain ⟨C, S', hS, hC⟩ := split_at_boundary S (bd (k + 1) - bd k) hwS (by omega) hbnd
    refine ⟨cs ++ [C], S', ?_, ?_, ?_⟩
    · rw [List.range_succ, List.map_append, hmap, List.map_append]
      congr 1
      simp only [List.map_cons, List.map_nil, List.cons.injEq, and_true]
      rw [List.drop_take, hdrop, hS, encodeAll_append, List.take_left' hC]
    · rw [hrecs, hS]; simp
    · have : bd (k + 1) = bd k + (bd (k + 1) - bd k) := by omega
      rw [this, ← List.drop_drop, hdrop, hS, encodeAll_append, List.drop_left' hC]

end OneBRC

namespace OneBRC

/-! ## Workers over the chunks and the merged statistics -/

theorem workers_spec (cs : List (List Record)) (hw : ∀ c ∈ cs, ∀ r ∈ c, r.wf)
    (hcap : ∀ c ∈ cs, (c.map Record.name).dedup.length ≤ 2 ^ 16) :
    ∃ ts, allOk ((cs.map encodeAll).map processRange) = .ok ts ∧
      List.Forall₂ (fun c t => processRange (encodeAll c) = .ok t ∧ t.Holds (tableOf c))
        cs ts := by
  induction cs with
  | nil => exact ⟨[], rfl, List.Forall₂.nil⟩
  | cons c cs ih =>
    obtain ⟨t, hp, hh, -⟩ := processRange_spec c (hw c (by simp)) (hcap c (by simp))
    obtain ⟨ts, hts, hf⟩ := ih (fun x hx => hw x (by simp [hx])) (fun x hx => hcap x (by simp [hx]))
    refine ⟨t :: ts, ?_, List.Forall₂.cons ⟨hp, hh⟩ hf⟩
    simp only [List.map_cons, allOk, hp, hts]

theorem nodup_eq_singleton (l : List result) (a : result) (hnd : l.Nodup)
    (hall : ∀ x ∈ l, x = a) (ha : a ∈ l) : l = [a] := by
  cases l with
  | nil => cases ha
  | cons x t =>
    have hx : x = a := hall x (by simp)
    cases t with
    | nil => rw [hx]
    | cons y t' =>
      exfalso
      have hy : y = a := hall y (by simp)
      rw [hx, hy] at hnd
      simp at hnd

/-- A table holds at most one entry per name: the entry of its finite map. -/
theorem entries_filter (hm : hashMap) (f : List Nat → Option result) (hh : hm.Holds f)
    (m : List Nat) : (entries hm).filter (fun r => r.name.value = m) = (f m).toList := by
  have hnd : ((entries hm).filter (fun r => r.name.value = m)).Nodup :=
    ((entries_names_nodup hm hh.inv).of_map _).filter _
  have hmem : ∀ r, r ∈ (entries hm).filter (fun r => r.name.value = m) ↔ f m = some r := by
    intro r
    rw [List.mem_filter, holds_mem_entries hm f hh]
    constructor
    · rintro ⟨h1, h2⟩
      have : r.name.value = m := by simpa using h2
      rw [← this]; exact h1
    · intro h
      have hv := (hh.complete m r h).1
      exact ⟨by rw [hv]; exact h, by simpa using hv⟩
  cases hf : f m with
  | none =>
    apply List.eq_nil_iff_forall_not_mem.2
    intro r hr
    rw [hmem, hf] at hr
    cases hr
  | some r0 =>
    apply nodup_eq_singleton _ r0 hnd
    · intro x hx
      rw [hmem, hf] at hx
      injection hx with hx
      exact hx.symm
    · rw [hmem, hf]

theorem foldl_min_min (ws : List ℚ) :
    ∀ x y : ℚ, ws.foldl Min.min (Min.min x y) = Min.min x (ws.foldl Min.min y) := by
  induction ws with
  | nil => intro x y; rfl
  | cons w ws ih =>
    intro x y
    simp only [List.foldl_cons]
    rw [min_assoc, ih]

theorem foldl_max_max (ws : List ℚ) :
    ∀ x y : ℚ, ws.foldl Max.max (Max.max x y) = Max.max x (ws.foldl Max.max y) := by
  induction ws with
  | nil => intro x y; rfl
  | cons w ws ih =>
    intro x y
    simp only [List.foldl_cons]
    rw [max_assoc, ih]

theorem accum_stats_eq (m : List Nat) (vs : List ℚ) :
    (accum m vs).stats = ⟨vs.foldl Min.min maxFloat64, vs.foldl Max.max (-maxFloat64),
      vs.sum, (vs.length : Nat)⟩ := by
  obtain ⟨-, h2, h3, h4, h5⟩ := foldl_update_fields vs (newResult ⟨m, fingerprint m⟩)
  unfold accum result.stats
  rw [h2, h3, h4, h5]
  simp [newResult]

/-- Combining an aggregate that stands for the values `vs` with the worker aggregate
of the values `ws` stands for `vs ++ ws`. -/
theorem aggregate_accum (m : List Nat) (a : result) (vs ws : List ℚ)
    (ha : a.stats = (accum m vs).stats) :
    (a.aggregate (accum m ws)).stats = (accum m (vs ++ ws)).stats := by
  rw [accum_stats_eq] at ha
  have hw := accum_stats_eq m ws
  rw [accum_stats_eq]
  simp only [result.stats, Stats.mk.injEq] at ha hw ⊢
  obtain ⟨a1, a2, a3, a4⟩ := ha
  obtain ⟨w1, w2, w3, w4⟩ := hw
  simp only [result.aggregate, a1, a2, a3, a4, w1, w2, w3, w4, List.foldl_append,
    List.sum_append, List.length_append]
  refine ⟨?_, ?_, trivial, by push_cast; ring⟩
  · have hA : vs.foldl Min.min maxFloat64 ≤ maxFloat64 := foldl_min_le_init vs _
    rw [← foldl_min_min]
    rw [min_eq_left hA]
  · have hA : -maxFloat64 ≤ vs.foldl Max.max (-maxFloat64) := le_foldl_max_init vs _
    rw [← foldl_max_max]
    rw [max_eq_left hA]

theorem valuesOf_flatten_cons (c : List Record) (cs : List (List Record)) (m : List Nat) :
    valuesOf (c :: cs).flatten m = valuesOf c m ++ valuesOf cs.flatten m := by
  rw [List.flatten_cons, valuesOf_append]

/-- The fold of the merge over the entries for `m` of the worker tables of the chunks
`cs` stands for all values of `m` in `cs.flatten`. -/
theorem merged_chunks (m : List Nat) (cs : List (List Record)) (ts : List hashMap)
    (h : List.Forall₂ (fun c t => t.Holds (tableOf c)) cs ts) :
    ∀ (a : result) (vs : List ℚ), a.stats = (accum m vs).stats →
      (((ts.flatMap entries).filter (fun r => r.name.value = m)).foldl result.aggregate a).stats
        = (accum m (vs ++ valuesOf cs.flatten m)).stats ∧
      ((ts.flatMap entries).filter (fun r => r.name.value = m) = [] ↔
        valuesOf cs.flatten m = []) := by
  induction h with
  | nil =>
    intro a vs ha
    simp [valuesOf, ha]
  | @cons c t cs ts hct _ ih =>
    intro a vs ha
    have hfil : ((t :: ts).flatMap entries).filter (fun r => r.name.value = m)
        = (tableOf c m).toList ++ (ts.flatMap entries).filter (fun r => r.name.value = m) := by
      rw [List.flatMap_cons, List.filter_append, entries_filter t _ hct m]
    rw [hfil, valuesOf_flatten_cons]
    by_cases hv : valuesOf c m = []
    · have : tableOf c m = none := by simp [tableOf, hv]
      rw [this, hv]
      simpa using ih a vs ha
    · have : tableOf c m = some (accum m (valuesOf c m)) := by simp [tableOf, hv]
      rw [this]
      simp only [Option.toList_some, List.singleton_append, List.foldl_cons,
        List.cons_ne_nil, false_iff, List.append_eq_nil, hv, false_and, not_false_eq_true,
        and_true]
      have := (ih (a.aggregate (accum m (valuesOf c m))) (vs ++ valuesOf c m)
        (aggregate_accum m a vs _ ha)).1
      rw [this, List.append_assoc]

end OneBRC

namespace OneBRC

/-! ## End to end -/

theorem forall₂_right {α β : Type} (R : α → β → Prop) (as : List α) (bs : List β)
    (h : List.Forall₂ R as bs) : ∀ b ∈ bs, ∃ a ∈ as, R a b := by
  induction h with
  | nil => intro b hb; cases hb
  | cons hab _ ih =>
    intro b hb
    rcases List.mem_cons.1 hb with rfl | hb
    · exact ⟨_, by simp, hab⟩
    · obtain ⟨a, ha, hr⟩ := ih b hb
      exact ⟨a, by simp [ha], hr⟩

theorem names_flatten_subset (cs : List (List Record)) (c : List Record) (hc : c ∈ cs) :
    c.map Record.name ⊆ cs.flatten.map Record.name := by
  intro m hm
  obtain ⟨r, hr, rfl⟩ := List.mem_map.1 hm
  exact List.mem_map.2 ⟨r, List.mem_flatten.2 ⟨c, hc, hr⟩, rfl⟩

/-- The whole data path on a well-formed input, for worker counts whose candidate
offsets are positive: the merged table represents the map accumulated from all values
of every name. -/
theorem main_spec (recs : List Record) (numCpu : Nat) (hw : ∀ r ∈ recs, r.wf)
    (hcap : (recs.map Record.name).dedup.length < 2 ^ 16)
    (hN : 1 ≤ numCpu) (hsize : numCpu = 1 ∨ numCpu ≤ (encodeAll recs).length) :
    ∃ tables, mainTables numCpu (encodeAll recs) = .ok tables ∧ tables.length = numCpu ∧
      ∀ arrival, arrival.Perm tables →
        ∃ results, mainMerge arrival = .ok results ∧
          ∀ m, results.lookup m = .ok ((tableOf recs m).map result.stats) := by
  have hq : numCpu = 1 ∨ 1 ≤ (encodeAll recs).length / numCpu := by
    rcases hsize with h | h
    · exact Or.inl h
    · exact Or.inr ((Nat.one_le_div_iff (by omega)).2 h)
  obtain ⟨bd, h0, hbN, hmono, hle, hnl, -, hr⟩ := partition_spec (encodeAll recs) numCpu hN hq
    (encodeAll_last recs)
  obtain ⟨cs, S, hmap, hrecs, hdrop⟩ := chunks_of_boundaries recs hw numCpu bd h0 hbN hmono hle
    hnl numCpu (le_refl _)
  have hS : S = [] := by
    apply encodeAll_eq_nil
    rw [← hdrop, hbN, List.drop_length]
  rw [hS, List.append_nil] at hrecs
  have hwc : ∀ c ∈ cs, ∀ r ∈ c, r.wf := fun c hc r hr =>
    hw r (by rw [hrecs]; exact List.mem_flatten.2 ⟨c, hc, hr⟩)
  have hsubc : ∀ c ∈ cs, c.map Record.name ⊆ recs.map Record.name := by
    intro c hc
    rw [hrecs]
    exact names_flatten_subset cs c hc
  have hcapc : ∀ c ∈ cs, (c.map Record.name).dedup.length ≤ 2 ^ 16 := fun c hc =>
    le_trans (dedup_length_le_of_subset _ _ (hsubc c hc)) (le_of_lt hcap)
  obtain ⟨ts, hts, hf⟩ := workers_spec cs hwc hcapc
  have hlen : ts.length = numCpu := by
    have h1 := hf.length_eq
    have h2 := congrArg List.length hmap
    simp only [List.length_map, List.length_range] at h2
    omega
  have hholds : List.Forall₂ (fun c t => t.Holds (tableOf c)) cs ts :=
    hf.imp (fun _ _ h => h.2)
  have hworker : ∀ hm ∈ ts, ∃ fmap, processRange fmap = .ok hm := by
    intro t ht
    obtain ⟨c, -, hp, -⟩ := forall₂_right _ cs ts hf t ht
    exact ⟨_, hp⟩
  obtain ⟨hinv, hitems⟩ := worker_items ts hworker
  have hwi : ∀ item ∈ ts.flatMap entries, item.name.wf := fun x hx => (hitems x hx).1
  have hsub : (ts.flatMap entries).map (fun r => r.name.value) ⊆ recs.map Record.name := by
    intro m hm
    obtain ⟨item, hi, rfl⟩ := List.mem_map.1 hm
    obtain ⟨t, ht, hit⟩ := List.mem_flatMap.1 hi
    obtain ⟨c, hc, -, hh⟩ := forall₂_right _ cs ts hf t ht
    apply hsubc c hc
    apply tableOf_ne_none
    exact (holds_names_subset t _ hh _).2 (List.mem_map.2 ⟨item, hit, rfl⟩)
  have hfit : ((ts.flatMap entries).map (fun r => r.name.value)).dedup.length < 2 ^ 16 :=
    lt_of_le_of_lt (dedup_length_le_of_subset _ _ hsub) hcap
  refine ⟨ts, ?_, hlen, ?_⟩
  · unfold mainTables
    rw [hr]
    simp only [hmap]
    exact hts
  · intro arrival hperm
    obtain ⟨res, hm, hh⟩ := merge_arrangement ts (arrival.flatMap entries) hworker
      (hperm.flatMap_right entries) (le_of_lt hfit)
    have hmask : res.mask + 1 = 2 ^ 16 := by
      have := (mergeItems_holds _ _ _ _ (holds_new 16)
        (fun x hx => hwi x ((hperm.flatMap_right entries).mem_iff.1 hx)) hm).2
      rw [this]; rfl
    refine ⟨res, ?_, fun m => ?_⟩
    · unfold mainMerge
      rw [mergeTables_items arrival (fun t ht => hinv t (hperm.mem_iff.1 ht))]
      exact hm
    · rw [holds_lookup res _ hh m (fun _ => holds_exists_empty_lt res _ hh _
        (merged_ne_none _ hwi) (by rw [hmask]; exact hfit))]
      congr 1
      rw [foldl_mergeMap _ _ m hwi]
      obtain ⟨hst, hnil⟩ := merged_chunks m cs ts hholds (newResult ⟨m, fingerprint m⟩) [] rfl
      rw [← hrecs] at hst hnil
      unfold tableOf
      by_cases hv : valuesOf recs m = []
      · rw [if_pos (hnil.2 hv), if_pos hv]
      · rw [if_neg (fun h => hv (hnil.1 h)), if_neg hv]
        simp only [Option.getD_none, Option.map_some', Option.some.injEq]
        rw [hst, List.nil_append]

/-- C1 (amended). For every input that obeys the record grammar with fewer than 2^16
distinct names and every value within `[-MaxFloat64, MaxFloat64]`, and for every worker
count `N ≥ 1` that does not exceed the file size (or `N = 1`), the `N` ranges of `main`
are processed into `N` tables, and folding these tables in any order of arrival yields,
for every name, exactly the min, max, sum and count of the single-threaded reference,
and no entry for any other name. -/
theorem main_exact (recs : List Record) (numCpu : Nat) (hw : ∀ r ∈ recs, r.wf)
    (hcap : (recs.map Record.name).dedup.length < 2 ^ 16)
    (hfin : ∀ r ∈ recs, -maxFloat64 ≤ r.value ∧ r.value ≤ maxFloat64)
    (hN : 1 ≤ numCpu) (hsize : numCpu = 1 ∨ numCpu ≤ (encodeAll recs).length) :
    ∃ tables, mainTables numCpu (encodeAll recs) = .ok tables ∧ tables.length = numCpu ∧
      ∀ arrival, arrival.Perm tables →
        ∃ results, mainMerge arrival = .ok results ∧
          ∀ m, results.lookup m = .ok (reference recs m) ∧
            ((reference recs m).isSome ↔ m ∈ recs.map Record.name) := by
  obtain ⟨tables, ht, hlen, hall⟩ := main_spec recs numCpu hw hcap hN hsize
  refine ⟨tables, ht, hlen, fun arrival hp => ?_⟩
  obtain ⟨results, hm, hl⟩ := hall arrival hp
  refine ⟨results, hm, fun m => ⟨?_, reference_isSome recs m⟩⟩
  rw [hl m, tableOf_stats recs hfin m]

theorem main_exact_witness :
    ((∀ r ∈ ([⟨[72], false, [49, 50], [48]⟩, ⟨[72], false, [56], [48]⟩,
        ⟨[66], true, [50, 48], [53]⟩] : List Record), r.wf) ∧
      (([⟨[72], false, [49, 50], [48]⟩, ⟨[72], false, [56], [48]⟩,
        ⟨[66], true, [50, 48], [53]⟩] : List Record).map Record.name).dedup.length < 2 ^ 16 ∧
      (∀ r ∈ ([⟨[72], false, [49, 50], [48]⟩, ⟨[72], false, [56], [48]⟩,
        ⟨[66], true, [50, 48], [53]⟩] : List Record),
        -maxFloat64 ≤ r.value ∧ r.value ≤ maxFloat64) ∧
      1 ≤ 2 ∧
      (2 = 1 ∨ 2 ≤ (encodeAll [⟨[72], false, [49, 50], [48]⟩, ⟨[72], false, [56], [48]⟩,
        ⟨[66], true, [50, 48], [53]⟩]).length)) ∧
    ∃ tables, mainTables 2 (encodeAll [⟨[72], false, [49, 50], [48]⟩,
        ⟨[72], false, [56], [48]⟩, ⟨[66], true, [50, 48], [53]⟩]) = .ok tables ∧
      tables.length = 2 ∧
      ∀ arrival, arrival.Perm tables →
        ∃ results, mainMerge arrival = .ok results ∧
          ∀ m, results.lookup m = .ok (reference [⟨[72], false, [49, 50], [48]⟩,
              ⟨[72], false, [56], [48]⟩, ⟨[66], true, [50, 48], [53]⟩] m) ∧
            ((reference [⟨[72], false, [49, 50], [48]⟩, ⟨[72], false, [56], [48]⟩,
              ⟨[66], true, [50, 48], [53]⟩] m).isSome ↔
              m ∈ ([⟨[72], false, [49, 50], [48]⟩, ⟨[72], false, [56], [48]⟩,
                ⟨[66], true, [50, 48], [53]⟩] : List Record).map Record.name) := by
  have h1 : ∀ r ∈ ([⟨[72], false, [49, 50], [48]⟩, ⟨[72], false, [56], [48]⟩,
      ⟨[66], true, [50, 48], [53]⟩] : List Record), r.wf := by decide
  have h2 : (([⟨[72], false, [49, 50], [48]⟩, ⟨[72], false, [56], [48]⟩,
      ⟨[66], true, [50, 48], [53]⟩] : List Record).map Record.name).dedup.length < 2 ^ 16 := by
    decide
  have h3 : ∀ r ∈ ([⟨[72], false, [49, 50], [48]⟩, ⟨[72], false, [56], [48]⟩,
      ⟨[66], true, [50, 48], [53]⟩] : List Record),
      -maxFloat64 ≤ r.value ∧ r.value ≤ maxFloat64 := by
    simp [Record.value, Finset.sum_range_succ, Nat.ofDigits, maxFloat64]
    norm_num
  have h5 : (2 = 1 ∨ 2 ≤ (encodeAll [⟨[72], false, [49, 50], [48]⟩, ⟨[72], false, [56], [48]⟩,
      ⟨[66], true, [50, 48], [53]⟩]).length) := Or.inr (by decide)
  exact ⟨⟨h1, h2, h3, by decide, h5⟩, main_exact _ 2 h1 h2 h3 (by decide) h5⟩

/-- C1 as stated fails for a value above `math.MaxFloat64`: on the one-record input
`X;2000…0.0\n` (value `2 * 10^308`) with one worker the merged table reports the minimum
`MaxFloat64`, not the minimum of the single-threaded reference. -/
theorem main_huge_value_counterexample :
    hugeRecord.wf ∧ ([hugeRecord].map Record.name).dedup.length < 2 ^ 16 ∧
    ∃ tables results, mainTables 1 (encodeAll [hugeRecord]) = .ok tables ∧
      mainMerge tables = .ok results ∧
      results.lookup [88] = .ok (some ⟨maxFloat64, 2 * 10 ^ 308, 2 * 10 ^ 308, 1⟩) ∧
      reference [hugeRecord] [88] = some ⟨2 * 10 ^ 308, 2 * 10 ^ 308, 2 * 10 ^ 308, 1⟩ ∧
      results.lookup [88] ≠ .ok (reference [hugeRecord] [88]) := by
  have hw : hugeRecord.wf := two_zeros_wf 308
  have hd : ([hugeRecord].map Record.name).dedup.length < 2 ^ 16 := by decide
  obtain ⟨tables, ht, -, hall⟩ := main_spec [hugeRecord] 1
    (fun r hr => by rw [List.mem_singleton.1 hr]; exact hw) hd (le_refl 1) (Or.inl rfl)
  obtain ⟨results, hm, hl⟩ := hall tables (List.Perm.refl _)
  have hl88 := hl [88]
  rw [hugeRecord_table_stats] at hl88
  refine ⟨hw, hd, tables, results, ht, hm, hl88, hugeRecord_reference, ?_⟩
  rw [hl88, hugeRecord_reference]
  exact hugeRecord_stats_ne

end OneBRC

namespace OneBRC

/-! ## Aggregates built by `update` -/

theorem foldl_min_le_of_mem (l : List ℚ) : ∀ a : ℚ, ∀ x ∈ l, l.foldl Min.min a ≤ x := by
  induction l with
  | nil => intro a x hx; cases hx
  | cons v vs ih =>
    intro a x hx
    rcases List.mem_cons.1 hx with rfl | h
    · exact le_trans (foldl_min_le_init vs _) (min_le_right _ _)
    · exact ih _ x h

theorem le_foldl_max_of_mem (l : List ℚ) : ∀ a : ℚ, ∀ x ∈ l, x ≤ l.foldl Max.max a := by
  induction l with
  | nil => intro a x hx; cases hx
  | cons v vs ih =>
    intro a x hx
    rcases List.mem_cons.1 hx with rfl | h
    · exact le_trans (le_max_right _ _) (le_foldl_max_init vs _)
    · exact ih _ x h

theorem foldl_min_mem (l : List ℚ) : ∀ a : ℚ, l.foldl Min.min a = a ∨ l.foldl Min.min a ∈ l := by
  induction l with
  | nil => intro a; exact Or.inl rfl
  | cons v vs ih =>
    intro a
    rcases ih (Min.min a v) with h | h
    · rcases min_choice a v with h2 | h2
      · left; rw [List.foldl_cons, h, h2]
      · right; rw [List.foldl_cons, h, h2]; simp
    · right; exact List.mem_cons_of_mem _ h

theorem foldl_max_mem (l : List ℚ) : ∀ a : ℚ, l.foldl Max.max a = a ∨ l.foldl Max.max a ∈ l := by
  induction l with
  | nil => intro a; exact Or.inl rfl
  | cons v vs ih =>
    intro a
    rcases ih (Max.max a v) with h | h
    · rcases max_choice a v with h2 | h2
      · left; rw [List.foldl_cons, h, h2]
      · right; rw [List.foldl_cons, h, h2]; simp
    · right; exact List.mem_cons_of_mem _ h

/-- C11 (amended). For every non-empty sequence of values `v1..vk`, the aggregate obtained
from `newResult(name)` by `update(v1), ..., update(vk)` has `count = k > 0`,
`min ≤ vi ≤ max` for every `i`, and `total` equal to the exact sum; `min` is attained by
some `vi` when some `vi` is at most `MaxFloat64`, and `max` is attained by some `vi` when
some `vi` is at least `-MaxFloat64`. -/
theorem update_invariant (nm : name) (v : ℚ) (vs : List ℚ) :
    ((v :: vs).foldl result.update (newResult nm)).count = ((v :: vs).length : Nat) ∧
    0 < ((v :: vs).foldl result.update (newResult nm)).count ∧
    (∀ x ∈ v :: vs, ((v :: vs).foldl result.update (newResult nm)).min ≤ x ∧
      x ≤ ((v :: vs).foldl result.update (newResult nm)).max) ∧
    ((v :: vs).foldl result.update (newResult nm)).total = (v :: vs).sum ∧
    ((∃ x ∈ v :: vs, x ≤ maxFloat64) →
      ((v :: vs).foldl result.update (newResult nm)).min ∈ v :: vs) ∧
    ((∃ x ∈ v :: vs, -maxFloat64 ≤ x) →
      ((v :: vs).foldl result.update (newResult nm)).max ∈ v :: vs) := by
  obtain ⟨-, h2, h3, h4, h5⟩ := foldl_update_fields (v :: vs) (newResult nm)
  rw [h2, h3, h4, h5]
  have hmin : (newResult nm).min = maxFloat64 := rfl
  have hmax : (newResult nm).max = -maxFloat64 := rfl
  rw [hmin, hmax]
  refine ⟨by simp [newResult], by simp [newResult], ?_, by simp [newResult], ?_, ?_⟩
  · intro x hx
    exact ⟨foldl_min_le_of_mem _ _ x hx, le_foldl_max_of_mem _ _ x hx⟩
  · rintro ⟨x, hx, hle⟩
    rcases foldl_min_mem (v :: vs) maxFloat64 with h | h
    · have h1 := foldl_min_le_of_mem (v :: vs) maxFloat64 x hx
      rw [h] at h1 ⊢
      rw [show maxFloat64 = x from le_antisymm h1 hle]
      exact hx
    · exact h
  · rintro ⟨x, hx, hle⟩
    rcases foldl_max_mem (v :: vs) (-maxFloat64) with h | h
    · have h1 := le_foldl_max_of_mem (v :: vs) (-maxFloat64) x hx
      rw [h] at h1 ⊢
      rw [show -maxFloat64 = x from le_antisymm hle h1]
      exact hx
    · exact h

/-- C11 as stated fails for a value above `math.MaxFloat64`: after the single update
with `2 * 10^308` the minimum is `MaxFloat64`, which is none of the values. -/
theorem update_min_not_attained :
    ([2 * 10 ^ 308].foldl result.update (newResult ⟨[88], fingerprint [88]⟩)).min = maxFloat64 ∧
    ([2 * 10 ^ 308].foldl result.update (newResult ⟨[88], fingerprint [88]⟩)).min
      ∉ [(2 * 10 ^ 308 : ℚ)] := by
  have h : ([2 * 10 ^ 308].foldl result.update (newResult ⟨[88], fingerprint [88]⟩)).min
      = maxFloat64 := by
    simp only [List.foldl_cons, List.foldl_nil, result.update, newResult]
    exact min_eq_left (le_of_lt maxFloat64_lt_huge)
  refine ⟨h, ?_⟩
  rw [h, List.mem_singleton]
  exact ne_of_lt maxFloat64_lt_huge

/-- C12 (amended). For every name, `newResult(name)` has `min = MaxFloat64`,
`max = -MaxFloat64`, `total = 0` and `count = 0`; an aggregate built from it by updates
that has `count = 0` has `min = MaxFloat64` and `max = -MaxFloat64`. -/
theorem newResult_fields (nm : name) :
    (newResult nm).name = nm ∧ (newResult nm).min = maxFloat64 ∧
    (newResult nm).max = -maxFloat64 ∧ (newResult nm).total = 0 ∧ (newResult nm).count = 0 ∧
    ∀ vs : List ℚ, (vs.foldl result.update (newResult nm)).count = 0 →
      (vs.foldl result.update (newResult nm)).min = maxFloat64 ∧
      (vs.foldl result.update (newResult nm)).max = -maxFloat64 := by
  refine ⟨rfl, rfl, rfl, rfl, rfl, fun vs h => ?_⟩
  obtain ⟨-, -, -, -, h5⟩ := foldl_update_fields vs (newResult nm)
  rw [h5] at h
  have hl : vs = [] := by
    cases vs with
    | nil => rfl
    | cons v vs =>
      simp only [newResult, List.length_cons] at h
      push_cast at h
      have : (0 : Int) ≤ (vs.length : Int) := Int.natCast_nonneg _
      omega
  subst hl
  exact ⟨rfl, rfl⟩

/-- C12 as stated fails: the start minimum of `newResult` is the finite number
`math.MaxFloat64`, not `+∞`: the value `2 * 10^308` lies above it, and the update with
that value leaves the minimum at `MaxFloat64`; likewise for the start maximum. -/
theorem newResult_not_infinite :
    (newResult ⟨[88], fingerprint [88]⟩).min < 2 * 10 ^ 308 ∧
    -(2 * 10 ^ 308) < (newResult ⟨[88], fingerprint [88]⟩).max ∧
    ((newResult ⟨[88], fingerprint [88]⟩).update (2 * 10 ^ 308)).min ≠ 2 * 10 ^ 308 ∧
    ((newResult ⟨[88], fingerprint [88]⟩).update (-(2 * 10 ^ 308))).max ≠ -(2 * 10 ^ 308) := by
  have h := maxFloat64_lt_huge
  refine ⟨h, ?_, ?_, ?_⟩
  · show -(2 * 10 ^ 308) < -maxFloat64
    linarith
  · show Min.min maxFloat64 (2 * 10 ^ 308 : ℚ) ≠ 2 * 10 ^ 308
    rw [min_eq_left (le_of_lt h)]
    exact ne_of_lt h
  · show Max.max (-maxFloat64) (-(2 * 10 ^ 308) : ℚ) ≠ -(2 * 10 ^ 308)
    rw [max_eq_left (by linarith)]
    intro he
    linarith

end OneBRC

namespace OneBRC

/-- C17 (amended). For every well-formed input, every worker count `N` that does not
exceed the file size and every `i` in `1..N-1`, the start of range `i` is `q + 1` where
`q` is the least index `≥ i * (fileSize / N) - 1` with `buffer[q] = '\n'`: the scan tests
the byte before the candidate offset first. -/
theorem split_rule (recs : List Record) (_hw : ∀ r ∈ recs, r.wf) (N i : Nat)
    (hN : N ≤ (encodeAll recs).length) (hi0 : 0 < i) (hiN : i < N) :
    ∃ splits q, mainSplits N (encodeAll recs) = .ok splits ∧ splits[i]? = some (q + 1) ∧
      (encodeAll recs)[q]? = some 10 ∧
      i * ((encodeAll recs).length / N) ≤ q + 1 ∧
      ∀ q', i * ((encodeAll recs).length / N) ≤ q' + 1 → q' < q →
        (encodeAll recs)[q']? ≠ some 10 := by
  obtain ⟨b, hs, -, -, hprop⟩ := splits_spec (encodeAll recs) N
    (Or.inr ((Nat.one_le_div_iff (by omega)).2 hN)) (encodeAll_last recs)
  obtain ⟨h1, h2, h3, h4⟩ := hprop i hi0 hiN
  refine ⟨_, b i - 1, hs, ?_, h2, by omega, ?_⟩
  · rw [List.getElem?_map, List.getElem?_range hiN]
    simp only [Option.map_some', Option.some.injEq]
    omega
  · intro q' hq1 hq2
    have := h4 (q' + 1) hq1 (by omega)
    simpa using this

theorem split_rule_witness :
    ((∀ r ∈ ([⟨[97], false, [49], [48]⟩, ⟨[98], false, [50], [53]⟩,
        ⟨[99], true, [51], [48]⟩] : List Record), r.wf) ∧
      3 ≤ (encodeAll [⟨[97], false, [49], [48]⟩, ⟨[98], false, [50], [53]⟩,
        ⟨[99], true, [51], [48]⟩]).length ∧ 0 < 1 ∧ 1 < 3) ∧
    ∃ splits q, mainSplits 3 (encodeAll [⟨[97], false, [49], [48]⟩,
        ⟨[98], false, [50], [53]⟩, ⟨[99], true, [51], [48]⟩]) = .ok splits ∧
      splits[1]? = some (q + 1) ∧
      (encodeAll [⟨[97], false, [49], [48]⟩, ⟨[98], false, [50], [53]⟩,
        ⟨[99], true, [51], [48]⟩])[q]? = some 10 ∧
      1 * ((encodeAll [⟨[97], false, [49], [48]⟩, ⟨[98], false, [50], [53]⟩,
        ⟨[99], true, [51], [48]⟩]).length / 3) ≤ q + 1 ∧
      ∀ q', 1 * ((encodeAll [⟨[97], false, [49], [48]⟩, ⟨[98], false, [50], [53]⟩,
          ⟨[99], true, [51], [48]⟩]).length / 3) ≤ q' + 1 → q' < q →
        (encodeAll [⟨[97], false, [49], [48]⟩, ⟨[98], false, [50], [53]⟩,
          ⟨[99], true, [51], [48]⟩])[q']? ≠ some 10 :=
  ⟨⟨by decide, by decide, by decide, by decide⟩,
    split_rule _ (by decide) 3 1 (by decide) (by decide) (by decide)⟩

/-- C17 as stated fails when the candidate offset is itself the start of a record: on
`a;1.0\nb;2.0\n` with 2 workers the candidate is 6 and `fmap[5]` is a newline, so
`splits[1] = 6`, while the least newline index `≥ 6` is 11 and the claim gives 12. -/
theorem split_rule_counterexample :
    (∀ r ∈ ([⟨[97], false, [49], [48]⟩, ⟨[98], false, [50], [48]⟩] : List Record), r.wf) ∧
    encodeAll [⟨[97], false, [49], [48]⟩, ⟨[98], false, [50], [48]⟩]
      = [97, 59, 49, 46, 48, 10, 98, 59, 50, 46, 48, 10] ∧
    1 * ([97, 59, 49, 46, 48, 10, 98, 59, 50, 46, 48, 10].length / 2) = 6 ∧
    mainSplits 2 [97, 59, 49, 46, 48, 10, 98, 59, 50, 46, 48, 10] = .ok [0, 6] ∧
    [97, 59, 49, 46, 48, 10, 98, 59, 50, 46, 48, 10][11]? = some 10 ∧
    (∀ q, q < 11 → 6 ≤ q → [97, 59, 49, 46, 48, 10, 98, 59, 50, 46, 48, 10][q]? ≠ some 10) ∧
    6 ≠ 11 + 1 := by
  refine ⟨by decide, by decide, by decide, by decide, by decide, by decide, by decide⟩

end OneBRC

namespace OneBRC

/-! ## Tables built by `set` calls: shape -/

theorem inv_shaped (hm : hashMap) (h : hm.Inv) : hm.Shaped := ⟨h.pow, h.occLen, h.dataLen⟩

theorem newHashMap_shaped (k : Nat) : (newHashMap k).Shaped := inv_shaped _ (newHashMap_inv k)

theorem set_shaped (hm hm' : hashMap) (hs : hm.Shaped) (r : result) (h : hm.set r = .ok hm') :
    hm'.Shaped ∧ hm'.mask = hm.mask ∧
      ∃ j, setLoop hm r (hm.mask + 1) (r.name.hash &&& hm.mask) = .ok j ∧ j < hm.mask + 1 ∧
        hm' = { hm with occupied := hm.occupied.set j true, data := hm.data.set j r } := by
  unfold hashMap.set at h
  cases hl : setLoop hm r (hm.mask + 1) (r.name.hash &&& hm.mask) with
  | error e => simp [hl] at h
  | ok j =>
    simp only [hl] at h
    have hst := setLoop_stop hm r _ _ _ hl
    have hjd : j < hm.data.length := by rw [hs.dataLen, ← hs.occLen]; exact hst.1
    rw [if_pos ⟨hst.1, hjd⟩] at h
    injection h with h
    refine ⟨?_, by rw [← h], j, rfl, by rw [← hs.occLen]; exact hst.1, h.symm⟩
    rw [← h]
    exact ⟨hs.pow, by simpa using hs.occLen, by simpa using hs.dataLen⟩

theorem setAll_shaped (rs : List result) :
    ∀ hm hm' : hashMap, hm.Shaped → setAll hm rs = .ok hm' →
      hm'.Shaped ∧ hm'.mask = hm.mask := by
  induction rs with
  | nil =>
    intro hm hm' hs h
    simp only [setAll] at h
    injection h with h
    subst h
    exact ⟨hs, rfl⟩
  | cons r rs ih =>
    intro hm hm' hs h
    simp only [setAll] at h
    cases hset : hm.set r with
    | error e => simp [hset] at h
    | ok hm1 =>
      simp only [hset] at h
      obtain ⟨hs1, hmask1, -⟩ := set_shaped hm hm1 hs r hset
      obtain ⟨hs2, hmask2⟩ := ih hm1 hm' hs1 h
      exact ⟨hs2, by rw [hmask2, hmask1]⟩

theorem built_shaped (size : Nat) (rs : List result) (hm : hashMap)
    (h : setAll (newHashMap size) rs = .ok hm) : hm.Shaped ∧ hm.mask + 1 = 2 ^ size := by
  obtain ⟨hs, hmask⟩ := setAll_shaped rs _ hm (newHashMap_shaped size) h
  refine ⟨hs, ?_⟩
  rw [hmask]
  have := Nat.one_le_two_pow (n := size)
  simp only [newHashMap]
  omega

theorem setLoop_progress_shaped (hm : hashMap) (hs : hm.Shaped) (r : result) :
    ∀ d fuel i, i < hm.mask + 1 → d < fuel →
      hm.slot ((i + d) % (hm.mask + 1)) = none → ∃ j, setLoop hm r fuel i = .ok j := by
  intro d
  induction d with
  | zero =>
    intro fuel i hi hf hsl
    obtain ⟨f, rfl⟩ : ∃ f, fuel = f + 1 := ⟨fuel - 1, by omega⟩
    rw [Nat.add_zero, Nat.mod_eq_of_lt hi] at hsl
    rw [setLoop_succ hm r f i (by rw [hs.occLen]; exact hi) (by rw [hs.dataLen]; exact hi), hsl]
    exact ⟨i, rfl⟩
  | succ d ih =>
    intro fuel i hi hf hsl
    obtain ⟨f, rfl⟩ : ∃ f, fuel = f + 1 := ⟨fuel - 1, by omega⟩
    rw [setLoop_succ hm r f i (by rw [hs.occLen]; exact hi) (by rw [hs.dataLen]; exact hi)]
    cases hsl0 : hm.slot i with
    | none => exact ⟨i, rfl⟩
    | some r0 =>
      simp only
      by_cases he : r0.name.value = r.name.value
      · simp only [he, if_true]; exact ⟨i, rfl⟩
      · simp only [he, if_false]
        apply ih f _ (and_mask_lt hm hs.pow _) (by omega)
        rw [and_mask hm hs.pow, Nat.mod_add_mod]
        rw [show i + 1 + d = i + (d + 1) by ring]
        exact hsl

theorem setLoop_terminates_shaped (hm : hashMap) (hs : hm.Shaped) (r : result) (i e : Nat)
    (hi : i < hm.mask + 1) (he : e < hm.mask + 1) (hsl : hm.slot e = none) :
    ∃ j, setLoop hm r (hm.mask + 1) i = .ok j := by
  apply setLoop_progress_shaped hm hs r ((e + (hm.mask + 1) - i) % (hm.mask + 1)) _ i hi
    (Nat.mod_lt _ (by omega))
  rw [Nat.add_mod_mod, show i + (e + (hm.mask + 1) - i) = e + (hm.mask + 1) by omega,
    Nat.add_mod_right, Nat.mod_eq_of_lt he]
  exact hsl

theorem setLoop_no_oob_shaped (hm : hashMap) (hs : hm.Shaped) (r : result) :
    ∀ fuel idx, idx < hm.mask + 1 → setLoop hm r fuel idx ≠ .error .outOfBounds := by
  intro fuel
  induction fuel with
  | zero => intro idx _ h; simp [setLoop] at h
  | succ f ih =>
    intro idx hidx
    rw [setLoop_succ hm r f idx (by rw [hs.occLen]; exact hidx)
      (by rw [hs.dataLen]; exact hidx)]
    cases hm.slot idx with
    | none => intro h; cases h
    | some r0 =>
      simp only
      by_cases he : r0.name.value = r.name.value
      · simp only [he, if_true]; intro h; cases h
      · simp only [he, if_false]
        exact ih _ (and_mask_lt hm hs.pow _)

theorem occupied_false_slot_shaped (hm : hashMap) (hs : hm.Shaped) (e : Nat)
    (h : hm.occupied[e]? = some false) : e < hm.mask + 1 ∧ hm.slot e = none := by
  have he : e < hm.occupied.length := by
    by_contra hc
    have := List.getElem?_eq_none (l := hm.occupied) (n := e) (by omega)
    simp [this] at h
  refine ⟨by rw [← hs.occLen]; exact he, ?_⟩
  exact (slot_eq_none hm e he (by rw [hs.dataLen, ← hs.occLen]; exact he)).2 h

/-- The loop of `set` walks the slots `idx, idx+1, ...` modulo the capacity, passing
occupied slots with other names, and stops at the first slot that is empty or holds
its name. -/
theorem setLoop_path (hm : hashMap) (hs : hm.Shaped) (r : result) :
    ∀ fuel idx j, idx < hm.mask + 1 → setLoop hm r fuel idx = .ok j →
      ∃ d, d < fuel ∧ j = (idx + d) % (hm.mask + 1) ∧
        (∀ k, k < d → ∃ r', hm.slot ((idx + k) % (hm.mask + 1)) = some r' ∧
          r'.name.value ≠ r.name.value) ∧
        (hm.slot j = none ∨ ∃ r0, hm.slot j = some r0 ∧ r0.name.value = r.name.value) := by
  intro fuel
  induction fuel with
  | zero => intro idx j _ h; simp [setLoop] at h
  | succ f ih =>
    intro idx j hidx h
    rw [setLoop_succ hm r f idx (by rw [hs.occLen]; exact hidx)
      (by rw [hs.dataLen]; exact hidx)] at h
    cases hsl : hm.slot idx with
    | none =>
      rw [hsl] at h
      injection h with h
      subst h
      exact ⟨0, by omega, by rw [Nat.add_zero, Nat.mod_eq_of_lt hidx],
        fun k hk => by omega, Or.inl hsl⟩
    | some r0 =>
      rw [hsl] at h
      simp only at h
      by_cases he : r0.name.value = r.name.value
      · simp only [he, if_true] at h
        injection h with h
        subst h
        exact ⟨0, by omega, by rw [Nat.add_zero, Nat.mod_eq_of_lt hidx],
          fun k hk => by omega, Or.inr ⟨r0, hsl, he⟩⟩
      · simp only [he, if_false] at h
        obtain ⟨d, hd, hj, hpath, hstop⟩ := ih _ j (and_mask_lt hm hs.pow _) h
        rw [and_mask hm hs.pow, Nat.mod_add_mod] at hj
        refine ⟨d + 1, by omega, by rw [hj]; congr 1; ring, ?_, hstop⟩
        intro k hk
        cases k with
        | zero =>
          rw [Nat.add_zero, Nat.mod_eq_of_lt hidx]
          exact ⟨r0, hsl, he⟩
        | succ k =>
          obtain ⟨r', h1, h2⟩ := hpath k (by omega)
          rw [and_mask hm hs.pow, Nat.mod_add_mod] at h1
          exact ⟨r', by rw [show idx + (k + 1) = idx + 1 + k by ring]; exact h1, h2⟩

/-- Conversely: a path of occupied slots with other names is skipped. -/
theorem setLoop_of_path (hm : hashMap) (hs : hm.Shaped) (r : result) :
    ∀ d fuel idx, idx < hm.mask + 1 → d < fuel →
      (∀ k, k < d → ∃ r', hm.slot ((idx + k) % (hm.mask + 1)) = some r' ∧
        r'.name.value ≠ r.name.value) →
      (hm.slot ((idx + d) % (hm.mask + 1)) = none ∨
        ∃ r0, hm.slot ((idx + d) % (hm.mask + 1)) = some r0 ∧ r0.name.value = r.name.value) →
      setLoop hm r fuel idx = .ok ((idx + d) % (hm.mask + 1)) := by
  intro d
  induction d with
  | zero =>
    intro fuel idx hidx hf _ hstop
    obtain ⟨f, rfl⟩ : ∃ f, fuel = f + 1 := ⟨fuel - 1, by omega⟩
    simp only [Nat.add_zero, Nat.mod_eq_of_lt hidx] at hstop ⊢
    rw [setLoop_succ hm r f idx (by rw [hs.occLen]; exact hidx)
      (by rw [hs.dataLen]; exact hidx)]
    rcases hstop with h | ⟨r0, h, he⟩
    · rw [h]
    · rw [h]; simp only [he, if_true]
  | succ d ih =>
    intro fuel idx hidx hf hpath hstop
    obtain ⟨f, rfl⟩ : ∃ f, fuel = f + 1 := ⟨fuel - 1, by omega⟩
    rw [setLoop_succ hm r f idx (by rw [hs.occLen]; exact hidx)
      (by rw [hs.dataLen]; exact hidx)]
    obtain ⟨r0, h0, hne⟩ := hpath 0 (by omega)
    rw [Nat.add_zero, Nat.mod_eq_of_lt hidx] at h0
    rw [h0]
    simp only [hne, if_false]
    have e : ∀ k, (((idx + 1) &&& hm.mask) + k) % (hm.mask + 1)
        = (idx + (k + 1)) % (hm.mask + 1) := by
      intro k
      rw [and_mask hm hs.pow, Nat.mod_add_mod]
      congr 1
      ring
    have := ih f _ (and_mask_lt hm hs.pow (idx + 1)) (by omega)
      (fun k hk => by rw [e k]; exact hpath (k + 1) (by omega))
      (by rw [e d]; exact hstop)
    rw [this, e d]

end OneBRC

namespace OneBRC

theorem probe_index_injective (cap home k k' : Nat) (hk : k < cap) (hk' : k' < cap)
    (h : (home + k) % cap = (home + k') % cap) : k = k' := by
  have h1 : home + k ≡ home + k' [MOD cap] := h
  exact (Nat.ModEq.add_left_cancel' home h1).eq_of_lt_of_lt hk hk'

theorem get_of_setLoop (hm : hashMap) (r : result) (j : Nat)
    (h : setLoop hm r (hm.mask + 1) (r.name.hash &&& hm.mask) = .ok j) :
    hm.get r.name = .ok (readSlot hm j) := by
  unfold hashMap.get
  rw [getLoop_eq_setLoop hm r, h]
  rfl

/-- C16. In every table built from `newHashMap` by `set` calls that has at least one
unoccupied slot, and for every name, `get` and `set` terminate: the probe visits the
pairwise different slots `home, home+1, ..., home+d` (modulo the capacity, `d` below the
capacity) starting from `home = hash & mask`, and stops at the first slot that is
unoccupied or holds a byte-equal name; `get` misses exactly when that slot is
unoccupied. -/
theorem probe_terminates (size : Nat) (rs : List result) (hm : hashMap) (r : result)
    (_hsize : size ≤ 62) (hbuild : setAll (newHashMap size) rs = .ok hm)
    (hempty : ∃ e : Nat, hm.occupied[e]? = some false) :
    ∃ d j hm', d < 2 ^ size ∧ j = ((r.name.hash &&& hm.mask) + d) % 2 ^ size ∧
      (∀ k, k < d → ∃ r', hm.slot (((r.name.hash &&& hm.mask) + k) % 2 ^ size) = some r' ∧
        r'.name.value ≠ r.name.value) ∧
      (∀ k k', k ≤ d → k' ≤ d →
        ((r.name.hash &&& hm.mask) + k) % 2 ^ size = ((r.name.hash &&& hm.mask) + k') % 2 ^ size →
        k = k') ∧
      hm.set r = .ok hm' ∧
      hm' = { hm with occupied := hm.occupied.set j true, data := hm.data.set j r } ∧
      ((hm.slot j = none ∧ hm.get r.name = .ok (result.zero, false)) ∨
        ∃ r0, hm.slot j = some r0 ∧ r0.name.value = r.name.value ∧
          hm.get r.name = .ok (r0, true)) := by
  obtain ⟨hs, hcap⟩ := built_shaped size rs hm hbuild
  obtain ⟨e, he⟩ := hempty
  obtain ⟨he1, he2⟩ := occupied_false_slot_shaped hm hs e he
  obtain ⟨j, hl⟩ := setLoop_terminates_shaped hm hs r _ e (and_mask_lt hm hs.pow _) he1 he2
  obtain ⟨d, hd, hj, hpath, hstop⟩ := setLoop_path hm hs r _ _ j (and_mask_lt hm hs.pow _) hl
  have hjlt : j < hm.mask + 1 := by rw [hj]; exact Nat.mod_lt _ (by omega)
  have hset : hm.set r
      = .ok { hm with occupied := hm.occupied.set j true, data := hm.data.set j r } := by
    unfold hashMap.set
    rw [hl]
    simp only
    rw [if_pos ⟨by rw [hs.occLen]; exact hjlt, by rw [hs.dataLen]; exact hjlt⟩]
  have hget := get_of_setLoop hm r j hl
  rw [hcap] at hd hj hpath
  refine ⟨d, j, _, hd, hj, hpath, ?_, hset, rfl, ?_⟩
  · intro k k' hk hk' h
    exact probe_index_injective _ _ k k' (by omega) (by omega) h
  · rcases hstop with h | ⟨r0, h, heq⟩
    · left
      refine ⟨h, ?_⟩
      rw [hget]; simp only [readSlot, h]
    · right
      refine ⟨r0, h, heq, ?_⟩
      rw [hget]; simp only [readSlot, h]

theorem probe_terminates_witness :
    (1 ≤ 62 ∧ setAll (newHashMap 1) [⟨⟨[65], 1⟩, 1, 1, 1, 1⟩]
        = .ok ⟨1, [false, true], [result.zero, ⟨⟨[65], 1⟩, 1, 1, 1, 1⟩]⟩ ∧
      ∃ e : Nat, (⟨1, [false, true], [result.zero, ⟨⟨[65], 1⟩, 1, 1, 1, 1⟩]⟩ : hashMap).occupied[e]?
        = some false) ∧
    ∃ d j hm', d < 2 ^ 1 ∧
      j = (((⟨⟨[66], 1⟩, 2, 2, 2, 1⟩ : result).name.hash &&&
        (⟨1, [false, true], [result.zero, ⟨⟨[65], 1⟩, 1, 1, 1, 1⟩]⟩ : hashMap).mask) + d) % 2 ^ 1 ∧
      (∀ k, k < d → ∃ r',
        (⟨1, [false, true], [result.zero, ⟨⟨[65], 1⟩, 1, 1, 1, 1⟩]⟩ : hashMap).slot
          ((((⟨⟨[66], 1⟩, 2, 2, 2, 1⟩ : result).name.hash &&&
            (⟨1, [false, true], [result.zero, ⟨⟨[65], 1⟩, 1, 1, 1, 1⟩]⟩ : hashMap).mask) + k)
              % 2 ^ 1) = some r' ∧
        r'.name.value ≠ (⟨⟨[66], 1⟩, 2, 2, 2, 1⟩ : result).name.value) ∧
      (∀ k k', k ≤ d → k' ≤ d →
        (((⟨⟨[66], 1⟩, 2, 2, 2, 1⟩ : result).name.hash &&&
          (⟨1, [false, true], [result.zero, ⟨⟨[65], 1⟩, 1, 1, 1, 1⟩]⟩ : hashMap).mask) + k) % 2 ^ 1
          = (((⟨⟨[66], 1⟩, 2, 2, 2, 1⟩ : result).name.hash &&&
            (⟨1, [false, true], [result.zero, ⟨⟨[65], 1⟩, 1, 1, 1, 1⟩]⟩ : hashMap).mask) + k')
              % 2 ^ 1 →
        k = k') ∧
      (⟨1, [false, true], [result.zero, ⟨⟨[65], 1⟩, 1, 1, 1, 1⟩]⟩ : hashMap).set
        ⟨⟨[66], 1⟩, 2, 2, 2, 1⟩ = .ok hm' ∧
      hm' = { (⟨1, [false, true], [result.zero, ⟨⟨[65], 1⟩, 1, 1, 1, 1⟩]⟩ : hashMap) with
        occupied := [false, true].set j true,
        data := [result.zero, ⟨⟨[65], 1⟩, 1, 1, 1, 1⟩].set j ⟨⟨[66], 1⟩, 2, 2, 2, 1⟩ } ∧
      (((⟨1, [false, true], [result.zero, ⟨⟨[65], 1⟩, 1, 1, 1, 1⟩]⟩ : hashMap).slot j = none ∧
          (⟨1, [false, true], [result.zero, ⟨⟨[65], 1⟩, 1, 1, 1, 1⟩]⟩ : hashMap).get
            (⟨⟨[66], 1⟩, 2, 2, 2, 1⟩ : result).name = .ok (result.zero, false)) ∨
        ∃ r0, (⟨1, [false, true], [result.zero, ⟨⟨[65], 1⟩, 1, 1, 1, 1⟩]⟩ : hashMap).slot j
            = some r0 ∧
          r0.name.value = (⟨⟨[66], 1⟩, 2, 2, 2, 1⟩ : result).name.value ∧
          (⟨1, [false, true], [result.zero, ⟨⟨[65], 1⟩, 1, 1, 1, 1⟩]⟩ : hashMap).get
            (⟨⟨[66], 1⟩, 2, 2, 2, 1⟩ : result).name = .ok (r0, true)) :=
  ⟨⟨by decide, by decide, ⟨0, by decide⟩⟩,
    probe_terminates 1 [⟨⟨[65], 1⟩, 1, 1, 1, 1⟩]
      ⟨1, [false, true], [result.zero, ⟨⟨[65], 1⟩, 1, 1, 1, 1⟩]⟩ ⟨⟨[66], 1⟩, 2, 2, 2, 1⟩
      (by decide) (by decide) ⟨0, by decide⟩⟩

end OneBRC

namespace OneBRC

/-! ## The sorted entry list -/

/-- `bytes.Compare` is negative exactly for byte-lexicographically smaller strings. -/
theorem bytesCompare_neg_iff (a : List Nat) :
    ∀ b, bytesCompare a b < 0 ↔ List.Lex (fun x y : Nat => x < y) a b := by
  induction a with
  | nil =>
    intro b
    cases b with
    | nil => simp [bytesCompare]
    | cons y ys => simp [bytesCompare, List.Lex.nil]
  | cons x xs ih =>
    intro b
    cases b with
    | nil =>
      simp only [bytesCompare]
      constructor
      · intro h; omega
      · intro h; cases h
    | cons y ys =>
      simp only [bytesCompare]
      by_cases h1 : x < y
      · simp only [h1, if_true]
        exact ⟨fun _ => List.Lex.rel h1, fun _ => by omega⟩
      · by_cases h2 : y < x
        · simp only [h1, h2, if_true, if_false]
          constructor
          · intro h; omega
          · intro h
            cases h with
            | cons h' => omega
            | rel h' => omega
        · simp only [h1, h2, if_false]
          have hxy : x = y := by omega
          subst hxy
          rw [ih ys]
          constructor
          · intro h; exact List.Lex.cons h
          · intro h
            cases h with
            | cons h' => exact h'
            | rel h' => omega

theorem mainSorted_eq_shaped (hm : hashMap) (hs : hm.Shaped) :
    mainSorted hm = .ok (sortFunc (entries hm)) := by
  unfold mainSorted
  rw [collectSlots_eq hm (by rw [hs.dataLen, hs.occLen]) hm.occupied 0 (by simp)]
  simp only [entries, List.range_eq_range']

theorem sortFunc_strict (l : List result) (hnd : (l.map (fun r => r.name.value)).Nodup) :
    (sortFunc l).Sorted (fun r1 r2 => bytesCompare r1.name.value r2.name.value < 0) := by
  have hnd1 : ((sortFunc l).map (fun r => r.name.value)).Nodup :=
    ((sortFunc_perm l).map _).nodup_iff.2 hnd
  have h := List.Pairwise.and (sortFunc_sorted l) (List.pairwise_map.1 hnd1)
  refine h.imp ?_
  intro a b hab
  have hne : bytesCompare a.name.value b.name.value ≠ 0 :=
    fun h0 => hab.2 ((bytesCompare_eq_zero _ _).1 h0)
  omega

/-- C13. For every table built by `set` calls that holds one entry per distinct name,
the list the reporter renders is a permutation of exactly the table's occupied entries
and is strictly ascending in byte-lexicographic order of `name.value`; any other such
table with the same entries, whatever its capacity, insertion order or slot layout,
gives the same list. -/
theorem sorted_report (size : Nat) (rs : List result) (hm : hashMap)
    (_hsize : size ≤ 62) (hbuild : setAll (newHashMap size) rs = .ok hm)
    (hnd : ((entries hm).map (fun r => r.name.value)).Nodup) :
    ∃ sorted, mainSorted hm = .ok sorted ∧
      sorted.Perm (entries hm) ∧
      (∀ r, r ∈ sorted ↔ ∃ j : Nat, hm.occupied[j]? = some true ∧ hm.data[j]? = some r) ∧
      sorted.Sorted (fun r1 r2 => bytesCompare r1.name.value r2.name.value < 0) ∧
      sorted.Sorted (fun r1 r2 => List.Lex (fun x y : Nat => x < y) r1.name.value r2.name.value) ∧
      ∀ (size' : Nat) (rs' : List result) (hm' : hashMap),
        setAll (newHashMap size') rs' = .ok hm' → (entries hm').Perm (entries hm) →
        mainSorted hm' = .ok sorted := by
  obtain ⟨hs, -⟩ := built_shaped size rs hm hbuild
  refine ⟨sortFunc (entries hm), mainSorted_eq_shaped hm hs, sortFunc_perm _, ?_,
    sortFunc_strict _ hnd, ?_, ?_⟩
  · intro r
    rw [(sortFunc_perm (entries hm)).mem_iff, mem_entries]
    constructor
    · rintro ⟨j, hj⟩; exact ⟨j, (slot_eq_some hm j r).1 hj⟩
    · rintro ⟨j, hj⟩; exact ⟨j, (slot_eq_some hm j r).2 hj⟩
  · exact (sortFunc_strict _ hnd).imp (fun h => (bytesCompare_neg_iff _ _).1 h)
  · intro size' rs' hm' hb' hp
    obtain ⟨hs', -⟩ := built_shaped size' rs' hm' hb'
    rw [mainSorted_eq_shaped hm' hs']
    congr 1
    exact sortFunc_eq_of_perm _ _ hp ((hp.map _).nodup_iff.2 hnd)

theorem sorted_report_witness :
    (2 ≤ 62 ∧
      setAll (newHashMap 2) [⟨⟨[72], 0⟩, 8, 12, 20, 2⟩, ⟨⟨[66], 0⟩, 20, 20, 20, 1⟩]
        = .ok ⟨3, [true, true, false, false],
            [⟨⟨[72], 0⟩, 8, 12, 20, 2⟩, ⟨⟨[66], 0⟩, 20, 20, 20, 1⟩, result.zero, result.zero]⟩ ∧
      ((entries ⟨3, [true, true, false, false],
          [⟨⟨[72], 0⟩, 8, 12, 20, 2⟩, ⟨⟨[66], 0⟩, 20, 20, 20, 1⟩, result.zero,
            result.zero]⟩).map (fun r => r.name.value)).Nodup) ∧
    mainSorted ⟨3, [true, true, false, false],
        [⟨⟨[72], 0⟩, 8, 12, 20, 2⟩, ⟨⟨[66], 0⟩, 20, 20, 20, 1⟩, result.zero, result.zero]⟩
      = .ok [⟨⟨[66], 0⟩, 20, 20, 20, 1⟩, ⟨⟨[72], 0⟩, 8, 12, 20, 2⟩] := by
  have h1 : setAll (newHashMap 2) [⟨⟨[72], 0⟩, 8, 12, 20, 2⟩, ⟨⟨[66], 0⟩, 20, 20, 20, 1⟩]
      = .ok ⟨3, [true, true, false, false],
          [⟨⟨[72], 0⟩, 8, 12, 20, 2⟩, ⟨⟨[66], 0⟩, 20, 20, 20, 1⟩, result.zero, result.zero]⟩ := by
    decide
  have h2 : ((entries ⟨3, [true, true, false, false],
      [⟨⟨[72], 0⟩, 8, 12, 20, 2⟩, ⟨⟨[66], 0⟩, 20, 20, 20, 1⟩, result.zero,
        result.zero]⟩).map (fun r => r.name.value)).Nodup := by decide
  refine ⟨⟨by decide, h1, h2⟩, ?_⟩
  obtain ⟨sorted, hm, -, -, -, -, -⟩ := sorted_report 2 _ _ (by decide) h1 h2
  rw [hm]
  have : mainSorted ⟨3, [true, true, false, false],
      [⟨⟨[72], 0⟩, 8, 12, 20, 2⟩, ⟨⟨[66], 0⟩, 20, 20, 20, 1⟩, result.zero, result.zero]⟩
      = .ok [⟨⟨[66], 0⟩, 20, 20, 20, 1⟩, ⟨⟨[72], 0⟩, 8, 12, 20, 2⟩] := by decide
  rw [← hm, this]

end OneBRC

namespace OneBRC

/-! ## The probe-chain invariant -/

theorem probe_dist (cap home j : Nat) (hh : home < cap) (hj : j < cap) :
    (home + (j + cap - home) % cap) % cap = j := by
  rw [Nat.add_mod_mod, show home + (j + cap - home) = j + cap by omega, Nat.add_mod_right,
    Nat.mod_eq_of_lt hj]

theorem probe_dist_unique (cap home d j : Nat) (hh : home < cap) (hd : d < cap)
    (hj : j = (home + d) % cap) : (j + cap - home) % cap = d := by
  have hjlt : j < cap := by rw [hj]; exact Nat.mod_lt _ (by omega)
  have h := probe_dist cap home j hh hjlt
  rw [hj] at h
  have h2 : (home + ((home + d) % cap + cap - home) % cap) % cap = (home + d) % cap := h
  rw [hj]
  exact probe_index_injective cap home _ d (Nat.mod_lt _ (by omega)) hd h2

theorem inv_chain (hm : hashMap) (hinv : hm.Inv) : hm.ChainInv := by
  refine ⟨inv_shaped hm hinv, hinv.inj, ?_⟩
  intro j r hsl k hk
  have hs := inv_shaped hm hinv
  obtain ⟨d, hd, hj, hpath, -⟩ := setLoop_path hm hs r _ _ j (and_mask_lt hm hs.pow _)
    (hinv.find j r hsl)
  have hdist := probe_dist_unique (hm.mask + 1) _ d j (and_mask_lt hm hs.pow _) hd hj
  rw [hdist] at hk
  obtain ⟨r', h1, -⟩ := hpath k hk
  exact ⟨r', h1⟩

/-- Under the probe-chain invariant the probe for a stored name stops at its slot. -/
theorem chain_setLoop (hm : hashMap) (hc : hm.ChainInv) (j : Nat) (r : result)
    (hsl : hm.slot j = some r) :
    setLoop hm r (hm.mask + 1) (r.name.hash &&& hm.mask) = .ok j := by
  have hs := hc.shaped
  have hjlt : j < hm.mask + 1 := by rw [← hs.occLen]; exact (slot_lt hm j r hsl).1
  have hhome := and_mask_lt hm hs.pow r.name.hash
  have hpd := probe_dist (hm.mask + 1) _ j hhome hjlt
  have hdlt : (j + (hm.mask + 1) - (r.name.hash &&& hm.mask)) % (hm.mask + 1) < hm.mask + 1 :=
    Nat.mod_lt _ (by omega)
  have := setLoop_of_path hm hs r _ (hm.mask + 1) _ hhome hdlt
    (fun k hk => by
      obtain ⟨r', hr'⟩ := hc.chain j r hsl k hk
      refine ⟨r', hr', fun he => ?_⟩
      have hij := hc.inj _ _ r' r hr' hsl he
      rw [← hpd] at hij
      have := probe_index_injective _ _ _ _ (by omega) hdlt hij
      omega)
    (Or.inr ⟨r, by rw [hpd]; exact hsl, rfl⟩)
  rw [this, hpd]

theorem chain_get (hm : hashMap) (hc : hm.ChainInv) (j : Nat) (r : result)
    (hsl : hm.slot j = some r) : hm.get r.name = .ok (r, true) := by
  rw [get_of_setLoop hm r j (chain_setLoop hm hc j r hsl)]
  simp only [readSlot, hsl]

theorem chain_inv (hm : hashMap) (hc : hm.ChainInv)
    (hwf : ∀ j r, hm.slot j = some r → r.name.wf) : hm.Inv :=
  ⟨hc.shaped.pow, hc.shaped.occLen, hc.shaped.dataLen, hwf, hc.inj,
    fun j r h => chain_setLoop hm hc j r h⟩

/-- C19. Every table reached from `newHashMap` by returning `set` calls with names whose
hash is the fingerprint of their bytes satisfies the probe-chain invariant (no two
occupied slots hold byte-equal names, and all slots on the cyclic path from
`m.hash & mask` up to the slot of a stored name `m` are occupied); `set` with such a
name preserves the invariant and returns while a slot is empty; and the invariant
implies that `get(m)` hits for every stored name `m`. -/
theorem probe_chain_invariant (size : Nat) (rs : List result) (hm : hashMap)
    (_hsize : size ≤ 62) (hbuild : setAll (newHashMap size) rs = .ok hm)
    (hwf : ∀ r ∈ rs, r.name.wf) :
    hm.ChainInv ∧
    (∀ i j r r', hm.slot i = some r → hm.slot j = some r' →
      r.name.value = r'.name.value → i = j) ∧
    (∀ j r, hm.slot j = some r → ∀ k,
      k < (j + 2 ^ size - (r.name.hash &&& hm.mask)) % 2 ^ size →
      ∃ r', hm.slot (((r.name.hash &&& hm.mask) + k) % 2 ^ size) = some r') ∧
    (∀ (T T' : hashMap) (r : result), T.ChainInv → (∀ j r0, T.slot j = some r0 → r0.name.wf) →
      r.name.wf → T.set r = .ok T' →
      T'.ChainInv ∧ ∀ j r0, T'.slot j = some r0 → r0.name.wf) ∧
    (∀ r : result, r.name.wf → (∃ e : Nat, hm.occupied[e]? = some false) →
      ∃ hm', hm.set r = .ok hm' ∧ hm'.ChainInv) ∧
    (∀ (T : hashMap), T.ChainInv → ∀ j r, T.slot j = some r → T.get r.name = .ok (r, true)) ∧
    (∀ j r, hm.slot j = some r → hm.get r.name = .ok (r, true)) := by
  obtain ⟨f, hf, -⟩ := setAll_holds rs _ hm _ (holds_new size) hwf hbuild
  obtain ⟨-, hcap⟩ := built_shaped size rs hm hbuild
  have hc := inv_chain hm hf.inv
  refine ⟨hc, hc.inj, ?_, ?_, ?_, fun T hT j r h => chain_get T hT j r h,
    fun j r h => chain_get hm hc j r h⟩
  · intro j r hsl k hk
    rw [← hcap] at hk ⊢
    exact hc.chain j r hsl k hk
  · intro T T' r hT hTwf hr hset
    obtain ⟨hinv', -⟩ := set_spec T T' (chain_inv T hT hTwf) r hr hset
    exact ⟨inv_chain T' hinv', hinv'.wf⟩
  · intro r hr ⟨e, he⟩
    obtain ⟨hm', hset⟩ := set_progress hm hf.inv r
      (Or.inr ⟨e, occupied_false_slot hm hf.inv e he⟩)
    obtain ⟨hinv', -⟩ := set_spec hm hm' hf.inv r hr hset
    exact ⟨hm', hset, inv_chain hm' hinv'⟩

theorem probe_chain_invariant_witness :
    (2 ≤ 62 ∧
      setAll (newHashMap 2) ([⟨⟨[65], 71468255833715⟩, 1, 1, 1, 1⟩, ⟨⟨[69], 75866302346559⟩, 5, 5, 5, 1⟩] :
        List result)
        = .ok (⟨3, [true, false, false, true],
        [⟨⟨[69], 75866302346559⟩, 5, 5, 5, 1⟩, result.zero, result.zero,
          ⟨⟨[65], 71468255833715⟩, 1, 1, 1, 1⟩]⟩ : hashMap) ∧
      (∀ r ∈ ([⟨⟨[65], 71468255833715⟩, 1, 1, 1, 1⟩, ⟨⟨[69], 75866302346559⟩, 5, 5, 5, 1⟩] :
        List result), r.name.wf)) ∧
    (⟨3, [true, false, false, true],
        [⟨⟨[69], 75866302346559⟩, 5, 5, 5, 1⟩, result.zero, result.zero,
          ⟨⟨[65], 71468255833715⟩, 1, 1, 1, 1⟩]⟩ : hashMap).ChainInv ∧
    ∀ j r, (⟨3, [true, false, false, true],
        [⟨⟨[69], 75866302346559⟩, 5, 5, 5, 1⟩, result.zero, result.zero,
          ⟨⟨[65], 71468255833715⟩, 1, 1, 1, 1⟩]⟩ : hashMap).slot j = some r →
      (⟨3, [true, false, false, true],
        [⟨⟨[69], 75866302346559⟩, 5, 5, 5, 1⟩, result.zero, result.zero,
          ⟨⟨[65], 71468255833715⟩, 1, 1, 1, 1⟩]⟩ : hashMap).get r.name = .ok (r, true) := by
  have h1 : setAll (newHashMap 2) ([⟨⟨[65], 71468255833715⟩, 1, 1, 1, 1⟩, ⟨⟨[69], 75866302346559⟩, 5, 5, 5, 1⟩] :
        List result)
      = .ok (⟨3, [true, false, false, true],
        [⟨⟨[69], 75866302346559⟩, 5, 5, 5, 1⟩, result.zero, result.zero,
          ⟨⟨[65], 71468255833715⟩, 1, 1, 1, 1⟩]⟩ : hashMap) := by
    decide
  have h2 : ∀ r ∈ ([⟨⟨[65], 71468255833715⟩, 1, 1, 1, 1⟩, ⟨⟨[69], 75866302346559⟩, 5, 5, 5, 1⟩] :
        List result), r.name.wf := by
    decide
  have h := probe_chain_invariant 2 _ _ (by decide) h1 h2
  exact ⟨⟨by decide, h1, h2⟩, h.1, h.2.2.2.2.2.2⟩

end OneBRC

namespace OneBRC

/-! ## Slot indices -/

theorem pattern_ofNat (n : Nat) : hashPattern (Int.ofNat n) = n % 2 ^ 64 := by
  unfold hashPattern
  rw [Int.ofNat_eq_coe]
  omega

theorem pattern_negSucc (n : Nat) :
    hashPattern (Int.negSucc n) = 2 ^ 64 - (n % 2 ^ 64 + 1) := by
  unfold hashPattern
  rw [Int.negSucc_eq]
  omega

/-- The bitwise AND of a signed integer with a mask of at most 64 one-bits is the AND of
its 64-bit two's-complement pattern with the mask. -/
theorem land_pattern (h : Int) (k : Nat) (hk : k ≤ 64) :
    Int.land h ((2 ^ k - 1 : Nat) : Int) = ((hashPattern h &&& (2 ^ k - 1) : Nat) : Int) := by
  cases h with
  | ofNat n =>
    show ((n &&& (2 ^ k - 1) : Nat) : Int) = _
    rw [pattern_ofNat, Nat.and_pow_two_sub_one_eq_mod, Nat.and_pow_two_sub_one_eq_mod,
      Nat.mod_mod_of_dvd n (Nat.pow_dvd_pow 2 hk)]
  | negSucc n =>
    show ((Nat.ldiff (2 ^ k - 1) n : Nat) : Int) = _
    rw [pattern_negSucc]
    congr 1
    apply Nat.eq_of_testBit_eq
    intro i
    have hlt : n % 2 ^ 64 < 2 ^ 64 := Nat.mod_lt _ (by norm_num)
    rw [Nat.testBit_ldiff, Nat.testBit_and, Nat.testBit_two_pow_sub_succ hlt,
      Nat.testBit_two_pow_sub_one, Nat.testBit_mod_two_pow]
    by_cases hi : i < k
    · have : i < 64 := by omega
      simp [hi, this]
    · simp [hi]

theorem get_no_oob_shaped (hm : hashMap) (hs : hm.Shaped) (nm : name) :
    hm.get nm ≠ .error .outOfBounds := by
  unfold hashMap.get
  have e := getLoop_eq_setLoop hm (newResult nm) (hm.mask + 1) (nm.hash &&& hm.mask)
  change getLoop hm nm _ _ = _ at e
  rw [e]
  have := setLoop_no_oob_shaped hm hs (newResult nm) (hm.mask + 1) _
    (and_mask_lt hm hs.pow nm.hash)
  cases hl : setLoop hm (newResult nm) (hm.mask + 1) (nm.hash &&& hm.mask) with
  | error e' =>
    cases e' with
    | outOfBounds => exact absurd hl this
    | noTermination => intro h; cases h
  | ok j => intro h; cases h

theorem set_no_oob_shaped (hm : hashMap) (hs : hm.Shaped) (r : result) :
    hm.set r ≠ .error .outOfBounds := by
  unfold hashMap.set
  have := setLoop_no_oob_shaped hm hs r (hm.mask + 1) _ (and_mask_lt hm hs.pow r.name.hash)
  cases hl : setLoop hm r (hm.mask + 1) (r.name.hash &&& hm.mask) with
  | error e' =>
    cases e' with
    | outOfBounds => exact absurd hl this
    | noTermination => intro h; cases h
  | ok j =>
    simp only
    have hst := setLoop_stop hm r _ _ _ hl
    have hjd : j < hm.data.length := by rw [hs.dataLen, ← hs.occLen]; exact hst.1
    rw [if_pos ⟨hst.1, hjd⟩]
    intro h; cases h

/-- C20. For every 64-bit signed fingerprint `h` (negative values included) and every
table made by `newHashMap(size)` and `set` calls, the initial index `int(h) & mask` —
which is the AND of the two's-complement pattern of `h` with the mask — and every probed
index `(idx + 1) & mask` lie in `[0, 2^size)`, both slices have length `2^size`, and `get`
and `set` never index out of bounds. -/
theorem slot_index_in_range (size : Nat) (h : Int) (rs : List result) (hm : hashMap)
    (r : result) (hsize : size ≤ 62) (_hh : -2 ^ 63 ≤ h ∧ h < 2 ^ 63)
    (hbuild : setAll (newHashMap size) rs = .ok hm) (hr : r.name.hash = hashPattern h) :
    0 ≤ Int.land h (hm.mask : Int) ∧ Int.land h (hm.mask : Int) < 2 ^ size ∧
    Int.land h (hm.mask : Int) = ((r.name.hash &&& hm.mask : Nat) : Int) ∧
    r.name.hash &&& hm.mask < 2 ^ size ∧
    (∀ idx : Nat, (idx + 1) &&& hm.mask < 2 ^ size) ∧
    hm.occupied.length = 2 ^ size ∧ hm.data.length = 2 ^ size ∧
    hm.get r.name ≠ .error .outOfBounds ∧ hm.set r ≠ .error .outOfBounds := by
  obtain ⟨hs, hcap⟩ := built_shaped size rs hm hbuild
  have hmask : hm.mask = 2 ^ size - 1 := by omega
  have hland : Int.land h (hm.mask : Int) = ((r.name.hash &&& hm.mask : Nat) : Int) := by
    rw [hr, hmask]
    exact land_pattern h size (by omega)
  have hlt : r.name.hash &&& hm.mask < 2 ^ size := by
    rw [← hcap]; exact and_mask_lt hm hs.pow _
  refine ⟨?_, ?_, hland, hlt, ?_, by rw [hs.occLen, hcap], by rw [hs.dataLen, hcap],
    get_no_oob_shaped hm hs r.name, set_no_oob_shaped hm hs r⟩
  · rw [hland]; exact Int.natCast_nonneg _
  · rw [hland]; exact_mod_cast hlt
  · intro idx
    rw [← hcap]; exact and_mask_lt hm hs.pow _

theorem slot_index_in_range_witness :
    (2 ≤ 62 ∧ ((-2 : Int) ^ 63 ≤ -1 ∧ (-1 : Int) < 2 ^ 63) ∧
      setAll (newHashMap 2) [] = .ok (newHashMap 2) ∧
      (⟨⟨[65], 18446744073709551615⟩, 1, 1, 1, 1⟩ : result).name.hash = hashPattern (-1)) ∧
    0 ≤ Int.land (-1) ((newHashMap 2).mask : Int) ∧
    Int.land (-1) ((newHashMap 2).mask : Int) < 2 ^ 2 ∧
    (18446744073709551615 : Nat) &&& (newHashMap 2).mask < 2 ^ 2 ∧
    (newHashMap 2).get ⟨[65], 18446744073709551615⟩ ≠ .error .outOfBounds := by
  have hp : (⟨⟨[65], 18446744073709551615⟩, 1, 1, 1, 1⟩ : result).name.hash
      = hashPattern (-1) := by decide
  have h := slot_index_in_range 2 (-1) [] (newHashMap 2)
    ⟨⟨[65], 18446744073709551615⟩, 1, 1, 1, 1⟩ (by decide) (by decide) rfl hp
  exact ⟨⟨by decide, by decide, rfl, hp⟩, h.1, h.2.1, h.2.2.2.1, h.2.2.2.2.2.2.2.1⟩

end OneBRC

namespace OneBRC

/-! ## The frame of `set` -/

theorem count_set_true (l : List Bool) (j : Nat) (h : j < l.length) :
    (l.set j true).count true = l.count true + (if l[j]? = some true then 0 else 1) := by
  rw [List.count_set true true l j h, List.getElem?_eq_getElem h]
  by_cases hb : l[j] = true
  · have hmem : true ∈ l := by rw [← hb]; exact List.getElem_mem h
    have hpos : 0 < l.count true := List.count_pos_iff.2 hmem
    simp only [hb, beq_self_eq_true, if_true]
    omega
  · have hf : l[j] = false := by simpa using hb
    simp [hf]

/-- The slot at which the probe of `get` stops decides the flag it returns. -/
theorem get_flag_of_setLoop (hm : hashMap) (hs : hm.Shaped) (r : result) (j : Nat)
    (hl : setLoop hm r (hm.mask + 1) (r.name.hash &&& hm.mask) = .ok j) :
    ∃ g, hm.get r.name = .ok g ∧ (g.2 = true ↔ hm.occupied[j]? = some true) := by
  have e := getLoop_eq_setLoop hm r (hm.mask + 1) (r.name.hash &&& hm.mask)
  unfold hashMap.get
  rw [e, hl]
  refine ⟨readSlot hm j, rfl, ?_⟩
  have hst := setLoop_stop hm r _ _ _ hl
  have hjd : j < hm.data.length := by rw [hs.dataLen, ← hs.occLen]; exact hst.1
  unfold readSlot
  cases hsl : hm.slot j with
  | none =>
    have := (slot_eq_none hm j hst.1 hjd).1 hsl
    simp [this]
  | some r0 =>
    have := ((slot_eq_some hm j r0).1 hsl).1
    simp [this]

/-- In a table without an empty slot the probe for an absent name never stops. -/
theorem get_full_absent (hm : hashMap) (f : List Nat → Option result) (hh : hm.Holds f)
    (nm : name) (hfull : ¬ ∃ e : Nat, hm.occupied[e]? = some false)
    (habs : f nm.value = none) : hm.get nm = .error .noTermination := by
  cases hg : hm.get nm with
  | error e => rw [get_error hm hh.inv nm e hg]
  | ok x =>
    exfalso
    have e := getLoop_eq_setLoop hm (newResult nm) (hm.mask + 1) (nm.hash &&& hm.mask)
    change getLoop hm nm _ _ = _ at e
    unfold hashMap.get at hg
    rw [e] at hg
    cases hl : setLoop hm (newResult nm) (hm.mask + 1) (nm.hash &&& hm.mask) with
    | error e' => rw [hl] at hg; cases hg
    | ok j =>
      rcases (setLoop_stop hm (newResult nm) _ _ _ hl).2 with hf | ⟨r0, h0, e0⟩
      · exact hfull ⟨j, hf⟩
      · have := hh.sound j r0 h0
        rw [e0] at this
        change f nm.value = _ at this
        rw [habs] at this
        cases this

/-- C18 (amended). In a table built from `newHashMap` by `set` calls whose names carry
the fingerprint of their bytes and that has an empty slot, `set r` (for such a name)
returns; every slot occupied before is occupied afterwards; the number of occupied
slots grows by one when `get` reported `r.name` absent and is unchanged otherwise; and
for every other such name `m`: a hit of `get m` is preserved, `get m` returns the same
answer when the new table still has an empty slot, and when `set r` filled the last
empty slot a miss of `get m` turns into a probe that never returns. -/
theorem set_frame (size : Nat) (rs : List result) (hm : hashMap) (r : result)
    (_hsize : size ≤ 62) (hbuild : setAll (newHashMap size) rs = .ok hm)
    (hwf : ∀ x ∈ rs, x.name.wf) (hr : r.name.wf)
    (hempty : ∃ e : Nat, hm.occupied[e]? = some false) :
    ∃ hm', hm.set r = .ok hm' ∧
      (∀ i : Nat, hm.occupied[i]? = some true → hm'.occupied[i]? = some true) ∧
      (∃ g, hm.get r.name = .ok g ∧
        hm'.occupied.count true = hm.occupied.count true + (if g.2 = true then 0 else 1)) ∧
      ∀ m : name, m.wf → m.value ≠ r.name.value →
        (∀ x, hm.get m = .ok (x, true) → hm'.get m = .ok (x, true)) ∧
        ((∃ e : Nat, hm'.occupied[e]? = some false) → hm'.get m = hm.get m) ∧
        ((¬ ∃ e : Nat, hm'.occupied[e]? = some false) → hm.get m = .ok (result.zero, false) →
          hm'.get m = .error .noTermination) := by
  obtain ⟨f, hf, -⟩ := setAll_holds rs _ hm _ (holds_new size) hwf hbuild
  obtain ⟨e, he⟩ := hempty
  have hroom := occupied_false_slot hm hf.inv e he
  have hsh := inv_shaped hm hf.inv
  obtain ⟨hm', hset, hh', -⟩ := holds_set_ok hm f hf r hr (fun _ => ⟨e, hroom⟩)
  refine ⟨hm', hset, ?_, ?_, ?_⟩
  · intro i hi
    unfold hashMap.set at hset
    cases hl : setLoop hm r (hm.mask + 1) (r.name.hash &&& hm.mask) with
    | error e' => simp [hl] at hset
    | ok j =>
      simp only [hl] at hset
      have hst := setLoop_stop hm r _ _ _ hl
      have hjd : j < hm.data.length := by rw [hsh.dataLen, ← hsh.occLen]; exact hst.1
      rw [if_pos ⟨hst.1, hjd⟩] at hset
      injection hset with hset
      subst hset
      simp only [List.getElem?_set]
      by_cases hji : j = i
      · subst hji; simp [hst.1]
      · simp [hji, hi]
  · unfold hashMap.set at hset
    cases hl : setLoop hm r (hm.mask + 1) (r.name.hash &&& hm.mask) with
    | error e' => simp [hl] at hset
    | ok j =>
      simp only [hl] at hset
      have hst := setLoop_stop hm r _ _ _ hl
      have hjd : j < hm.data.length := by rw [hsh.dataLen, ← hsh.occLen]; exact hst.1
      rw [if_pos ⟨hst.1, hjd⟩] at hset
      injection hset with hset
      subst hset
      obtain ⟨g, hg, hflag⟩ := get_flag_of_setLoop hm hsh r j hl
      refine ⟨g, hg, ?_⟩
      simp only
      rw [count_set_true hm.occupied j hst.1]
      by_cases hb : hm.occupied[j]? = some true
      · rw [if_pos hb, if_pos (hflag.2 hb)]
      · rw [if_neg hb, if_neg (fun h => hb (hflag.1 h))]
  · intro m hmwf hne
    have hupd : Function.update f r.name.value (some r) m.value = f m.value :=
      Function.update_noteq hne _ _
    have hget : hm.get m = .ok (match f m.value with
        | some r => (r, true)
        | none => (result.zero, false)) :=
      holds_get_ok hm f hf m hmwf (fun _ => ⟨e, hroom⟩)
    refine ⟨?_, ?_, ?_⟩
    · intro x hx
      have hfx : f m.value = some x := by
        rw [hget] at hx
        cases hfm : f m.value with
        | none => rw [hfm] at hx; simp at hx
        | some y => rw [hfm] at hx; simp at hx; rw [hx]
      have := holds_get_ok hm' _ hh' m hmwf (fun hn => by rw [hupd, hfx] at hn; cases hn)
      rw [this, hupd, hfx]
    · rintro ⟨e', he'⟩
      have := holds_get_ok hm' _ hh' m hmwf
        (fun _ => ⟨e', occupied_false_slot hm' hh'.inv e' he'⟩)
      rw [this, hget]
      cases hfm : f m.value with
      | none => simp only [hupd, hfm]
      | some y => simp only [hupd, hfm]
    · intro hfull hmiss
      apply get_full_absent hm' _ hh' m hfull
      rw [hupd]
      rw [hget] at hmiss
      cases hfm : f m.value with
      | none => rfl
      | some y => rw [hfm] at hmiss; simp at hmiss

theorem set_frame_witness :
    (2 ≤ 62 ∧
      setAll (newHashMap 2) ([⟨⟨[65], 71468255833715⟩, 1, 1, 1, 1⟩, ⟨⟨[69], 75866302346559⟩, 5, 5, 5, 1⟩] :
        List result)
        = .ok (⟨3, [true, false, false, true],
        [⟨⟨[69], 75866302346559⟩, 5, 5, 5, 1⟩, result.zero, result.zero,
          ⟨⟨[65], 71468255833715⟩, 1, 1, 1, 1⟩]⟩ : hashMap) ∧
      (∀ x ∈ ([⟨⟨[65], 71468255833715⟩, 1, 1, 1, 1⟩, ⟨⟨[69], 75866302346559⟩, 5, 5, 5, 1⟩] :
        List result), x.name.wf) ∧
      (⟨⟨[73], 80264348859403⟩, 2, 2, 2, 1⟩ : result).name.wf ∧
      ∃ e : Nat, (⟨3, [true, false, false, true],
        [⟨⟨[69], 75866302346559⟩, 5, 5, 5, 1⟩, result.zero, result.zero,
          ⟨⟨[65], 71468255833715⟩, 1, 1, 1, 1⟩]⟩ : hashMap).occupied[e]? = some false) ∧
    ∃ hm', (⟨3, [true, false, false, true],
        [⟨⟨[69], 75866302346559⟩, 5, 5, 5, 1⟩, result.zero, result.zero,
          ⟨⟨[65], 71468255833715⟩, 1, 1, 1, 1⟩]⟩ : hashMap).set (⟨⟨[73], 80264348859403⟩, 2, 2, 2, 1⟩ : result) = .ok hm' ∧
      (∀ i : Nat, (⟨3, [true, false, false, true],
        [⟨⟨[69], 75866302346559⟩, 5, 5, 5, 1⟩, result.zero, result.zero,
          ⟨⟨[65], 71468255833715⟩, 1, 1, 1, 1⟩]⟩ : hashMap).occupied[i]? = some true → hm'.occupied[i]? = some true) ∧
      (∃ g, (⟨3, [true, false, false, true],
        [⟨⟨[69], 75866302346559⟩, 5, 5, 5, 1⟩, result.zero, result.zero,
          ⟨⟨[65], 71468255833715⟩, 1, 1, 1, 1⟩]⟩ : hashMap).get (⟨⟨[73], 80264348859403⟩, 2, 2, 2, 1⟩ : result).name = .ok g ∧
        hm'.occupied.count true
          = (⟨3, [true, false, false, true],
        [⟨⟨[69], 75866302346559⟩, 5, 5, 5, 1⟩, result.zero, result.zero,
          ⟨⟨[65], 71468255833715⟩, 1, 1, 1, 1⟩]⟩ : hashMap).occupied.count true + (if g.2 = true then 0 else 1)) ∧
      ∀ m : name, m.wf → m.value ≠ [73] →
        (∀ x, (⟨3, [true, false, false, true],
        [⟨⟨[69], 75866302346559⟩, 5, 5, 5, 1⟩, result.zero, result.zero,
          ⟨⟨[65], 71468255833715⟩, 1, 1, 1, 1⟩]⟩ : hashMap).get m = .ok (x, true) → hm'.get m = .ok (x, true)) ∧
        ((∃ e : Nat, hm'.occupied[e]? = some false) → hm'.get m = (⟨3, [true, false, false, true],
        [⟨⟨[69], 75866302346559⟩, 5, 5, 5, 1⟩, result.zero, result.zero,
          ⟨⟨[65], 71468255833715⟩, 1, 1, 1, 1⟩]⟩ : hashMap).get m) := by
  have h1 : setAll (newHashMap 2) ([⟨⟨[65], 71468255833715⟩, 1, 1, 1, 1⟩, ⟨⟨[69], 75866302346559⟩, 5, 5, 5, 1⟩] :
        List result)
      = .ok (⟨3, [true, false, false, true],
        [⟨⟨[69], 75866302346559⟩, 5, 5, 5, 1⟩, result.zero, result.zero,
          ⟨⟨[65], 71468255833715⟩, 1, 1, 1, 1⟩]⟩ : hashMap) := by
    decide
  have h2 : ∀ x ∈ ([⟨⟨[65], 71468255833715⟩, 1, 1, 1, 1⟩, ⟨⟨[69], 75866302346559⟩, 5, 5, 5, 1⟩] :
        List result), x.name.wf := by
    decide
  obtain ⟨hm', ha, hb, hc, hd⟩ := set_frame 2 _ _ (⟨⟨[73], 80264348859403⟩, 2, 2, 2, 1⟩ : result) (by decide) h1 h2 (by decide)
    ⟨1, by decide⟩
  exact ⟨⟨by decide, h1, h2, by decide, ⟨1, by decide⟩⟩, hm', ha, hb, hc,
    fun m hm1 hm2 => ⟨(hd m hm1 hm2).1, (hd m hm1 hm2).2.1⟩⟩

/-- C18 (counterexample). A 2-slot table built by one `set` call (name `"A"`) has an
empty slot, and `get` of the absent name `"C"` answers `(result{}, false)`. After `set`
of a result for the other absent name `"B"` the table is full, and the same `get` of
`"C"` no longer returns: its answer is not the same as before. All names carry the
fingerprint of their bytes. -/
theorem set_frame_counterexample :
    ∃ hm hm', setAll (newHashMap 1) [⟨⟨[65], 71468255833715⟩, 1, 1, 1, 1⟩] = .ok hm ∧
      (∃ e : Nat, hm.occupied[e]? = some false) ∧
      (⟨[66], 72567767461926⟩ : name).wf ∧ (⟨[67], 73667279090137⟩ : name).wf ∧
      (⟨[67], 73667279090137⟩ : name).value ≠ [66] ∧
      hm.set ⟨⟨[66], 72567767461926⟩, 2, 2, 2, 1⟩ = .ok hm' ∧
      hm.get ⟨[67], 73667279090137⟩ = .ok (result.zero, false) ∧
      hm'.get ⟨[67], 73667279090137⟩ = .error .noTermination ∧
      hm'.get ⟨[67], 73667279090137⟩ ≠ hm.get ⟨[67], 73667279090137⟩ :=
  ⟨⟨1, [false, true], [result.zero, ⟨⟨[65], 71468255833715⟩, 1, 1, 1, 1⟩]⟩,
    ⟨1, [true, true],
      [⟨⟨[66], 72567767461926⟩, 2, 2, 2, 1⟩, ⟨⟨[65], 71468255833715⟩, 1, 1, 1, 1⟩]⟩,
    by decide, ⟨0, by decide⟩, by decide, by decide, by decide, by decide, by decide,
    by decide, by decide⟩

end OneBRC

namespace OneBRC

/-! ## The scanner inside its range -/

/-- The two slices and the two parses of one iteration of `processRange` at the start
of a well-formed record. -/
theorem scan_record (rec : Record) (hw : rec.wf) (pre tail : List Nat) :
    ∃ w1 w2 n2,
      sliceFrom (pre ++ rec.encode ++ tail) pre.length = .ok w1 ∧
      parseName w1 = .ok (rec.name.length, ⟨rec.name, fingerprint rec.name⟩) ∧
      sliceFrom (pre ++ rec.encode ++ tail) (pre.length + (rec.name.length + 1)) = .ok w2 ∧
      parseValue w2 = .ok (n2, rec.value) ∧
      pre.length + (rec.name.length + 1) + (n2 + 1) = (pre ++ rec.encode).length ∧
      (pre ++ rec.encode ++ tail)[pre.length + rec.name.length]? = some 59 ∧
      (pre ++ rec.encode ++ tail)[pre.length + (rec.name.length + 1) + n2]? = some 10 := by
  obtain ⟨hname, hip, -, hipd, hfpd⟩ := hw
  have h59 : 59 ∉ rec.name := fun h => (hname 59 h).2.1 rfl
  set sg : List Nat := if rec.neg then [45] else [] with hsg
  set V : List Nat := sg ++ rec.intDigits ++ 46 :: (rec.fracDigits ++ 10 :: tail) with hV
  have e1 : pre ++ rec.encode ++ tail = pre ++ (rec.name ++ 59 :: V) := by
    simp [Record.encode, hV, hsg]
  have e2 : pre ++ rec.encode ++ tail = (pre ++ rec.name ++ [59]) ++ V := by
    simp [Record.encode, hV, hsg]
  have e3 : pre ++ rec.encode ++ tail
      = (pre ++ rec.name ++ [59] ++ sg ++ rec.intDigits ++ [46] ++ rec.fracDigits)
        ++ 10 :: tail := by
    simp [Record.encode, hsg]
  have s1 : sliceFrom (pre ++ rec.encode ++ tail) pre.length = .ok (rec.name ++ 59 :: V) := by
    rw [e1]; simp [sliceFrom]
  have s2 : sliceFrom (pre ++ rec.encode ++ tail) (pre.length + (rec.name.length + 1))
      = .ok V := by
    rw [e2]
    have : pre.length + (rec.name.length + 1) = (pre ++ rec.name ++ [59]).length := by
      simp
    rw [this]
    simp only [sliceFrom, List.drop_left']
    rw [if_pos (by simp)]
  have p1 : parseName (rec.name ++ 59 :: V)
      = .ok (rec.name.length, ⟨rec.name, fingerprint rec.name⟩) := parseName_spec rec.name V h59
  have p2 : parseValue V = .ok (sg.length + rec.intDigits.length + 1 + rec.fracDigits.length,
      rec.value) := by
    have := parseValue_spec rec.neg rec.intDigits rec.fracDigits tail hip hipd hfpd
    rw [hV, hsg, this]
    have hl : (if rec.neg = true then 1 else 0) = (if rec.neg = true then [45] else []).length := by
      cases rec.neg <;> rfl
    rw [hl]
    rfl
  refine ⟨_, _, _, s1, p1, s2, p2, ?_, ?_, ?_⟩
  · simp [Record.encode, hsg]; omega
  · have e4 : pre ++ rec.encode ++ tail = (pre ++ rec.name) ++ 59 :: V := by
      rw [e1]; simp
    have : pre.length + rec.name.length = (pre ++ rec.name).length := by simp
    rw [e4, this, List.getElem?_append_right (le_refl _)]
    simp
  · rw [e3]
    have : pre.length + (rec.name.length + 1)
        + (sg.length + rec.intDigits.length + 1 + rec.fracDigits.length)
        = (pre ++ rec.name ++ [59] ++ sg ++ rec.intDigits ++ [46] ++ rec.fracDigits).length := by
      simp; omega
    rw [this, List.getElem?_append_right (le_refl _)]
    simp

/-- One iteration on a well-formed record either moves the cursor to the end of the
record and stores the updated aggregate, or never returns from a probe of the table. -/
theorem processRecord_cases (rec : Record) (hw : rec.wf) (pre tail : List Nat) (hm : hashMap)
    (f : List Nat → Option result) (hh : hm.Holds f) :
    processRecord (pre ++ rec.encode ++ tail) pre.length hm = .error .noTermination ∨
    ∃ hm1, processRecord (pre ++ rec.encode ++ tail) pre.length hm
        = .ok ((pre ++ rec.encode).length, hm1) ∧
      hm1.Holds (Function.update f rec.name
        (some (((f rec.name).getD (newResult ⟨rec.name, fingerprint rec.name⟩)).update
          rec.value))) ∧
      hm1.mask = hm.mask := by
  obtain ⟨w1, w2, n2, s1, p1, s2, p2, hlen, -, -⟩ := scan_record rec hw pre tail
  have hnm : (⟨rec.name, fingerprint rec.name⟩ : name).wf := rfl
  unfold processRecord
  simp only [s1, p1, s2, p2]
  cases hg : hm.get ⟨rec.name, fingerprint rec.name⟩ with
  | error e =>
    left
    rw [get_error hm hh.inv _ e hg]
  | ok x =>
    obtain ⟨r, ok⟩ := x
    have hx := holds_get hm f hh _ hnm _ hg
    simp only
    cases hs : hm.set ((if ok = true then r else newResult ⟨rec.name, fingerprint rec.name⟩).update
        rec.value) with
    | error e =>
      left
      have hi : hm.Inv := hh.inv
      rw [set_error hm hi _ e hs]
    | ok hm1 =>
      right
      refine ⟨hm1, by simp only [hlen], ?_⟩
      cases hf : f rec.name with
      | none =>
        rw [show (⟨rec.name, fingerprint rec.name⟩ : name).value = rec.name from rfl, hf] at hx
        injection hx with hx1 hx2
        subst hx2
        simp only [Bool.false_eq_true, if_false] at hs
        have := holds_set hm hm1 f hh _ hnm hs
        simpa using this
      | some r0 =>
        rw [show (⟨rec.name, fingerprint rec.name⟩ : name).value = rec.name from rfl, hf] at hx
        injection hx with hx1 hx2
        subst hx1 hx2
        simp only [if_true] at hs
        obtain ⟨hv, j, hj⟩ := hh.complete _ _ hf
        have hrw : (r.update rec.value).name.wf := hh.inv.wf j r hj
        have hrv : (r.update rec.value).name.value = rec.name := hv
        have := holds_set hm hm1 f hh _ hrw hs
        rw [hrv] at this
        simpa using this

/-- The loop of `processRange` on well-formed records either exits with the cursor at
the end of the range and the table of the records, or never returns from a probe. -/
theorem processLoop_cases (rest : List Record) :
    ∀ (pre : List Nat) (done : List Record) (hm : hashMap) (fuel : Nat),
      (∀ r ∈ rest, r.wf) → hm.Holds (tableOf done) → (encodeAll rest).length < fuel →
      processLoop (pre ++ encodeAll rest) fuel pre.length hm = .error .noTermination ∨
      ∃ hm', processLoop (pre ++ encodeAll rest) fuel pre.length hm
          = .ok ((pre ++ encodeAll rest).length, hm') ∧
        hm'.Holds (tableOf (done ++ rest)) ∧ hm'.mask = hm.mask := by
  induction rest with
  | nil =>
    intro pre done hm fuel _ hh hf
    obtain ⟨f, rfl⟩ : ∃ f, fuel = f + 1 := ⟨fuel - 1, by omega⟩
    right
    refine ⟨hm, ?_, by simpa using hh, rfl⟩
    simp [processLoop, encodeAll]
  | cons rec rest ih =>
    intro pre done hm fuel hw hh hf
    obtain ⟨f, rfl⟩ : ∃ f, fuel = f + 1 := ⟨fuel - 1, by omega⟩
    have hrw : rec.wf := hw rec (by simp)
    have ea : pre ++ encodeAll (rec :: rest) = pre ++ rec.encode ++ encodeAll rest := by
      rw [encodeAll_cons, List.append_assoc]
    have hne : pre.length ≠ (pre ++ rec.encode ++ encodeAll rest).length := by
      have := encode_length_pos rec
      simp only [List.length_append]
      omega
    have hfl : (encodeAll rest).length < f := by
      have := encode_length_pos rec
      rw [encodeAll_cons, List.length_append] at hf
      omega
    rw [processLoop, ea, if_pos hne]
    rcases processRecord_cases rec hrw pre (encodeAll rest) hm _ hh with hp | ⟨hm1, hp, hh1, hmask1⟩
    · left
      rw [hp]
    · rw [hp]
      simp only
      rw [← tableOf_snoc] at hh1
      rcases ih (pre ++ rec.encode) (done ++ [rec]) hm1 f (fun r hr => hw r (by simp [hr])) hh1 hfl
        with hl | ⟨hm2, hl, hh2, hmask2⟩
      · left; exact hl
      · right
        exact ⟨hm2, hl, by simpa using hh2, by rw [hmask2, hmask1]⟩

/-- The loop of `processRange` runs through a prefix of well-formed records: after one
iteration per record the cursor is at the end of the prefix. -/
theorem processLoop_steps (mid : List Record) :
    ∀ (pre : List Nat) (done : List Record) (hm : hashMap) (fuel : Nat) (tail : List Nat),
      (∀ r ∈ mid, r.wf) → hm.Holds (tableOf done) →
      ((done ++ mid).map Record.name).dedup.length ≤ hm.mask + 1 →
      ∃ hm', processLoop (pre ++ encodeAll mid ++ tail) (fuel + mid.length) pre.length hm
          = processLoop (pre ++ encodeAll mid ++ tail) fuel (pre ++ encodeAll mid).length hm' ∧
        hm'.Holds (tableOf (done ++ mid)) ∧ hm'.mask = hm.mask := by
  induction mid with
  | nil =>
    intro pre done hm fuel tail _ hh _
    exact ⟨hm, by simp [encodeAll], by simpa using hh, rfl⟩
  | cons rec mid ih =>
    intro pre done hm fuel tail hw hh hcap
    have hrw : rec.wf := hw rec (by simp)
    have hroom : tableOf done rec.name = none → ∃ e, e < hm.mask + 1 ∧ hm.slot e = none := by
      intro hn
      apply holds_exists_empty hm _ hh ((done ++ rec :: mid).map Record.name) _ hcap rec.name
        (by simp) hn
      intro m hm0
      have := tableOf_ne_none done m hm0
      simp only [List.map_append, List.mem_append]
      exact Or.inl this
    have ea : pre ++ encodeAll (rec :: mid) ++ tail
        = pre ++ rec.encode ++ (encodeAll mid ++ tail) := by
      rw [encodeAll_cons]; simp
    have eb : pre ++ encodeAll (rec :: mid) ++ tail
        = pre ++ rec.encode ++ encodeAll mid ++ tail := by
      rw [encodeAll_cons]; simp
    obtain ⟨hm1, hp, hh1, hmask1⟩ :=
      processRecord_spec rec hrw pre (encodeAll mid ++ tail) hm _ hh hroom
    rw [← tableOf_snoc] at hh1
    obtain ⟨hm2, hl, hh2, hmask2⟩ := ih (pre ++ rec.encode) (done ++ [rec]) hm1 fuel tail
      (fun r hr => hw r (by simp [hr])) hh1 (by rw [hmask1]; simpa using hcap)
    have hne : pre.length ≠ (pre ++ rec.encode ++ (encodeAll mid ++ tail)).length := by
      have := encode_length_pos rec
      simp only [List.length_append]
      omega
    refine ⟨hm2, ?_, by simpa using hh2, by rw [hmask2, hmask1]⟩
    have hfu : fuel + (rec :: mid).length = (fuel + mid.length) + 1 := by
      simp only [List.length_cons]; omega
    rw [hfu, processLoop, ea, if_pos hne, hp]
    simp only
    rw [← ea, eb, hl]
    congr 1
    rw [encodeAll_cons]; simp

theorem length_le_encodeAll (recs : List Record) : recs.length ≤ (encodeAll recs).length := by
  induction recs with
  | nil => simp
  | cons r rs ih =>
    have := encode_length_pos r
    rw [encodeAll_cons, List.length_append, List.length_cons]
    omega

end OneBRC

namespace OneBRC

theorem manyRecords_ne_nil (lo n : Nat) (h : 0 < n) : manyRecords lo n ≠ [] := by
  intro hc
  have := manyRecords_names_length lo n
  rw [hc] at this
  simp at this
  omega

/-- More than 2^16 records with pairwise different names: the loop of `processRange`
never returns. -/
theorem manyRecords_overflow (n : Nat) (h1 : 2 ^ 16 < n) (h2 : n ≤ 1048576) :
    processLoop (encodeAll (manyRecords 0 n)) ((encodeAll (manyRecords 0 n)).length + 1) 0
      (newHashMap 16) = .error .noTermination := by
  have h0 : (newHashMap 16).Holds (tableOf []) := by
    have : tableOf [] = fun _ => none := by funext m; simp [tableOf, valuesOf]
    rw [this]; exact holds_new 16
  rcases processLoop_cases (manyRecords 0 n) [] [] (newHashMap 16)
    ((encodeAll (manyRecords 0 n)).length + 1) (manyRecords_wf _ _) h0 (by omega)
    with hl | ⟨hm, -, hh, hmask⟩
  · simpa using hl
  · exfalso
    simp only [List.nil_append] at hh
    have hnd : ((manyRecords 0 n).map Record.name).Nodup := by
      rw [manyRecords_names]
      apply List.Nodup.map_on _ (List.nodup_range _)
      intro a ha b hb hab
      rw [List.mem_range] at ha hb
      simp only [Nat.zero_add] at hab
      exact nameOf_injective a b (by omega) (by omega) hab
    have hL : ∀ m ∈ (manyRecords 0 n).map Record.name, tableOf (manyRecords 0 n) m ≠ none := by
      intro m hin
      have := valuesOf_nil_of_mem _ m hin
      simp [tableOf, this]
    have := holds_names_le hm _ hh _ hnd hL
    rw [manyRecords_names_length, hmask, newHashMap16_mask] at this
    omega

/-- C15 (amended). For every byte range that is the concatenation of well-formed
records with at most 2^16 distinct names: the loop of `processRange` reaches the start
of every record; there `parseName` and `parseValue` return without reading outside the
range, the last byte each of them reads (the `';'` and the `'\n'` of the record) is at
an index below `len(range)`, and the iteration moves the cursor to the start of the
next record; and the loop exits with the cursor equal to `len(range)`. -/
theorem scanner_in_range (recs : List Record) (hw : ∀ r ∈ recs, r.wf)
    (hcap : (recs.map Record.name).dedup.length ≤ 2 ^ 16) :
    (∀ done rec rest, recs = done ++ rec :: rest →
      ∃ hm hm1 w1 n1 nm w2 n2 v,
        processLoop (encodeAll recs) ((encodeAll recs).length + 1) 0 (newHashMap 16)
          = processLoop (encodeAll recs) ((encodeAll recs).length + 1 - done.length)
              (encodeAll done).length hm ∧
        sliceFrom (encodeAll recs) (encodeAll done).length = .ok w1 ∧
        parseName w1 = .ok (n1, nm) ∧
        (encodeAll recs)[(encodeAll done).length + n1]? = some 59 ∧
        (encodeAll done).length + n1 < (encodeAll recs).length ∧
        sliceFrom (encodeAll recs) ((encodeAll done).length + (n1 + 1)) = .ok w2 ∧
        parseValue w2 = .ok (n2, v) ∧
        (encodeAll recs)[(encodeAll done).length + (n1 + 1) + n2]? = some 10 ∧
        (encodeAll done).length + (n1 + 1) + n2 < (encodeAll recs).length ∧
        processRecord (encodeAll recs) (encodeAll done).length hm
          = .ok ((encodeAll (done ++ [rec])).length, hm1)) ∧
    ∃ hm, processLoop (encodeAll recs) ((encodeAll recs).length + 1) 0 (newHashMap 16)
      = .ok ((encodeAll recs).length, hm) := by
  have h0 : (newHashMap 16).Holds (tableOf []) := by
    have : tableOf [] = fun _ => none := by funext m; simp [tableOf, valuesOf]
    rw [this]; exact holds_new 16
  have hm16 : (newHashMap 16).mask + 1 = 2 ^ 16 := rfl
  constructor
  · intro done rec rest hsplit
    have hwd : ∀ r ∈ done, r.wf := fun r hr => hw r (by rw [hsplit]; simp [hr])
    have hrw : rec.wf := hw rec (by rw [hsplit]; simp)
    have hcapd : (([] ++ done).map Record.name).dedup.length ≤ (newHashMap 16).mask + 1 := by
      rw [hm16, List.nil_append]
      refine le_trans (dedup_length_le_of_subset _ _ ?_) hcap
      intro m hm0
      rw [hsplit]
      simp only [List.map_append, List.mem_append]
      exact Or.inl hm0
    have hfm : encodeAll recs = [] ++ encodeAll done ++ (rec.encode ++ encodeAll rest) := by
      rw [hsplit, encodeAll_append, encodeAll_cons]; simp
    have hfm2 : encodeAll recs = encodeAll done ++ rec.encode ++ encodeAll rest := by
      rw [hsplit, encodeAll_append, encodeAll_cons]; simp
    have hdl : done.length ≤ (encodeAll recs).length := by
      have := length_le_encodeAll done
      rw [hfm2]; simp only [List.length_append]; omega
    obtain ⟨hm, hl, hh, hmask⟩ := processLoop_steps done [] [] (newHashMap 16)
      ((encodeAll recs).length + 1 - done.length) (rec.encode ++ encodeAll rest) hwd h0 hcapd
    rw [← hfm] at hl
    have hfu : (encodeAll recs).length + 1 - done.length + done.length
        = (encodeAll recs).length + 1 := by omega
    rw [hfu] at hl
    simp only [List.nil_append, List.length_nil] at hl hh
    have hroom : tableOf done rec.name = none → ∃ e, e < hm.mask + 1 ∧ hm.slot e = none := by
      intro hn
      apply holds_exists_empty hm _ hh (recs.map Record.name) _
        (by rw [hmask, hm16]; exact hcap) rec.name (by rw [hsplit]; simp) hn
      intro m hm0
      have := tableOf_ne_none done m hm0
      rw [hsplit]
      simp only [List.map_append, List.mem_append]
      exact Or.inl this
    obtain ⟨hm1, hp, -, -⟩ :=
      processRecord_spec rec hrw (encodeAll done) (encodeAll rest) hm _ hh hroom
    obtain ⟨w1, w2, n2, s1, p1, s2, p2, hlen, g1, g2⟩ :=
      scan_record rec hrw (encodeAll done) (encodeAll rest)
    rw [← hfm2] at hp s1 s2 g1 g2
    have hlt : ∀ (l : List Nat) (i c : Nat), l[i]? = some c → i < l.length := by
      intro l i c h
      by_contra hc
      rw [List.getElem?_eq_none (by omega)] at h
      cases h
    refine ⟨hm, hm1, w1, rec.name.length, _, w2, n2, rec.value, hl, s1, p1, g1,
      hlt _ _ _ g1, s2, p2, g2, hlt _ _ _ g2, ?_⟩
    rw [hp, encodeAll_append]
    simp [encodeAll]
  · obtain ⟨hm, hl, -, -⟩ := processLoop_spec recs [] [] (newHashMap 16)
      ((encodeAll recs).length + 1) hw h0 (by rw [hm16, List.nil_append]; exact hcap) (by omega)
    simp only [List.nil_append, List.length_nil] at hl
    exact ⟨hm, hl⟩

theorem scanner_in_range_witness :
    ((∀ r ∈ [(⟨[65], false, [49], [48]⟩ : Record)], r.wf) ∧
      (([(⟨[65], false, [49], [48]⟩ : Record)]).map Record.name).dedup.length ≤ 2 ^ 16) ∧
    ∃ hm, processLoop (encodeAll [⟨[65], false, [49], [48]⟩])
        ((encodeAll [⟨[65], false, [49], [48]⟩]).length + 1) 0 (newHashMap 16)
      = .ok ((encodeAll [⟨[65], false, [49], [48]⟩]).length, hm) :=
  ⟨⟨by decide, by decide⟩,
    (scanner_in_range [⟨[65], false, [49], [48]⟩] (by decide) (by decide)).2⟩

/-- C15 (counterexample). The range of the 65537 well-formed records
`AAAAA;0.0\n`, ..., `BAAAA;0.0\n` with pairwise different names: the loop of
`processRange` does not exit with the cursor at `len(range)`; the table of 2^16 slots
is full after 65536 records and the probe for the last name never returns. -/
theorem scanner_capacity_counterexample :
    (∀ r ∈ manyRecords 0 65537, r.wf) ∧ manyRecords 0 65537 ≠ [] ∧
    processLoop (encodeAll (manyRecords 0 65537))
      ((encodeAll (manyRecords 0 65537)).length + 1) 0 (newHashMap 16)
      = .error .noTermination :=
  ⟨manyRecords_wf _ _, manyRecords_ne_nil _ _ (by norm_num),
    manyRecords_overflow 65537 (by norm_num) (by norm_num)⟩

end OneBRC

namespace OneBRC

/-! ## The `float64` table through its control-flow view -/

theorem shape_mask (hm : hashMapF) (hq : hashMap) (hs : hm.shape = hq.shape) :
    hm.mask = hq.mask := congrArg Prod.fst hs

theorem shape_occupied (hm : hashMapF) (hq : hashMap) (hs : hm.shape = hq.shape) :
    hm.occupied = hq.occupied := congrArg (fun p => p.2.1) hs

theorem shape_data (hm : hashMapF) (hq : hashMap) (hs : hm.shape = hq.shape) :
    hm.data.map resultF.key = hq.data.map result.key := congrArg (fun p => p.2.2) hs

theorem shape_data_length (hm : hashMapF) (hq : hashMap) (hs : hm.shape = hq.shape) :
    hm.data.length = hq.data.length := by
  have := congrArg List.length (shape_data hm hq hs)
  simpa using this

theorem shape_getElem (hm : hashMapF) (hq : hashMap) (hs : hm.shape = hq.shape) (i : Nat) :
    (hm.data[i]?).map resultF.key = (hq.data[i]?).map result.key := by
  rw [← List.getElem?_map, ← List.getElem?_map, shape_data hm hq hs]

/-- The slots of a `float64` table hold the names and counts of its exact companion. -/
theorem shape_slot (hm : hashMapF) (hq : hashMap) (hs : hm.shape = hq.shape) (i : Nat) :
    (hm.slot i).map resultF.key = (hq.slot i).map result.key := by
  have hd := shape_getElem hm hq hs i
  unfold hashMapF.slot hashMap.slot
  rw [shape_occupied hm hq hs]
  cases hq.occupied[i]? with
  | none => rfl
  | some b =>
    cases b with
    | false => rfl
    | true =>
      cases h1 : hm.data[i]? with
      | none =>
        cases h2 : hq.data[i]? with
        | none => rfl
        | some r => rw [h1, h2] at hd; cases hd
      | some rF =>
        cases h2 : hq.data[i]? with
        | none => rw [h1, h2] at hd; cases hd
        | some r => rw [h1, h2] at hd; exact hd

theorem shape_slot_some (hm : hashMapF) (hq : hashMap) (hs : hm.shape = hq.shape) (i : Nat)
    (rF : resultF) (h : hm.slot i = some rF) :
    ∃ r, hq.slot i = some r ∧ r.name = rF.name := by
  have := shape_slot hm hq hs i
  rw [h] at this
  cases h2 : hq.slot i with
  | none => rw [h2] at this; cases this
  | some r =>
    rw [h2] at this
    simp only [Option.map_some', Option.some.injEq] at this
    exact ⟨r, rfl, (congrArg Prod.fst this).symm⟩

theorem shape_slot_some' (hm : hashMapF) (hq : hashMap) (hs : hm.shape = hq.shape) (i : Nat)
    (r : result) (h : hq.slot i = some r) :
    ∃ rF, hm.slot i = some rF ∧ rF.name = r.name := by
  have := shape_slot hm hq hs i
  rw [h] at this
  cases h2 : hm.slot i with
  | none => rw [h2] at this; cases this
  | some rF =>
    rw [h2] at this
    simp only [Option.map_some', Option.some.injEq] at this
    exact ⟨rF, rfl, congrArg Prod.fst this⟩

theorem shape_slot_none (hm : hashMapF) (hq : hashMap) (hs : hm.shape = hq.shape) (i : Nat) :
    hm.slot i = none ↔ hq.slot i = none := by
  have := shape_slot hm hq hs i
  constructor
  · intro h
    rw [h] at this
    cases h2 : hq.slot i with
    | none => rfl
    | some r => rw [h2] at this; cases this
  · intro h
    rw [h] at this
    cases h2 : hm.slot i with
    | none => rfl
    | some r => rw [h2] at this; cases this

/-- The probe of `set` on a `float64` table is the probe on its exact companion. -/
theorem setLoopF_eq (hm : hashMapF) (hq : hashMap) (hs : hm.shape = hq.shape)
    (r : resultF) (rq : result) (hn : r.name = rq.name) :
    ∀ fuel i, setLoopF hm r fuel i = setLoop hq rq fuel i := by
  intro fuel
  induction fuel with
  | zero => intro i; rfl
  | succ f ih =>
    intro i
    have hd := shape_getElem hm hq hs i
    rw [setLoopF, setLoop, shape_occupied hm hq hs, shape_mask hm hq hs]
    cases hq.occupied[i]? with
    | none => rfl
    | some b =>
      cases b with
      | false => rfl
      | true =>
        cases h1 : hm.data[i]? with
        | none =>
          cases h2 : hq.data[i]? with
          | none => rfl
          | some r0 => rw [h1, h2] at hd; cases hd
        | some rF =>
          cases h2 : hq.data[i]? with
          | none => rw [h1, h2] at hd; cases hd
          | some r0 =>
            rw [h1, h2] at hd
            simp only [Option.map_some', Option.some.injEq] at hd
            have hnm : rF.name = r0.name := congrArg Prod.fst hd
            simp only [hnm, hn, ih]

theorem getLoopF_eq_setLoopF (hm : hashMapF) (r : resultF) :
    ∀ fuel i, getLoopF hm r.name fuel i = (setLoopF hm r fuel i).map (readSlotF hm) := by
  intro fuel
  induction fuel with
  | zero => intro i; rfl
  | succ f ih =>
    intro i
    rw [getLoopF, setLoopF]
    cases ho : hm.occupied[i]? with
    | none => rfl
    | some b =>
      cases b with
      | false =>
        simp only [Except.map, readSlotF, hashMapF.slot, ho]
      | true =>
        cases hd : hm.data[i]? with
        | none => rfl
        | some r0 =>
          simp only
          by_cases he : r0.name.equal r.name = true
          · simp only [he, if_true, Except.map, readSlotF, hashMapF.slot, ho, hd]
          · simp only [he, if_false, ih]
            rfl

/-- The `get` of a `float64` table reads the slot at which the probe on the exact
companion stops. -/
theorem getF_eq (hm : hashMapF) (hq : hashMap) (hs : hm.shape = hq.shape) (nm : name) :
    hm.get nm = (setLoop hq (newResult nm) (hq.mask + 1) (nm.hash &&& hq.mask)).map
      (readSlotF hm) := by
  unfold hashMapF.get
  have e := getLoopF_eq_setLoopF hm (newResultF nm) (hm.mask + 1) (nm.hash &&& hm.mask)
  change getLoopF hm nm _ _ = _ at e
  rw [e, setLoopF_eq hm hq hs (newResultF nm) (newResult nm) rfl, shape_mask hm hq hs]

/-- The `set` of a `float64` table writes the slot at which the probe on the exact
companion stops. -/
theorem setF_of_stop (hm : hashMapF) (hq : hashMap) (hs : hm.shape = hq.shape)
    (r : resultF) (rq : result) (hn : r.name = rq.name) (j : Nat)
    (hl : setLoop hq rq (hq.mask + 1) (rq.name.hash &&& hq.mask) = .ok j)
    (h1 : j < hm.occupied.length) (h2 : j < hm.data.length) :
    hm.set r = .ok { hm with occupied := hm.occupied.set j true, data := hm.data.set j r } := by
  have e : setLoopF hm r (hm.mask + 1) (r.name.hash &&& hm.mask) = .ok j := by
    rw [setLoopF_eq hm hq hs r rq hn, shape_mask hm hq hs, hn, hl]
  unfold hashMapF.set
  rw [e]
  simp only
  rw [if_pos ⟨h1, h2⟩]

theorem slotF_set (hm : hashMapF) (r : resultF) (j i : Nat)
    (h1 : j < hm.occupied.length) (h2 : j < hm.data.length) :
    hashMapF.slot { hm with occupied := hm.occupied.set j true, data := hm.data.set j r } i
      = if i = j then some r else hm.slot i := by
  unfold hashMapF.slot
  simp only [List.getElem?_set]
  by_cases h : j = i
  · subst h; simp [h1, h2]
  · have h' : ¬ i = j := fun e => h e.symm
    simp [h, h']

theorem newHashMapF_shape (k : Nat) : (newHashMapF k).shape = (newHashMap k).shape := by
  simp [hashMapF.shape, hashMap.shape, newHashMapF, newHashMap, resultF.key, result.key,
    resultF.zero, result.zero]

theorem newHashMapF_slot (k i : Nat) : (newHashMapF k).slot i = none := by
  rw [shape_slot_none _ _ (newHashMapF_shape k), newHashMap_slot]

theorem holdsF_new (k : Nat) : (newHashMapF k).Holds (fun _ => none) where
  shaped := ⟨newHashMap k, newHashMapF_shape k, newHashMap_inv k⟩
  sound := fun j r h => by rw [newHashMapF_slot] at h; cases h
  complete := fun m r h => by cases h

end OneBRC

namespace OneBRC

/-! ## `get` and `set` on a `float64` table that represents a finite map -/

theorem holdsF_occLen (hm : hashMapF) (g : List Nat → Option resultF) (hh : hm.Holds g) :
    hm.occupied.length = hm.mask + 1 ∧ hm.data.length = hm.mask + 1 := by
  obtain ⟨hq, hs, hinv⟩ := hh.shaped
  rw [shape_occupied hm hq hs, shape_data_length hm hq hs, shape_mask hm hq hs]
  exact ⟨hinv.occLen, hinv.dataLen⟩

theorem slotF_eq_none (hm : hashMapF) (i : Nat) (h1 : i < hm.occupied.length)
    (h2 : i < hm.data.length) : hm.slot i = none ↔ hm.occupied[i]? = some false := by
  unfold hashMapF.slot
  have e1 : hm.occupied[i]? = some hm.occupied[i] := List.getElem?_eq_getElem h1
  have e2 : hm.data[i]? = some hm.data[i] := List.getElem?_eq_getElem h2
  rw [e1, e2]
  cases hm.occupied[i] <;> simp

theorem occupiedF_false_slot (hm : hashMapF) (g : List Nat → Option resultF)
    (hh : hm.Holds g) (e : Nat) (h : hm.occupied[e]? = some false) :
    e < hm.mask + 1 ∧ hm.slot e = none := by
  obtain ⟨h1, h2⟩ := holdsF_occLen hm g hh
  have he : e < hm.occupied.length := by
    by_contra hc
    have := List.getElem?_eq_none (l := hm.occupied) (n := e) (by omega)
    simp [this] at h
  exact ⟨by omega, (slotF_eq_none hm e he (by omega)).2 h⟩

theorem slotF_name (hm : hashMapF) (g : List Nat → Option resultF) (hh : hm.Holds g)
    (j : Nat) (r : resultF) (h : hm.slot j = some r) : r.name.wf := by
  obtain ⟨hq, hs, hinv⟩ := hh.shaped
  obtain ⟨rq, hrq, hn⟩ := shape_slot_some hm hq hs j r h
  rw [← hn]
  exact hinv.wf j rq hrq

/-- No two occupied slots of a `float64` table hold byte-equal names. -/
theorem holdsF_inj (hm : hashMapF) (g : List Nat → Option resultF) (hh : hm.Holds g)
    (i j : Nat) (r r' : resultF) (h1 : hm.slot i = some r) (h2 : hm.slot j = some r')
    (he : r.name.value = r'.name.value) : i = j := by
  obtain ⟨hq, hs, hinv⟩ := hh.shaped
  obtain ⟨q1, hq1, hn1⟩ := shape_slot_some hm hq hs i r h1
  obtain ⟨q2, hq2, hn2⟩ := shape_slot_some hm hq hs j r' h2
  exact hinv.inj i j q1 q2 hq1 hq2 (by rw [hn1, hn2, he])

theorem holdsF_get_ok (hm : hashMapF) (g : List Nat → Option resultF) (hh : hm.Holds g)
    (nm : name) (hn : nm.wf)
    (hroom : g nm.value = none → ∃ e : Nat, hm.occupied[e]? = some false) :
    hm.get nm = .ok (match g nm.value with
      | some r => (r, true)
      | none => (resultF.zero, false)) := by
  obtain ⟨hq, hs, hinv⟩ := hh.shaped
  rw [getF_eq hm hq hs nm]
  cases hg : g nm.value with
  | some r =>
    obtain ⟨hv, j, hj⟩ := hh.complete _ _ hg
    obtain ⟨rq, hrq, hnq⟩ := shape_slot_some hm hq hs j r hj
    have hl := setLoop_present hq hinv (newResult nm) rq j hn hrq (by rw [hnq]; exact hv)
    change setLoop hq (newResult nm) (hq.mask + 1) (nm.hash &&& hq.mask) = _ at hl
    rw [hl]
    simp only [Except.map, readSlotF, hj]
  | none =>
    obtain ⟨e, he⟩ := hroom hg
    rw [shape_occupied hm hq hs] at he
    obtain ⟨he1, he2⟩ := occupied_false_slot hq hinv e he
    obtain ⟨j, hl⟩ := setLoop_terminates hq hinv (newResult nm) _ e
      (and_mask_lt hq hinv.pow nm.hash) he1 he2
    rw [hl]
    have hst := setLoop_stop hq (newResult nm) _ _ _ hl
    have hnone : hm.slot j = none := by
      rcases hst.2 with hf | ⟨r0, h0, e0⟩
      · rw [shape_slot_none hm hq hs]
        exact (slot_eq_none hq j hst.1 (by rw [hinv.dataLen, ← hinv.occLen]; exact hst.1)).2 hf
      · exfalso
        obtain ⟨rF, hrF, hnF⟩ := shape_slot_some' hm hq hs j r0 h0
        have := hh.sound j rF hrF
        rw [hnF, e0] at this
        change g nm.value = _ at this
        rw [hg] at this
        cases this
    simp only [Except.map, readSlotF, hnone]

theorem holdsF_set_ok (hm : hashMapF) (g : List Nat → Option resultF) (hh : hm.Holds g)
    (r : resultF) (hr : r.name.wf)
    (hroom : g r.name.value = none → ∃ e : Nat, hm.occupied[e]? = some false) :
    ∃ hm', hm.set r = .ok hm' ∧ hm'.Holds (Function.update g r.name.value (some r)) ∧
      hm'.mask = hm.mask := by
  obtain ⟨hq, hs, hinv⟩ := hh.shaped
  obtain ⟨hoL, hdL⟩ := holdsF_occLen hm g hh
  have hmask := shape_mask hm hq hs
  have hrq : (⟨r.name, 0, 0, 0, r.count⟩ : result).name.wf := hr
  -- the probe on the companion stops
  have hj : ∃ j, setLoop hq ⟨r.name, 0, 0, 0, r.count⟩ (hq.mask + 1)
      (r.name.hash &&& hq.mask) = .ok j := by
    cases hg : g r.name.value with
    | some r1 =>
      obtain ⟨hv, j, hj⟩ := hh.complete _ _ hg
      obtain ⟨rq, hrq1, hnq⟩ := shape_slot_some hm hq hs j r1 hj
      exact ⟨j, setLoop_present hq hinv ⟨r.name, 0, 0, 0, r.count⟩ rq j hrq hrq1
        (by rw [hnq]; exact hv)⟩
    | none =>
      obtain ⟨e, he⟩ := hroom hg
      rw [shape_occupied hm hq hs] at he
      obtain ⟨he1, he2⟩ := occupied_false_slot hq hinv e he
      exact setLoop_terminates hq hinv _ _ e (and_mask_lt hq hinv.pow _) he1 he2
  obtain ⟨j, hl⟩ := hj
  have hst := setLoop_stop hq ⟨r.name, 0, 0, 0, r.count⟩ _ _ _ hl
  have hjo : j < hq.occupied.length := hst.1
  have hjd : j < hq.data.length := by rw [hinv.dataLen, ← hinv.occLen]; exact hjo
  have hjoF : j < hm.occupied.length := by rw [shape_occupied hm hq hs]; exact hjo
  have hjdF : j < hm.data.length := by rw [shape_data_length hm hq hs]; exact hjd
  have hsetq : hq.set ⟨r.name, 0, 0, 0, r.count⟩
      = .ok { hq with occupied := hq.occupied.set j true,
                      data := hq.data.set j ⟨r.name, 0, 0, 0, r.count⟩ } := by
    unfold hashMap.set
    rw [hl]
    simp only [if_pos (And.intro hjo hjd)]
  have hsetF : hm.set r
      = .ok { hm with occupied := hm.occupied.set j true, data := hm.data.set j r } :=
    setF_of_stop hm hq hs r ⟨r.name, 0, 0, 0, r.count⟩ rfl j hl hjoF hjdF
  have hinv' := (set_spec hq _ hinv ⟨r.name, 0, 0, 0, r.count⟩ hrq hsetq).1
  have hshape : hashMapF.shape
        ({ hm with occupied := hm.occupied.set j true, data := hm.data.set j r })
      = hashMap.shape ({ hq with occupied := hq.occupied.set j true,
                                 data := hq.data.set j ⟨r.name, 0, 0, 0, r.count⟩ }) := by
    simp only [hashMapF.shape, hashMap.shape, List.map_set, hmask, shape_occupied hm hq hs,
      shape_data hm hq hs]
    rfl
  -- the names of the other occupied slots differ from the name written
  have hother : ∀ i rF, i ≠ j → hm.slot i = some rF → rF.name.value ≠ r.name.value := by
    intro i rF hij hsl he
    obtain ⟨q1, hq1, hn1⟩ := shape_slot_some hm hq hs i rF hsl
    rcases hst.2 with hf | ⟨r0, h0, e0⟩
    · have hp := setLoop_present hq hinv ⟨r.name, 0, 0, 0, r.count⟩ q1 i hrq hq1
        (by rw [hn1]; exact he)
      change setLoop hq ⟨r.name, 0, 0, 0, r.count⟩ (hq.mask + 1) (r.name.hash &&& hq.mask)
        = _ at hp
      rw [hl] at hp
      injection hp with hp
      exact hij hp.symm
    · exact hij (hinv.inj i j q1 r0 hq1 h0 (by rw [hn1, he, e0]))
  refine ⟨_, hsetF, ⟨⟨_, hshape, hinv'⟩, ?_, ?_⟩, rfl⟩
  · intro i rF hsl
    rw [slotF_set hm r j i hjoF hjdF] at hsl
    by_cases hij : i = j
    · rw [if_pos hij] at hsl
      injection hsl with hsl
      rw [← hsl, Function.update_same]
    · rw [if_neg hij] at hsl
      rw [Function.update_noteq (hother i rF hij hsl)]
      exact hh.sound i rF hsl
  · intro m x hx
    by_cases hm0 : m = r.name.value
    · rw [hm0, Function.update_same] at hx
      injection hx with hx
      rw [← hx]
      refine ⟨hm0.symm, j, ?_⟩
      rw [slotF_set hm r j j hjoF hjdF, if_pos rfl]
    · rw [Function.update_noteq hm0] at hx
      obtain ⟨hv, i, hi⟩ := hh.complete m x hx
      refine ⟨hv, i, ?_⟩
      have hij : i ≠ j := by
        intro e
        rw [e] at hi
        rcases hst.2 with hf | ⟨r0, h0, e0⟩
        · have := (slotF_eq_none hm j hjoF hjdF).2 (by rw [shape_occupied hm hq hs]; exact hf)
          rw [this] at hi; cases hi
        · obtain ⟨rF, hrF, hnF⟩ := shape_slot_some' hm hq hs j r0 h0
          rw [hi] at hrF
          injection hrF with hrF
          apply hm0
          rw [← hv, hrF, hnF]
          exact e0
      rw [slotF_set hm r j i hjoF hjdF, if_neg hij]
      exact hi

/-- When every slot is occupied the table stores `mask + 1` distinct names. -/
theorem holdsF_full_names (hm : hashMapF) (g : List Nat → Option resultF) (hh : hm.Holds g)
    (hc : ¬ ∃ e : Nat, hm.occupied[e]? = some false) :
    ∃ L : List (List Nat), L.Nodup ∧ L.length = hm.mask + 1 ∧ ∀ m ∈ L, g m ≠ none := by
  obtain ⟨hoL, hdL⟩ := holdsF_occLen hm g hh
  have hall : ∀ e, e < hm.mask + 1 → ∃ r, hm.slot e = some r := by
    intro e he
    cases hs : hm.slot e with
    | none =>
      exact absurd ⟨e, (slotF_eq_none hm e (by omega) (by omega)).1 hs⟩ hc
    | some r => exact ⟨r, rfl⟩
  let nameAt : Nat → List Nat := fun i => ((hm.slot i).getD resultF.zero).name.value
  refine ⟨(List.range (hm.mask + 1)).map nameAt, ?_, by simp, ?_⟩
  · apply List.Nodup.map_on _ (List.nodup_range _)
    intro a ha b hb hab
    obtain ⟨ra, hra⟩ := hall a (List.mem_range.1 ha)
    obtain ⟨rb, hrb⟩ := hall b (List.mem_range.1 hb)
    apply holdsF_inj hm g hh a b ra rb hra hrb
    simpa [nameAt, hra, hrb] using hab
  · intro m hm1
    obtain ⟨i, hi, rfl⟩ := List.mem_map.1 hm1
    obtain ⟨r, hr⟩ := hall i (List.mem_range.1 hi)
    have := hh.sound i r hr
    simp [nameAt, hr, this]

/-- Room for one more name. -/
theorem holdsF_exists_empty (hm : hashMapF) (g : List Nat → Option resultF) (hh : hm.Holds g)
    (D : List (List Nat)) (hD : ∀ m, g m ≠ none → m ∈ D) (hlen : D.dedup.length ≤ hm.mask + 1)
    (m0 : List Nat) (hm0 : m0 ∈ D) (hf0 : g m0 = none) :
    ∃ e : Nat, hm.occupied[e]? = some false := by
  by_contra hc
  obtain ⟨L, hnd, hlen2, hmem⟩ := holdsF_full_names hm g hh hc
  have hnd2 : (m0 :: L).Nodup := List.nodup_cons.2 ⟨fun hin => hmem m0 hin hf0, hnd⟩
  have hsub : (m0 :: L) ⊆ D.dedup := by
    intro m hm1
    rw [List.mem_dedup]
    rcases List.mem_cons.1 hm1 with rfl | h
    · exact hm0
    · exact hD m (hmem m h)
  have := (hnd2.subperm hsub).length_le
  simp at this
  omega

end OneBRC

namespace OneBRC

/-! ## Scanner and worker on `float64` -/

theorem parseValueIntF_spec (mid : List Nat) :
    ∀ (pre rest : List Nat) (fuel : Nat) (v : F64), 46 ∉ mid → mid.length < fuel →
      parseValueIntF (pre ++ mid ++ 46 :: rest) fuel pre.length v
        = .ok ((pre ++ mid).length,
            mid.foldl (fun a c => (a.mul (F64.ofNat 10)).add (digitValF c)) v) := by
  induction mid with
  | nil =>
    intro pre rest fuel v _ hf
    obtain ⟨f, rfl⟩ : ∃ f, fuel = f + 1 := ⟨fuel - 1, by simp at hf; omega⟩
    simp [parseValueIntF, unsafeIdx_append_cons]
  | cons c mid ih =>
    intro pre rest fuel v hm hf
    obtain ⟨f, rfl⟩ : ∃ f, fuel = f + 1 := ⟨fuel - 1, by simp at hf; omega⟩
    have hc : c ≠ 46 := fun e => hm (by simp [e])
    have hm2 : 46 ∉ mid := fun e => hm (by simp [e])
    have e1 : pre ++ c :: mid ++ 46 :: rest = pre ++ c :: (mid ++ 46 :: rest) := by simp
    have e2 : pre ++ c :: mid ++ 46 :: rest = (pre ++ [c]) ++ mid ++ 46 :: rest := by simp
    have := ih (pre ++ [c]) rest f ((v.mul (F64.ofNat 10)).add (digitValF c)) hm2
      (by simp at hf; omega)
    rw [parseValueIntF, e1, unsafeIdx_append_cons, ← e1, e2]
    simp only [hc, if_false]
    simpa using this

theorem parseValueFracF_spec (mid : List Nat) :
    ∀ (pre rest : List Nat) (fuel : Nat) (m v : F64), 10 ∉ mid → mid.length < fuel →
      parseValueFracF (pre ++ mid ++ 10 :: rest) fuel pre.length m v
        = .ok ((pre ++ mid).length,
            (mid.foldl (fun (p : F64 × F64) c =>
              (p.1.mul F64.tenth, p.2.add ((p.1.mul F64.tenth).mul (digitValF c)))) (m, v)).2) := by
  induction mid with
  | nil =>
    intro pre rest fuel m v _ hf
    obtain ⟨f, rfl⟩ : ∃ f, fuel = f + 1 := ⟨fuel - 1, by simp at hf; omega⟩
    simp [parseValueFracF, unsafeIdx_append_cons]
  | cons c mid ih =>
    intro pre rest fuel m v hm hf
    obtain ⟨f, rfl⟩ : ∃ f, fuel = f + 1 := ⟨fuel - 1, by simp at hf; omega⟩
    have hc : c ≠ 10 := fun e => hm (by simp [e])
    have hm2 : 10 ∉ mid := fun e => hm (by simp [e])
    have e1 : pre ++ c :: mid ++ 10 :: rest = pre ++ c :: (mid ++ 10 :: rest) := by simp
    have e2 : pre ++ c :: mid ++ 10 :: rest = (pre ++ [c]) ++ mid ++ 10 :: rest := by simp
    have := ih (pre ++ [c]) rest f (m.mul F64.tenth)
      (v.add ((m.mul F64.tenth).mul (digitValF c))) hm2 (by simp at hf; omega)
    rw [parseValueFracF, e1, unsafeIdx_append_cons, ← e1, e2]
    simp only [hc, if_false]
    simpa using this

/-- On the value bytes of a record `parseValue` returns the offset of the newline and
the `float64` of the record. -/
theorem parseValueF_spec (rec : Record) (rest : List Nat)
    (hip : rec.intDigits ≠ []) (hipd : ∀ c ∈ rec.intDigits, 48 ≤ c ∧ c ≤ 57)
    (hfpd : ∀ c ∈ rec.fracDigits, 48 ≤ c ∧ c ≤ 57) :
    parseValueF ((if rec.neg then [45] else []) ++ rec.intDigits
        ++ 46 :: (rec.fracDigits ++ 10 :: rest))
      = .ok ((if rec.neg then 1 else 0) + rec.intDigits.length + 1 + rec.fracDigits.length,
          rec.valueF) := by
  obtain ⟨nm, neg, ip, fp⟩ := rec
  simp only at hip hipd hfpd ⊢
  have h46 : 46 ∉ ip := fun h => by have := hipd 46 h; omega
  have h10 : 10 ∉ fp := fun h => by have := hfpd 10 h; omega
  obtain ⟨c, ip', rfl⟩ := List.exists_cons_of_ne_nil hip
  have hc := hipd c (by simp)
  set sg : List Nat := if neg then [45] else [] with hsg
  have hne : sg ++ c :: ip' ++ 46 :: (fp ++ 10 :: rest) ≠ [] := by simp
  have h0 : unsafeIdx (sg ++ c :: ip' ++ 46 :: (fp ++ 10 :: rest)) 0
      = .ok (if neg then 45 else c) := by
    cases neg <;> simp [hsg, unsafeIdx]
  have hrd : (if (if neg then 45 else c) = 45 then 1 else 0) = sg.length := by
    cases neg
    · have : c ≠ 45 := by omega
      simp [hsg, this]
    · simp [hsg]
  have hsign : (if (if neg then 45 else c) = 45 then F64.round true 1 1 else F64.ofNat 1)
      = if neg then F64.round true 1 1 else F64.ofNat 1 := by
    cases neg
    · have : c ≠ 45 := by omega
      simp [this]
    · simp
  have hI := fun fuel hf =>
    parseValueIntF_spec (c :: ip') sg (fp ++ 10 :: rest) fuel F64.zero h46 hf
  have e3 : sg ++ c :: ip' ++ 46 :: (fp ++ 10 :: rest)
      = (sg ++ c :: ip' ++ [46]) ++ fp ++ 10 :: rest := by simp
  have hF := fun fuel v hf =>
    parseValueFracF_spec fp (sg ++ c :: ip' ++ [46]) rest fuel (F64.ofNat 1) v h10 hf
  have hlen1 : (sg ++ c :: ip').length + 1 = (sg ++ c :: ip' ++ [46]).length := by
    simp only [List.length_append, List.length_cons, List.length_nil]
  unfold parseValueF
  rw [if_neg hne, h0]
  simp only [hrd, hsign]
  rw [hI _ (by simp only [List.length_append, List.length_cons]; omega)]
  simp only [hlen1]
  rw [e3, hF _ _ (by simp only [List.length_append, List.length_cons]; omega)]
  have hl : (sg ++ c :: ip' ++ [46] ++ fp).length
      = (if neg then 1 else 0) + (c :: ip').length + 1 + fp.length := by
    cases neg <;> simp [hsg] <;> omega
  rw [hl]
  rfl

theorem updateF_name (r : resultF) (v : F64) : (r.update v).name = r.name := rfl

theorem processRecordF_spec (rec : Record) (hw : rec.wf) (pre tail : List Nat) (hm : hashMapF)
    (g : List Nat → Option resultF) (hh : hm.Holds g)
    (hroom : g rec.name = none → ∃ e : Nat, hm.occupied[e]? = some false) :
    ∃ hm1, processRecordF (pre ++ rec.encode ++ tail) pre.length hm
        = .ok ((pre ++ rec.encode).length, hm1) ∧
      hm1.Holds (Function.update g rec.name
        (some (((g rec.name).getD (newResultF ⟨rec.name, fingerprint rec.name⟩)).update
          rec.valueF))) ∧
      hm1.mask = hm.mask := by
  obtain ⟨hname, hip, -, hipd, hfpd⟩ := hw
  have h59 : 59 ∉ rec.name := fun h => (hname 59 h).2.1 rfl
  set sg : List Nat := if rec.neg then [45] else [] with hsg
  set V : List Nat := sg ++ rec.intDigits ++ 46 :: (rec.fracDigits ++ 10 :: tail) with hV
  have e1 : pre ++ rec.encode ++ tail = pre ++ (rec.name ++ 59 :: V) := by
    simp [Record.encode, hV, hsg]
  have e2 : pre ++ rec.encode ++ tail = (pre ++ rec.name ++ [59]) ++ V := by
    simp [Record.encode, hV, hsg]
  have s1 : sliceFrom (pre ++ rec.encode ++ tail) pre.length = .ok (rec.name ++ 59 :: V) := by
    rw [e1]; simp [sliceFrom]
  have s2 : sliceFrom (pre ++ rec.encode ++ tail) (pre.length + (rec.name.length + 1))
      = .ok V := by
    rw [e2]
    have : pre.length + (rec.name.length + 1) = (pre ++ rec.name ++ [59]).length := by
      simp
    rw [this]
    simp only [sliceFrom, List.drop_left']
    rw [if_pos (by simp)]
  have p1 : parseName (rec.name ++ 59 :: V)
      = .ok (rec.name.length, ⟨rec.name, fingerprint rec.name⟩) := parseName_spec rec.name V h59
  have p2 : parseValueF V = .ok (sg.length + rec.intDigits.length + 1 + rec.fracDigits.length,
      rec.valueF) := by
    have := parseValueF_spec rec tail hip hipd hfpd
    rw [hV, hsg, this]
    have hl : (if rec.neg = true then 1 else 0) = (if rec.neg = true then [45] else []).length := by
      cases rec.neg <;> rfl
    rw [hl]
  have hnm : (⟨rec.name, fingerprint rec.name⟩ : name).wf := rfl
  have hlen : pre.length + (rec.name.length + 1)
      + (sg.length + rec.intDigits.length + 1 + rec.fracDigits.length + 1)
      = (pre ++ rec.encode).length := by
    simp [Record.encode, hsg]; omega
  have g1 := holdsF_get_ok hm g hh ⟨rec.name, fingerprint rec.name⟩ hnm hroom
  cases hf : g rec.name with
  | none =>
    simp only [hf] at g1
    obtain ⟨hm1, hs, hh1, hmask⟩ := holdsF_set_ok hm g hh
      ((newResultF ⟨rec.name, fingerprint rec.name⟩).update rec.valueF) hnm hroom
    refine ⟨hm1, ?_, ?_, hmask⟩
    · unfold processRecordF
      simp only [s1, p1, s2, p2]
      rw [g1]
      simp only [Bool.false_eq_true, if_false, hs, hlen]
    · simpa using hh1
  | some r =>
    simp only [hf] at g1
    obtain ⟨hv, j, hj⟩ := hh.complete _ _ hf
    have hrw : (r.update rec.valueF).name.wf := slotF_name hm g hh j r hj
    have hrv : (r.update rec.valueF).name.value = rec.name := hv
    obtain ⟨hm1, hs, hh1, hmask⟩ := holdsF_set_ok hm g hh (r.update rec.valueF) hrw
      (fun hn => by rw [hrv, hf] at hn; cases hn)
    refine ⟨hm1, ?_, ?_, hmask⟩
    · unfold processRecordF
      simp only [s1, p1, s2, p2]
      rw [g1]
      simp only [if_true, hs, hlen]
    · rw [hrv] at hh1
      simpa using hh1

theorem valuesOfF_append (as bs : List Record) (m : List Nat) :
    valuesOfF (as ++ bs) m = valuesOfF as m ++ valuesOfF bs m := by
  simp [valuesOfF]

theorem valuesOfF_eq_nil (recs : List Record) (m : List Nat) :
    valuesOfF recs m = [] ↔ valuesOf recs m = [] := by
  simp [valuesOfF, valuesOf]

theorem valuesOfF_length (recs : List Record) (m : List Nat) :
    (valuesOfF recs m).length = (valuesOf recs m).length := by
  simp [valuesOfF, valuesOf]

theorem tableOfF_ne_none (recs : List Record) (m : List Nat) (h : tableOfF recs m ≠ none) :
    m ∈ recs.map Record.name := by
  apply valuesOf_ne_nil
  intro hc
  exact h (by simp [tableOfF, (valuesOfF_eq_nil recs m).2 hc])

theorem tableOfF_of_mem (recs : List Record) (m : List Nat) (h : m ∈ recs.map Record.name) :
    tableOfF recs m = some (accumF m (valuesOfF recs m)) := by
  have := valuesOf_nil_of_mem recs m h
  unfold tableOfF
  rw [if_neg (fun hc => this ((valuesOfF_eq_nil recs m).1 hc))]

theorem tableOfF_snoc (done : List Record) (rec : Record) :
    tableOfF (done ++ [rec]) = Function.update (tableOfF done) rec.name
      (some (((tableOfF done rec.name).getD (newResultF ⟨rec.name, fingerprint rec.name⟩)).update
        rec.valueF)) := by
  funext m
  by_cases hm : m = rec.name
  · subst hm
    rw [Function.update_same]
    have hv : valuesOfF (done ++ [rec]) rec.name = valuesOfF done rec.name ++ [rec.valueF] := by
      rw [valuesOfF_append]; simp [valuesOfF]
    unfold tableOfF
    rw [hv, if_neg (by simp)]
    by_cases h0 : valuesOfF done rec.name = []
    · simp [h0, accumF]
    · simp [h0, accumF, List.foldl_append]
  · rw [Function.update_noteq hm]
    have hv : valuesOfF (done ++ [rec]) m = valuesOfF done m := by
      rw [valuesOfF_append]
      have : valuesOfF [rec] m = [] := by
        simp [valuesOfF, List.filter_cons, Ne.symm hm]
      rw [this, List.append_nil]
    unfold tableOfF
    rw [hv]

theorem processLoopF_spec (rest : List Record) :
    ∀ (pre : List Nat) (done : List Record) (hm : hashMapF) (fuel : Nat),
      (∀ r ∈ rest, r.wf) → hm.Holds (tableOfF done) →
      ((done ++ rest).map Record.name).dedup.length ≤ hm.mask + 1 →
      (encodeAll rest).length < fuel →
      ∃ hm', processLoopF (pre ++ encodeAll rest) fuel pre.length hm
          = .ok ((pre ++ encodeAll rest).length, hm') ∧
        hm'.Holds (tableOfF (done ++ rest)) ∧ hm'.mask = hm.mask := by
  induction rest with
  | nil =>
    intro pre done hm fuel _ hh _ hf
    obtain ⟨f, rfl⟩ : ∃ f, fuel = f + 1 := ⟨fuel - 1, by omega⟩
    refine ⟨hm, ?_, by simpa using hh, rfl⟩
    simp [processLoopF, encodeAll]
  | cons rec rest ih =>
    intro pre done hm fuel hw hh hcap hf
    obtain ⟨f, rfl⟩ : ∃ f, fuel = f + 1 := ⟨fuel - 1, by omega⟩
    have hrw : rec.wf := hw rec (by simp)
    have hroom : tableOfF done rec.name = none →
        ∃ e : Nat, hm.occupied[e]? = some false := by
      intro hn
      apply holdsF_exists_empty hm _ hh ((done ++ rec :: rest).map Record.name) _ hcap rec.name
        (by simp) hn
      intro m hm0
      have := tableOfF_ne_none done m hm0
      simp only [List.map_append, List.mem_append]
      exact Or.inl this
    obtain ⟨hm1, hp, hh1, hmask1⟩ :=
      processRecordF_spec rec hrw pre (encodeAll rest) hm _ hh hroom
    rw [← tableOfF_snoc] at hh1
    have hfl : (encodeAll rest).length < f := by
      have := encode_length_pos rec
      rw [encodeAll_cons, List.length_append] at hf
      omega
    obtain ⟨hm2, hl, hh2, hmask2⟩ := ih (pre ++ rec.encode) (done ++ [rec]) hm1 f
      (fun r hr => hw r (by simp [hr])) hh1
      (by rw [hmask1]; simpa using hcap) hfl
    have ea : pre ++ encodeAll (rec :: rest) = pre ++ rec.encode ++ encodeAll rest := by
      rw [encodeAll_cons, List.append_assoc]
    refine ⟨hm2, ?_, by simpa using hh2, by rw [hmask2, hmask1]⟩
    rw [processLoopF, ea, if_pos, hp]
    · exact hl
    · have := encode_length_pos rec
      simp only [List.length_append]
      omega

/-- A worker on a well-formed range returns the table that represents `tableOfF`. -/
theorem processRangeF_spec (recs : List Record) (hw : ∀ r ∈ recs, r.wf)
    (hcap : (recs.map Record.name).dedup.length ≤ 2 ^ 16) :
    ∃ hm, processRangeF (encodeAll recs) = .ok hm ∧ hm.Holds (tableOfF recs) ∧
      hm.mask + 1 = 2 ^ 16 := by
  have h0 : (newHashMapF 16).Holds (tableOfF []) := by
    have : tableOfF [] = fun _ => none := by funext m; simp [tableOfF, valuesOfF]
    rw [this]; exact holdsF_new 16
  have hm16 : (newHashMapF 16).mask + 1 = 2 ^ 16 := rfl
  obtain ⟨hm, hl, hh, hmask⟩ := processLoopF_spec recs [] [] (newHashMapF 16)
    ((encodeAll recs).length + 1) hw h0 (by rw [hm16, List.nil_append]; exact hcap) (by omega)
  refine ⟨hm, ?_, by simpa using hh, by rw [hmask, hm16]⟩
  simp only [List.nil_append, List.length_nil] at hl
  simp [processRangeF, hl]

end OneBRC

namespace OneBRC

/-! ## Merger on `float64` -/

theorem slotF_lt (hm : hashMapF) (i : Nat) (r : resultF) (h : hm.slot i = some r) :
    i < hm.occupied.length := by
  by_contra hc
  unfold hashMapF.slot at h
  rw [List.getElem?_eq_none (by omega)] at h
  cases h

theorem mem_entriesF (hm : hashMapF) (r : resultF) :
    r ∈ entriesF hm ↔ ∃ j, hm.slot j = some r := by
  unfold entriesF
  rw [List.mem_filterMap]
  constructor
  · rintro ⟨j, -, hj⟩; exact ⟨j, hj⟩
  · rintro ⟨j, hj⟩; exact ⟨j, List.mem_range.2 (slotF_lt hm j r hj), hj⟩

theorem entriesF_names_nodup (hm : hashMapF) (g : List Nat → Option resultF)
    (hh : hm.Holds g) : ((entriesF hm).map (fun r => r.name.value)).Nodup := by
  unfold entriesF
  rw [List.map_filterMap]
  apply List.Nodup.filterMap _ (List.nodup_range _)
  intro a a' b hb hb'
  simp only [Option.mem_def, Option.map_eq_some'] at hb hb'
  obtain ⟨r, hr, e⟩ := hb
  obtain ⟨r', hr', e'⟩ := hb'
  exact holdsF_inj hm g hh a a' r r' hr hr' (by rw [e, e'])

theorem holdsF_mem_entries (hm : hashMapF) (g : List Nat → Option resultF) (hh : hm.Holds g)
    (r : resultF) : r ∈ entriesF hm ↔ g r.name.value = some r := by
  rw [mem_entriesF]
  constructor
  · rintro ⟨j, hj⟩; exact hh.sound j r hj
  · intro h; exact (hh.complete _ _ h).2

theorem entriesF_name_wf (hm : hashMapF) (g : List Nat → Option resultF) (hh : hm.Holds g)
    (r : resultF) (h : r ∈ entriesF hm) : r.name.wf := by
  obtain ⟨j, hj⟩ := (mem_entriesF hm r).1 h
  exact slotF_name hm g hh j r hj

theorem mergeSlotsF_eq (hm : hashMapF) (hlen : hm.data.length = hm.occupied.length)
    (occ : List Bool) :
    ∀ (i : Nat) (res : hashMapF), hm.occupied.drop i = occ →
      mergeSlotsF hm occ i res
        = mergeItemsF ((List.range' i occ.length).filterMap hm.slot) res := by
  induction occ with
  | nil => intro i res _; rfl
  | cons b rest ih =>
    intro i res hd
    have hb : hm.occupied[i]? = some b := by
      have := List.getElem?_drop hm.occupied i 0
      rw [hd] at this
      simpa using this.symm
    have hrest : hm.occupied.drop (i + 1) = rest := by
      have := List.tail_drop hm.occupied i
      rw [hd] at this
      simpa using this.symm
    have hi : i < hm.occupied.length := by
      by_contra hc
      have := List.getElem?_eq_none (l := hm.occupied) (n := i) (by omega)
      rw [this] at hb; cases hb
    have hdi : hm.data[i]? = some hm.data[i] := List.getElem?_eq_getElem (by omega)
    rw [mergeSlotsF, List.length_cons, List.range'_succ, List.filterMap_cons]
    cases b with
    | false =>
      have hs : hm.slot i = none := by unfold hashMapF.slot; rw [hb, hdi]
      rw [hs]
      simp only [Bool.not_false, if_true]
      exact ih (i + 1) res hrest
    | true =>
      have hs : hm.slot i = some hm.data[i] := by unfold hashMapF.slot; rw [hb, hdi]
      rw [hs, hdi]
      simp only [Bool.not_true, Bool.false_eq_true, if_false, mergeItemsF]
      cases hmi : mergeItemF res hm.data[i] with
      | error e => rfl
      | ok res1 => exact ih (i + 1) res1 hrest

theorem mergeSlotsF_entries (hm : hashMapF) (g : List Nat → Option resultF) (hh : hm.Holds g)
    (res : hashMapF) : mergeSlotsF hm hm.occupied 0 res = mergeItemsF (entriesF hm) res := by
  obtain ⟨h1, h2⟩ := holdsF_occLen hm g hh
  rw [mergeSlotsF_eq hm (by rw [h1, h2]) hm.occupied 0 res (by simp)]
  rw [entriesF, List.range_eq_range']

theorem mergeItemsF_append (as bs : List resultF) :
    ∀ res, mergeItemsF (as ++ bs) res =
      match mergeItemsF as res with
      | .error e => .error e
      | .ok res1 => mergeItemsF bs res1 := by
  induction as with
  | nil => intro res; rfl
  | cons a as ih =>
    intro res
    simp only [List.cons_append, mergeItemsF]
    cases mergeItemF res a with
    | error e => rfl
    | ok res1 => exact ih res1

theorem mergeTablesF_items (tables : List hashMapF)
    (hinv : ∀ hm ∈ tables, ∃ g, hm.Holds g) :
    ∀ res, mergeTablesF tables res = mergeItemsF (tables.flatMap entriesF) res := by
  induction tables with
  | nil => intro res; rfl
  | cons hm rest ih =>
    intro res
    obtain ⟨g, hg⟩ := hinv hm (by simp)
    rw [mergeTablesF, mergeSlotsF_entries hm g hg, List.flatMap_cons, mergeItemsF_append]
    cases mergeItemsF (entriesF hm) res with
    | error e => rfl
    | ok res1 => exact ih (fun x hx => hinv x (by simp [hx])) res1

theorem aggregateF_name (r r2 : resultF) : (r.aggregate r2).name = r.name := rfl

theorem mergeItemF_ok (results : hashMapF) (g : List Nat → Option resultF)
    (hh : results.Holds g) (item : resultF) (hw : item.name.wf)
    (hroom : g item.name.value = none → ∃ e : Nat, results.occupied[e]? = some false) :
    ∃ results', mergeItemF results item = .ok results' ∧ results'.Holds (mergeMapF g item) ∧
      results'.mask = results.mask := by
  have hget := holdsF_get_ok results g hh item.name hw hroom
  unfold mergeItemF mergeMapF
  rw [hget]
  cases hf : g item.name.value with
  | none =>
    obtain ⟨r', hr', hh', hmask⟩ := holdsF_set_ok results g hh
      ((newResultF item.name).aggregate item) hw hroom
    refine ⟨r', by simpa using hr', ?_, hmask⟩
    simpa [aggregateF_name, newResultF] using hh'
  | some r0 =>
    obtain ⟨hv, j, hj⟩ := hh.complete _ _ hf
    obtain ⟨r', hr', hh', hmask⟩ := holdsF_set_ok results g hh (r0.aggregate item)
      (slotF_name results g hh j r0 hj)
      (fun hn => by rw [aggregateF_name, hv, hf] at hn; cases hn)
    refine ⟨r', by simpa using hr', ?_, hmask⟩
    rw [aggregateF_name, hv] at hh'
    simpa using hh'

theorem mergeMapF_ne_none (g : List Nat → Option resultF) (item : resultF) (m : List Nat) :
    mergeMapF g item m ≠ none ↔ g m ≠ none ∨ m = item.name.value := by
  unfold mergeMapF
  by_cases hm : m = item.name.value
  · rw [hm, Function.update_same]
    simp
  · rw [Function.update_noteq hm]
    simp [hm]

theorem foldl_mergeMapF_ne_none (items : List resultF) :
    ∀ (g : List Nat → Option resultF) (m : List Nat),
      (items.foldl mergeMapF g) m ≠ none ↔
        g m ≠ none ∨ m ∈ items.map (fun r => r.name.value) := by
  induction items with
  | nil => intro g m; simp
  | cons item rest ih =>
    intro g m
    rw [List.foldl_cons, ih, mergeMapF_ne_none]
    simp only [List.map_cons, List.mem_cons]
    tauto

theorem mergeItemsF_ok (items : List resultF) :
    ∀ (results : hashMapF) (g : List Nat → Option resultF) (D : List (List Nat)),
      results.Holds g → (∀ item ∈ items, item.name.wf) →
      (∀ m, g m ≠ none → m ∈ D) → (∀ item ∈ items, item.name.value ∈ D) →
      D.dedup.length ≤ results.mask + 1 →
      ∃ results', mergeItemsF items results = .ok results' ∧
        results'.Holds (items.foldl mergeMapF g) ∧ results'.mask = results.mask := by
  induction items with
  | nil => intro results g D hh _ _ _ _; exact ⟨results, rfl, hh, rfl⟩
  | cons item rest ih =>
    intro results g D hh hw hD hitems hcap
    obtain ⟨results1, hm1, hh1, hmask1⟩ := mergeItemF_ok results g hh item (hw item (by simp))
      (fun hn => holdsF_exists_empty results g hh D hD hcap _ (hitems item (by simp)) hn)
    obtain ⟨results2, hm2, hh2, hmask2⟩ := ih results1 (mergeMapF g item) D hh1
      (fun x hx => hw x (by simp [hx]))
      (fun m hm => by
        rcases (mergeMapF_ne_none g item m).1 hm with h | h
        · exact hD m h
        · rw [h]; exact hitems item (by simp))
      (fun x hx => hitems x (by simp [hx]))
      (by rw [hmask1]; exact hcap)
    refine ⟨results2, ?_, hh2, by rw [hmask2, hmask1]⟩
    simp only [mergeItemsF, hm1]
    exact hm2

/-- Merging items with pairwise different names into an empty map stores, for every
item, `newResult(name)` aggregated with the item. -/
theorem foldl_mergeMapF_nodup (items : List resultF) :
    ∀ (g : List Nat → Option resultF), (items.map (fun r => r.name.value)).Nodup →
      (∀ item ∈ items, g item.name.value = none) →
      (∀ item ∈ items, (items.foldl mergeMapF g) item.name.value
        = some ((newResultF item.name).aggregate item)) ∧
      ∀ m, m ∉ items.map (fun r => r.name.value) → (items.foldl mergeMapF g) m = g m := by
  induction items with
  | nil => intro g _ _; simp
  | cons x rest ih =>
    intro g hnd hg
    rw [List.map_cons, List.nodup_cons] at hnd
    have hg' : ∀ item ∈ rest, mergeMapF g x item.name.value = none := by
      intro item hi
      have hne : item.name.value ≠ x.name.value := by
        intro e
        exact hnd.1 (by rw [← e]; exact List.mem_map.2 ⟨item, hi, rfl⟩)
      unfold mergeMapF
      rw [Function.update_noteq hne]
      exact hg item (by simp [hi])
    obtain ⟨h1, h2⟩ := ih (mergeMapF g x) hnd.2 hg'
    constructor
    · intro item hi
      rw [List.foldl_cons]
      rcases List.mem_cons.1 hi with rfl | hi
      · rw [h2 _ hnd.1]
        unfold mergeMapF
        rw [Function.update_same, hg item (by simp)]
        rfl
      · exact h1 item hi
    · intro m hm
      rw [List.foldl_cons]
      simp only [List.map_cons, List.mem_cons, not_or] at hm
      rw [h2 m hm.2]
      unfold mergeMapF
      rw [Function.update_noteq hm.1]

/-! ## Reporter on `float64` -/

theorem collectSlotsF_eq (hm : hashMapF) (hlen : hm.data.length = hm.occupied.length)
    (occ : List Bool) :
    ∀ i : Nat, hm.occupied.drop i = occ →
      collectSlotsF hm occ i = .ok ((List.range' i occ.length).filterMap hm.slot) := by
  induction occ with
  | nil => intro i _; rfl
  | cons b rest ih =>
    intro i hd
    have hb : hm.occupied[i]? = some b := by
      have := List.getElem?_drop hm.occupied i 0
      rw [hd] at this
      simpa using this.symm
    have hrest : hm.occupied.drop (i + 1) = rest := by
      have := List.tail_drop hm.occupied i
      rw [hd] at this
      simpa using this.symm
    have hi : i < hm.occupied.length := by
      by_contra hc
      have := List.getElem?_eq_none (l := hm.occupied) (n := i) (by omega)
      rw [this] at hb; cases hb
    have hdi : hm.data[i]? = some hm.data[i] := List.getElem?_eq_getElem (by omega)
    rw [collectSlotsF, List.length_cons, List.range'_succ, List.filterMap_cons, ih (i + 1) hrest]
    cases b with
    | false =>
      have hs : hm.slot i = none := by unfold hashMapF.slot; rw [hb, hdi]
      rw [hs]
      simp
    | true =>
      have hs : hm.slot i = some hm.data[i] := by unfold hashMapF.slot; rw [hb, hdi]
      rw [hs, hdi]
      simp

theorem mainSortedF_eq (hm : hashMapF) (g : List Nat → Option resultF) (hh : hm.Holds g) :
    mainSortedF hm = .ok (sortFuncF (entriesF hm)) := by
  obtain ⟨h1, h2⟩ := holdsF_occLen hm g hh
  unfold mainSortedF
  rw [collectSlotsF_eq hm (by rw [h1, h2]) hm.occupied 0 (by simp)]
  simp only [entriesF, List.range_eq_range']

theorem sortFuncF_perm (l : List resultF) : (sortFuncF l).Perm l :=
  List.perm_insertionSort _ l

theorem sortFuncF_sorted (l : List resultF) :
    (sortFuncF l).Sorted (fun r1 r2 => bytesCompare r1.name.value r2.name.value ≤ 0) := by
  haveI : IsTotal resultF (fun r1 r2 => bytesCompare r1.name.value r2.name.value ≤ 0) :=
    ⟨fun a b => bytesCompare_total a.name.value b.name.value⟩
  haveI : IsTrans resultF (fun r1 r2 => bytesCompare r1.name.value r2.name.value ≤ 0) :=
    ⟨fun a b c => bytesCompare_trans a.name.value b.name.value c.name.value⟩
  exact List.sorted_insertionSort _ l

theorem sortFuncF_strict (l : List resultF) (hnd : (l.map (fun r => r.name.value)).Nodup) :
    (sortFuncF l).Sorted (fun r1 r2 => bytesCompare r1.name.value r2.name.value < 0) := by
  have hnd1 : ((sortFuncF l).map (fun r => r.name.value)).Nodup :=
    ((sortFuncF_perm l).map _).nodup_iff.2 hnd
  have h := List.Pairwise.and (sortFuncF_sorted l) (List.pairwise_map.1 hnd1)
  refine h.imp ?_
  intro a b hab
  have hne : bytesCompare a.name.value b.name.value ≠ 0 :=
    fun h0 => hab.2 ((bytesCompare_eq_zero _ _).1 h0)
  omega

/-- Entries with pairwise different names have one sorted arrangement only. -/
theorem sortFuncF_eq_of_perm (l1 l2 : List resultF) (hp : l1.Perm l2)
    (hnd : (l1.map (fun r => r.name.value)).Nodup) : sortFuncF l1 = sortFuncF l2 := by
  have hperm : (sortFuncF l1).Perm (sortFuncF l2) :=
    ((sortFuncF_perm l1).trans hp).trans (sortFuncF_perm l2).symm
  have hnd2 : (l2.map (fun r => r.name.value)).Nodup := ((hp.map _).nodup_iff).1 hnd
  have hs1 := sortFuncF_strict l1 hnd
  have hs2 := sortFuncF_strict l2 hnd2
  haveI : IsAntisymm resultF
      (fun r1 r2 => bytesCompare r1.name.value r2.name.value < 0) :=
    ⟨fun a b h1 h2 => by
      have := bytesCompare_antisymm a.name.value b.name.value (le_of_lt h1) (le_of_lt h2)
      rw [this, (bytesCompare_eq_zero _ _).2 rfl] at h2
      omega⟩
  exact List.eq_of_perm_of_sorted hperm hs1 hs2

end OneBRC

namespace OneBRC

/-! ## The data path of `main` on `float64` -/

theorem workersF_spec (cs : List (List Record)) (hw : ∀ c ∈ cs, ∀ r ∈ c, r.wf)
    (hcap : ∀ c ∈ cs, (c.map Record.name).dedup.length ≤ 2 ^ 16) :
    ∃ ts, allOk ((cs.map encodeAll).map processRangeF) = .ok ts ∧
      List.Forall₂ (fun c t => t.Holds (tableOfF c)) cs ts := by
  induction cs with
  | nil => exact ⟨[], rfl, List.Forall₂.nil⟩
  | cons c cs ih =>
    obtain ⟨t, hp, hh, -⟩ := processRangeF_spec c (hw c (by simp)) (hcap c (by simp))
    obtain ⟨ts, hts, hf⟩ := ih (fun x hx => hw x (by simp [hx])) (fun x hx => hcap x (by simp [hx]))
    refine ⟨t :: ts, ?_, List.Forall₂.cons hh hf⟩
    simp only [List.map_cons, allOk, hp, hts]

theorem forall₂_left {α β : Type} (R : α → β → Prop) (as : List α) (bs : List β)
    (h : List.Forall₂ R as bs) : ∀ a ∈ as, ∃ b ∈ bs, R a b := by
  induction h with
  | nil => intro a ha; cases ha
  | cons hab _ ih =>
    intro a ha
    rcases List.mem_cons.1 ha with rfl | ha
    · exact ⟨_, by simp, hab⟩
    · obtain ⟨b, hb, hr⟩ := ih a ha
      exact ⟨b, by simp [hb], hr⟩

theorem accumF_name (m : List Nat) (vs : List F64) : (accumF m vs).name = ⟨m, fingerprint m⟩ := by
  have : ∀ (l : List F64) (r : resultF), (l.foldl resultF.update r).name = r.name := by
    intro l
    induction l with
    | nil => intro r; rfl
    | cons v l ih => intro r; rw [List.foldl_cons, ih]; rfl
  unfold accumF
  rw [this]
  rfl

/-- The names stored in the worker tables are the names of the input. -/
theorem worker_namesF (cs : List (List Record)) (ts : List hashMapF)
    (hf : List.Forall₂ (fun c t => t.Holds (tableOfF c)) cs ts) (m : List Nat) :
    m ∈ (ts.flatMap entriesF).map (fun r => r.name.value) ↔ m ∈ cs.flatten.map Record.name := by
  constructor
  · intro h
    obtain ⟨item, hi, rfl⟩ := List.mem_map.1 h
    obtain ⟨t, ht, hit⟩ := List.mem_flatMap.1 hi
    obtain ⟨c, hc, hh⟩ := forall₂_right _ cs ts hf t ht
    have := (holdsF_mem_entries t _ hh item).1 hit
    have hin := tableOfF_ne_none c item.name.value (by rw [this]; exact Option.some_ne_none _)
    exact names_flatten_subset cs c hc hin
  · intro h
    obtain ⟨r, hr, rfl⟩ := List.mem_map.1 h
    obtain ⟨c, hc, hrc⟩ := List.mem_flatten.1 hr
    obtain ⟨t, ht, hh⟩ := forall₂_left _ cs ts hf c hc
    have hin : r.name ∈ c.map Record.name := List.mem_map.2 ⟨r, hrc, rfl⟩
    have htab := tableOfF_of_mem c r.name hin
    have hn : (accumF r.name (valuesOfF c r.name)).name.value = r.name := by rw [accumF_name]
    have hmem : accumF r.name (valuesOfF c r.name) ∈ entriesF t := by
      rw [holdsF_mem_entries t _ hh, hn]
      exact htab
    exact List.mem_map.2 ⟨_, List.mem_flatMap.2 ⟨t, ht, hmem⟩, hn⟩

/-- The whole data path on a well-formed input: every worker table represents the
`float64` aggregates of its chunk of the records, and the merged table represents the
fold of the worker entries in their order of arrival. -/
theorem mainF_spec (recs : List Record) (numCpu : Nat) (hw : ∀ r ∈ recs, r.wf)
    (hcap : (recs.map Record.name).dedup.length < 2 ^ 16)
    (hN : 1 ≤ numCpu) (hsize : numCpu = 1 ∨ numCpu ≤ (encodeAll recs).length) :
    ∃ tables cs, mainTablesF numCpu (encodeAll recs) = .ok tables ∧ recs = cs.flatten ∧
      cs.length = numCpu ∧ List.Forall₂ (fun c t => t.Holds (tableOfF c)) cs tables ∧
      ∀ arrival, arrival.Perm tables →
        ∃ results, mainMergeF arrival = .ok results ∧ results.Holds (mergedMapF arrival) := by
  have hq : numCpu = 1 ∨ 1 ≤ (encodeAll recs).length / numCpu := by
    rcases hsize with h | h
    · exact Or.inl h
    · exact Or.inr ((Nat.one_le_div_iff (by omega)).2 h)
  obtain ⟨bd, h0, hbN, hmono, hle, hnl, -, hr⟩ := partition_spec (encodeAll recs) numCpu hN hq
    (encodeAll_last recs)
  obtain ⟨cs, S, hmap, hrecs, hdrop⟩ := chunks_of_boundaries recs hw numCpu bd h0 hbN hmono hle
    hnl numCpu (le_refl _)
  have hS : S = [] := by
    apply encodeAll_eq_nil
    rw [← hdrop, hbN, List.drop_length]
  rw [hS, List.append_nil] at hrecs
  have hlen : cs.length = numCpu := by
    have h2 := congrArg List.length hmap
    simp only [List.length_map, List.length_range] at h2
    omega
  have hwc : ∀ c ∈ cs, ∀ r ∈ c, r.wf := fun c hc r hr =>
    hw r (by rw [hrecs]; exact List.mem_flatten.2 ⟨c, hc, hr⟩)
  have hsubc : ∀ c ∈ cs, c.map Record.name ⊆ recs.map Record.name := by
    intro c hc
    rw [hrecs]
    exact names_flatten_subset cs c hc
  have hcapc : ∀ c ∈ cs, (c.map Record.name).dedup.length ≤ 2 ^ 16 := fun c hc =>
    le_trans (dedup_length_le_of_subset _ _ (hsubc c hc)) (le_of_lt hcap)
  obtain ⟨ts, hts, hf⟩ := workersF_spec cs hwc hcapc
  refine ⟨ts, cs, ?_, hrecs, hlen, hf, ?_⟩
  · unfold mainTablesF
    rw [hr]
    simp only [hmap]
    exact hts
  · intro arrival hperm
    have hholds : ∀ t ∈ arrival, ∃ g, t.Holds g := by
      intro t ht
      obtain ⟨c, -, hh⟩ := forall₂_right _ cs ts hf t (hperm.mem_iff.1 ht)
      exact ⟨_, hh⟩
    have hwi : ∀ item ∈ arrival.flatMap entriesF, item.name.wf := by
      intro item hi
      obtain ⟨t, ht, hit⟩ := List.mem_flatMap.1 hi
      obtain ⟨g, hg⟩ := hholds t ht
      exact entriesF_name_wf t g hg item hit
    have hnames : ∀ item ∈ arrival.flatMap entriesF, item.name.value ∈ recs.map Record.name := by
      intro item hi
      have h1 : item.name.value ∈ (ts.flatMap entriesF).map (fun r => r.name.value) :=
        List.mem_map.2 ⟨item, (hperm.flatMap_right entriesF).mem_iff.1 hi, rfl⟩
      rw [hrecs]
      exact (worker_namesF cs ts hf _).1 h1
    obtain ⟨res, hm, hh, -⟩ := mergeItemsF_ok (arrival.flatMap entriesF) (newHashMapF 16)
      (fun _ => none) (recs.map Record.name) (holdsF_new 16) hwi
      (fun m h => absurd rfl h) hnames
      (by
        have : (newHashMapF 16).mask + 1 = 2 ^ 16 := rfl
        rw [this]; exact le_of_lt hcap)
    refine ⟨res, ?_, hh⟩
    unfold mainMergeF
    rw [mergeTablesF_items arrival hholds]
    exact hm

/-- The text of `main` on a well-formed input: the rendering of the merged entries sorted
by name; the names are those of the input. -/
theorem mainF_report (recs : List Record) (numCpu : Nat) (hw : ∀ r ∈ recs, r.wf)
    (hcap : (recs.map Record.name).dedup.length < 2 ^ 16)
    (hN : 1 ≤ numCpu) (hsize : numCpu = 1 ∨ numCpu ≤ (encodeAll recs).length) :
    ∃ tables cs, mainTablesF numCpu (encodeAll recs) = .ok tables ∧ recs = cs.flatten ∧
      cs.length = numCpu ∧ List.Forall₂ (fun c t => t.Holds (tableOfF c)) cs tables ∧
      ∀ arrival, arrival.Perm tables →
        ∃ results : hashMapF, results.Holds (mergedMapF arrival) ∧
          mainReport arrival = .ok (mainPrint (sortFuncF (entriesF results))) ∧
          (sortFuncF (entriesF results)).Sorted
            (fun r1 r2 => bytesCompare r1.name.value r2.name.value < 0) ∧
          (∀ r, r ∈ sortFuncF (entriesF results) ↔ mergedMapF arrival r.name.value = some r) ∧
          (∀ m, m ∈ (sortFuncF (entriesF results)).map (fun r => r.name.value) ↔
            m ∈ recs.map Record.name) := by
  obtain ⟨tables, cs, ht, hrecs, hlen, hf, hall⟩ := mainF_spec recs numCpu hw hcap hN hsize
  refine ⟨tables, cs, ht, hrecs, hlen, hf, fun arrival hp => ?_⟩
  obtain ⟨results, hm, hh⟩ := hall arrival hp
  have hmem : ∀ r, r ∈ sortFuncF (entriesF results) ↔ mergedMapF arrival r.name.value = some r := by
    intro r
    rw [(sortFuncF_perm _).mem_iff, holdsF_mem_entries results _ hh]
  refine ⟨results, hh, ?_, ?_, hmem, ?_⟩
  · unfold mainReport
    rw [hm]
    simp only
    rw [mainSortedF_eq results _ hh]
  · exact sortFuncF_strict _ (entriesF_names_nodup results _ hh)
  · intro m
    have hw2 := worker_namesF cs tables hf m
    rw [← hrecs] at hw2
    rw [← hw2]
    constructor
    · intro h
      obtain ⟨r, hr, rfl⟩ := List.mem_map.1 h
      have := (hmem r).1 hr
      have hne : mergedMapF arrival r.name.value ≠ none := by
        rw [this]; exact Option.some_ne_none _
      unfold mergedMapF at hne
      rcases (foldl_mergeMapF_ne_none _ _ _).1 hne with h1 | h1
      · exact absurd rfl h1
      · obtain ⟨x, hx, e⟩ := List.mem_map.1 h1
        exact List.mem_map.2 ⟨x, (hp.flatMap_right entriesF).mem_iff.1 hx, e⟩
    · intro h
      have h1 : m ∈ (arrival.flatMap entriesF).map (fun r => r.name.value) := by
        obtain ⟨x, hx, e⟩ := List.mem_map.1 h
        exact List.mem_map.2 ⟨x, (hp.flatMap_right entriesF).mem_iff.2 hx, e⟩
      have hne : mergedMapF arrival m ≠ none := by
        unfold mergedMapF
        exact (foldl_mergeMapF_ne_none _ _ _).2 (Or.inr h1)
      cases hg : mergedMapF arrival m with
      | none => exact absurd hg hne
      | some r =>
        obtain ⟨hv, j, hj⟩ := hh.complete m r hg
        refine List.mem_map.2 ⟨r, ?_, hv⟩
        rw [hmem, hv]
        exact hg

theorem aggregatesOfF_names (recs : List Record) :
    (aggregatesOfF recs).map (fun r => r.name.value) = (recs.map Record.name).dedup := by
  unfold aggregatesOfF
  rw [List.map_map]
  have : ((fun r : resultF => r.name.value) ∘
      fun m => (newResultF ⟨m, fingerprint m⟩).aggregate (accumF m (valuesOfF recs m))) = id := by
    funext m
    rfl
  rw [this, List.map_id]

/-- With one worker the sorted entries are the aggregates of the records. -/
theorem sorted_single (recs : List Record) (t results : hashMapF)
    (ht : t.Holds (tableOfF recs)) (hh : results.Holds (mergedMapF [t])) :
    sortFuncF (entriesF results) = sortFuncF (aggregatesOfF recs) := by
  have hnd := entriesF_names_nodup t _ ht
  have hflat : [t].flatMap entriesF = entriesF t := by simp [List.flatMap]
  obtain ⟨hitem, hother⟩ := foldl_mergeMapF_nodup (entriesF t) (fun _ => none) hnd
    (fun _ _ => rfl)
  apply sortFuncF_eq_of_perm _ _ _ (entriesF_names_nodup results _ hh)
  apply (List.perm_ext_iff_of_nodup ((entriesF_names_nodup results _ hh).of_map _)
    (by
      have := aggregatesOfF_names recs
      have hn : ((aggregatesOfF recs).map (fun r => r.name.value)).Nodup := by
        rw [this]; exact List.nodup_dedup _
      exact hn.of_map _)).2
  intro r
  rw [holdsF_mem_entries results _ hh]
  unfold mergedMapF
  rw [hflat]
  constructor
  · intro hr
    have hne : (entriesF t).foldl mergeMapF (fun _ => none) r.name.value ≠ none := by
      rw [hr]; exact Option.some_ne_none _
    rcases (foldl_mergeMapF_ne_none _ _ _).1 hne with h1 | h1
    · exact absurd rfl h1
    · obtain ⟨item, hi, e⟩ := List.mem_map.1 h1
      have h2 := hitem item hi
      rw [e, hr] at h2
      injection h2 with h2
      have h3 := (holdsF_mem_entries t _ ht item).1 hi
      have hin := tableOfF_ne_none recs item.name.value
        (by rw [h3]; exact Option.some_ne_none _)
      rw [tableOfF_of_mem recs _ hin] at h3
      injection h3 with h3
      unfold aggregatesOfF
      refine List.mem_map.2 ⟨item.name.value, List.mem_dedup.2 hin, ?_⟩
      rw [h2]
      have hn : item.name = ⟨item.name.value, fingerprint item.name.value⟩ := by
        rw [← h3, accumF_name]
      rw [h3, ← hn]
  · intro hr
    unfold aggregatesOfF at hr
    obtain ⟨m, hm, rfl⟩ := List.mem_map.1 hr
    rw [List.mem_dedup] at hm
    have htab := tableOfF_of_mem recs m hm
    have hn : (accumF m (valuesOfF recs m)).name = ⟨m, fingerprint m⟩ := accumF_name _ _
    have hi : accumF m (valuesOfF recs m) ∈ entriesF t := by
      rw [holdsF_mem_entries t _ ht, hn]
      exact htab
    have h2 := hitem _ hi
    rw [hn] at h2
    exact h2

/-- The text of `main` with one worker. -/
theorem mainF_report_single (recs : List Record) (hw : ∀ r ∈ recs, r.wf)
    (hcap : (recs.map Record.name).dedup.length < 2 ^ 16) :
    ∃ tables, mainTablesF 1 (encodeAll recs) = .ok tables ∧
      mainReport tables = .ok (mainPrint (sortFuncF (aggregatesOfF recs))) := by
  obtain ⟨tables, cs, ht, hrecs, hlen, hf, hall⟩ :=
    mainF_spec recs 1 hw hcap (le_refl 1) (Or.inl rfl)
  obtain ⟨c, rfl⟩ : ∃ c, cs = [c] := by
    match cs, hlen with
    | [c], _ => exact ⟨c, rfl⟩
  simp only [List.flatten_cons, List.flatten_nil, List.append_nil] at hrecs
  subst hrecs
  obtain ⟨t, rfl⟩ : ∃ t, tables = [t] := by
    have := hf.length_eq
    match tables, this with
    | [t], _ => exact ⟨t, rfl⟩
  have htab : t.Holds (tableOfF recs) := by
    cases hf with
    | cons h _ => exact h
  obtain ⟨results, hm, hh⟩ := hall [t] (List.Perm.refl _)
  refine ⟨[t], ht, ?_⟩
  unfold mainReport
  rw [hm]
  simp only
  rw [mainSortedF_eq results _ hh]
  simp only
  rw [sorted_single recs t results htab hh]

end OneBRC

namespace OneBRC

set_option exponentiation.threshold 20000

/-! ## Rendering -/

theorem printLoop_succ (rest : List resultF) :
    ∀ i, i ≠ 0 → printLoop rest i = (rest.map (fun r => [44, 32] ++ printEntry r)).flatten := by
  induction rest with
  | nil => intro i _; rfl
  | cons r rest ih =>
    intro i hi
    rw [printLoop, if_pos hi, ih (i + 1) (by omega)]
    simp

theorem intercalate_cons (sep x : List Nat) (xs : List (List Nat)) :
    List.intercalate sep (x :: xs) = x ++ (xs.map (fun y => sep ++ y)).flatten := by
  induction xs generalizing x with
  | nil => simp [List.intercalate, List.intersperse]
  | cons y ys ih =>
    have h := ih y
    simp only [List.intercalate, List.intersperse, List.flatten_cons, List.map_cons] at h ⊢
    rw [h]
    simp

/-- The print loop writes the entries joined by `", "`. -/
theorem printLoop_eq (sorted : List resultF) :
    printLoop sorted 0 = List.intercalate [44, 32] (sorted.map printEntry) := by
  cases sorted with
  | nil => rfl
  | cons r rest =>
    rw [printLoop, if_neg (by simp), printLoop_succ rest 1 (by omega), List.map_cons,
      intercalate_cons, List.map_map]
    simp [Function.comp_def]

/-- The digits written by `decimalLoop`: at least one, all ASCII digits, denoting `n`. -/
theorem decimalLoop_spec :
    ∀ (fuel n : Nat) (acc : List Nat), n < fuel →
      ∃ ds, decimalLoop fuel n acc = ds ++ acc ∧ ds ≠ [] ∧ (∀ c ∈ ds, 48 ≤ c ∧ c ≤ 57) ∧
        Nat.ofDigits 10 (ds.reverse.map (fun c => c - 48)) = n := by
  intro fuel
  induction fuel with
  | zero => intro n acc h; omega
  | succ f ih =>
    intro n acc h
    rw [decimalLoop]
    by_cases hn : n < 10
    · rw [if_pos hn]
      refine ⟨[48 + n], rfl, by simp, ?_, ?_⟩
      · intro c hc
        rw [List.mem_singleton] at hc
        omega
      · simp [Nat.ofDigits]
    · rw [if_neg hn]
      obtain ⟨ds, hd, hne, hdig, hval⟩ := ih (n / 10) ((48 + n % 10) :: acc) (by omega)
      refine ⟨ds ++ [48 + n % 10], by rw [hd]; simp, by simp, ?_, ?_⟩
      · intro c hc
        rw [List.mem_append, List.mem_singleton] at hc
        rcases hc with hc | hc
        · exact hdig c hc
        · omega
      · rw [List.reverse_append, List.map_append]
        simp only [List.reverse_cons, List.reverse_nil, List.nil_append, List.map_cons,
          List.map_nil, List.singleton_append, Nat.ofDigits_cons]
        rw [hval]
        omega

theorem decimal_spec (n : Nat) :
    decimal n ≠ [] ∧ (∀ c ∈ decimal n, 48 ≤ c ∧ c ≤ 57) ∧
      Nat.ofDigits 10 ((decimal n).reverse.map (fun c => c - 48)) = n := by
  obtain ⟨ds, hd, hne, hdig, hval⟩ := decimalLoop_spec (n + 1) n [] (by omega)
  unfold decimal
  rw [hd, List.append_nil]
  exact ⟨hne, hdig, hval⟩

/-- Rounding a quotient moves it by at most one half. -/
theorem roundDiv_near (num den : Nat) (hd : 0 < den) :
    |(num : ℚ) / (den : ℚ) - (roundDiv num den : ℚ)| ≤ 1 / 2 := by
  have hdq : (0 : ℚ) < (den : ℚ) := by exact_mod_cast hd
  have hsplit : (num : ℚ) = (den : ℚ) * ((num / den : Nat) : ℚ) + ((num % den : Nat) : ℚ) := by
    have := Nat.div_add_mod num den
    exact_mod_cast this.symm
  have hq : (num : ℚ) / (den : ℚ)
      = ((num / den : Nat) : ℚ) + ((num % den : Nat) : ℚ) / (den : ℚ) := by
    have h1 : ((num / den : Nat) : ℚ) + ((num % den : Nat) : ℚ) / (den : ℚ)
        = ((den : ℚ) * ((num / den : Nat) : ℚ) + ((num % den : Nat) : ℚ)) / (den : ℚ) := by
      field_simp
      ring
    rw [h1, ← hsplit]
  have hr0 : (0 : ℚ) ≤ ((num % den : Nat) : ℚ) / (den : ℚ) := by positivity
  unfold roundDiv
  rw [hq, abs_le]
  split_ifs with c1 c2 c3
  · have hc : ((2 * (num % den) : Nat) : ℚ) < (den : ℚ) := by exact_mod_cast c1
    push_cast at hc
    have : ((num % den : Nat) : ℚ) / (den : ℚ) ≤ 1 / 2 := by
      rw [div_le_iff₀ hdq]
      linarith
    constructor <;> linarith
  · have hc : (den : ℚ) < ((2 * (num % den) : Nat) : ℚ) := by exact_mod_cast c2
    push_cast at hc
    have h1 : 1 / 2 ≤ ((num % den : Nat) : ℚ) / (den : ℚ) := by
      rw [le_div_iff₀ hdq]
      linarith
    have h2 : ((num % den : Nat) : ℚ) / (den : ℚ) ≤ 1 := by
      rw [div_le_one hdq]
      exact_mod_cast le_of_lt (Nat.mod_lt num hd)
    push_cast
    constructor <;> linarith
  · have h2 : 2 * (num % den) = den := by omega
    have hc : ((2 * (num % den) : Nat) : ℚ) = (den : ℚ) := by exact_mod_cast h2
    push_cast at hc
    have : ((num % den : Nat) : ℚ) / (den : ℚ) = 1 / 2 := by
      rw [div_eq_iff (ne_of_gt hdq)]
      linarith
    constructor <;> linarith
  · have h2 : 2 * (num % den) = den := by omega
    have hc : ((2 * (num % den) : Nat) : ℚ) = (den : ℚ) := by exact_mod_cast h2
    push_cast at hc
    have : ((num % den : Nat) : ℚ) / (den : ℚ) = 1 / 2 := by
      rw [div_eq_iff (ne_of_gt hdq)]
      linarith
    push_cast
    constructor <;> linarith

/-- The text of `%.1f` for a finite value: sign, integer digits, point, one fraction
digit, denoting a value within one twentieth of the magnitude. -/
theorem formatF1_fin (neg : Bool) (m e : Nat) :
    ∃ ds d, formatF1 (.fin neg m e) = (if neg then [45] else []) ++ ds ++ [46, d] ∧ ds ≠ [] ∧
      (∀ c ∈ ds, 48 ≤ c ∧ c ≤ 57) ∧ 48 ≤ d ∧ d ≤ 57 ∧
      |(m : ℚ) * 2 ^ e / 2 ^ 1074
          - (((Nat.ofDigits 10 (ds.reverse.map (fun c => c - 48)) : Nat) : ℚ)
            + ((d - 48 : Nat) : ℚ) / 10)| ≤ 1 / 20 := by
  obtain ⟨hne, hdig, hval⟩ := decimal_spec (roundDiv (m * 10 * 2 ^ e) (2 ^ 1074) / 10)
  refine ⟨decimal (roundDiv (m * 10 * 2 ^ e) (2 ^ 1074) / 10),
    48 + roundDiv (m * 10 * 2 ^ e) (2 ^ 1074) % 10, rfl, hne, hdig, by omega, by omega, ?_⟩
  rw [hval]
  have hnear := roundDiv_near (m * 10 * 2 ^ e) (2 ^ 1074) (by positivity)
  set t := roundDiv (m * 10 * 2 ^ e) (2 ^ 1074) with ht
  have e1 : 48 + t % 10 - 48 = t % 10 := by omega
  have e2 : ((t / 10 : Nat) : ℚ) + ((t % 10 : Nat) : ℚ) / 10 = (t : ℚ) / 10 := by
    have : (t : ℚ) = ((10 * (t / 10) + t % 10 : Nat) : ℚ) := by rw [Nat.div_add_mod]
    rw [this]
    push_cast
    ring
  rw [e1, e2]
  have e3 : ((m * 10 * 2 ^ e : Nat) : ℚ) / ((2 ^ 1074 : Nat) : ℚ)
      = 10 * ((m : ℚ) * 2 ^ e / 2 ^ 1074) := by
    push_cast
    ring
  rw [e3] at hnear
  rw [abs_le] at hnear ⊢
  constructor <;> linarith [hnear.1, hnear.2]

theorem example_encoding :
    bytesOf "Hamburg;12.0\nHamburg;8.0\nBerlin;20.0\n"
      = encodeAll [⟨[72, 97, 109, 98, 117, 114, 103], false, [49, 50], [48]⟩,
          ⟨[72, 97, 109, 98, 117, 114, 103], false, [56], [48]⟩,
          ⟨[66, 101, 114, 108, 105, 110], false, [50, 48], [48]⟩] := by decide

theorem example_text :
    mainPrint (sortFuncF (aggregatesOfF
        [⟨[72, 97, 109, 98, 117, 114, 103], false, [49, 50], [48]⟩,
          ⟨[72, 97, 109, 98, 117, 114, 103], false, [56], [48]⟩,
          ⟨[66, 101, 114, 108, 105, 110], false, [50, 48], [48]⟩]))
      = bytesOf "\x7bBerlin=20.0/20.0/20.0, Hamburg=8.0/10.0/12.0\x7d" := by decide

set_option maxRecDepth 3000 in
theorem overflow_text :
    mainPrint (sortFuncF (aggregatesOfF [hugeRecord]))
      = bytesOf "\x7bX=179769313486231570814527423731704356798070567525844996598917476803157260780028538760589558632766878171540458953514382464234321326889464182768467546703537516986049910576551282076245490090389328944075868508455133942304583236903222948165808559332123348274797826204144723168738177180919299881250404026184124858368.0/+Inf/+Inf\x7d" := by
  decide

end OneBRC

namespace OneBRC

/-- C14 (amended). On every well-formed input with fewer than 2^16 distinct names and
every worker count `N ≥ 1` not above the file size (or `N = 1`), for every order of
arrival of the worker tables, `main` writes `{` + the entries joined by `, ` + `}`.
The entries are those of the merged table: one per distinct name of the input, strictly
ascending in the byte order of the names, each holding the fold of `aggregate` over the
worker aggregates of its name in arrival order (every worker table holds the `float64`
aggregates of its chunk of the records); with one worker they are, per name,
`newResult(name)` aggregated with the fold of `update` over the values of the name.
An entry is written by `printEntry` as `name=min/mean/max` with
`mean = total / float64(count)`. A finite statistic is written as an optional `-`,
integer digits, a point and exactly one fraction digit, denoting a value within 1/20 of
the statistic; a NaN is written `NaN` and an infinity `+Inf` or `-Inf`. For the input
`Hamburg;12.0\nHamburg;8.0\nBerlin;20.0\n` with 1 worker the text is exactly
`{Berlin=20.0/20.0/20.0, Hamburg=8.0/10.0/12.0}`. -/
theorem rendered_summary (recs : List Record) (numCpu : Nat) (hw : ∀ r ∈ recs, r.wf)
    (hcap : (recs.map Record.name).dedup.length < 2 ^ 16)
    (hN : 1 ≤ numCpu) (hsize : numCpu = 1 ∨ numCpu ≤ (encodeAll recs).length) :
    (∃ tables cs, mainTablesF numCpu (encodeAll recs) = .ok tables ∧ recs = cs.flatten ∧
      List.Forall₂ (fun c t => t.Holds (tableOfF c)) cs tables ∧
      ∀ arrival, arrival.Perm tables →
        ∃ sorted : List resultF,
          mainReport arrival
            = .ok ([123] ++ List.intercalate [44, 32] (sorted.map printEntry) ++ [125]) ∧
          sorted.Sorted (fun r1 r2 => bytesCompare r1.name.value r2.name.value < 0) ∧
          (∀ r, r ∈ sorted ↔ mergedMapF arrival r.name.value = some r) ∧
          (∀ m, m ∈ sorted.map (fun r => r.name.value) ↔ m ∈ recs.map Record.name) ∧
          (numCpu = 1 → sorted = sortFuncF (aggregatesOfF recs))) ∧
    (∀ (neg : Bool) (m e : Nat), ∃ ds d,
      formatF1 (.fin neg m e) = (if neg then [45] else []) ++ ds ++ [46, d] ∧ ds ≠ [] ∧
      (∀ c ∈ ds, 48 ≤ c ∧ c ≤ 57) ∧ 48 ≤ d ∧ d ≤ 57 ∧
      |(m : ℚ) * 2 ^ e / 2 ^ 1074
          - (((Nat.ofDigits 10 (ds.reverse.map (fun c => c - 48)) : Nat) : ℚ)
            + ((d - 48 : Nat) : ℚ) / 10)| ≤ 1 / 20) ∧
    formatF1 .nan = bytesOf "NaN" ∧ formatF1 (.inf false) = bytesOf "+Inf" ∧
    formatF1 (.inf true) = bytesOf "-Inf" ∧
    ∃ tables, mainTablesF 1 (bytesOf "Hamburg;12.0\nHamburg;8.0\nBerlin;20.0\n") = .ok tables ∧
      mainReport tables
        = .ok (bytesOf "\x7bBerlin=20.0/20.0/20.0, Hamburg=8.0/10.0/12.0\x7d") := by
  refine ⟨?_, formatF1_fin, by decide, by decide, by decide, ?_⟩
  · obtain ⟨tables, cs, ht, hrecs, hlen, hf, hall⟩ :=
      mainF_report recs numCpu hw hcap hN hsize
    refine ⟨tables, cs, ht, hrecs, hf, fun arrival hp => ?_⟩
    obtain ⟨results, hh, hrep, hsorted, hmem, hnames⟩ := hall arrival hp
    refine ⟨sortFuncF (entriesF results), ?_, hsorted, hmem, hnames, ?_⟩
    · rw [hrep, mainPrint, printLoop_eq]
    · intro h1
      subst h1
      obtain ⟨c, rfl⟩ : ∃ c, cs = [c] := by
        match cs, hlen with
        | [c], _ => exact ⟨c, rfl⟩
      simp only [List.flatten_cons, List.flatten_nil, List.append_nil] at hrecs
      subst hrecs
      obtain ⟨t, rfl⟩ : ∃ t, tables = [t] := by
        have := hf.length_eq
        match tables, this with
        | [t], _ => exact ⟨t, rfl⟩
      have htab : t.Holds (tableOfF recs) := by
        cases hf with
        | cons h _ => exact h
      have ha : arrival = [t] := List.perm_singleton.1 hp
      subst ha
      exact sorted_single recs t results htab hh
  · obtain ⟨tables, ht, hrep⟩ := mainF_report_single
      [⟨[72, 97, 109, 98, 117, 114, 103], false, [49, 50], [48]⟩,
        ⟨[72, 97, 109, 98, 117, 114, 103], false, [56], [48]⟩,
        ⟨[66, 101, 114, 108, 105, 110], false, [50, 48], [48]⟩] (by decide) (by decide)
    refine ⟨tables, by rw [example_encoding]; exact ht, ?_⟩
    rw [hrep, example_text]

theorem rendered_summary_witness :
    ((∀ r ∈ ([⟨[65], false, [49], [53]⟩, ⟨[66], true, [50], [48]⟩] : List Record), r.wf) ∧
      (([⟨[65], false, [49], [53]⟩, ⟨[66], true, [50], [48]⟩] : List Record).map
        Record.name).dedup.length < 2 ^ 16 ∧ 1 ≤ 2 ∧
      (2 = 1 ∨ 2 ≤ (encodeAll [⟨[65], false, [49], [53]⟩, ⟨[66], true, [50], [48]⟩]).length)) ∧
    ∃ tables cs,
      mainTablesF 2 (encodeAll [⟨[65], false, [49], [53]⟩, ⟨[66], true, [50], [48]⟩])
        = .ok tables ∧
      ([⟨[65], false, [49], [53]⟩, ⟨[66], true, [50], [48]⟩] : List Record) = cs.flatten ∧
      List.Forall₂ (fun c t => t.Holds (tableOfF c)) cs tables ∧
      ∀ arrival, arrival.Perm tables →
        ∃ sorted : List resultF,
          mainReport arrival
            = .ok ([123] ++ List.intercalate [44, 32] (sorted.map printEntry) ++ [125]) ∧
          sorted.Sorted (fun r1 r2 => bytesCompare r1.name.value r2.name.value < 0) ∧
          (∀ r, r ∈ sorted ↔ mergedMapF arrival r.name.value = some r) ∧
          (∀ m, m ∈ sorted.map (fun r => r.name.value) ↔
            m ∈ ([⟨[65], false, [49], [53]⟩, ⟨[66], true, [50], [48]⟩] : List Record).map
              Record.name) ∧
          ((2 : Nat) = 1 → sorted = sortFuncF (aggregatesOfF
            [⟨[65], false, [49], [53]⟩, ⟨[66], true, [50], [48]⟩])) :=
  ⟨⟨by decide, by decide, by decide, Or.inr (by decide)⟩,
    (rendered_summary [⟨[65], false, [49], [53]⟩, ⟨[66], true, [50], [48]⟩] 2 (by decide)
      (by decide) (by decide) (Or.inr (by decide))).1⟩

/-- C14 (counterexample). The well-formed one-record input `X;2000…0.0\n` (a 2 followed
by 308 zeros) with 1 worker: the value overflows `float64`, and `main` writes the mean
and the maximum as `+Inf`, a statistic without a fraction digit. -/
theorem rendered_overflow_counterexample :
    hugeRecord.wf ∧
    ∃ tables, mainTablesF 1 (encodeAll [hugeRecord]) = .ok tables ∧
      mainReport tables = .ok (bytesOf
        "\x7bX=179769313486231570814527423731704356798070567525844996598917476803157260780028538760589558632766878171540458953514382464234321326889464182768467546703537516986049910576551282076245490090389328944075868508455133942304583236903222948165808559332123348274797826204144723168738177180919299881250404026184124858368.0/+Inf/+Inf\x7d") := by
  have hw : hugeRecord.wf := two_zeros_wf 308
  obtain ⟨tables, ht, hrep⟩ := mainF_report_single [hugeRecord]
    (fun r hr => by rw [List.mem_singleton.1 hr]; exact hw) (by decide)
  exact ⟨hw, tables, ht, by rw [hrep, overflow_text]⟩

end OneBRC
